import Mathlib

/-! The cursor `file_parser` and the backtracking matcher `regex` of `util`,
with the keyword containers, the helpers for characters and file names, and
the document object model `dom_element` with its queries.

A shallow embedding of `src/src/file_parser.cpp`, `src/src/regex.cpp`,
`src/src/char_utils.cpp`, `src/src/file_utils.cpp`, `src/keyword_map.hpp`,
`src/keyword_set.hpp`, `src/src/dom_element.cpp` and `src/dom/dom_detail.hpp`.

* `std::string` is a list of characters, `size_t` is a natural number; the
  subtractions of the source are reduced modulo `2 ^ 64` (`size_t_sub`).
* An operation returns `Except Fault _`: `Fault.undefined_behaviour` stands for
  an access the C++ standard leaves undefined (an index outside a container,
  `top()`/`back()` of an empty container, flowing off the end of a function),
  `Fault.exit_failure` for `file_parser::error`, which ends the process,
  `Fault.exception` for an exception thrown by the standard library, and
  `Fault.out_of_fuel` for a loop of the model that used up its bound.
* The input stream is the list of lines `std::getline` will still extract,
  together with its `eofbit` and `failbit`.
* Echoing (`out`, `echo`, `echo_prefix`) and `filename` only produce output
  and are left out of the cursor state.
* The class `file_parser` is `fileparser` here, its member `in` is `in_`, and
  `regex::match` is `regex.do_match`; the overloads of `file_parser::match` are
  `match_chr` and `match_str`, those of `seek` are `seek_chr` and `seek_str`,
  and the two `substr` are `substr_out` and `substr`. The functions `match` of
  `keyword_map` and `keyword_set` are `do_match` as well, `operator[]` of
  `keyword_map` with the assignment that follows it is `subscript_assign`, and
  `dom_query::attribute` is `query_attribute`.
* A call of `dom_element::error` on a query yields `dom_fault.reported` with
  the message; the functions of `dom_element.cpp` that take the cursor for
  their error messages only are modelled without it.
-/

namespace util

/-- A `std::string`. -/
abbrev Str := List Char

/-- The ways in which an operation can fail to return normally. -/
inductive Fault where
  | undefined_behaviour
  | exit_failure
  | out_of_fuel
  | exception
deriving DecidableEq, Repr

/-- The result of an operation. -/
abbrev Res := Except Fault

/-- Subtraction of two `size_t` values: it wraps around modulo `2 ^ 64`. -/
def size_t_sub (a b : Nat) : Nat := if b ≤ a then a - b else a + 2 ^ 64 - b

/-- The value of `str[pos]` for a `std::string`: the character at `pos`, the
null character at `pos = str.length()`, undefined beyond. -/
def str_at (str : Str) (pos : Nat) : Res Char :=
  match str[pos]? with
  | some c => .ok c
  | none => if pos = str.length then .ok (Char.ofNat 0) else .error .undefined_behaviour

/-- The value of `str.find(c) != npos`. -/
def str_has (str : Str) (c : Char) : Bool := str.contains c

/-! ## The input stream -/

/-- A `std::istream` read line by line: the lines still to be extracted (the
last one is followed by a newline character iff `terminated`), and the two
state bits `std::getline` sets. -/
structure istream where
  lines : List Str
  terminated : Bool
  eof : Bool
  fail : Bool
deriving DecidableEq, Repr

/-- The value of `in->good()`. -/
def istream.good (s : istream) : Bool := !s.eof && !s.fail

/-- The call `std::getline(in, tmp_buf)`: the extracted line, if the call
succeeds, and the stream afterwards. A stream that is not `good` fails; a
stream with nothing left sets `eofbit` and `failbit`; a last line without a
final newline is extracted and sets `eofbit`. -/
def getline (s : istream) : Option Str × istream :=
  if !s.good then (none, { s with fail := true })
  else
    match s.lines with
    | [] => (none, { s with eof := true, fail := true })
    | [l] =>
      if s.terminated then (some l, { s with lines := [] })
      else if l = [] then (none, { s with lines := [], eof := true, fail := true })
      else (some l, { s with lines := [], eof := true })
    | l :: rest => (some l, { s with lines := rest })

/-! ## The cursor -/

/-- The struct `file_parser::mark_location`. -/
structure mark_location where
  line : Nat
  col : Nat
deriving DecidableEq, Repr

/-- The data members of `file_parser` that make up the cursor: the stream
`in`, `cont_char`, the deque `bufs` (front first) of line buffers with their
mark counters, `max_line`, `min_line`, `line`, `col`, and the stack `marks`
(top first). -/
structure fileparser where
  in_ : istream
  cont_char : Char
  bufs : List (Str × Nat)
  max_line : Nat
  min_line : Nat
  line : Nat
  col : Nat
  marks : List mark_location
deriving DecidableEq, Repr

namespace fileparser

def single_line : Nat := 0b0001
def consume : Nat := 0b0010
def backwards : Nat := 0b0100
def lookahead : Nat := 0b1000

def keep_mark : Bool := true
def remove_mark : Bool := false

def NONE : Nat := 0
def PARSE : Nat := 1 <<< 0
def KEEP_MARK : Nat := 1 <<< 1
def KEEP_NEWLINE : Nat := 1 <<< 2
def CONTAINS_ANY : Nat := 1 <<< 3
def CONTAINS_NOT : Nat := 1 <<< 4

/-- The test `opts & flag` used as a condition. -/
def has (opts flag : Nat) : Bool := opts &&& flag != 0

/-- The element `bufs[i]` of the deque. -/
def bufs_at (bufs : List (Str × Nat)) (i : Nat) : Res (Str × Nat) :=
  match bufs[i]? with
  | some b => .ok b
  | none => .error .undefined_behaviour

/-- Assignment to the element `bufs[i]` of the deque. -/
def bufs_set (bufs : List (Str × Nat)) (i : Nat) (b : Str × Nat) : Res (List (Str × Nat)) :=
  if i < bufs.length then .ok (bufs.set i b) else .error .undefined_behaviour

/-- The macro `BUF`, that is `bufs[max_line - line].first`. -/
def BUF (p : fileparser) : Res Str := do
  let b ← bufs_at p.bufs (size_t_sub p.max_line p.line)
  pure b.1

/-- Assignment to the macro `BUF`. -/
def set_BUF (p : fileparser) (s : Str) : Res fileparser := do
  let i := size_t_sub p.max_line p.line
  let b ← bufs_at p.bufs i
  let bufs ← bufs_set p.bufs i (s, b.2)
  pure { p with bufs := bufs }

/-- The macro `MARK`, that is `marks.top()`. -/
def MARK (p : fileparser) : Res mark_location :=
  match p.marks with
  | m :: _ => .ok m
  | [] => .error .undefined_behaviour

/-- The state of the private default constructor `file_parser()`, with the
stream pointer then set by the public constructor. -/
def default (ist : istream) : fileparser :=
  { in_ := ist, cont_char := Char.ofNat 0, bufs := [([], 0)],
    max_line := 0, min_line := 0, line := 0, col := 0, marks := [] }

/-- The loop `for(; min_line < line && bufs.back().second == 0; ++min_line)
bufs.pop_back();` of `get_line` and `unset_mark`. The first argument bounds the
number of iterations; `line - min_line` is enough. -/
def clear_loop : Nat → fileparser → Res fileparser
  | 0, p => .ok p
  | n + 1, p =>
    if p.min_line < p.line then
      match p.bufs.getLast? with
      | none => .error .undefined_behaviour
      | some b =>
        if b.2 = 0 then
          clear_loop n { p with bufs := p.bufs.dropLast, min_line := p.min_line + 1 }
        else .ok p
    else .ok p

/-- The loop "Clear unneeded lines". -/
def clear_unneeded (p : fileparser) : Res fileparser :=
  clear_loop (p.line - p.min_line) p

/-- The loop `while(!BUF.empty() && BUF[BUF.length() - 1] == cont_char)` of
`get_line`, which appends the following line to a line that ends with the
continuation character. Each iteration extracts a line, so the number of
lines left in the stream plus one bounds the iterations. -/
def continuation (err : Str) : Nat → fileparser → Res (Bool × fileparser)
  | 0, _ => .error .out_of_fuel
  | n + 1, p => do
    let buf ← p.BUF
    if !buf.isEmpty && buf.getLast? == some p.cont_char then
      match getline p.in_ with
      | (none, i) =>
        if !err.isEmpty then .error .exit_failure
        else pure (false, { p with in_ := i })
      | (some tmp_buf, i) => do
        let p1 ← set_BUF { p with in_ := i } (buf ++ tmp_buf)
        continuation err n p1
    else pure (true, p)

/-- The function `file_parser::get_line`. -/
def get_line (p : fileparser) (err : Str := []) : Res (Bool × fileparser) :=
  match getline p.in_ with
  | (none, i) =>
    let p1 := { p with in_ := i, bufs := ([], 0) :: p.bufs }
    if !err.isEmpty then .error .exit_failure
    else .ok (false, p1)
  | (some tmp_buf, i) => do
    let p1 ← clear_unneeded { p with in_ := i }
    let p2 := { p1 with line := p1.line + 1, max_line := p1.max_line + 1, col := 0 }
    let p3 ←
      if p2.marks.isEmpty then
        set_BUF { p2 with min_line := p2.min_line + 1 } tmp_buf
      else
        pure { p2 with bufs := (tmp_buf, 0) :: p2.bufs }
    continuation err (p3.in_.lines.length + 1) p3

/-- The function `file_parser::advance_line`. -/
def advance_line (p : fileparser) (backwards : Bool := false) : Res (Bool × fileparser) :=
  if backwards then
    if p.line > p.min_line then do
      let p1 := { p with line := p.line - 1 }
      let buf ← p1.BUF
      pure (true, { p1 with col := buf.length })
    else pure (false, p)
  else
    if p.line < p.max_line then
      pure (true, { p with line := p.line + 1, col := 0 })
    else p.get_line

/-- The function `file_parser::advance_char`. -/
def advance_char (p : fileparser) (opts : Nat := 0) : Res (Bool × fileparser) :=
  if has opts backwards then
    if p.col > 0 then pure (true, { p with col := p.col - 1 })
    else if has opts single_line then pure (false, p)
    else p.advance_line true
  else do
    let buf ← p.BUF
    if p.col < buf.length then pure (true, { p with col := p.col + 1 })
    else if has opts single_line then pure (false, p)
    else p.advance_line

/-- The loop of `operator+=`: `incr` calls of `advance_char()`, whose results
are dropped. -/
def plus_eq (p : fileparser) : Nat → Res fileparser
  | 0 => .ok p
  | n + 1 => do
    let (_, p1) ← p.advance_char
    plus_eq p1 n

/-- The loop of `operator-=`: `decr` calls of `advance_char(backwards)`. -/
def minus_eq (p : fileparser) : Nat → Res fileparser
  | 0 => .ok p
  | n + 1 => do
    let (_, p1) ← p.advance_char backwards
    minus_eq p1 n

/-- The function `file_parser::get_char`. -/
def get_char (p : fileparser) (backwards : Bool := false) : Res Char :=
  if backwards then
    if p.col > 0 then do
      let buf ← p.BUF
      str_at buf (p.col - 1)
    else pure '\n'
  else do
    let buf ← p.BUF
    if p.col < buf.length then str_at buf p.col
    else pure '\n'

/-- The conversion `file_parser::operator bool`. -/
def to_bool (p : fileparser) : Res Bool :=
  if p.in_.good then do
    let buf ← p.BUF
    pure (decide (p.col < buf.length))
  else pure false

/-- The function `file_parser::set_cont_char`. -/
def set_cont_char (p : fileparser) (cont : Char) : fileparser :=
  { p with cont_char := cont }

/-- The function `file_parser::get_buffer`. -/
def get_buffer (p : fileparser) : Res Str := p.BUF

/-- The function `file_parser::get_column`. -/
def get_column (p : fileparser) : Nat := p.col

/-- The function `file_parser::get_line_number`. -/
def get_line_number (p : fileparser) : Nat := p.line

/-- The function `file_parser::set_mark`: the counter is incremented without
reduction, as it counts marks of the stack, which cannot number `2 ^ 64`. -/
def set_mark (p : fileparser) : Res fileparser := do
  let p1 := { p with marks := { line := p.line, col := p.col } :: p.marks }
  let i := size_t_sub p1.max_line p1.line
  let b ← bufs_at p1.bufs i
  let bufs ← bufs_set p1.bufs i (b.1, b.2 + 1)
  pure { p1 with bufs := bufs }

/-- The function `file_parser::unset_mark`. -/
def unset_mark (p : fileparser) : Res fileparser := do
  let m ← p.MARK
  let i := size_t_sub p.max_line m.line
  let b ← bufs_at p.bufs i
  let bufs ← bufs_set p.bufs i (b.1, size_t_sub b.2 1)
  let p1 := { p with bufs := bufs }
  let p2 ← if m.line = p1.min_line then clear_unneeded p1 else pure p1
  pure { p2 with marks := p2.marks.tail }

/-- The function `file_parser::reset_mark`. -/
def reset_mark (p : fileparser) : Res fileparser := do
  let p1 ← p.unset_mark
  p1.set_mark

/-- The function `file_parser::revert_to_mark`. The loop
`while(line > MARK.line) --line;` ends with the smaller of the two numbers and
the loop `while(line < MARK.line) ++line;` with the greater. -/
def revert_to_mark (p : fileparser) (keep_mark : Bool := true) : Res fileparser := do
  let m ← p.MARK
  let line1 := if p.line > m.line then m.line else p.line
  let line2 := if line1 < m.line then m.line else line1
  let p1 := { p with line := line2, col := m.col }
  if !keep_mark then p1.unset_mark else pure p1

end fileparser

/-- The function `std::isalnum` in the "C" locale. -/
def isalnum (c : Char) : Bool :=
  ('0' ≤ c && c ≤ '9') || ('A' ≤ c && c ≤ 'Z') || ('a' ≤ c && c ≤ 'z')

/-- The function `util::word_char`. -/
def word_char (str : Str) (pos : Nat) : Bool :=
  match str[pos]? with
  | some c => isalnum c || c == '_'
  | none => false

namespace fileparser

/-- The enumeration `file_parser::match_style`. -/
inductive match_style where
  | CHAR | STRING | CHARS | NOT_CHARS | WORD_BOUNDARY
deriving DecidableEq, Repr

/-- The forward loop of the case `STRING` of `match_impl`:
`for(size_t i = 0; match && i < str.length(); ++i)`, entered with the
characters of `str` from index `i` on. The result of `advance_char` is
dropped, as in the source. -/
def match_forward (opts : Nat) : Str → fileparser → Res (Bool × fileparser)
  | [], p => .ok (true, p)
  | c :: rest, p => do
    let g ← p.get_char
    if c != g then pure (false, p)
    else do
      let (_, p1) ← p.advance_char opts
      match_forward opts rest p1

/-- The backward loop of the case `STRING` of `match_impl`:
`for(size_t i = str.length(); match && i > 0; --i)`, entered with the
characters `str[i-1], ..., str[0]` in this order. -/
def match_backward (opts : Nat) : Str → fileparser → Res (Bool × fileparser)
  | [], p => .ok (true, p)
  | c :: rest, p => do
    let g ← p.get_char true
    if c != g then pure (false, p)
    else do
      let (_, p1) ← p.advance_char opts
      match_backward opts rest p1

/-- The statement `switch(style)` of `match_impl`, run on the cursor with the
mark set: the value of `match` after it, and the cursor. -/
def match_switch (p0 : fileparser) (str : Str) (opts : Nat) (style : match_style) :
    Res (Bool × fileparser) :=
  match style with
  | .CHAR => do
    let c ← str_at str 0
    let g ← p0.get_char (has opts backwards)
    if c != g then pure (false, p0)
    else do
      let (_, q) ← p0.advance_char opts
      pure (true, q)
  | .STRING =>
    if has opts backwards then match_backward opts str.reverse p0
    else match_forward opts str p0
  | .CHARS => do
    let g ← p0.get_char (has opts backwards)
    if !str_has str g then pure (false, p0)
    else do
      let (_, q) ← p0.advance_char opts
      pure (true, q)
  | .NOT_CHARS => do
    let g ← p0.get_char (has opts backwards)
    if str_has str g then pure (false, p0)
    else do
      let (_, q) ← p0.advance_char opts
      pure (true, q)
  | .WORD_BOUNDARY => do
    let buf ← p0.BUF
    pure (word_char buf (size_t_sub p0.col 1) != word_char buf p0.col, p0)

/-- The end of `match_impl`, after the `switch`. -/
def match_end (p1 : fileparser) (m : Bool) (opts : Nat) (err : Str) : Res (Bool × fileparser) :=
  if m then do
    let p2 ← if has opts consume then p1.unset_mark else p1.revert_to_mark remove_mark
    pure (true, p2)
  else if err.isEmpty then do
    let p2 ← p1.revert_to_mark remove_mark
    pure (false, p2)
  else .error .exit_failure

/-- The function `file_parser::match_impl`. -/
def match_impl (p : fileparser) (str : Str) (opts : Nat) (err : Str) (style : match_style) :
    Res (Bool × fileparser) := do
  let p0 ← p.set_mark
  let (m, p1) ← match_switch p0 str opts style
  match_end p1 m opts err

/-- The overload `file_parser::match(char, opts, err)`. -/
def match_chr (p : fileparser) (chr : Char) (opts : Nat := 0) (err : Str := []) :
    Res (Bool × fileparser) :=
  p.match_impl [chr] opts err .CHAR

/-- The overload `file_parser::match(const std::string&, opts, err)`. -/
def match_str (p : fileparser) (str : Str) (opts : Nat := 0) (err : Str := []) :
    Res (Bool × fileparser) :=
  p.match_impl str opts err .STRING

/-- The function `file_parser::match_any_of`. -/
def match_any_of (p : fileparser) (chrs : Str) (opts : Nat := 0) (err : Str := []) :
    Res (Bool × fileparser) :=
  p.match_impl chrs opts err .CHARS

/-- The function `file_parser::match_not_of`. -/
def match_not_of (p : fileparser) (chrs : Str) (opts : Nat := 0) (err : Str := []) :
    Res (Bool × fileparser) :=
  p.match_impl chrs opts err .NOT_CHARS

/-- The function `file_parser::match_word_boundary`. -/
def match_word_boundary (p : fileparser) (opts : Nat := 0) (err : Str := []) :
    Res (Bool × fileparser) :=
  p.match_impl [] opts err .WORD_BOUNDARY

/-- The function `file_parser::skip_byte_order_mark`. -/
def skip_byte_order_mark (p : fileparser) : Res fileparser := do
  let (m, p1) ← p.match_str [Char.ofNat 0xEF, Char.ofNat 0xBB, Char.ofNat 0xBF]
  if m then p1.plus_eq 3 else pure p1

/-- The constructor `file_parser(std::istream& ist)`. -/
def of_stream (ist : istream) : Res fileparser := do
  let (_, p1) ← (default ist).get_line
  p1.skip_byte_order_mark

/-- The inner loop of `substr` over the columns `tmp_col` of one line, entered
with the number of iterations left: it appends `tmp_buf[tmp_col]` to `out` and
updates `check_passed`. -/
def substr_cols (tmp_buf : Str) (flags : Nat) (chrs : Str) :
    Nat → Nat → Bool → Str → Res (Bool × Str)
  | 0, _, check_passed, out => .ok (check_passed, out)
  | n + 1, tmp_col, check_passed, out => do
    let c ← str_at tmp_buf tmp_col
    let check_passed :=
      if !check_passed then
        if has flags CONTAINS_ANY then str_has chrs c
        else if has flags CONTAINS_NOT then !str_has chrs c
        else check_passed
      else check_passed
    substr_cols tmp_buf flags chrs n (tmp_col + 1) check_passed (out ++ [c])

/-- The outer loop of `substr` over the lines `tmp_line`, entered with the
number of iterations left. -/
def substr_lines (p : fileparser) (flags : Nat) (chrs : Str)
    (begin_line end_line begin_col end_col : Nat) :
    Nat → Nat → Bool → Str → Res (Bool × Str)
  | 0, _, check_passed, out => .ok (check_passed, out)
  | n + 1, tmp_line, check_passed, out => do
    let b ← bufs_at p.bufs (size_t_sub p.max_line tmp_line)
    let tmp_buf := b.1
    let first := if tmp_line = begin_line then begin_col else 0
    let last := if tmp_line = end_line then end_col else tmp_buf.length
    let (check_passed, out) ← substr_cols tmp_buf flags chrs (last - first) first check_passed out
    let out := if has flags KEEP_NEWLINE && decide (tmp_line < end_line) then out ++ ['\n'] else out
    substr_lines p flags chrs begin_line end_line begin_col end_col n (tmp_line + 1) check_passed out

/-- The function `file_parser::substr(std::ostream& out, flags, chrs)`: the
returned flag, the text written to `out`, and the cursor afterwards. -/
def substr_out (p : fileparser) (flags : Nat := NONE) (chrs : Str := []) :
    Res (Bool × Str × fileparser) :=
  match p.marks with
  | [] => .ok (false, [], p)
  | m :: _ => do
    let begin_line := min m.line p.line
    let end_line := max m.line p.line
    let (begin_col, end_col) :=
      if begin_line = end_line then (min m.col p.col, max m.col p.col)
      else if begin_line = p.line then (p.col, m.col)
      else (m.col, p.col)
    let (check_passed, out) ←
      substr_lines p flags chrs begin_line end_line begin_col end_col
        (end_line + 1 - begin_line) begin_line false []
    let p1 ← if !has flags KEEP_MARK then p.unset_mark else pure p
    pure (check_passed, out, p1)

/-- The function `file_parser::substr(flags)`, which returns the text. -/
def substr (p : fileparser) (flags : Nat := NONE) : Res (Str × fileparser) := do
  let (_, out, p1) ← p.substr_out flags
  pure (out, p1)

end fileparser

/-! ## The matcher

`regex.cpp` defines the member functions of a class `regex` whose declaration
is not part of the sources. Its data members are taken from their uses in
`regex.cpp`: `type`, `string`, `alternatives` (a list of sequences of child
nodes), `min_reps`, `max_reps`, `modifier` (with the bit values of the
enumeration in `regex.hpp`), the stack `attempts`, and `sub_len`, a name that
`match_alternative` and `change_submatch` use without declaring it locally.
-/

/-- The kinds of node `regex::match_single` distinguishes. -/
inductive regex_type where
  | LITERAL | CHAR_CLASS | COMPLEX
deriving DecidableEq, Repr

/-- The struct `attempt`: the length matched, the repetition index, and for an
attempt of a `COMPLEX` node the alternative taken (`alt`, an iterator into
`alternatives`, here its index). -/
structure attempt where
  len : Nat
  rep : Nat
  alt : Option Nat
deriving DecidableEq, Repr

/-- A node of the matcher tree with its data members; the stack `attempts` has
its top first. -/
inductive regex where
  | mk (type : regex_type) (string : Str) (alternatives : List (List regex))
      (min_reps max_reps modifier : Nat) (attempts : List attempt) (sub_len : Nat)

namespace regex

def GREEDY : Nat := 0b0000001000000
def RELUCTANT : Nat := 0b0000010000000
def POSSESSIVE : Nat := 0b0000100000000
def BACKTRACK_MODIFIER : Nat := 0b0000111000000
def FORWARDS : Nat := 0b0001000000000
def BACKWARDS : Nat := 0b0010000000000
def DIRECTION_MODIFIER : Nat := 0b0011000000000
def LOOKAHEAD : Nat := 0b0100000000000
def NEG_LOOKAHEAD : Nat := 0b1000000000000
def LOOKAHEAD_MODIFIER : Nat := 0b1100000000000

def type : regex → regex_type
  | mk t _ _ _ _ _ _ _ => t

def string : regex → Str
  | mk _ s _ _ _ _ _ _ => s

def alternatives : regex → List (List regex)
  | mk _ _ a _ _ _ _ _ => a

def min_reps : regex → Nat
  | mk _ _ _ n _ _ _ _ => n

def max_reps : regex → Nat
  | mk _ _ _ _ n _ _ _ => n

def modifier : regex → Nat
  | mk _ _ _ _ _ m _ _ => m

def attempts : regex → List attempt
  | mk _ _ _ _ _ _ a _ => a

def sub_len : regex → Nat
  | mk _ _ _ _ _ _ _ l => l

/-- Assignment to the member `attempts`. -/
def set_attempts : regex → List attempt → regex
  | mk t s a mn mx m _ l, atts => mk t s a mn mx m atts l

/-- Assignment to the member `alternatives`. -/
def set_alternatives : regex → List (List regex) → regex
  | mk t s _ mn mx m atts l, a => mk t s a mn mx m atts l

/-- Assignment to the member `sub_len`. -/
def set_sub_len : regex → Nat → regex
  | mk t s a mn mx m atts _, l => mk t s a mn mx m atts l

/-- The call `attempts.push(att)`. -/
def push (r : regex) (att : attempt) : regex := r.set_attempts (att :: r.attempts)

/-- The function `regex::start_attempt`: it pushes a value-initialised
attempt, whose repetition index 0 is what `pop_attempt` reports as the end. -/
def start_attempt (r : regex) : regex := r.push { len := 0, rep := 0, alt := none }

end regex

/-- What a member function taking `file_parser& parser` and `size_t& len`
leaves behind: the value returned, `len`, the object it was called on
and the cursor. -/
structure outcome (α : Type) where
  ret : Bool
  len : Nat
  self : α
  parser : fileparser

/-- The member functions a node calls on its child nodes (and `change_match`
on itself), at a bounded nesting depth. -/
structure node_calls where
  do_match : regex → fileparser → Res (outcome regex)
  change_match : regex → fileparser → Nat → Res (outcome regex)
  clear_attempt : regex → fileparser → Res (regex × fileparser)

namespace regex

/-- The loop of the destructor `attempt::~attempt`, over the children of the
sequence from the last to the first: `(*iter)->clear_attempt()`. -/
def clear_children (c : node_calls) : List regex → fileparser → Res (List regex × fileparser)
  | [], p => .ok ([], p)
  | x :: xs, p => do
    let (xs1, p1) ← clear_children c xs p
    let (x1, p2) ← c.clear_attempt x p1
    pure (x1 :: xs1, p2)

/-- The destructor `attempt::~attempt`, run when the attempt `att` leaves the
stack of the node `r`: it clears the latest attempt of every child of the
sequence `att.alt`. An attempt of a node that is not `COMPLEX` has no sequence
and nothing is cleared for it. -/
def destroy_attempt (c : node_calls) (r : regex) (att : attempt) (p : fileparser) :
    Res (regex × fileparser) :=
  match att.alt with
  | none => .ok (r, p)
  | some i =>
    match r.alternatives[i]? with
    | none => .error .undefined_behaviour
    | some seq => do
      let (seq1, p1) ← clear_children c seq p
      pure (r.set_alternatives (r.alternatives.set i seq1), p1)

/-- The function `regex::pop_attempt`. -/
def pop_attempt (c : node_calls) (r : regex) (p : fileparser) : Res (Bool × regex × fileparser) :=
  match r.attempts with
  | [] => .error .undefined_behaviour
  | att :: rest => do
    let (r1, p1) ← destroy_attempt c (r.set_attempts rest) att p
    pure (att.rep != 0, r1, p1)

/-- The loop `while(pop_attempt()) parser.revert_to_mark(remove_mark);` of
`clear_attempt`. Each iteration pops one attempt of the node, so the height of
the stack plus one bounds the iterations. -/
def clear_attempt_loop (c : node_calls) : Nat → regex → fileparser → Res (regex × fileparser)
  | 0, _, _ => .error .out_of_fuel
  | n + 1, r, p => do
    let (more, r1, p1) ← pop_attempt c r p
    if more then do
      let p2 ← p1.revert_to_mark fileparser.remove_mark
      clear_attempt_loop c n r1 p2
    else pure (r1, p1)

/-- The function `regex::clear_attempt`; the cursor it reverts is the one the
match was made on. -/
def clear_attempt (c : node_calls) (r : regex) (p : fileparser) : Res (regex × fileparser) :=
  clear_attempt_loop c (r.attempts.length + 1) r p

/-- The inner loop `for(;;)` of `match_sequence`, entered with `seq_iter`: it
steps back and asks the earlier children, one after the other, to change their
match. It returns the position of the child that did, or `none` when
`list.begin()` was reached. The statement `sub = *seq_iter;` is read as making
`sub` refer to the child at `seq_iter`. -/
def backtrack (c : node_calls) :
    Nat → List regex → fileparser → Nat → Res (Option Nat × Nat × List regex × fileparser)
  | 0, list, p, len => .ok (none, len, list, p)
  | i + 1, list, p, len =>
    match list[i]? with
    | none => .error .undefined_behaviour
    | some sub => do
      let o ← c.change_match sub p len
      let list1 := list.set i o.self
      if o.ret then pure (some i, o.len, list1, o.parser)
      else backtrack c i list1 o.parser o.len

/-- The outer loop of `match_sequence`, entered with `seq_iter` and `len`. The
first argument bounds the number of iterations. -/
def match_sequence_loop (c : node_calls) :
    Nat → Nat → List regex → fileparser → Nat → Res (outcome (List regex))
  | 0, _, _, _, _ => .error .out_of_fuel
  | fuel + 1, seq_iter, list, p, len =>
    if seq_iter = list.length then .ok ⟨true, len, list, p⟩
    else
      match list[seq_iter]? with
      | none => .error .undefined_behaviour
      | some sub => do
        let o ← c.do_match sub p
        let list1 := list.set seq_iter o.self
        if o.ret then
          match_sequence_loop c fuel (seq_iter + 1) list1 o.parser (len + o.len)
        else do
          let (back, len1, list2, p2) ← backtrack c seq_iter list1 o.parser len
          match back with
          | none => pure ⟨false, len1, list2, p2⟩
          | some i => match_sequence_loop c fuel i list2 p2 len1

/-- The function `regex::match_sequence`, called with the position `start` in
the sequence `list`. -/
def match_sequence (c : node_calls) (fuel : Nat) (p : fileparser) (start : Nat)
    (list : List regex) : Res (outcome (List regex)) :=
  match_sequence_loop c fuel start list p 0

/-- The loop of `regex::match_alternative` over the alternatives from
`alt_iter` on, entered with the number of alternatives left. The attempt
pushed takes its length from `sub_len`. -/
def match_alternative_loop (c : node_calls) (fuel : Nat) (rep : Nat) :
    Nat → Nat → regex → fileparser → Nat → Res (outcome regex)
  | 0, _, r, p, len => .ok ⟨false, len, r, p⟩
  | n + 1, alt_iter, r, p, _ =>
    match r.alternatives[alt_iter]? with
    | none => .error .undefined_behaviour
    | some seq => do
      let o ← match_sequence c fuel p 0 seq
      let r1 := r.set_alternatives (r.alternatives.set alt_iter o.self)
      if o.ret then
        pure ⟨true, o.len, r1.push { len := r1.sub_len, rep := rep, alt := some alt_iter }, o.parser⟩
      else match_alternative_loop c fuel rep n (alt_iter + 1) r1 o.parser o.len

/-- The function `regex::match_alternative`, called with the position `begin`
in `alternatives`. -/
def match_alternative (c : node_calls) (fuel : Nat) (r : regex) (p : fileparser)
    (begin_ rep len : Nat) : Res (outcome regex) :=
  match_alternative_loop c fuel rep (r.alternatives.length - begin_) begin_ r p len

/-- The statement `switch(type)` of `regex::match_single`, run on the cursor
with the mark set: the value of `match` after it, `len`, the node and the
cursor. -/
def match_type (c : node_calls) (fuel : Nat) (r : regex) (p0 : fileparser) (rep len : Nat) :
    Res (outcome regex) :=
  match r.type with
  | .LITERAL => do
    let (m, p1) ← p0.match_str r.string
    if m then
      pure ⟨true, r.string.length, r.push { len := r.string.length, rep := rep, alt := none }, p1⟩
    else pure ⟨false, len, r, p1⟩
  | .CHAR_CLASS => do
    let b ← p0.to_bool
    if b then do
      let g ← p0.get_char
      if str_has r.string g then
        pure ⟨true, 1, r.push { len := 1, rep := rep, alt := none }, p0⟩
      else pure ⟨false, len, r, p0⟩
    else pure ⟨false, len, r, p0⟩
  | .COMPLEX => match_alternative c fuel r p0 0 rep len

/-- The end of `regex::match_single`, after the `switch`. -/
def match_single_end (r : regex) (o : outcome regex) : Res (outcome regex) :=
  if o.ret then
    if fileparser.has r.modifier LOOKAHEAD_MODIFIER then do
      let p2 ← o.parser.revert_to_mark fileparser.keep_mark
      pure ⟨true, o.len, o.self, p2⟩
    else pure ⟨true, o.len, o.self, o.parser⟩
  else do
    let p2 ← o.parser.revert_to_mark fileparser.remove_mark
    pure ⟨false, o.len, o.self, p2⟩

/-- The function `regex::match_single`. -/
def match_single (c : node_calls) (fuel : Nat) (r : regex) (p : fileparser) (rep len : Nat) :
    Res (outcome regex) := do
  let p0 ← p.set_mark
  let o ← match_type c fuel r p0 rep len
  match_single_end r o

/-- The loop `for(size_t rep = 0;; ++rep)` of `regex::match`, entered with
`rep` and `len`; it returns `rep` and `len` as they are after the loop, with
the node and the cursor. The first argument is `max_reps - rep`, the number of
iterations left before `rep >= max_reps` ends the loop. -/
def match_loop (c : node_calls) (fuel : Nat) :
    Nat → Nat → Nat → regex → fileparser → Res (Nat × Nat × regex × fileparser)
  | 0, rep, len, r, p => .ok (rep, len, r, p)
  | n + 1, rep, len, r, p =>
    if decide (rep ≥ r.min_reps) && fileparser.has r.modifier RELUCTANT then
      .ok (rep, len, r, p)
    else if rep ≥ r.max_reps then .ok (rep, len, r, p)
    else do
      let o ← match_single c fuel r p (rep + 1) 0
      if o.ret then
        if o.len = 0 then pure (max rep r.min_reps, len + o.len, o.self, o.parser)
        else match_loop c fuel n (rep + 1) (len + o.len) o.self o.parser
      else pure (rep, len, o.self, o.parser)

/-- The function `regex::match`. -/
def do_match (c : node_calls) (fuel : Nat) (r : regex) (p : fileparser) : Res (outcome regex) := do
  let (rep, len, r1, p1) ← match_loop c fuel r.max_reps 0 0 r p
  if rep < r.min_reps then do
    let (r2, p2) ← clear_attempt c r1 p1
    pure ⟨false, len, r2, p2⟩
  else pure ⟨true, len, r1, p1⟩

/-- Modelled from the spec: `pop_alternative`, which `change_submatch` calls
and the sources do not define. By the comment in `change_submatch` ("Once we
have returned false, the current attempt has been popped") and the spec
("Destroying an attempt must recursively clear attempts made by its
descendants") it pops the current attempt. -/
def pop_alternative (c : node_calls) (r : regex) (p : fileparser) : Res (regex × fileparser) := do
  let (_, r1, p1) ← pop_attempt c r p
  pure (r1, p1)

/-- The loop of `change_submatch` over the children of the sequence, from the
last one down to, but not including, the first:
`for(auto seq_iter = --att.alt->end(); seq_iter != att.alt->begin(); --seq_iter)`,
entered with `seq_iter`. It returns the sequence and `true` as soon as a child
changed its match and the rest of the sequence matched again. -/
def change_submatch_loop (c : node_calls) (fuel : Nat) :
    Nat → List regex → Nat → fileparser → Nat → Res (Nat × outcome (List regex))
  | 0, seq, sub_len, p, len => .ok (sub_len, ⟨false, len, seq, p⟩)
  | i + 1, seq, sub_len, p, len =>
    match seq[i + 1]? with
    | none => .error .undefined_behaviour
    | some sub => do
      let o ← c.change_match sub p len
      let seq1 := seq.set (i + 1) o.self
      if o.ret then do
        let o2 ← match_sequence c fuel o.parser (i + 2) seq1
        if o2.ret then pure (o2.len, ⟨true, o.len + o2.len, o2.self, o2.parser⟩)
        else change_submatch_loop c fuel i o2.self o2.len o2.parser o.len
      else change_submatch_loop c fuel i seq1 sub_len o.parser o.len

/-- The function `regex::change_submatch`. The call of `match_alternative`,
written with three arguments, is given the repetition index of the attempt. -/
def change_submatch (c : node_calls) (fuel : Nat) (r : regex) (p : fileparser) (len : Nat) :
    Res (outcome regex) :=
  match r.attempts with
  | [] => .error .undefined_behaviour
  | att :: _ =>
    match att.alt with
    | none => .error .undefined_behaviour
    | some alt =>
      match r.alternatives[alt]? with
      | none => .error .undefined_behaviour
      | some seq =>
        if seq.length = 0 then .error .undefined_behaviour
        else do
          let (sub_len, o) ← change_submatch_loop c fuel (seq.length - 1) seq r.sub_len p len
          let r1 := (r.set_alternatives (r.alternatives.set alt o.self)).set_sub_len sub_len
          if o.ret then pure ⟨true, o.len, r1, o.parser⟩
          else do
            let next_alt := alt + 1
            let (r2, p2) ← pop_alternative c r1 o.parser
            match_alternative c fuel r2 p2 next_alt att.rep o.len

/-- The function `regex::change_match`. In the case `GREEDY` of a `COMPLEX`
node, a successful `change_submatch` goes on to `return true`. -/
def change_match (c : node_calls) (fuel : Nat) (r : regex) (p : fileparser) (len : Nat) :
    Res (outcome regex) :=
  match r.attempts with
  | [] => .error .undefined_behaviour
  | att :: _ =>
    let policy := r.modifier &&& BACKTRACK_MODIFIER
    if policy = POSSESSIVE then .ok ⟨false, len, r, p⟩
    else if policy = RELUCTANT then
      if att.rep ≥ r.max_reps then .ok ⟨false, len, r, p⟩
      else do
        let o ← match_single c fuel r p (att.rep + 1) 0
        if o.ret then pure ⟨true, len + o.len, o.self, o.parser⟩
        else pure ⟨false, len, o.self, o.parser⟩
    else if policy = GREEDY then
      if att.rep ≤ r.min_reps then .ok ⟨false, len, r, p⟩
      else if r.type = .COMPLEX then do
        let o ← change_submatch c fuel r p len
        if o.ret then pure ⟨true, o.len, o.self, o.parser⟩
        else c.change_match o.self o.parser o.len
      else do
        let (_, r1, p1) ← pop_attempt c r p
        pure ⟨true, size_t_sub len att.len, r1, p1⟩
    else .error .undefined_behaviour

/-- The member functions called on child nodes, for a nesting depth and a
number of loop iterations bounded by the argument. -/
def calls : Nat → node_calls
  | 0 =>
    { do_match := fun _ _ => .error .out_of_fuel,
      change_match := fun _ _ _ => .error .out_of_fuel,
      clear_attempt := fun _ _ => .error .out_of_fuel }
  | n + 1 =>
    { do_match := do_match (calls n) n,
      change_match := change_match (calls n) n,
      clear_attempt := clear_attempt (calls n) }

end regex

/-! ## Inputs and predicates used in the statements -/

/-- A stream that holds the given lines, each one ended by a newline
character, and from which nothing was read yet. -/
def istream.of_lines (ls : List Str) : istream :=
  { lines := ls, terminated := true, eof := false, fail := false }

namespace regex

/-- A node of type `LITERAL` for `s` with the repetition bounds `{mn,mx}` and
the modifier `m`, with no attempt on its stack. -/
def literal (s : Str) (mn mx m : Nat) : regex := mk .LITERAL s [] mn mx m [] 0

/-- A node of type `COMPLEX` with the alternatives `alts`, each one a sequence
of child nodes, the repetition bounds `{mn,mx}` and the modifier `m`, with no
attempt on its stack and `sub_len` zero. -/
def complex (alts : List (List regex)) (mn mx m : Nat) : regex := mk .COMPLEX [] alts mn mx m [] 0

/-- A node of type `CHAR_CLASS` for the characters `s` with the repetition
bounds `{mn,mx}` and the modifier `m`, with no attempt on its stack. -/
def char_class (s : Str) (mn mx m : Nat) : regex := mk .CHAR_CLASS s [] mn mx m [] 0

/-- The members of a node that matching never assigns. -/
def same_node (r r1 : regex) : Prop :=
  r1.type = r.type ∧ r1.string = r.string ∧ r1.min_reps = r.min_reps ∧
    r1.max_reps = r.max_reps ∧ r1.modifier = r.modifier

/-- The relation `repeats c fuel rep len r p rep1 len1 r1 p1`: started in the
state `rep`, `len`, `r`, `p` of the loop of `regex::match`, the calls
`match_single(parser, rep + 1, rep_len)`, ..., `match_single(parser, rep1, rep_len)`
all return true with a length that is not zero, and leave the loop in the
state `rep1`, `len1`, `r1`, `p1`; `len1 - len` is the sum of their lengths. -/
inductive repeats (c : node_calls) (fuel : Nat) :
    Nat → Nat → regex → fileparser → Nat → Nat → regex → fileparser → Prop
  | done (rep len : Nat) (r : regex) (p : fileparser) : repeats c fuel rep len r p rep len r p
  | step {rep len : Nat} {r : regex} {p : fileparser} {o : outcome regex}
      {rep1 len1 : Nat} {r1 : regex} {p1 : fileparser} :
      match_single c fuel r p (rep + 1) 0 = .ok o → o.ret = true → o.len ≠ 0 →
      repeats c fuel (rep + 1) (len + o.len) o.self o.parser rep1 len1 r1 p1 →
      repeats c fuel rep len r p rep1 len1 r1 p1

end regex

namespace regex

/-- The number of repetitions after which the loop of `regex::match` stops
asking for more: `max_reps`, and for a node with the bit `RELUCTANT` the
smaller of `min_reps` and `max_reps`. -/
def limit (r : regex) : Nat :=
  if fileparser.has r.modifier RELUCTANT then min r.min_reps r.max_reps else r.max_reps

end regex

/-- The cursor the constructor `file_parser(std::istream&)` returns for a
stream that holds the line `l` followed by the lines `rest` (see
`of_stream_opened`): it stands at line 1, column 0, with no mark. -/
def fileparser.opened (l : Str) (rest : List Str) : fileparser :=
  { in_ := istream.of_lines rest, cont_char := Char.ofNat 0, bufs := [(l, 0)],
    max_line := 1, min_line := 1, line := 1, col := 0, marks := [] }

namespace fileparser

/-- The number of marks of the stack `ms` that point at the line `L`. -/
def marks_at (ms : List mark_location) (L : Nat) : Nat :=
  ms.countP (fun m => decide (m.line = L))

/-- The invariant of the line window, for the marks `ms`: `line` lies in
`min_line..max_line`, `bufs` has one buffer for each line of that range (the
buffer of the line `L` is `bufs[max_line - L]`), every mark points into the
range, and the counter of each line is the number of marks that point at it. -/
structure inv_for (ms : List mark_location) (p : fileparser) : Prop where
  min_le : p.min_line ≤ p.line
  le_max : p.line ≤ p.max_line
  size : p.bufs.length = p.max_line - p.min_line + 1
  marks_in : ∀ m ∈ ms, p.min_line ≤ m.line ∧ m.line ≤ p.max_line
  counts : ∀ L, p.min_line ≤ L → L ≤ p.max_line →
    ∃ b, p.bufs[p.max_line - L]? = some b ∧ b.2 = marks_at ms L

/-- The invariant of the line window for the marks of the cursor itself. -/
def inv (p : fileparser) : Prop := inv_for p.marks p

/-- What is left of the invariant once a read has failed at the end of the
input, which pushes a buffer that belongs to no line: `bufs` has at least one
buffer for each line of `min_line..max_line`. -/
structure loose (p : fileparser) : Prop where
  min_le : p.min_line ≤ p.line
  le_max : p.line ≤ p.max_line
  size : p.max_line - p.min_line + 1 ≤ p.bufs.length
  marks_in : ∀ m ∈ p.marks, p.min_line ≤ m.line ∧ m.line ≤ p.max_line

/-- The invariant holds as long as no read has failed (`failbit` of the stream
is not set). -/
def sound (p : fileparser) : Prop := p.in_.fail = false → inv p

/-- The states considered when reads may have failed: the loose invariant, and
the full invariant as long as no read has failed. -/
def valid (p : fileparser) : Prop := loose p ∧ sound p

/-- The calls that move the cursor and handle its marks. -/
inductive cursor_op where
  | advance_char (opts : Nat)
  | set_mark
  | unset_mark
  | revert_to_mark (keep_mark : Bool)
  | set_cont_char (cont : Char)
deriving DecidableEq, Repr

/-- One call on the cursor; the value `advance_char` returns is dropped. -/
def apply (p : fileparser) : cursor_op → Res fileparser
  | .advance_char opts => do
    let (_, q) ← p.advance_char opts
    pure q
  | .set_mark => p.set_mark
  | .unset_mark => p.unset_mark
  | .revert_to_mark k => p.revert_to_mark k
  | .set_cont_char c => pure (p.set_cont_char c)

/-- A finite sequence of calls on the cursor. -/
def run (p : fileparser) : List cursor_op → Res fileparser
  | [] => .ok p
  | op :: ops => do
    let q ← p.apply op
    q.run ops

/-- The states a cursor can be in: those the constructor, followed by a
sequence of calls that all return, leaves it in. -/
def reachable (p : fileparser) : Prop :=
  ∃ (ist : istream) (ops : List cursor_op), (of_stream ist >>= fun p0 => p0.run ops) = .ok p

/-- The buffer of the line `L` is held in `bufs`. -/
def holds_line (p : fileparser) (L : Nat) : Prop :=
  p.min_line ≤ L ∧ L ≤ p.max_line ∧ ∃ b, p.bufs[p.max_line - L]? = some b

/-- The text of the line `L`, read at `bufs[max_line - L]`. -/
def text_of (p : fileparser) (L : Nat) : Str :=
  match p.bufs[size_t_sub p.max_line L]? with
  | some b => b.1
  | none => []

/-- The relation `steps p cs q`: successive forward calls `advance_char()`,
all of which return true, take the cursor from `p` to `q`; `cs` lists, for each call, the
character `get_char()` returned just before it, and whether the cursor stood
at the end of its line (the character then is the '\n' of the line end). -/
inductive steps : fileparser → List (Char × Bool) → fileparser → Prop
  | nil (p : fileparser) : steps p [] p
  | cons {p q r : fileparser} {ch : Char} {buf : Str} {cs : List (Char × Bool)} :
      p.get_char = .ok ch → p.BUF = .ok buf → p.advance_char = .ok (true, q) → steps q cs r →
      steps p ((ch, decide (buf.length ≤ p.col)) :: cs) r

end fileparser

namespace fileparser

/-- What the continuation loop of `get_line` computes from the text `buf` of
the line just read and the stream: whether it returns true, the text of the
line with its continuation lines appended, and the stream afterwards. -/
def join_lines (cont : Char) : Nat → Str → istream → Bool × Str × istream
  | 0, buf, s => (true, buf, s)
  | n + 1, buf, s =>
    if !buf.isEmpty && buf.getLast? == some cont then
      match getline s with
      | (none, i) => (false, buf, i)
      | (some tmp_buf, i) => join_lines cont n (buf ++ tmp_buf) i
    else (true, buf, s)

end fileparser

namespace fileparser

/-- The text from column `c` of the line `L` to column `c1` of the line
`L + d`, where `text` gives the text of each line; with `nl` every line end
in between counts as one '\n'. -/
def span (text : Nat → Str) (nl : Bool) : Nat → Nat → Nat → Nat → Str
  | 0, L, c, c1 => ((text L).drop c).take (c1 - c)
  | d + 1, L, c, c1 =>
    (text L).drop c ++ (if nl then ['\n'] else []) ++ span text nl d (L + 1) 0 c1

end fileparser

namespace fileparser

/-! ### Relations between two states of the cursor, used in the proofs -/

/-- What the loop "Clear unneeded lines" leaves untouched. -/
structure cleared (p q : fileparser) : Prop where
  line : q.line = p.line
  col : q.col = p.col
  max_line : q.max_line = p.max_line
  marks : q.marks = p.marks
  in_ : q.in_ = p.in_
  cont_char : q.cont_char = p.cont_char
  min_line : p.min_line ≤ q.min_line
  bufs : ∀ i, i < q.bufs.length → q.bufs[i]? = p.bufs[i]?
  length : q.bufs.length ≤ p.bufs.length

/-- The cursor `q` is the cursor `p` but for the stream and the text of the
current line. -/
structure same_but_BUF (p q : fileparser) : Prop where
  cont_char : q.cont_char = p.cont_char
  max_line : q.max_line = p.max_line
  min_line : q.min_line = p.min_line
  line : q.line = p.line
  col : q.col = p.col
  marks : q.marks = p.marks
  length : q.bufs.length = p.bufs.length
  others : ∀ j : Nat, j ≠ p.max_line - p.line → q.bufs[j]? = p.bufs[j]?
  count : ∀ j : Nat, Option.map Prod.snd (q.bufs[j]?) = Option.map Prod.snd (p.bufs[j]?)

/-- What `get_line` leaves when `std::getline` extracted the line `tmp_buf`
and left the stream `i`. -/
structure line_read (p q : fileparser) (tmp_buf : Str) (i : istream) : Prop where
  inv : inv q
  line : q.line = p.line + 1
  col : q.col = 0
  max_line : q.max_line = p.max_line + 1
  marks : q.marks = p.marks
  cont_char : q.cont_char = p.cont_char
  in_ : q.in_ = (join_lines p.cont_char (i.lines.length + 1) tmp_buf i).2.2
  new : ∃ c, q.bufs[0]? = some ((join_lines p.cont_char (i.lines.length + 1) tmp_buf i).2.1, c)
  old : p.marks ≠ [] → p.min_line ≤ q.min_line ∧
    ∀ L, q.min_line ≤ L → L ≤ p.max_line → q.bufs[q.max_line - L]? = p.bufs[p.max_line - L]?

/-- What a forward `advance_char()` that returns true does to a cursor that
satisfies the invariant: it steps to the next column, or, at the end of the
line, to column 0 of the next line, which it reads if need be. -/
structure stepped (p q : fileparser) (b : Str × Nat) : Prop where
  inv : inv q
  marks : q.marks = p.marks
  cont_char : q.cont_char = p.cont_char
  max_line : p.max_line ≤ q.max_line
  in_line : p.col < b.1.length → q = { p with col := p.col + 1 }
  next_line : b.1.length ≤ p.col → q.line = p.line + 1 ∧ q.col = 0
  old : p.marks ≠ [] → ∀ L, q.min_line ≤ L → L ≤ p.max_line →
    q.bufs[q.max_line - L]? = p.bufs[p.max_line - L]?

/-- What a run of forward steps made under the mark `m` leaves: the position
moves forwards, the text of the lines from the line of the mark on is kept,
and the characters read are the text between the two positions. -/
structure walked (m : mark_location) (p q : fileparser) (cs : List (Char × Bool)) : Prop where
  inv : inv q
  marks : q.marks = p.marks
  max_line : p.max_line ≤ q.max_line
  line : p.line ≤ q.line
  col : q.line = p.line → p.col ≤ q.col
  col_le : q.col ≤ (text_of q q.line).length ∨ (q.line = p.line ∧ q.col = p.col)
  old : ∀ L, m.line ≤ L → L ≤ p.max_line → text_of q L = text_of p L
  kept : cs.map Prod.fst = span (text_of q) true (q.line - p.line) p.line p.col q.col
  dropped : (cs.filter (fun x => !x.2)).map Prod.fst =
    span (text_of q) false (q.line - p.line) p.line p.col q.col

/-- The cursor `b` reads what the cursor `a` reads: both satisfy the
invariant, stand at the same position of the same stream, and agree on the
text of the lines from the current one on. -/
structure sim (a b : fileparser) : Prop where
  line : b.line = a.line
  col : b.col = a.col
  max_line : b.max_line = a.max_line
  in_ : b.in_ = a.in_
  cont_char : b.cont_char = a.cont_char
  inv_a : inv a
  inv_b : inv b
  text : ∀ L, a.line ≤ L → L ≤ a.max_line → text_of b L = text_of a L

end fileparser

namespace regex

/-- The state of the loop of `regex::match`, called on the node `r0` and the
cursor `p0`, after repetitions that pushed the attempts `pushed`: they lie on
the stack the node had, each with a repetition index that is not 0 and without
an alternative, each has left one mark at the position of `p0`, and the cursor
stands at this position. -/
structure stacked (r0 : regex) (p0 : fileparser) (pushed : List attempt) (r : regex)
    (p : fileparser) : Prop where
  type : r.type = r0.type
  attempts : r.attempts = pushed ++ r0.attempts
  reps : ∀ a ∈ pushed, a.rep ≠ 0 ∧ a.alt = none
  marks : p.marks = List.replicate pushed.length { line := p0.line, col := p0.col } ++ p0.marks
  line : p.line = p0.line
  col : p.col = p0.col

end regex

/-! ## Helpers of `char_utils`, `file_utils` and the keyword containers -/

/-- The value `std::string::npos`. -/
def npos : Nat := 2 ^ 64 - 1

/-- Addition of two `size_t` values: it wraps around modulo `2 ^ 64`. -/
def size_t_add (a b : Nat) : Nat := (a + b) % 2 ^ 64

/-- The value of `str.substr(pos, len)`: the characters from `pos` on, at most
`len` of them; `std::out_of_range` is thrown when `pos > str.size()`. -/
def str_substr (str : Str) (pos len : Nat) : Res Str :=
  if pos ≤ str.length then .ok ((str.drop pos).take len) else .error .exception

/-- The function `util::word_char` of `char_utils.cpp` with its reads of
`str[pos]` made explicit: `pos < str.size()` is tested first, and `str[pos]`
is read for `std::isalnum` and, if that is false, for the comparison with
the underscore. -/
def word_char_read (str : Str) (pos : Nat) : Res Bool :=
  if pos < str.length then do
    let c ← str_at str pos
    if isalnum c then pure true
    else do
      let d ← str_at str pos
      pure (d == '_')
  else pure false

namespace fileparser

/-- The loop `do { ... } while (advance_char(opts));` of `seek_impl`, entered
on the cursor with the mark of `lookahead` set, if any. It returns true when
`match_impl` matched and the function returned true from inside the loop,
false when `advance_char` ended the loop. The first argument bounds the number
of iterations. -/
def seek_loop (str : Str) (opts : Nat) (style : match_style) :
    Nat → fileparser → Res (Bool × fileparser)
  | 0, _ => .error .out_of_fuel
  | n + 1, p => do
    let (m, p1) ← p.match_impl str opts [] style
    if m then do
      let p2 ← if has opts lookahead then p1.revert_to_mark else pure p1
      pure (true, p2)
    else do
      let (more, p2) ← p1.advance_char opts
      if more then seek_loop str opts style n p2 else pure (false, p2)

/-- The function `file_parser::seek_impl`; `fuel` bounds the iterations of
its loop. The calls `revert_to_mark()` have the default argument `keep_mark`. -/
def seek_impl (fuel : Nat) (p : fileparser) (str : Str) (opts : Nat) (err : Str)
    (style : match_style) : Res (Bool × fileparser) := do
  let p0 ← if has opts lookahead then p.set_mark else pure p
  let (found, p1) ← seek_loop str opts style fuel p0
  if found then pure (true, p1)
  else do
    let p2 ← if has opts lookahead then p1.revert_to_mark else pure p1
    if err.isEmpty then pure (false, p2) else .error .exit_failure

/-- The overload `file_parser::seek(char, opts, err)`. -/
def seek_chr (fuel : Nat) (p : fileparser) (chr : Char) (opts : Nat := 0) (err : Str := []) :
    Res (Bool × fileparser) :=
  seek_impl fuel p [chr] opts err .CHAR

/-- The overload `file_parser::seek(const std::string&, opts, err)`. -/
def seek_str (fuel : Nat) (p : fileparser) (str : Str) (opts : Nat := 0) (err : Str := []) :
    Res (Bool × fileparser) :=
  seek_impl fuel p str opts err .STRING

/-- The function `file_parser::seek_any_of`. -/
def seek_any_of (fuel : Nat) (p : fileparser) (chrs : Str) (opts : Nat := 0) (err : Str := []) :
    Res (Bool × fileparser) :=
  seek_impl fuel p chrs opts err .CHARS

/-- The function `file_parser::seek_not_of`. -/
def seek_not_of (fuel : Nat) (p : fileparser) (chrs : Str) (opts : Nat := 0) (err : Str := []) :
    Res (Bool × fileparser) :=
  seek_impl fuel p chrs opts err .NOT_CHARS

/-- The function `file_parser::seek_word_boundary`. -/
def seek_word_boundary (fuel : Nat) (p : fileparser) (opts : Nat := 0) (err : Str := []) :
    Res (Bool × fileparser) :=
  seek_impl fuel p [] opts err .WORD_BOUNDARY

end fileparser

/-! ## The functions of `file_utils.cpp` -/

namespace detail

/-- The condition `file[i-1] == '/' && (i == 1 || file[i-2] != '\\')`, for
`i > 0`. -/
def unescaped_slash (file : Str) (i : Nat) : Res Bool := do
  let c ← str_at file (i - 1)
  if c == '/' then
    if i = 1 then pure true
    else do
      let d ← str_at file (i - 2)
      pure (d != '\\')
  else pure false

/-- The loop of `start_of_filename`, entered with `i`. -/
def start_of_filename_loop (file : Str) : Nat → Res Nat
  | 0 => .ok 0
  | i + 1 => do
    let b ← unescaped_slash file (i + 1)
    if b then pure (i + 1) else start_of_filename_loop file i

/-- The function `util::detail::start_of_filename`. -/
def start_of_filename (file : Str) : Res Nat := start_of_filename_loop file file.length

/-- The inner loop `for(--i; i > 0; --i)` of `start_of_extension`, entered
with `i` after its `--i`. It returns the value the function returns from
inside the loop, if it does, with `ext_dot` and `i` as the loop leaves them:
at the `break`, or at its end with `i = 0`. -/
def ext_inner (file : Str) (ext_dot : Nat) : Nat → Res (Option Nat × Nat × Nat)
  | 0 => .ok (none, ext_dot, 0)
  | i + 1 => do
    let b ← unescaped_slash file (i + 1)
    if b then pure (some ext_dot, ext_dot, i + 1)
    else do
      let c ← str_at file i
      if c != '.' then pure (none, i + 1, i + 1)
      else ext_inner file ext_dot i

/-- The outer loop `for(size_t i = file.length(); i > 0; --i)` of
`start_of_extension`, entered with `ext_dot` and `i`. After the inner loop the
`--i` of the outer loop is applied to the `i` the inner loop left, in `size_t`
arithmetic. The first argument bounds the number of iterations. -/
def ext_outer (file : Str) : Nat → Nat → Nat → Res Nat
  | 0, _, _ => .error .out_of_fuel
  | fuel + 1, ext_dot, i =>
    if i > 0 then do
      let c ← str_at file (i - 1)
      if c == '.' then do
        let (ret, ext_dot1, i1) ← ext_inner file ext_dot (i - 1)
        match ret with
        | some r => pure r
        | none => ext_outer file fuel ext_dot1 (size_t_sub i1 1)
      else do
        let b ← unescaped_slash file i
        if b then pure ext_dot else ext_outer file fuel ext_dot (i - 1)
    else pure ext_dot

/-- The function `util::detail::start_of_extension`. Each iteration of the
outer loop that goes on reads a character, so `file.length() + 2` iterations
are enough to end the loop or reach a read outside the string. -/
def start_of_extension (file : Str) : Res Nat :=
  ext_outer file (file.length + 2) file.length file.length

end detail

/-! ## The keyword containers

`std::unordered_map<std::string, T>` and `std::unordered_set<std::string>` are
lists of entries, of which only membership is used; the
`std::map<size_t, ., std::greater<size_t>>` that holds one of them for each
keyword length is the list of its entries in the order of iteration, the
greatest length first. An iterator into the inner container is the entry it
points at, and `end()` is `none`. -/

/-- The call `sub_map.find(key)` on the inner map. -/
def inner_find {T : Type} (sub_map : List (Str × T)) (key : Str) : Option (Str × T) :=
  sub_map.find? (fun e => e.1 == key)

/-- The assignment `sub_map[key] = val` on the inner map. -/
def inner_assign {T : Type} (sub_map : List (Str × T)) (key : Str) (val : T) : List (Str × T) :=
  match inner_find sub_map key with
  | some _ => sub_map.map (fun e => if e.1 == key then (key, val) else e)
  | none => sub_map ++ [(key, val)]

/-- The call `sub_map.insert(key_val)` on the inner map: the entry of the
key, whether the pair was inserted, and the map afterwards. -/
def inner_insert {T : Type} (sub_map : List (Str × T)) (key_val : Str × T) :
    (Str × T) × Bool × List (Str × T) :=
  match inner_find sub_map key_val.1 with
  | some e => (e, false, sub_map)
  | none => (key_val, true, sub_map ++ [key_val])

/-- The call `sub_map.erase(key)` on the inner map. -/
def inner_erase {T : Type} (sub_map : List (Str × T)) (key : Str) : List (Str × T) :=
  sub_map.filter (fun e => e.1 != key)

/-- The call `map.find(len)` on the outer map: the inner container at `len`. -/
def outer_find {S : Type} (map : List (Nat × S)) (len : Nat) : Option S :=
  (map.find? (fun e => e.1 == len)).map Prod.snd

/-- The expression `map[len]` on the outer map, followed by the change `f` of
the inner container it refers to: a missing entry is created, with the
container `dflt`, at its place in the order. -/
def outer_modify {S : Type} (dflt : S) (f : S → S) (len : Nat) : List (Nat × S) → List (Nat × S)
  | [] => [(len, f dflt)]
  | (k, sub) :: rest =>
    if k = len then (k, f sub) :: rest
    else if k < len then (len, f dflt) :: (k, sub) :: rest
    else (k, sub) :: outer_modify dflt f len rest

/-- The call `map.lower_bound(max)` on the outer map: the entries from the
first one whose length is not greater than `max`. -/
def lower_bound {S : Type} (map : List (Nat × S)) (max : Nat) : List (Nat × S) :=
  map.dropWhile (fun e => decide (e.1 > max))

/-- The class template `keyword_map<T>`. -/
structure keyword_map (T : Type) where
  max_len : Nat
  map : List (Nat × List (Str × T))

namespace keyword_map

variable {T : Type}

/-- The constructor `keyword_map()`. -/
def empty : keyword_map T := { max_len := 0, map := [(0, [])] }

/-- One iteration of the loop of the constructor from an initializer list. -/
def init_step (km : keyword_map T) (key_val : Str × T) : keyword_map T :=
  let len := key_val.1.length
  { max_len := if km.max_len < len then len else km.max_len,
    map := outer_modify [] (fun sub => inner_assign sub key_val.1 key_val.2) len km.map }

/-- The constructor `keyword_map(std::initializer_list<...> init)`. -/
def of_init (init : List (Str × T)) : keyword_map T := init.foldl init_step empty

/-- The function `keyword_map::sentinel`; `map.find(0)` is dereferenced. -/
def sentinel (km : keyword_map T) : Res (Option (Str × T) × Nat) :=
  match outer_find km.map 0 with
  | some _ => .ok (none, npos)
  | none => .error .undefined_behaviour

/-- The function `keyword_map::insert`: the iterator and the flag it returns,
and the map afterwards. -/
def insert (km : keyword_map T) (key_val : Str × T) : (Str × T) × Bool × keyword_map T :=
  let len := key_val.1.length
  let r := inner_insert ((outer_find km.map len).getD []) key_val
  (r.1, r.2.1,
    { max_len := if len > km.max_len then len else km.max_len,
      map := outer_modify [] (fun sub => (inner_insert sub key_val).2.2) len km.map })

/-- The loop of `keyword_map::match` over the outer map from `it` on: the
value returned from inside the loop, if any. -/
def match_loop (str : Str) (pos : Nat) (whole_word : Bool) :
    List (Nat × List (Str × T)) → Res (Option ((Str × T) × Nat))
  | [] => .ok none
  | (len, sub_map) :: rest =>
    if whole_word && word_char str (size_t_add pos len) then match_loop str pos whole_word rest
    else
      match str_substr str pos len with
      | .error e => .error e
      | .ok s =>
        match inner_find sub_map s with
        | some e => .ok (some (e, len))
        | none => match_loop str pos whole_word rest

/-- The function `keyword_map::match`. -/
def do_match (km : keyword_map T) (str : Str) (pos : Nat := 0) (whole_word : Bool := true) :
    Res (Option (Str × T) × Nat) :=
  if whole_word && word_char str (size_t_sub pos 1) then km.sentinel
  else
    match match_loop str pos whole_word
        (lower_bound km.map (min km.max_len (size_t_sub str.length pos))) with
    | .error e => .error e
    | .ok (some (e, len)) => .ok (some e, len)
    | .ok none => km.sentinel

/-- The function `keyword_map::match_whole`. -/
def match_whole (km : keyword_map T) (str : Str) : Res (Option (Str × T) × Nat) :=
  match outer_find km.map str.length with
  | some sub_map =>
    match inner_find sub_map str with
    | some e => .ok (some e, str.length)
    | none => km.sentinel
  | none => km.sentinel

/-- The function `keyword_map::erase`: the value returned and the map
afterwards. -/
def erase (km : keyword_map T) (key : Str) : Bool × keyword_map T :=
  match outer_find km.map key.length with
  | none => (false, km)
  | some sub =>
    if sub.length = 1 && !key.isEmpty then
      (true, { km with map := km.map.filter (fun e => e.1 != key.length) })
    else
      (true, { km with map := outer_modify [] (fun s => inner_erase s key) key.length km.map })

end keyword_map

/-- The class `keyword_set`. -/
structure keyword_set where
  max_len : Nat
  set : List (Nat × List Str)

namespace keyword_set

/-- The constructor `keyword_set()`. -/
def empty : keyword_set := { max_len := 0, set := [] }

/-- The call `sub.insert(key)` on the inner set. -/
def inner_insert (sub : List Str) (key : Str) : List Str :=
  if sub.contains key then sub else sub ++ [key]

/-- One iteration of the loop of the constructor from an initializer list. -/
def init_step (ks : keyword_set) (key : Str) : keyword_set :=
  let len := key.length
  { max_len := if ks.max_len < len then len else ks.max_len,
    set := outer_modify [] (fun sub => inner_insert sub key) len ks.set }

/-- The constructor `keyword_set(std::initializer_list<std::string> init)`. -/
def of_init (init : List Str) : keyword_set := init.foldl init_step empty

/-- The loop of `keyword_set::match` over the outer map from `it` on: the
length returned from inside the loop, if any. -/
def match_loop (str : Str) (pos : Nat) (whole_word : Bool) : List (Nat × List Str) → Res (Option Nat)
  | [] => .ok none
  | (len, sub_map) :: rest =>
    if whole_word && word_char str (size_t_add pos len) then match_loop str pos whole_word rest
    else
      match str_substr str pos len with
      | .error e => .error e
      | .ok s => if sub_map.contains s then .ok (some len) else match_loop str pos whole_word rest

/-- The function `keyword_set::match`. Its first statement,
`if(whole_word && util::word_char(str, pos-1)) std::string::npos;`, evaluates
`npos` and drops it: the function goes on whatever the test gives. -/
def do_match (ks : keyword_set) (str : Str) (pos : Nat := 0) (whole_word : Bool := true) :
    Res Nat :=
  let _ := if whole_word && word_char str (size_t_sub pos 1) then some npos else none
  match match_loop str pos whole_word
      (lower_bound ks.set (min ks.max_len (size_t_sub str.length pos))) with
  | .error e => .error e
  | .ok (some len) => .ok len
  | .ok none => .ok npos

end keyword_set

namespace keyword_map

variable {T : Type}

/-- The keyword-value pairs the map holds. -/
def entries (km : keyword_map T) : List (Str × T) := (km.map.map Prod.snd).flatten

/-- The maps filled through the constructors and `insert`. -/
inductive filled : keyword_map T → Prop
  | init (l : List (Str × T)) : filled (of_init l)
  | insert {km : keyword_map T} (key_val : Str × T) : filled km → filled (km.insert key_val).2.2

/-- The invariant of a map filled through the constructors and `insert`: the
outer map is ordered by decreasing length, the inner map at a length holds
keywords of this length, none is longer than `max_len`, and the outer map has
an entry for the length 0. -/
structure wf (km : keyword_map T) : Prop where
  sorted : km.map.Pairwise (fun a b => a.1 > b.1)
  lengths : ∀ e ∈ km.map, ∀ kv ∈ e.2, kv.1.length = e.1
  bound : ∀ e ∈ km.map, ∀ kv ∈ e.2, kv.1.length ≤ km.max_len
  zero : ∃ sub, (0, sub) ∈ km.map

/-- The lengths `L` the claim about `match` ranges over: the `L` characters
of `str` from `pos` on are a keyword of the map, and, when `whole_word` is
set, neither the character at `pos - 1` (if `pos > 0`) nor the character at
`pos + L` is a word character. -/
def fits (km : keyword_map T) (str : Str) (pos : Nat) (whole_word : Bool) (L : Nat) : Prop :=
  pos + L ≤ str.length ∧ (∃ v, ((str.drop pos).take L, v) ∈ km.entries) ∧
    (whole_word = true →
      ¬ (0 < pos ∧ word_char str (pos - 1) = true) ∧ word_char str (pos + L) = false)

end keyword_map

namespace keyword_map

variable {T : Type}

/-- The assignment `m[key] = val` through `keyword_map::operator[]`, which
returns `map[key.length()][key]`: the map afterwards. The member `max_len` is
not written. -/
def subscript_assign (km : keyword_map T) (key : Str) (val : T) : keyword_map T :=
  { km with map := outer_modify [] (fun sub => inner_assign sub key val) key.length km.map }

end keyword_map

/-! ## The document object model: `dom_element` and `dom_query`

An element holds its name, its content, the list of its sub-elements, the map
from a name to the sub-elements of that name, and its attributes. The two
`std::unordered_map`s are lists of entries, looked up with `inner_find`; an
iterator into `elem_list` is the sub-element it points at. The function
`dom_element::error` reports its message and ends the program: a query that
calls it yields the fault `reported message`. -/

/-- The ways in which a call on a `dom_query` can fail to return normally. -/
inductive dom_fault where
  | undefined_behaviour
  | reported (message : Str)
deriving DecidableEq, Repr

/-- The class `DOM::dom_element`, without the member `source`. -/
inductive dom_element where
  | mk (name cont : Str) (elem_list : List dom_element)
      (elem_map : List (Str × List dom_element)) (attrs : List (Str × Str))

namespace dom_element

/-- The member `name`. -/
def name : dom_element → Str
  | mk n _ _ _ _ => n

/-- The member `cont`. -/
def cont : dom_element → Str
  | mk _ c _ _ _ => c

/-- The member `elem_list`. -/
def elem_list : dom_element → List dom_element
  | mk _ _ l _ _ => l

/-- The member `elem_map`. -/
def elem_map : dom_element → List (Str × List dom_element)
  | mk _ _ _ m _ => m

/-- The member `attrs`. -/
def attrs : dom_element → List (Str × Str)
  | mk _ _ _ _ a => a

/-- The constructor `dom_element()`. -/
def default : dom_element := mk [] [] [] [] []

/-- The function `dom_element::error`. -/
def error {α : Type} (_target : dom_element) (message : Str) : Except dom_fault α :=
  .error (.reported message)

end dom_element

/-- The enumeration of the kinds of a query, the member `type` of `dom_query`. -/
inductive query_type where
  | ELEMENT
  | ELEMENT_LIST
  | ATTRIBUTE
  | CONTENT
deriving DecidableEq, Repr

/-- The enumeration of the member `validity` of `dom_query`. -/
inductive query_validity where
  | VALID
  | INVALID
  | DEFAULTED
deriving DecidableEq, Repr

/-- The class template `detail::dom_query`. -/
structure dom_query where
  target : dom_element
  query : Str
  type : query_type
  validity : query_validity

namespace dom_query

/-- The constructor `dom_query(Ptr target)`. -/
def of_target (target : dom_element) : dom_query :=
  { target := target, query := target.name, type := .ELEMENT, validity := .VALID }

/-- The function `dom_query::what`. -/
def what (q : dom_query) : Str :=
  match q.type with
  | .ELEMENT =>
    if q.query.isEmpty then "first element".toList
    else "element with tag <".toList ++ q.query ++ ">".toList
  | .ELEMENT_LIST =>
    if q.query.isEmpty then "all elements".toList
    else "all elements with tag <".toList ++ q.query ++ ">".toList
  | .ATTRIBUTE => "attribute \"".toList ++ q.query ++ "\"".toList
  | .CONTENT => "tag content".toList

/-- The function `dom_query::type_descr`. -/
def type_descr (q : dom_query) : Str :=
  match q.type with
  | .ELEMENT => "element".toList
  | .ELEMENT_LIST => "list of elements".toList
  | .ATTRIBUTE => "attribute".toList
  | .CONTENT => "tag content".toList

/-- The function `dom_query::all_elements`. -/
def all_elements (q : dom_query) (tag : Str := []) : Except dom_fault dom_query :=
  if q.type ≠ .ELEMENT then
    q.target.error ("Invalid operation: requesting element list from ".toList ++ q.type_descr)
  else
    let q1 := { q with type := .ELEMENT_LIST }
    if q1.validity = .VALID then
      let q2 := { q1 with query := tag }
      if !tag.isEmpty then
        match inner_find q2.target.elem_map q2.query with
        | none => .ok { q2 with validity := .INVALID }
        | some _ => .ok q2
      else .ok q2
    else .ok q1

/-- The function `dom_query::element`; `front()` of an empty list is
undefined. -/
def element (q : dom_query) (tag : Str := []) : Except dom_fault dom_query :=
  if q.type ≠ .ELEMENT then
    q.target.error ("Invalid operation: requesting element from ".toList ++ q.type_descr)
  else
    let q1 := { q with type := .ELEMENT }
    if q1.validity = .VALID then
      let q2 := { q1 with query := tag }
      if tag.isEmpty then
        match q2.target.elem_list with
        | [] => .ok { q2 with validity := .INVALID }
        | front :: _ => .ok { q2 with target := front }
      else
        match inner_find q2.target.elem_map q2.query with
        | none => .ok { q2 with validity := .INVALID }
        | some (_, []) => .error .undefined_behaviour
        | some (_, front :: _) => .ok { q2 with target := front }
    else .ok q1

/-- The function `dom_query::attribute`, a name that Lean reserves. -/
def query_attribute (q : dom_query) (name : Str) : Except dom_fault dom_query :=
  if q.type ≠ .ELEMENT then
    q.target.error ("Invalid operation: requesting attribute from ".toList ++ q.type_descr)
  else
    let q1 := { q with type := .ATTRIBUTE }
    if q1.validity = .VALID then
      let q2 := { q1 with query := name }
      match inner_find q2.target.attrs q2.query with
      | none => .ok { q2 with validity := .INVALID }
      | some _ => .ok q2
    else .ok q1

/-- The function `dom_query::content`. -/
def content (q : dom_query) : Except dom_fault dom_query :=
  if q.type ≠ .ELEMENT then
    q.target.error ("Invalid operation: requesting attribute from ".toList ++ q.type_descr)
  else
    let q1 := { q with type := .CONTENT }
    if q1.validity = .VALID then .ok { q1 with query := q1.target.cont }
    else .ok q1

/-- The function `dom_query::or_error`. -/
def or_error (q : dom_query) (err : Str := []) : Except dom_fault dom_query :=
  if q.validity = .INVALID then
    q.target.error (if err.isEmpty then q.what ++ " requested but not found".toList else err)
  else .ok q

end dom_query

namespace dom_element

/-- The function `dom_element::element`. -/
def element (e : dom_element) (tag : Str := []) : Except dom_fault dom_query :=
  (dom_query.of_target e).element tag

/-- The function `dom_element::all_elements`. -/
def all_elements (e : dom_element) (tag : Str := []) : Except dom_fault dom_query :=
  (dom_query.of_target e).all_elements tag

/-- The function `dom_element::attribute`. -/
def query_attribute (e : dom_element) (key : Str) : Except dom_fault dom_query :=
  (dom_query.of_target e).query_attribute key

/-- The function `dom_element::content`. -/
def content (e : dom_element) : Except dom_fault dom_query :=
  (dom_query.of_target e).content

/-- The function `dom_element::add_element(const std::string& tag)`: the
element afterwards. The child is appended to `elem_list` and entered in
`elem_map` under its name and under the empty name. -/
def add_element (e : dom_element) (tag : Str) : dom_element :=
  let child := mk tag [] [] [] []
  let add := fun (m : List (Str × List dom_element)) (key : Str) =>
    match inner_find m key with
    | some _ => m.map (fun en => if en.1 == key then (en.1, en.2 ++ [child]) else en)
    | none => m ++ [(key, [child])]
  mk e.name e.cont (e.elem_list ++ [child]) (add (add e.elem_map tag) []) e.attrs

end dom_element
/-- The function `std::isalpha` in the "C" locale. -/
def isalpha (c : Char) : Bool :=
  ('A' ≤ c && c ≤ 'Z') || ('a' ≤ c && c ≤ 'z')

/-- The function `std::isdigit`. -/
def isdigit (c : Char) : Bool := '0' ≤ c && c ≤ '9'

namespace dom_element

/-- The loop of `dom_element::validate_xml_name`, entered with the number of
iterations that are left and with `i`. The call `parser.error` ends the
program. -/
def validate_xml_name_loop (name : Str) : Nat → Nat → Res Unit
  | 0, _ => .ok ()
  | n + 1, i => do
    let c ← str_at name i
    if !(isalpha c || isdigit c || str_has ['.', '-', ':', '_'] c) then .error .exit_failure
    else validate_xml_name_loop name n (i + 1)

/-- The function `dom_element::validate_xml_name`; the cursor and the
entities, which it passes on for the error message only, are left out. -/
def validate_xml_name (name : Str) : Res Unit :=
  if name.isEmpty then .error .exit_failure
  else do
    let c ← str_at name 0
    if !(isalpha c || str_has [':', '_'] c) then .error .exit_failure
    else validate_xml_name_loop name (name.length - 1) 1

end dom_element

/-- The value of `str.find(c, pos)`: the index of the first `c` at or after
`pos`, and `none` for `npos`, which no index of a string equals. -/
def str_find (str : Str) (c : Char) (pos : Nat) : Option Nat :=
  if (str.drop pos).indexOf c < (str.drop pos).length then
    some (pos + (str.drop pos).indexOf c)
  else none

namespace dom_element

/-- The map `entities` that `dom_element::parse_xml` sets up: the five
predefined entities. -/
def xml_entities : List (Str × Str) :=
  [(['g', 't'], ['>']), (['l', 't'], ['<']), (['a', 'm', 'p'], ['&']),
   (['a', 'p', 'o', 's'], ['\'']), (['q', 'u', 'o', 't'], ['"'])]

/-- The body of the loop of `dom_element::unparse_string`: what the `switch`
writes for one character. -/
def unparse_char (c : Char) : Str :=
  if c = '<' then ['&', 'l', 't', ';']
  else if c = '>' then ['&', 'g', 't', ';']
  else if c = '&' then ['&', 'a', 'm', 'p', ';']
  else if c = '"' then ['&', 'q', 'u', 'o', 't', ';']
  else if c = '\'' then ['&', 'a', 'p', 'o', 's', ';']
  else [c]

/-- The function `dom_element::unparse_string`: the content of the stream
`out` after the call, for the characters of `str` that are left. -/
def unparse_string : Str → Str → Str
  | out, [] => out
  | out, c :: rest => unparse_string (out ++ unparse_char c) rest

/-- The loop of `expand_xml_entities` over the digits of a hexadecimal
character reference, entered with `val` and the characters `str[i]` that are
left before the semicolon. The value is a `char`. -/
def hex_reference : Nat → Str → Res Nat
  | val, [] => .ok val
  | val, c :: rest =>
    if '0' ≤ c && c ≤ '9' then hex_reference ((16 * val + (c.toNat - '0'.toNat)) % 256) rest
    else if 'a' ≤ c && c ≤ 'f' then
      hex_reference ((16 * val + 10 + (c.toNat - 'a'.toNat)) % 256) rest
    else if 'A' ≤ c && c ≤ 'F' then
      hex_reference ((16 * val + 10 + (c.toNat - 'A'.toNat)) % 256) rest
    else .error .exit_failure

/-- The loop of `expand_xml_entities` over the digits of a decimal character
reference. -/
def dec_reference : Nat → Str → Res Nat
  | val, [] => .ok val
  | val, c :: rest =>
    if '0' ≤ c && c ≤ '9' then dec_reference ((10 * val + (c.toNat - '0'.toNat)) % 256) rest
    else .error .exit_failure

/-- The branch `if(str[pos] == '&')` of the loop of `expand_xml_entities`, once
the semicolon has been found at `sc`: what is written to `ost`. The argument
`recur` is the recursive call of `expand_xml_entities`. -/
def expand_entity (recur : Str → Res Str) (entities : List (Str × Str)) (str : Str)
    (pos sc : Nat) : Res Str := do
  let pos1 := pos + 1
  let c1 ← str_at str pos1
  if c1 == '#' then do
    let pos2 := pos1 + 1
    let c2 ← str_at str pos2
    if c2 == 'x' then do
      let val ← hex_reference 0 ((str.drop (pos2 + 1)).take (sc - (pos2 + 1)))
      pure [Char.ofNat val]
    else do
      let val ← dec_reference 0 ((str.drop pos2).take (sc - pos2))
      pure [Char.ofNat val]
  else do
    let key ← str_substr str pos1 (sc - pos1)
    match inner_find entities key with
    | none => .error .exit_failure
    | some ent => if ent.2 != ['&'] then recur ent.2 else pure ['&']

/-- The loop of `expand_xml_entities`, entered with `pos` and the content of
`ost`. The first argument bounds the number of iterations; `str.length()` is
enough, as `pos` grows in each. -/
def expand_loop (recur : Str → Res Str) (entities : List (Str × Str)) (str : Str) :
    Nat → Nat → Str → Res Str
  | 0, pos, ost => if pos < str.length then .error .out_of_fuel else .ok ost
  | n + 1, pos, ost =>
    if pos < str.length then do
      let c ← str_at str pos
      if c == '&' then
        match str_find str ';' pos with
        | none => .error .exit_failure
        | some sc => do
          let piece ← expand_entity recur entities str pos sc
          expand_loop recur entities str n (sc + 1) (ost ++ piece)
      else expand_loop recur entities str n (pos + 1) (ost ++ [c])
    else .ok ost

/-- The function `dom_element::expand_xml_entities`, without the cursor, which
it uses for the error message only. The first argument bounds the depth of
the recursion through the values of the entities. -/
def expand_xml_entities : Nat → List (Str × Str) → Str → Res Str
  | 0, _, _ => .error .out_of_fuel
  | depth + 1, entities, str =>
    expand_loop (expand_xml_entities depth entities) entities str str.length 0 []

end dom_element
namespace fileparser

/-- The constant `file_parser::whitespace`, the string `" \t\n\r\v\f"`. -/
def whitespace : Str := [' ', '\t', '\n', '\r', Char.ofNat 11, Char.ofNat 12]

end fileparser

namespace dom_element

/-- The element with the member `cont` assigned. -/
def set_cont : dom_element → Str → dom_element
  | mk n _ l m a, c => mk n c l m a

/-- The element with the member `attrs` assigned. -/
def set_attrs : dom_element → List (Str × Str) → dom_element
  | mk n c l m _, a => mk n c l m a

/-- The end of the number cases of `dom_element::parse_json_value`, from the
statement `if(parser.match_any_of("eE", fp::consume))` on: the exponent, the
test of the character that follows the number, and the two assignments. The
argument of the error message, `*parser`, is read before `match_any_of` is
called. -/
def parse_json_exponent (fuel : Nat) (e : dom_element) (p : fileparser) :
    Res (dom_element × fileparser) := do
  let (m, p1) ← p.match_any_of ['e', 'E'] fileparser.consume
  let p2 ←
    if m then do
      let (_, q) ← p1.match_any_of ['+', '-'] fileparser.consume
      let b ← q.to_bool
      if !b then .error .exit_failure
      else do
        let (_, q1) ← q.seek_not_of fuel "0123456789".toList fileparser.single_line
        pure q1
    else pure p1
  let g ← p2.get_char
  let (_, p3) ← p2.match_any_of (fileparser.whitespace ++ [',', ']', '}']) 0
    ("Invalidly formatted number: unexpected '".toList ++ [g] ++ ['\''])
  let (s, p4) ← p3.substr
  pure ((e.set_attrs (inner_assign e.attrs "type".toList "number".toList)).set_cont s, p4)

/-- The part of the number cases of `dom_element::parse_json_value` that
follows the two branches for the integer part: the fraction, and then the
end. -/
def parse_json_fraction (fuel : Nat) (e : dom_element) (p : fileparser) :
    Res (dom_element × fileparser) := do
  let (m, p1) ← p.match_chr '.' fileparser.consume
  let p2 ←
    if m then do
      let g ← p1.get_char
      if isdigit g then do
        let (_, q) ← p1.seek_not_of fuel "0123456789".toList fileparser.single_line
        pure q
      else .error .exit_failure
    else pure p1
  parse_json_exponent fuel e p2

/-- The code of `dom_element::parse_json_value` from the label `case '0':`
on. -/
def parse_json_zero (fuel : Nat) (e : dom_element) (p : fileparser) :
    Res (dom_element × fileparser) := do
  let p1 ← p.set_mark
  let (_, p2) ← p1.advance_char
  let b ← p2.to_bool
  let g ← if b then p2.get_char else pure (Char.ofNat 0)
  if b && isdigit g then .error .exit_failure
  else parse_json_fraction fuel e p2

/-- The code of `dom_element::parse_json_value` from the labels `case '1':` to
`case '9':` on. -/
def parse_json_digits (fuel : Nat) (e : dom_element) (p : fileparser) :
    Res (dom_element × fileparser) := do
  let p1 ← p.set_mark
  let (_, p2) ← p1.seek_not_of fuel "0123456789".toList fileparser.single_line
  parse_json_fraction fuel e p2

/-- The code of `dom_element::parse_json_value` from the label `case '-':`
on: a mark is set, the cursor is advanced twice, and the branch is chosen by
the character then under the cursor. -/
def parse_json_minus (fuel : Nat) (e : dom_element) (p : fileparser) :
    Res (dom_element × fileparser) := do
  let p1 ← p.set_mark
  let (_, p2) ← p1.advance_char
  let (_, p3) ← p2.advance_char
  let b ← p3.to_bool
  if !b then .error .exit_failure
  else do
    let g ← p3.get_char
    if g == '0' then parse_json_zero fuel e p3
    else parse_json_digits fuel e p3

/-- The function `dom_element::parse_json_value` on a cursor that belongs to
a file, for the cases of a number: the element and the cursor afterwards. The
value is `none` when the `switch` takes another case (an array, an object, a
string or a word), which is not part of this development. The first argument
bounds the iterations of each `seek_not_of`. -/
def parse_json_value (fuel : Nat) (e : dom_element) (p : fileparser) :
    Res (Option (dom_element × fileparser)) := do
  let c ← p.get_char
  if c == '+' then .error .exit_failure
  else if c == '-' then do
    let r ← parse_json_minus fuel e p
    pure (some r)
  else if c == '0' then do
    let r ← parse_json_zero fuel e p
    pure (some r)
  else if '1' ≤ c && c ≤ '9' then do
    let r ← parse_json_digits fuel e p
    pure (some r)
  else pure none

end dom_element

namespace fileparser

/-- The positions a search passes: `searched str opts style p n q` says that
the loop of `seek_impl`, entered on `p`, goes through `n` iterations in which
`match_impl` returns false and `advance_char(opts)` returns true, and then
stands on `q`. -/
inductive searched (str : Str) (opts : Nat) (style : match_style) :
    fileparser → Nat → fileparser → Prop
  | here (p : fileparser) : searched str opts style p 0 p
  | step {p p1 p2 q : fileparser} {n : Nat} :
    p.match_impl str opts [] style = .ok (false, p1) →
    p1.advance_char opts = .ok (true, p2) →
    searched str opts style p2 n q → searched str opts style p (n + 1) q

/-- The number of forward steps that the texts `t` of the buffers allow from
the column `c` of the buffer `i`: the rest of that buffer, and each of the
buffers before it in the deque with its line end. -/
def left_in (t : List Str) (i c : Nat) : Nat :=
  ((t.take i).map (fun s => s.length + 1)).sum + (((t[i]?).getD []).length - c)

/-- The number of forward steps that the window allows from the cursor. -/
def text_left (p : fileparser) : Nat :=
  left_in (p.bufs.map Prod.fst) (p.max_line - p.line) p.col

/-- What forward steps and failed reads do to the stream and the buffers: no
line is put back into the stream, and as long as none is taken from it,
`max_line` stays and the buffers only get empty ones pushed at the front. -/
structure padded (p q : fileparser) : Prop where
  lines_le : q.in_.lines.length ≤ p.in_.lines.length
  same : q.in_.lines.length = p.in_.lines.length →
    q.max_line = p.max_line ∧
      ∃ k, q.bufs.map Prod.fst = List.replicate k [] ++ p.bufs.map Prod.fst

end fileparser

/-! ## Lemmas and theorems -/

/-! ### Results of operations -/

theorem bind_eq_ok {α β : Type} {x : Res α} {f : α → Res β} {b : β} :
    (x >>= f) = .ok b ↔ ∃ a, x = .ok a ∧ f a = .ok b := by
  cases x with
  | error e => simp [bind, Except.bind]
  | ok a => simp [bind, Except.bind]

theorem pure_eq_ok {α : Type} {a b : α} : (pure a : Res α) = .ok b ↔ a = b := by
  simp [pure, Except.pure]

theorem ok_bind {α β : Type} (a : α) (f : α → Res β) : ((Except.ok a : Res α) >>= f) = f a := rfl

theorem error_bind {α β : Type} (e : Fault) (f : α → Res β) :
    ((Except.error e : Res α) >>= f) = .error e := rfl

theorem pure_bind_res {α β : Type} (a : α) (f : α → Res β) : ((pure a : Res α) >>= f) = f a := rfl

/-! ### Members of a node that matching leaves alone -/

namespace regex

theorem same_node_refl (r : regex) : same_node r r := ⟨rfl, rfl, rfl, rfl, rfl⟩

theorem same_node_trans {a b d : regex} (h1 : same_node a b) (h2 : same_node b d) :
    same_node a d := by
  obtain ⟨a1, a2, a3, a4, a5⟩ := h1
  obtain ⟨b1, b2, b3, b4, b5⟩ := h2
  exact ⟨b1.trans a1, b2.trans a2, b3.trans a3, b4.trans a4, b5.trans a5⟩

theorem same_node_set_attempts (r : regex) (a : List attempt) :
    same_node r (r.set_attempts a) := by
  cases r; exact ⟨rfl, rfl, rfl, rfl, rfl⟩

theorem same_node_set_alternatives (r : regex) (a : List (List regex)) :
    same_node r (r.set_alternatives a) := by
  cases r; exact ⟨rfl, rfl, rfl, rfl, rfl⟩

theorem same_node_push (r : regex) (a : attempt) : same_node r (r.push a) :=
  same_node_set_attempts r _

theorem match_alternative_loop_same (c : node_calls) (fuel rep : Nat) :
    ∀ (n alt_iter : Nat) (r : regex) (p : fileparser) (len : Nat) (o : outcome regex),
      match_alternative_loop c fuel rep n alt_iter r p len = .ok o → same_node r o.self := by
  intro n
  induction n with
  | zero =>
    intro alt_iter r p len o h
    simp only [match_alternative_loop, Except.ok.injEq] at h
    subst h
    exact same_node_refl r
  | succ n ih =>
    intro alt_iter r p len o h
    simp only [match_alternative_loop] at h
    split at h
    · simp at h
    · rename_i seq hseq
      obtain ⟨o1, -, h⟩ := bind_eq_ok.1 h
      split at h
      · rw [pure_eq_ok] at h
        subst h
        exact same_node_trans (same_node_set_alternatives r _) (same_node_push _ _)
      · exact same_node_trans (same_node_set_alternatives r _) (ih _ _ _ _ _ h)

theorem match_type_same (c : node_calls) (fuel : Nat) (r : regex) (p : fileparser)
    (rep len : Nat) (o : outcome regex) (h : match_type c fuel r p rep len = .ok o) :
    same_node r o.self := by
  unfold match_type at h
  split at h
  · obtain ⟨⟨m, p1⟩, -, h⟩ := bind_eq_ok.1 h
    dsimp only at h
    split at h <;> (rw [pure_eq_ok] at h; subst h)
    · exact same_node_push _ _
    · exact same_node_refl r
  · obtain ⟨b, -, h⟩ := bind_eq_ok.1 h
    split at h
    · obtain ⟨g, -, h⟩ := bind_eq_ok.1 h
      split at h <;> (rw [pure_eq_ok] at h; subst h)
      · exact same_node_push _ _
      · exact same_node_refl r
    · rw [pure_eq_ok] at h; subst h
      exact same_node_refl r
  · exact match_alternative_loop_same _ _ _ _ _ _ _ _ _ h

theorem match_single_end_self (r : regex) (o o1 : outcome regex)
    (h : match_single_end r o = .ok o1) : o1.self = o.self ∧ o1.ret = o.ret ∧ o1.len = o.len := by
  unfold match_single_end at h
  split at h
  · rename_i hret
    split at h
    · obtain ⟨p2, -, h⟩ := bind_eq_ok.1 h
      rw [pure_eq_ok] at h; subst h
      exact ⟨rfl, hret.symm, rfl⟩
    · rw [pure_eq_ok] at h; subst h
      exact ⟨rfl, hret.symm, rfl⟩
  · rename_i hret
    obtain ⟨p2, -, h⟩ := bind_eq_ok.1 h
    rw [pure_eq_ok] at h; subst h
    exact ⟨rfl, by simpa using hret, rfl⟩

theorem match_single_same (c : node_calls) (fuel : Nat) (r : regex) (p : fileparser)
    (rep len : Nat) (o : outcome regex) (h : match_single c fuel r p rep len = .ok o) :
    same_node r o.self := by
  unfold match_single at h
  obtain ⟨p0, -, h⟩ := bind_eq_ok.1 h
  obtain ⟨o1, h1, h⟩ := bind_eq_ok.1 h
  rw [(match_single_end_self _ _ _ h).1]
  exact match_type_same _ _ _ _ _ _ _ h1

end regex

/-! ### The repetition loop of `regex::match` -/

namespace regex

theorem limit_same {r r1 : regex} (h : same_node r r1) : limit r1 = limit r := by
  obtain ⟨-, -, h3, h4, h5⟩ := h
  simp [limit, h3, h4, h5]

/-- Below the limit both tests at the head of the loop let the iteration go on. -/
theorem match_loop_below (c : node_calls) (fuel n rep len : Nat) (r : regex) (p : fileparser)
    (hlt : rep < limit r) :
    match_loop c fuel (n + 1) rep len r p =
      (match_single c fuel r p (rep + 1) 0 >>= fun o =>
        if o.ret then
          if o.len = 0 then pure (max rep r.min_reps, len + o.len, o.self, o.parser)
          else match_loop c fuel n (rep + 1) (len + o.len) o.self o.parser
        else pure (rep, len, o.self, o.parser)) := by
  unfold limit at hlt
  have h2 : ¬ rep ≥ r.max_reps := by
    split at hlt <;> omega
  have h1 : (decide (rep ≥ r.min_reps) && fileparser.has r.modifier RELUCTANT) = false := by
    cases hm : fileparser.has r.modifier RELUCTANT
    · simp
    · simp only [hm, if_true] at hlt
      simp only [Bool.and_true, decide_eq_false_iff_not]
      omega
  simp only [match_loop, h1, h2, Bool.false_eq_true, if_false]

/-- At the limit the loop ends. -/
theorem match_loop_at_limit (c : node_calls) (fuel n rep len : Nat) (r : regex) (p : fileparser)
    (hge : limit r ≤ rep) :
    match_loop c fuel n rep len r p = .ok (rep, len, r, p) := by
  cases n with
  | zero => rfl
  | succ n =>
    unfold limit at hge
    simp only [match_loop]
    cases hm : fileparser.has r.modifier RELUCTANT
    · simp only [hm, Bool.false_eq_true, if_false] at hge
      simp [hge]
    · simp only [hm, if_true] at hge
      by_cases h1 : rep ≥ r.min_reps
      · simp [h1]
      · have h2 : rep ≥ r.max_reps := by omega
        simp [h1, h2]

/-- The loop runs through the repetitions of a chain `repeats` that stays
within the limit. -/
theorem match_loop_repeats (c : node_calls) (fuel : Nat) {rep len : Nat} {r : regex}
    {p : fileparser} {rep1 len1 : Nat} {r1 : regex} {p1 : fileparser}
    (h : repeats c fuel rep len r p rep1 len1 r1 p1) :
    same_node r r1 ∧ rep ≤ rep1 ∧
      ∀ n, rep1 ≤ limit r → r.max_reps ≤ n + rep →
        match_loop c fuel n rep len r p = match_loop c fuel (n - (rep1 - rep)) rep1 len1 r1 p1 := by
  induction h with
  | done rep len r p =>
    refine ⟨same_node_refl r, le_refl _, ?_⟩
    intro n _ _
    simp
  | @step rep len r p o rep1 len1 r1 p1 hs hret hlen _ ih =>
    obtain ⟨ih1, ih2, ih3⟩ := ih
    have hsame := match_single_same _ _ _ _ _ _ _ hs
    refine ⟨same_node_trans hsame ih1, by omega, ?_⟩
    intro n hlim hn
    have hlt : rep < limit r := by omega
    have hmax : limit r ≤ r.max_reps := by
      unfold limit; split <;> omega
    obtain ⟨m, rfl⟩ : ∃ m, n = m + 1 := ⟨n - 1, by omega⟩
    rw [match_loop_below _ _ _ _ _ _ _ hlt, hs, ok_bind]
    simp only [hret, if_true, hlen, if_false]
    rw [ih3 m (by rw [limit_same hsame]; exact hlim) (by rw [hsame.2.2.2.1]; omega)]
    congr 1
    omega

end regex

namespace regex

/-- C8 (amended): first attempt of `regex::match`. Let `k` consecutive
repetitions succeed with a non-zero length (`repeats`), `k` being within the
number `limit` the node asks for (`max_reps` for a greedy node, the smaller of
`min_reps` and `max_reps` for a reluctant one), and let the loop stop there:
either `k` is that limit, or the next `match_single` fails. Then the `k`
repetitions are the ones performed: if `k >= min_reps`, `match` returns true
with the sum of their lengths; if `k < min_reps`, `match` goes through
`clear_attempt` and returns false. -/
theorem C8_first_attempt_repetitions (c : node_calls) (fuel : Nat) (r : regex) (p : fileparser)
    (k len1 : Nat) (r1 : regex) (p1 : fileparser)
    (hreps : repeats c fuel 0 0 r p k len1 r1 p1) :
    (k = limit r →
      (r.min_reps ≤ k → do_match c fuel r p = .ok ⟨true, len1, r1, p1⟩) ∧
      (k < r.min_reps → do_match c fuel r p =
        (clear_attempt c r1 p1 >>= fun x => pure ⟨false, len1, x.1, x.2⟩))) ∧
    (k < limit r → ∀ o : outcome regex,
      match_single c fuel r1 p1 (k + 1) 0 = .ok o → o.ret = false →
      (r.min_reps ≤ k → do_match c fuel r p = .ok ⟨true, len1, o.self, o.parser⟩) ∧
      (k < r.min_reps → do_match c fuel r p =
        (clear_attempt c o.self o.parser >>= fun x => pure ⟨false, len1, x.1, x.2⟩))) := by
  obtain ⟨hsame, -, hloop⟩ := match_loop_repeats c fuel hreps
  have hmax : limit r ≤ r.max_reps := by
    unfold limit; split <;> omega
  constructor
  · intro hk
    have h1 : match_loop c fuel r.max_reps 0 0 r p = .ok (k, len1, r1, p1) := by
      rw [hloop r.max_reps (by omega) (by omega)]
      exact match_loop_at_limit _ _ _ _ _ _ _ (by rw [limit_same hsame]; omega)
    constructor
    · intro hmin
      simp only [do_match, h1, ok_bind]
      rw [if_neg (by omega)]
      rfl
    · intro hmin
      simp only [do_match, h1, ok_bind]
      rw [if_pos hmin]
  · intro hk o hs hret
    have h1 : match_loop c fuel r.max_reps 0 0 r p = .ok (k, len1, o.self, o.parser) := by
      rw [hloop r.max_reps (by omega) (by omega)]
      obtain ⟨m, hm⟩ : ∃ m, r.max_reps - (k - 0) = m + 1 := ⟨r.max_reps - k - 1, by omega⟩
      rw [hm, match_loop_below _ _ _ _ _ _ _ (by rw [limit_same hsame]; exact hk), hs, ok_bind]
      simp [hret, pure, Except.pure]
    constructor
    · intro hmin
      simp only [do_match, h1, ok_bind]
      rw [if_neg (by omega)]
      rfl
    · intro hmin
      simp only [do_match, h1, ok_bind]
      rw [if_pos hmin]

/-- C8, witness: the greedy literal `a{0,3}` on the line "aaaa" performs
3 repetitions, its limit, and `match` returns true with length 3. -/
theorem C8_first_attempt_repetitions_witness :
    fileparser.of_stream (istream.of_lines [['a', 'a', 'a', 'a']]) =
        .ok (fileparser.opened ['a', 'a', 'a', 'a'] []) ∧
      ∃ r1 p1, repeats (calls 0) 0 0 0 (literal ['a'] 0 3 GREEDY)
          (fileparser.opened ['a', 'a', 'a', 'a'] []) 3 3 r1 p1 ∧
        3 = limit (literal ['a'] 0 3 GREEDY) ∧
        do_match (calls 0) 0 (literal ['a'] 0 3 GREEDY)
          (fileparser.opened ['a', 'a', 'a', 'a'] []) = .ok ⟨true, 3, r1, p1⟩ := by
  refine ⟨rfl, ?_⟩
  have hreps : ∃ r1 p1, repeats (calls 0) 0 0 0 (literal ['a'] 0 3 GREEDY)
      (fileparser.opened ['a', 'a', 'a', 'a'] []) 3 3 r1 p1 :=
    ⟨_, _, repeats.step rfl rfl (by decide)
      (repeats.step rfl rfl (by decide) (repeats.step rfl rfl (by decide) (repeats.done _ _ _ _)))⟩
  obtain ⟨r1, p1, h⟩ := hreps
  exact ⟨r1, p1, h, rfl,
    ((C8_first_attempt_repetitions (calls 0) 0 _ _ 3 3 r1 p1 h).1 rfl).1 (by decide)⟩

/-- C8, counterexample. (1) The greedy empty literal with bounds `{1,1}` on the
line "x": the first `match_single` succeeds with length 0, so no repetition
succeeds with a non-zero length (`k = 0`) and the claim has `match` perform
`min(0, 1) = 0 < min_reps` repetitions and return false; `match` returns true.
(2) The reluctant literal `a` with bounds `{3,1}` on the line "aaaa": the
first three `match_single` succeed with length 1 (`k >= 3`), so the claim has
`match` perform `min(k, min_reps) = 3` repetitions and return true with length
3; `match` performs `max_reps = 1` repetition and returns false. -/
theorem C8_counterexample :
    (fileparser.of_stream (istream.of_lines [['x']]) = .ok (fileparser.opened ['x'] []) ∧
      ∃ o o1, match_single (calls 0) 0 (literal [] 1 1 GREEDY) (fileparser.opened ['x'] []) 1 0 =
          .ok o ∧
        o.ret = true ∧ o.len = 0 ∧
        min 0 (literal [] 1 1 GREEDY).max_reps < (literal [] 1 1 GREEDY).min_reps ∧
        do_match (calls 0) 0 (literal [] 1 1 GREEDY) (fileparser.opened ['x'] []) = .ok o1 ∧
        o1.ret = true) ∧
    (fileparser.of_stream (istream.of_lines [['a', 'a', 'a', 'a']]) =
        .ok (fileparser.opened ['a', 'a', 'a', 'a'] []) ∧
      ∃ r1 p1 o1,
        repeats (calls 0) 0 0 0 (literal ['a'] 3 1 RELUCTANT).start_attempt
          (fileparser.opened ['a', 'a', 'a', 'a'] []) 3 3 r1 p1 ∧
        do_match (calls 0) 0 (literal ['a'] 3 1 RELUCTANT).start_attempt
          (fileparser.opened ['a', 'a', 'a', 'a'] []) = .ok o1 ∧
        o1.ret = false ∧ o1.len = 1) := by
  constructor
  · exact ⟨rfl, _, _, rfl, rfl, rfl, by decide, rfl, rfl⟩
  · exact ⟨rfl, _, _, _,
      repeats.step rfl rfl (by decide)
        (repeats.step rfl rfl (by decide) (repeats.step rfl rfl (by decide) (repeats.done _ _ _ _))),
      rfl, rfl, rfl⟩

/-- C9: if, after `k` repetitions of a non-zero length, the next repetition is
attempted (`k` is below the limit of the node) and its `match_single` succeeds
with length 0, then `regex::match` returns true at once: the length is that of
the `k` repetitions, and the node and the cursor are the ones this
`match_single` left, so no further `match_single` was called. With `k = 0`,
`min_reps = 0` and `max_reps` unbounded this is the node whose single match is
zero-length: `match` ends after its first single-match attempt. -/
theorem C9_zero_length_repetition_stops (c : node_calls) (fuel : Nat) (r : regex)
    (p : fileparser) (k len1 : Nat) (r1 : regex) (p1 : fileparser) (o : outcome regex)
    (hreps : repeats c fuel 0 0 r p k len1 r1 p1) (hk : k < limit r)
    (hs : match_single c fuel r1 p1 (k + 1) 0 = .ok o) (hret : o.ret = true) (hlen : o.len = 0) :
    do_match c fuel r p = .ok ⟨true, len1, o.self, o.parser⟩ ∧
      match_loop c fuel r.max_reps 0 0 r p = .ok (max k r.min_reps, len1, o.self, o.parser) := by
  obtain ⟨hsame, -, hloop⟩ := match_loop_repeats c fuel hreps
  have hmax : limit r ≤ r.max_reps := by
    unfold limit; split <;> omega
  have h1 : match_loop c fuel r.max_reps 0 0 r p =
      .ok (max k r.min_reps, len1, o.self, o.parser) := by
    rw [hloop r.max_reps (by omega) (by omega)]
    obtain ⟨m, hm⟩ : ∃ m, r.max_reps - (k - 0) = m + 1 := ⟨r.max_reps - k - 1, by omega⟩
    rw [hm, match_loop_below _ _ _ _ _ _ _ (by rw [limit_same hsame]; exact hk), hs, ok_bind]
    simp [hret, hlen, pure, Except.pure, hsame.2.2.1]
  refine ⟨?_, h1⟩
  simp only [do_match, h1, ok_bind]
  rw [if_neg (by omega)]
  rfl

/-- C9, witness: the greedy empty literal with `min_reps = 0` and
`max_reps = 2 ^ 64 - 1` on the line "x": `match` returns true with length 0
and one attempt on the stack of the node. -/
theorem C9_zero_length_repetition_stops_witness :
    fileparser.of_stream (istream.of_lines [['x']]) = .ok (fileparser.opened ['x'] []) ∧
      ∃ o, match_single (calls 0) 0 (literal [] 0 (2 ^ 64 - 1) GREEDY)
          (fileparser.opened ['x'] []) 1 0 = .ok o ∧
        o.self.attempts = [{ len := 0, rep := 1, alt := none }] ∧
        do_match (calls 0) 0 (literal [] 0 (2 ^ 64 - 1) GREEDY) (fileparser.opened ['x'] []) =
          .ok ⟨true, 0, o.self, o.parser⟩ := by
  refine ⟨rfl, ?_⟩
  have hs : ∃ o, match_single (calls 0) 0 (literal [] 0 (2 ^ 64 - 1) GREEDY)
      (fileparser.opened ['x'] []) 1 0 = .ok o ∧
      o.ret = true ∧ o.len = 0 ∧ o.self.attempts = [{ len := 0, rep := 1, alt := none }] :=
    ⟨_, rfl, rfl, rfl, rfl⟩
  obtain ⟨o, h1, h2, h3, h4⟩ := hs
  exact ⟨o, h1, h4,
    (C9_zero_length_repetition_stops (calls 0) 0 _ _ 0 0 _ _ o
      (repeats.done _ _ _ _) (by decide) h1 h2 h3).1⟩

end regex

namespace regex

/-- C10: (1) for the literal `a` with bounds `{0,3}` on the line "aaaa", the
stack of the node holding the entry of `start_attempt`: `match` on the greedy
node returns true with length 3; `match` on the reluctant node returns true
with length 0, three calls of `change_match` then return true with the lengths
1, 2 and 3, and a fourth call returns false. (2) In general, `change_match`
on a reluctant node whose latest attempt has the repetition index `att.rep`
returns false and changes nothing when `att.rep >= max_reps`; otherwise it
calls `match_single` for the repetition `att.rep + 1`, adds the length to
`len` and returns true when that succeeds, and returns false when it fails. -/
theorem C10_reluctant_change_match :
    ((∃ o, do_match (calls 0) 0 (literal ['a'] 0 3 GREEDY).start_attempt
          (fileparser.opened ['a', 'a', 'a', 'a'] []) = .ok o ∧ o.ret = true ∧ o.len = 3) ∧
      (∃ o0 o1 o2 o3 o4,
        do_match (calls 0) 0 (literal ['a'] 0 3 RELUCTANT).start_attempt
          (fileparser.opened ['a', 'a', 'a', 'a'] []) = .ok o0 ∧ o0.ret = true ∧ o0.len = 0 ∧
        change_match (calls 0) 0 o0.self o0.parser o0.len = .ok o1 ∧ o1.ret = true ∧ o1.len = 1 ∧
        change_match (calls 0) 0 o1.self o1.parser o1.len = .ok o2 ∧ o2.ret = true ∧ o2.len = 2 ∧
        change_match (calls 0) 0 o2.self o2.parser o2.len = .ok o3 ∧ o3.ret = true ∧ o3.len = 3 ∧
        change_match (calls 0) 0 o3.self o3.parser o3.len = .ok o4 ∧ o4.ret = false)) ∧
    (∀ (c : node_calls) (fuel : Nat) (r : regex) (p : fileparser) (len : Nat) (att : attempt)
        (rest : List attempt),
      r.attempts = att :: rest → r.modifier &&& BACKTRACK_MODIFIER = RELUCTANT →
      (r.max_reps ≤ att.rep → change_match c fuel r p len = .ok ⟨false, len, r, p⟩) ∧
      (att.rep < r.max_reps → change_match c fuel r p len =
        (match_single c fuel r p (att.rep + 1) 0 >>= fun o =>
          if o.ret then pure ⟨true, len + o.len, o.self, o.parser⟩
          else pure ⟨false, len, o.self, o.parser⟩))) := by
  refine ⟨⟨⟨_, rfl, rfl, rfl⟩,
    ⟨_, _, _, _, _, rfl, rfl, rfl, rfl, rfl, rfl, rfl, rfl, rfl, rfl, rfl, rfl, rfl, rfl⟩⟩, ?_⟩
  intro c fuel r p len att rest hatt hpol
  have h1 : ¬ RELUCTANT = POSSESSIVE := by decide
  constructor
  · intro h
    simp only [change_match, hatt, hpol, h1, if_false, if_true]
    rw [if_pos h]
  · intro h
    simp only [change_match, hatt, hpol, h1, if_false, if_true]
    rw [if_neg (by omega)]

/-- C10, witness: the first `change_match` on the reluctant `a{0,3}` after
`start_attempt`, whose latest attempt has the repetition index 0. -/
theorem C10_reluctant_change_match_witness :
    (literal ['a'] 0 3 RELUCTANT).start_attempt.attempts = { len := 0, rep := 0, alt := none } :: [] ∧
      (literal ['a'] 0 3 RELUCTANT).start_attempt.modifier &&& BACKTRACK_MODIFIER = RELUCTANT ∧
      (0 : Nat) < (literal ['a'] 0 3 RELUCTANT).start_attempt.max_reps ∧
      change_match (calls 0) 0 (literal ['a'] 0 3 RELUCTANT).start_attempt
          (fileparser.opened ['a', 'a', 'a', 'a'] []) 0 =
        (match_single (calls 0) 0 (literal ['a'] 0 3 RELUCTANT).start_attempt
          (fileparser.opened ['a', 'a', 'a', 'a'] []) (0 + 1) 0 >>= fun o =>
          if o.ret then pure ⟨true, 0 + o.len, o.self, o.parser⟩
          else pure ⟨false, 0, o.self, o.parser⟩) :=
  ⟨rfl, by decide, by decide,
    (C10_reluctant_change_match.2 (calls 0) 0 (literal ['a'] 0 3 RELUCTANT).start_attempt
      (fileparser.opened ['a', 'a', 'a', 'a'] []) 0 { len := 0, rep := 0, alt := none } []
      rfl (by decide)).2 (by decide)⟩

/-- C1 (what the code does): the literal `a` with bounds `{1,1}` on the line
"a". `regex::match` returns true with length 1 and leaves the cursor at line
1, column 0, where it stood before the call, with the mark of the repetition
set; one forward `advance_char` from there reaches column 1. -/
theorem C1_literal_match_leaves_cursor :
    fileparser.of_stream (istream.of_lines [['a']]) = .ok (fileparser.opened ['a'] []) ∧
      ∃ o p1, do_match (calls 0) 0 (literal ['a'] 1 1 GREEDY) (fileparser.opened ['a'] []) = .ok o ∧
        o.ret = true ∧ o.len = 1 ∧ o.parser.line = 1 ∧ o.parser.col = 0 ∧
        (fileparser.opened ['a'] []).advance_char = .ok (true, p1) ∧ p1.line = 1 ∧ p1.col = 1 :=
  ⟨rfl, _, _, rfl, rfl, rfl, rfl, rfl, rfl, rfl, rfl⟩

end regex

namespace fileparser

/-- C3 (what the code does): on the stream that holds the one line "abc",
with the cursor at its end (column 3), a forward `advance_char()` returns
false and leaves `line` and `col` as they were, but pushes an empty buffer at
the front of `bufs`, which `get_buffer` then returns in place of "abc". -/
theorem C3_failed_read_pushes_buffer :
    ∃ p q, (of_stream (istream.of_lines [['a', 'b', 'c']]) >>= fun p0 => p0.plus_eq 3) = .ok p ∧
      p.line = 1 ∧ p.col = 3 ∧ p.in_.lines = [] ∧
      p.advance_char = .ok (false, q) ∧ q.line = p.line ∧ q.col = p.col ∧
      p.get_buffer = .ok ['a', 'b', 'c'] ∧ q.get_buffer = .ok [] ∧
      p.bufs = [(['a', 'b', 'c'], 0)] ∧ q.bufs = [([], 0), (['a', 'b', 'c'], 0)] :=
  ⟨_, _, rfl, rfl, rfl, rfl, rfl, rfl, rfl, rfl, rfl, rfl, rfl⟩

end fileparser

/-! ### The line window of the cursor -/

namespace fileparser

theorem size_t_sub_of_le {a b : Nat} (h : b ≤ a) : size_t_sub a b = a - b := by
  simp [size_t_sub, h]

theorem bufs_at_eq_ok {bufs : List (Str × Nat)} {i : Nat} {b : Str × Nat} :
    bufs_at bufs i = .ok b ↔ bufs[i]? = some b := by
  unfold bufs_at
  cases h : bufs[i]? <;> simp

theorem bufs_at_of_getElem? {bufs : List (Str × Nat)} {i : Nat} {b : Str × Nat}
    (h : bufs[i]? = some b) : bufs_at bufs i = .ok b := bufs_at_eq_ok.2 h

theorem bufs_set_of_lt {bufs : List (Str × Nat)} {i : Nat} (b : Str × Nat) (h : i < bufs.length) :
    bufs_set bufs i b = .ok (bufs.set i b) := by
  simp [bufs_set, h]

theorem lt_length_of_getElem? {bufs : List (Str × Nat)} {i : Nat} {b : Str × Nat}
    (h : bufs[i]? = some b) : i < bufs.length := by
  by_contra hc
  rw [List.getElem?_eq_none (by omega)] at h
  exact absurd h (by simp)

/-! #### The stream -/

theorem getline_some {s i : istream} {l : Str} (h : getline s = (some l, i)) :
    s.fail = false ∧ i.fail = false ∧ i.lines.length < s.lines.length := by
  unfold getline at h
  split at h
  · simp at h
  · rename_i hg
    have hf : s.fail = false := by
      simp only [istream.good, Bool.not_eq_true, Bool.not_and, Bool.not_not] at hg
      cases hs : s.fail
      · rfl
      · simp [hs] at hg
    split at h
    · simp at h
    · rename_i l1 hl
      split at h
      · simp only [Prod.mk.injEq] at h
        obtain ⟨-, rfl⟩ := h
        simp [hf, hl]
      · split at h
        · simp at h
        · simp only [Prod.mk.injEq] at h
          obtain ⟨-, rfl⟩ := h
          simp [hf, hl]
    · rename_i l1 rest hl
      simp only [Prod.mk.injEq] at h
      obtain ⟨-, rfl⟩ := h
      simp [hf, hl]

theorem getline_none {s i : istream} (h : getline s = (none, i)) : i.fail = true := by
  unfold getline at h
  split at h
  · simp only [Prod.mk.injEq, true_and] at h
    subst h; rfl
  · split at h
    · simp only [Prod.mk.injEq, true_and] at h
      subst h; rfl
    · split at h
      · simp at h
      · split at h
        · simp only [Prod.mk.injEq, true_and] at h
          subst h; rfl
        · simp at h
    · simp at h

/-! #### Marks and counters -/

theorem marks_at_cons (m : mark_location) (ms : List mark_location) (L : Nat) :
    marks_at (m :: ms) L = marks_at ms L + (if m.line = L then 1 else 0) := by
  simp [marks_at, List.countP_cons]

theorem marks_at_eq_zero {ms : List mark_location} {L : Nat} (h : marks_at ms L = 0) :
    ∀ m ∈ ms, m.line ≠ L := by
  intro m hm
  have := (List.countP_eq_zero.1 h) m hm
  simpa using this

theorem marks_at_zero_of_forall {ms : List mark_location} {L : Nat} (h : ∀ m ∈ ms, m.line ≠ L) :
    marks_at ms L = 0 := by
  apply List.countP_eq_zero.2
  intro m hm
  simpa using h m hm

theorem inv_loose {p : fileparser} (h : inv p) : loose p :=
  ⟨h.min_le, h.le_max, by rw [h.size], h.marks_in⟩

theorem inv_valid {p : fileparser} (h : inv p) : valid p := ⟨inv_loose h, fun _ => h⟩

/-- The buffer of the current line exists. -/
theorem loose_BUF {p : fileparser} (h : loose p) : ∃ b, p.bufs[p.max_line - p.line]? = some b := by
  have h1 := h.min_le
  have h2 := h.le_max
  have h3 := h.size
  have : p.max_line - p.line < p.bufs.length := by omega
  exact ⟨p.bufs[p.max_line - p.line], List.getElem?_eq_getElem this⟩

theorem BUF_eq {p : fileparser} (hle : p.line ≤ p.max_line) {b : Str × Nat}
    (hb : p.bufs[p.max_line - p.line]? = some b) : p.BUF = .ok b.1 := by
  simp [BUF, size_t_sub_of_le hle, bufs_at_of_getElem? hb, bind, Except.bind, pure, Except.pure]

end fileparser

namespace fileparser

/-! #### The loop that clears unneeded lines -/

theorem cleared_refl (p : fileparser) : cleared p p :=
  ⟨rfl, rfl, rfl, rfl, rfl, rfl, le_refl _, fun _ _ => rfl, le_refl _⟩

/-- The loop returns as soon as `bufs` has a buffer for each line of the
window, and then keeps the window. -/
theorem clear_loop_window : ∀ (n : Nat) (p : fileparser),
    p.min_line ≤ p.line → p.line ≤ p.max_line → p.max_line - p.min_line + 1 ≤ p.bufs.length →
    ∃ q, clear_loop n p = .ok q ∧ cleared p q ∧ q.min_line ≤ q.line ∧
      q.max_line - q.min_line + 1 ≤ q.bufs.length := by
  intro n
  induction n with
  | zero =>
    intro p h1 _ h3
    exact ⟨p, rfl, cleared_refl p, h1, h3⟩
  | succ n ih =>
    intro p h1 h2 h3
    simp only [clear_loop]
    split
    · rename_i hlt
      have hlen : p.bufs.length - 1 < p.bufs.length := by omega
      rw [List.getLast?_eq_getElem?, List.getElem?_eq_getElem hlen]
      dsimp only
      split
      · obtain ⟨q, hq, hc, hq1, hq2⟩ := ih
          { p with bufs := p.bufs.dropLast, min_line := p.min_line + 1 }
          (by simpa using hlt) (by simpa using h2)
          (by simp only [List.length_dropLast]; omega)
        refine ⟨q, hq, ?_, hq1, hq2⟩
        have hcl := hc.length
        simp only [List.length_dropLast] at hcl
        refine ⟨hc.line, hc.col, hc.max_line, hc.marks, hc.in_, hc.cont_char, ?_, ?_, by omega⟩
        · have := hc.min_line
          simp only at this
          omega
        · intro i hi
          rw [hc.bufs i hi]
          simp only [List.getElem?_dropLast]
          rw [if_pos (by omega)]
      · exact ⟨p, rfl, cleared_refl p, h1, h3⟩
    · exact ⟨p, rfl, cleared_refl p, h1, h3⟩

/-- The loop keeps the invariant of the window, for any marks the counters
agree with. -/
theorem clear_loop_inv (ms : List mark_location) : ∀ (n : Nat) (p : fileparser),
    inv_for ms p → ∃ q, clear_loop n p = .ok q ∧ cleared p q ∧ inv_for ms q := by
  intro n
  induction n with
  | zero =>
    intro p h
    exact ⟨p, rfl, cleared_refl p, h⟩
  | succ n ih =>
    intro p h
    have h1 := h.min_le
    have h2 := h.le_max
    have h3 := h.size
    simp only [clear_loop]
    split
    · rename_i hlt
      have hlen : p.bufs.length - 1 < p.bufs.length := by omega
      obtain ⟨b, hb, hcount⟩ := h.counts p.min_line (le_refl _) (by omega)
      have hidx : p.max_line - p.min_line = p.bufs.length - 1 := by omega
      rw [hidx] at hb
      rw [List.getLast?_eq_getElem?, hb]
      dsimp only
      split
      · rename_i hzero
        have hinv : inv_for ms { p with bufs := p.bufs.dropLast, min_line := p.min_line + 1 } := by
          refine ⟨by simpa using hlt, by simpa using h2, ?_, ?_, ?_⟩
          · simp only [List.length_dropLast]; omega
          · intro m hm
            have hm1 := h.marks_in m hm
            have hm2 := marks_at_eq_zero (hcount ▸ hzero) m hm
            simp only
            omega
          · intro L hL1 hL2
            simp only at hL1 hL2
            obtain ⟨b1, hb1, hc1⟩ := h.counts L (by omega) hL2
            refine ⟨b1, ?_, hc1⟩
            simp only [List.getElem?_dropLast]
            rw [if_pos (by omega)]
            exact hb1
        obtain ⟨q, hq, hc, hqi⟩ := ih _ hinv
        refine ⟨q, hq, ?_, hqi⟩
        have hcl := hc.length
        simp only [List.length_dropLast] at hcl
        refine ⟨hc.line, hc.col, hc.max_line, hc.marks, hc.in_, hc.cont_char, ?_, ?_, by omega⟩
        · have := hc.min_line
          simp only at this
          omega
        · intro i hi
          rw [hc.bufs i hi]
          simp only [List.getElem?_dropLast]
          rw [if_pos (by omega)]
      · exact ⟨p, rfl, cleared_refl p, h⟩
    · exact ⟨p, rfl, cleared_refl p, h⟩

end fileparser

namespace fileparser

/-! #### Setting, removing and reverting to a mark -/

theorem inv_for_of_eq {ms : List mark_location} {p q : fileparser} (h : inv_for ms p)
    (h1 : q.min_line = p.min_line) (h2 : q.line = p.line) (h3 : q.max_line = p.max_line)
    (h4 : q.bufs = p.bufs) : inv_for ms q :=
  ⟨by rw [h1, h2]; exact h.min_le, by rw [h2, h3]; exact h.le_max,
    by rw [h4, h3, h1]; exact h.size, by rw [h1, h3]; exact h.marks_in,
    by rw [h1, h3, h4]; exact h.counts⟩

/-- The state `set_mark` leaves. -/
theorem set_mark_eq {p : fileparser} (h : loose p) :
    ∃ b, p.bufs[p.max_line - p.line]? = some b ∧
      p.set_mark = .ok { p with marks := { line := p.line, col := p.col } :: p.marks,
                                bufs := p.bufs.set (p.max_line - p.line) (b.1, b.2 + 1) } := by
  obtain ⟨b, hb⟩ := loose_BUF h
  refine ⟨b, hb, ?_⟩
  simp only [set_mark, size_t_sub_of_le h.le_max, bufs_at_of_getElem? hb, ok_bind,
    bufs_set_of_lt _ (lt_length_of_getElem? hb)]
  rfl

theorem set_mark_loose {p q : fileparser} (h : loose p) (hq : p.set_mark = .ok q) : loose q := by
  obtain ⟨b, -, he⟩ := set_mark_eq h
  rw [he] at hq
  injection hq with hq
  subst hq
  refine ⟨h.min_le, h.le_max, by simpa using h.size, ?_⟩
  intro m hm
  simp only [List.mem_cons] at hm
  rcases hm with rfl | hm
  · exact ⟨h.min_le, h.le_max⟩
  · exact h.marks_in m hm

theorem set_mark_inv {p q : fileparser} (h : inv p) (hq : p.set_mark = .ok q) : inv q := by
  obtain ⟨b, hb, he⟩ := set_mark_eq (inv_loose h)
  rw [he] at hq
  injection hq with hq
  subst hq
  have h1 := h.min_le
  have h2 := h.le_max
  refine ⟨h.min_le, h.le_max, by simpa using h.size, ?_, ?_⟩
  · intro m hm
    simp only [List.mem_cons] at hm
    rcases hm with rfl | hm
    · exact ⟨h.min_le, h.le_max⟩
    · exact h.marks_in m hm
  · intro L hL1 hL2
    simp only at hL1 hL2
    obtain ⟨b1, hb1, hc1⟩ := h.counts L hL1 hL2
    simp only [marks_at_cons, List.getElem?_set]
    by_cases hLl : p.line = L
    · subst hLl
      rw [if_pos rfl, if_pos (lt_length_of_getElem? hb)]
      refine ⟨_, rfl, ?_⟩
      rw [hb] at hb1
      injection hb1 with hb1
      subst hb1
      simp [hc1]
    · rw [if_neg (by omega)]
      refine ⟨b1, hb1, ?_⟩
      simp [hc1, hLl]

theorem set_mark_valid {p q : fileparser} (h : valid p) (hq : p.set_mark = .ok q) : valid q := by
  refine ⟨set_mark_loose h.1 hq, ?_⟩
  intro hf
  obtain ⟨b, -, he⟩ := set_mark_eq h.1
  have hin : q.in_ = p.in_ := by
    rw [he] at hq
    injection hq with hq
    subst hq
    rfl
  exact set_mark_inv (h.2 (hin ▸ hf)) hq

theorem revert_line (a b : Nat) :
    (if (if a > b then b else a) < b then b else (if a > b then b else a)) = b := by
  split <;> split <;> omega

/-- The state `revert_to_mark(keep_mark)` leaves. -/
theorem revert_keep_eq {p : fileparser} {m : mark_location} {ms : List mark_location}
    (hm : p.marks = m :: ms) :
    p.revert_to_mark keep_mark = .ok { p with line := m.line, col := m.col } := by
  simp only [revert_to_mark, MARK, hm, ok_bind, revert_line, keep_mark]
  rfl

/-- The call `revert_to_mark(remove_mark)` is `unset_mark` on the reverted cursor. -/
theorem revert_remove_eq {p : fileparser} {m : mark_location} {ms : List mark_location}
    (hm : p.marks = m :: ms) :
    p.revert_to_mark remove_mark = unset_mark { p with line := m.line, col := m.col } := by
  simp only [revert_to_mark, MARK, hm, ok_bind, revert_line, remove_mark]
  rfl

/-- The steps of `unset_mark` on a cursor whose top mark points at a buffer. -/
theorem unset_mark_eq {p : fileparser} {m : mark_location} {ms : List mark_location}
    {b : Str × Nat} (hm : p.marks = m :: ms) (hle : m.line ≤ p.max_line)
    (hb : p.bufs[p.max_line - m.line]? = some b) :
    p.unset_mark =
      ((if m.line = p.min_line then
          clear_unneeded { p with bufs := p.bufs.set (p.max_line - m.line) (b.1, size_t_sub b.2 1) }
        else pure { p with bufs := p.bufs.set (p.max_line - m.line) (b.1, size_t_sub b.2 1) })
        >>= fun p2 => pure { p2 with marks := p2.marks.tail }) := by
  simp only [unset_mark, MARK, hm, ok_bind, size_t_sub_of_le hle, bufs_at_of_getElem? hb,
    bufs_set_of_lt _ (lt_length_of_getElem? hb)]
  split <;> rfl

/-- On a cursor with a loose window `unset_mark` returns; it pops the mark and
leaves the position alone. -/
theorem unset_mark_loose {p : fileparser} {m : mark_location} {ms : List mark_location}
    (h : loose p) (hm : p.marks = m :: ms) :
    ∃ q, p.unset_mark = .ok q ∧ q.marks = ms ∧ q.line = p.line ∧ q.col = p.col := by
  have hml := h.marks_in m (by rw [hm]; exact List.mem_cons_self _ _)
  have h1 := h.min_le
  have h2 := h.le_max
  have h3 := h.size
  have hidx : p.max_line - m.line < p.bufs.length := by omega
  obtain ⟨b, hb⟩ : ∃ b, p.bufs[p.max_line - m.line]? = some b :=
    ⟨_, List.getElem?_eq_getElem hidx⟩
  rw [unset_mark_eq hm hml.2 hb]
  by_cases hmin : m.line = p.min_line
  · rw [if_pos hmin]
    obtain ⟨q, hq, hc, -, -⟩ := clear_loop_window (p.line - p.min_line)
      { p with bufs := p.bufs.set (p.max_line - m.line) (b.1, size_t_sub b.2 1) }
      h1 h2 (by simpa using h3)
    simp only [clear_unneeded]
    rw [hq, ok_bind]
    refine ⟨_, rfl, ?_, hc.line, hc.col⟩
    simp [hc.marks, hm]
  · rw [if_neg hmin]
    exact ⟨_, rfl, by simp [hm], rfl, rfl⟩

/-- On a cursor that satisfies the invariant `unset_mark` returns and keeps
the invariant; it pops the mark and leaves the position, the stream and the
buffers of the lines that stay in the window alone. -/
theorem unset_mark_inv {p : fileparser} {m : mark_location} {ms : List mark_location}
    (h : inv p) (hm : p.marks = m :: ms) :
    ∃ q, p.unset_mark = .ok q ∧ inv q ∧ q.marks = ms ∧ q.line = p.line ∧ q.col = p.col ∧
      q.in_ = p.in_ ∧ q.cont_char = p.cont_char ∧ q.max_line = p.max_line ∧
      p.min_line ≤ q.min_line ∧
      ∀ i, i < q.bufs.length →
        Option.map Prod.fst (q.bufs[i]?) = Option.map Prod.fst (p.bufs[i]?) := by
  have hml := h.marks_in m (by rw [hm]; exact List.mem_cons_self _ _)
  have h1 := h.min_le
  have h2 := h.le_max
  have h3 := h.size
  obtain ⟨b, hb, hcount⟩ := h.counts m.line hml.1 hml.2
  have hidx := lt_length_of_getElem? hb
  rw [unset_mark_eq hm hml.2 hb]
  have hpos : 0 < b.2 := by
    rw [hcount]
    unfold inv at h
    rw [hm, marks_at_cons]
    simp
  have hinv1 : inv_for ms
      { p with bufs := p.bufs.set (p.max_line - m.line) (b.1, size_t_sub b.2 1) } := by
    refine ⟨h1, h2, by simpa using h3, ?_, ?_⟩
    · intro m1 hm1
      exact h.marks_in m1 (by rw [hm]; exact List.mem_cons_of_mem _ hm1)
    · intro L hL1 hL2
      simp only at hL1 hL2
      obtain ⟨b1, hb1, hc1⟩ := h.counts L hL1 hL2
      unfold inv at h
      rw [hm, marks_at_cons] at hc1
      simp only [List.getElem?_set]
      by_cases hLl : m.line = L
      · subst hLl
        rw [if_pos rfl, if_pos hidx]
        refine ⟨_, rfl, ?_⟩
        rw [hb] at hb1
        injection hb1 with hb1
        subst hb1
        simp only [if_true] at hc1
        rw [size_t_sub_of_le (by omega)]
        simp only
        omega
      · rw [if_neg (by omega)]
        refine ⟨b1, hb1, ?_⟩
        simpa [hLl] using hc1
  have htext : ∀ i : Nat,
      Option.map Prod.fst ((p.bufs.set (p.max_line - m.line) (b.1, size_t_sub b.2 1))[i]?) =
        Option.map Prod.fst (p.bufs[i]?) := by
    intro i
    simp only [List.getElem?_set]
    by_cases hi : p.max_line - m.line = i
    · subst hi
      rw [if_pos rfl, if_pos hidx, hb]
      rfl
    · rw [if_neg hi]
  by_cases hmin : m.line = p.min_line
  · rw [if_pos hmin]
    obtain ⟨q, hq, hc, hqi⟩ := clear_loop_inv ms (p.line - p.min_line) _ hinv1
    simp only [clear_unneeded]
    rw [hq, ok_bind]
    have hqm : q.marks.tail = ms := by simp [hc.marks, hm]
    refine ⟨_, rfl, ?_, hqm, hc.line, hc.col, hc.in_, hc.cont_char, hc.max_line, hc.min_line, ?_⟩
    · unfold inv
      simp only [hqm]
      exact inv_for_of_eq hqi rfl rfl rfl rfl
    · intro i hi
      simp only at hi
      rw [hc.bufs i hi]
      exact htext i
  · rw [if_neg hmin]
    refine ⟨_, rfl, ?_, by simp [hm], rfl, rfl, rfl, rfl, rfl, le_refl _, ?_⟩
    · unfold inv
      simp only [hm, List.tail_cons]
      exact inv_for_of_eq hinv1 rfl rfl rfl rfl
    · intro i _
      exact htext i

end fileparser

namespace fileparser

/-! #### Reading a line -/

theorem same_but_BUF_refl (p : fileparser) : same_but_BUF p p :=
  ⟨rfl, rfl, rfl, rfl, rfl, rfl, rfl, fun _ _ => rfl, fun _ => rfl⟩

theorem same_but_BUF_trans {p q r : fileparser} (h1 : same_but_BUF p q) (h2 : same_but_BUF q r) :
    same_but_BUF p r := by
  refine ⟨h2.cont_char.trans h1.cont_char, h2.max_line.trans h1.max_line,
    h2.min_line.trans h1.min_line, h2.line.trans h1.line, h2.col.trans h1.col,
    h2.marks.trans h1.marks, h2.length.trans h1.length, ?_, ?_⟩
  · intro j hj
    rw [h2.others j (by rw [h1.max_line, h1.line]; exact hj), h1.others j hj]
  · intro j
    rw [h2.count j, h1.count j]

theorem same_but_BUF_inv_for {ms : List mark_location} {p q : fileparser}
    (h : inv_for ms p) (hs : same_but_BUF p q) : inv_for ms q := by
  refine ⟨by rw [hs.min_line, hs.line]; exact h.min_le, by rw [hs.line, hs.max_line]; exact h.le_max,
    by rw [hs.length, hs.max_line, hs.min_line]; exact h.size,
    by rw [hs.min_line, hs.max_line]; exact h.marks_in, ?_⟩
  intro L hL1 hL2
  rw [hs.min_line] at hL1
  rw [hs.max_line] at hL2
  obtain ⟨b, hb, hc⟩ := h.counts L hL1 hL2
  have hcount := hs.count (p.max_line - L)
  rw [hb] at hcount
  rw [hs.max_line]
  cases hq : q.bufs[p.max_line - L]? with
  | none => rw [hq] at hcount; simp at hcount
  | some b1 =>
    rw [hq] at hcount
    simp only [Option.map_some', Option.some.injEq] at hcount
    exact ⟨b1, rfl, by rw [hcount, hc]⟩

/-- The cursor with a new stream and a new text for the current line. -/
theorem same_but_BUF_set (p : fileparser) (i : istream) (s : Str) {b : Str × Nat}
    (hb : p.bufs[p.max_line - p.line]? = some b) :
    same_but_BUF p { p with in_ := i, bufs := p.bufs.set (p.max_line - p.line) (s, b.2) } := by
  refine ⟨rfl, rfl, rfl, rfl, rfl, rfl, by simp, ?_, ?_⟩
  · intro j hj
    simp only [List.getElem?_set]
    rw [if_neg (by omega)]
  · intro j
    simp only [List.getElem?_set]
    by_cases hj : p.max_line - p.line = j
    · subst hj
      rw [if_pos rfl, if_pos (lt_length_of_getElem? hb), hb]
      rfl
    · rw [if_neg hj]

/-- The continuation loop returns, with the outcome `join_lines` tells; it
changes the stream and the text of the current line only. -/
theorem continuation_spec : ∀ (n : Nat) (p : fileparser) (b0 : Str × Nat),
    p.line ≤ p.max_line → p.bufs[p.max_line - p.line]? = some b0 → p.in_.lines.length < n →
    ∃ q, continuation [] n p = .ok ((join_lines p.cont_char n b0.1 p.in_).1, q) ∧
      same_but_BUF p q ∧ q.in_ = (join_lines p.cont_char n b0.1 p.in_).2.2 ∧
      q.bufs[p.max_line - p.line]? = some ((join_lines p.cont_char n b0.1 p.in_).2.1, b0.2) := by
  intro n
  induction n with
  | zero => intro p b0 _ _ h; omega
  | succ n ih =>
    intro p b0 hle hb hn
    simp only [continuation, BUF_eq hle hb, ok_bind, join_lines]
    split
    · cases hg : getline p.in_ with
      | mk r i =>
        cases r with
        | none =>
          simp only [List.isEmpty_nil, Bool.not_true, Bool.false_eq_true, if_false]
          refine ⟨_, rfl, ?_, rfl, hb⟩
          exact ⟨rfl, rfl, rfl, rfl, rfl, rfl, rfl, fun _ _ => rfl, fun _ => rfl⟩
        | some t =>
          have hlen := (getline_some hg).2.2
          have hset : set_BUF { p with in_ := i } (b0.1 ++ t) =
              .ok { p with in_ := i, bufs := p.bufs.set (p.max_line - p.line) (b0.1 ++ t, b0.2) } := by
            simp only [set_BUF, size_t_sub_of_le hle, bufs_at_of_getElem? hb, ok_bind,
              bufs_set_of_lt _ (lt_length_of_getElem? hb)]
            rfl
          simp only [hset, ok_bind]
          obtain ⟨q, hq, hs, hin, hbuf⟩ := ih
            { p with in_ := i, bufs := p.bufs.set (p.max_line - p.line) (b0.1 ++ t, b0.2) }
            (b0.1 ++ t, b0.2) hle
            (by simp [List.getElem?_set, lt_length_of_getElem? hb])
            (by simp only; omega)
          exact ⟨q, hq, same_but_BUF_trans (same_but_BUF_set p i (b0.1 ++ t) hb) hs, hin, hbuf⟩
    · exact ⟨p, rfl, same_but_BUF_refl p, rfl, hb⟩

end fileparser

namespace fileparser

/-- A read that fails at the end of the input pushes an empty buffer. -/
theorem get_line_none {p : fileparser} {i : istream} (hg : getline p.in_ = (none, i)) :
    p.get_line = .ok (false, { p with in_ := i, bufs := ([], 0) :: p.bufs }) := by
  simp only [get_line, hg]
  rfl

/-- A read that succeeds, made at the last line of the window, keeps the
invariant. -/
theorem get_line_some {p : fileparser} (h : inv p) (hmax : p.line = p.max_line)
    {tmp_buf : Str} {i : istream} (hg : getline p.in_ = (some tmp_buf, i)) :
    ∃ q, p.get_line =
        .ok ((join_lines p.cont_char (i.lines.length + 1) tmp_buf i).1, q) ∧
      line_read p q tmp_buf i := by
  have hinv0 : inv_for p.marks { p with in_ := i } := inv_for_of_eq h rfl rfl rfl rfl
  obtain ⟨q1, hq1, hc, hq1i⟩ := clear_loop_inv p.marks (p.line - p.min_line) _ hinv0
  have hcl := hc.line
  have hcm := hc.max_line
  have hcmin := hc.min_line
  have hcmarks := hc.marks
  simp only at hcl hcm hcmin hcmarks
  have h1 := hq1i.min_le
  have h2 := hq1i.le_max
  have h3 := hq1i.size
  simp only [get_line, hg, clear_unneeded]
  rw [hq1, ok_bind]
  by_cases hempty : p.marks = []
  · -- no mark: the buffer of the line is overwritten
    obtain ⟨b00, hb00, hc00⟩ := hq1i.counts q1.max_line (by omega) (le_refl _)
    simp only [Nat.sub_self] at hb00
    have hset : set_BUF { q1 with
          line := q1.line + 1, max_line := q1.max_line + 1, col := 0,
          min_line := q1.min_line + 1 } tmp_buf =
        .ok { q1 with
          line := q1.line + 1, max_line := q1.max_line + 1, col := 0,
          min_line := q1.min_line + 1, bufs := q1.bufs.set 0 (tmp_buf, b00.2) } := by
      have hz : q1.max_line + 1 - (q1.line + 1) = 0 := by omega
      simp only [set_BUF, size_t_sub_of_le (show q1.line + 1 ≤ q1.max_line + 1 by omega), hz,
        bufs_at_of_getElem? hb00, ok_bind, bufs_set_of_lt _ (lt_length_of_getElem? hb00)]
      rfl
    have hme : q1.marks.isEmpty = true := by rw [hcmarks, hempty]; rfl
    simp only [hme, if_true, hset, ok_bind]
    have hinv3 : inv_for p.marks { q1 with
          line := q1.line + 1, max_line := q1.max_line + 1, col := 0,
          min_line := q1.min_line + 1, bufs := q1.bufs.set 0 (tmp_buf, b00.2) } := by
      refine ⟨by simp only; omega, by simp only; omega, by simp only [List.length_set]; omega,
        by rw [hempty]; simp, ?_⟩
      intro L hL1 hL2
      simp only at hL1 hL2
      simp only [List.getElem?_set, hempty, marks_at, List.countP_nil]
      by_cases hz : 0 = q1.max_line + 1 - L
      · rw [if_pos hz, if_pos (lt_length_of_getElem? hb00)]
        refine ⟨_, rfl, ?_⟩
        rw [hc00, hempty]
        rfl
      · rw [if_neg hz]
        obtain ⟨b1, hb1, hc1⟩ := hq1i.counts (L - 1) (by omega) (by omega)
        have : q1.max_line - (L - 1) = q1.max_line + 1 - L := by omega
        rw [this] at hb1
        refine ⟨b1, hb1, ?_⟩
        rw [hc1, hempty]
        rfl
    obtain ⟨q, hq, hs, hin, hbuf⟩ := continuation_spec (i.lines.length + 1)
      { q1 with
          line := q1.line + 1, max_line := q1.max_line + 1, col := 0,
          min_line := q1.min_line + 1, bufs := q1.bufs.set 0 (tmp_buf, b00.2) }
      (tmp_buf, b00.2) (by simp only; omega)
      (by
        have hz : q1.max_line + 1 - (q1.line + 1) = 0 := by omega
        simp only [hz, List.getElem?_set]
        simp [lt_length_of_getElem? hb00])
      (by simp only [hc.in_]; omega)
    have hz : q1.max_line + 1 - (q1.line + 1) = 0 := by omega
    simp only [hc.in_, hc.cont_char, hz] at hq hin hbuf
    simp only [hc.in_, hc.cont_char, pure_bind_res]
    refine ⟨q, hq, ?_⟩
    refine ⟨?_, by rw [hs.line]; simp only; omega, by rw [hs.col], by rw [hs.max_line]; simp only; omega,
      by rw [hs.marks]; exact hcmarks, by rw [hs.cont_char]; exact hc.cont_char, hin, ⟨_, hbuf⟩,
      fun hne => absurd hempty hne⟩
    unfold inv
    rw [hs.marks]
    simp only [hcmarks]
    exact same_but_BUF_inv_for hinv3 hs
  · -- some mark is set: a buffer is pushed
    have hme : q1.marks.isEmpty = false := by
      rw [hcmarks]
      cases hpm : p.marks with
      | nil => exact absurd hpm hempty
      | cons a l => rfl
    simp only [hme, Bool.false_eq_true, if_false, ok_bind, pure_bind_res]
    have hinv3 : inv_for p.marks { q1 with
          line := q1.line + 1, max_line := q1.max_line + 1, col := 0,
          bufs := (tmp_buf, 0) :: q1.bufs } := by
      refine ⟨by simp only; omega, by simp only; omega, by simp only [List.length_cons]; omega,
        ?_, ?_⟩
      · intro m hm
        have := hq1i.marks_in m hm
        simp only
        omega
      · intro L hL1 hL2
        simp only at hL1 hL2
        by_cases hz : L = q1.max_line + 1
        · subst hz
          simp only [Nat.sub_self, List.getElem?_cons_zero]
          refine ⟨_, rfl, ?_⟩
          simp only
          symm
          apply marks_at_zero_of_forall
          intro m hm
          have := hq1i.marks_in m hm
          omega
        · obtain ⟨b1, hb1, hc1⟩ := hq1i.counts L hL1 (by omega)
          have : q1.max_line + 1 - L = (q1.max_line - L) + 1 := by omega
          simp only [this, List.getElem?_cons_succ]
          exact ⟨b1, hb1, hc1⟩
    obtain ⟨q, hq, hs, hin, hbuf⟩ := continuation_spec (i.lines.length + 1)
      { q1 with
          line := q1.line + 1, max_line := q1.max_line + 1, col := 0,
          bufs := (tmp_buf, 0) :: q1.bufs }
      (tmp_buf, 0) (by simp only; omega)
      (by
        have hz : q1.max_line + 1 - (q1.line + 1) = 0 := by omega
        simp only [hz, List.getElem?_cons_zero])
      (by simp only [hc.in_]; omega)
    have hz : q1.max_line + 1 - (q1.line + 1) = 0 := by omega
    simp only [hc.in_, hc.cont_char, hz] at hq hin hbuf
    simp only [hc.in_, hc.cont_char, pure_bind_res]
    refine ⟨q, hq, ?_⟩
    refine ⟨?_, by rw [hs.line]; simp only; omega, by rw [hs.col], by rw [hs.max_line]; simp only; omega,
      by rw [hs.marks]; exact hcmarks, by rw [hs.cont_char]; exact hc.cont_char, hin, ⟨_, hbuf⟩, ?_⟩
    · unfold inv
      rw [hs.marks]
      simp only [hcmarks]
      exact same_but_BUF_inv_for hinv3 hs
    · intro _
      refine ⟨by rw [hs.min_line]; exact hcmin, ?_⟩
      intro L hL1 hL2
      rw [hs.min_line] at hL1
      simp only at hL1
      rw [hs.max_line]
      simp only
      have hidx : q1.max_line + 1 - L = (p.max_line - L) + 1 := by omega
      rw [hs.others _ (by simp only; omega), hidx]
      simp only [List.getElem?_cons_succ]
      exact hc.bufs _ (by omega)

end fileparser

namespace fileparser

/-! #### Moving the cursor -/

theorem loose_of_eq {p q : fileparser} (h : loose p)
    (h1 : q.min_line = p.min_line) (h2 : q.line = p.line) (h3 : q.max_line = p.max_line)
    (h4 : q.bufs = p.bufs) (h5 : q.marks = p.marks) : loose q :=
  ⟨by rw [h1, h2]; exact h.min_le, by rw [h2, h3]; exact h.le_max,
    by rw [h4, h3, h1]; exact h.size, by rw [h1, h3, h5]; exact h.marks_in⟩

/-- A change of column keeps the states considered. -/
theorem valid_set_col {p : fileparser} (h : valid p) (c : Nat) : valid { p with col := c } :=
  ⟨loose_of_eq h.1 rfl rfl rfl rfl rfl, fun hf => inv_for_of_eq (h.2 hf) rfl rfl rfl rfl⟩

/-- A move to another line of the window keeps the states considered. -/
theorem valid_set_line {p : fileparser} (h : valid p) (l c : Nat) (h1 : p.min_line ≤ l)
    (h2 : l ≤ p.max_line) : valid { p with line := l, col := c } := by
  refine ⟨⟨h1, h2, h.1.size, h.1.marks_in⟩, fun hf => ?_⟩
  have hi := h.2 hf
  exact ⟨h1, h2, hi.size, hi.marks_in, hi.counts⟩

/-- The forward call `advance_char()`: a step in the line, a step to the next
line of the window, or a read. -/
theorem advance_char_eq {p : fileparser} (h : loose p) :
    ∃ b, p.bufs[p.max_line - p.line]? = some b ∧
      p.advance_char =
        (if p.col < b.1.length then .ok (true, { p with col := p.col + 1 })
         else if p.line < p.max_line then .ok (true, { p with line := p.line + 1, col := 0 })
         else p.get_line) := by
  obtain ⟨b, hb⟩ := loose_BUF h
  refine ⟨b, hb, ?_⟩
  have h1 : has 0 backwards = false := by decide
  have h2 : has 0 single_line = false := by decide
  simp only [advance_char, h1, h2, Bool.false_eq_true, if_false, BUF_eq h.le_max hb, ok_bind,
    advance_line]
  rfl

/-- On the states considered `get_line`, called at the last line of the
window, returns and stays within these states; it keeps the marks, and a
failed stream stays failed. -/
theorem get_line_valid {p : fileparser} (h : valid p) (hmax : p.line = p.max_line) :
    ∃ b q, p.get_line = .ok (b, q) ∧ valid q ∧ q.marks = p.marks ∧
      (p.in_.fail = true → q.in_.fail = true) := by
  cases hg : getline p.in_ with
  | mk r i =>
    cases r with
    | none =>
      refine ⟨false, _, get_line_none hg, ⟨⟨h.1.min_le, h.1.le_max, ?_, h.1.marks_in⟩, ?_⟩, rfl,
        fun _ => getline_none hg⟩
      · have := h.1.size
        simp only [List.length_cons]
        omega
      · intro hf
        rw [show ({ p with in_ := i, bufs := ([], 0) :: p.bufs } : fileparser).in_ = i from rfl,
          getline_none hg] at hf
        exact absurd hf (by simp)
    | some t =>
      have hf := (getline_some hg).1
      obtain ⟨q, hq, hr⟩ := get_line_some (h.2 hf) hmax hg
      exact ⟨_, q, hq, inv_valid hr.inv, hr.marks, fun hf1 => absurd hf1 (by simp [hf])⟩

/-- On the states considered `advance_char` returns, whatever its options, and
stays within these states; it keeps the marks, and a failed stream stays
failed. -/
theorem advance_char_valid {p : fileparser} (h : valid p) (opts : Nat) :
    ∃ b q, p.advance_char opts = .ok (b, q) ∧ valid q ∧ q.marks = p.marks ∧
      (p.in_.fail = true → q.in_.fail = true) := by
  have h1 := h.1.min_le
  have h2 := h.1.le_max
  have h3 := h.1.size
  unfold advance_char
  split
  · split
    · exact ⟨true, _, rfl, valid_set_col h _, rfl, fun hf => hf⟩
    · split
      · exact ⟨false, p, rfl, h, rfl, fun hf => hf⟩
      · simp only [advance_line, if_true]
        split
        · rename_i hlt
          have hidx : p.max_line - (p.line - 1) < p.bufs.length := by omega
          have hB : BUF { p with line := p.line - 1 } = .ok (p.bufs[p.max_line - (p.line - 1)]).1 :=
            BUF_eq (p := { p with line := p.line - 1 }) (by simp only; omega)
              (List.getElem?_eq_getElem hidx)
          rw [hB, ok_bind]
          exact ⟨true, _, rfl, valid_set_line h _ _ (by omega) (by omega), rfl, fun hf => hf⟩
        · exact ⟨false, p, rfl, h, rfl, fun hf => hf⟩
  · obtain ⟨b, hb⟩ := loose_BUF h.1
    rw [BUF_eq h2 hb, ok_bind]
    split
    · exact ⟨true, _, rfl, valid_set_col h _, rfl, fun hf => hf⟩
    · split
      · exact ⟨false, p, rfl, h, rfl, fun hf => hf⟩
      · simp only [advance_line, Bool.false_eq_true, if_false]
        split
        · exact ⟨true, _, rfl, valid_set_line h _ _ (by omega) (by omega), rfl, fun hf => hf⟩
        · exact get_line_valid h (by omega)

end fileparser

namespace fileparser

/-! #### A failed stream stays failed -/

theorem getline_fail (s : istream) (h : s.fail = true) : (getline s).2.fail = true := by
  cases hg : getline s with
  | mk r i =>
    cases r with
    | none => exact getline_none hg
    | some t => exact absurd h (by simp [(getline_some hg).1])

theorem clear_loop_in : ∀ (n : Nat) (p q : fileparser), clear_loop n p = .ok q → q.in_ = p.in_ := by
  intro n
  induction n with
  | zero =>
    intro p q h
    simp only [clear_loop, Except.ok.injEq] at h
    subst h; rfl
  | succ n ih =>
    intro p q h
    simp only [clear_loop] at h
    split at h
    · split at h
      · simp at h
      · split at h
        · have h2 := ih _ _ h
          simpa using h2
        · simp only [Except.ok.injEq] at h
          subst h; rfl
    · simp only [Except.ok.injEq] at h
      subst h; rfl

theorem set_BUF_in {p q : fileparser} {s : Str} (h : p.set_BUF s = .ok q) : q.in_ = p.in_ := by
  unfold set_BUF at h
  obtain ⟨b, -, h⟩ := bind_eq_ok.1 h
  obtain ⟨bufs, -, h⟩ := bind_eq_ok.1 h
  rw [pure_eq_ok] at h
  subst h; rfl

theorem continuation_fail (err : Str) : ∀ (n : Nat) (p : fileparser) (b : Bool) (q : fileparser),
    continuation err n p = .ok (b, q) → p.in_.fail = true → q.in_.fail = true := by
  intro n
  induction n with
  | zero => intro p b q h; simp [continuation] at h
  | succ n ih =>
    intro p b q h hf
    simp only [continuation] at h
    obtain ⟨buf, -, h⟩ := bind_eq_ok.1 h
    split at h
    · have hg := getline_fail p.in_ hf
      cases hgl : getline p.in_ with
      | mk r i =>
        rw [hgl] at hg h
        cases r with
        | none =>
          simp only at h
          split at h
          · simp at h
          · rw [pure_eq_ok] at h
            injection h with _ h
            subst h
            exact hg
        | some t =>
          simp only at h
          obtain ⟨p1, hp1, h⟩ := bind_eq_ok.1 h
          exact ih _ _ _ h (by rw [set_BUF_in hp1]; exact hg)
    · rw [pure_eq_ok] at h
      injection h with _ h
      subst h
      exact hf

theorem get_line_fail {p : fileparser} {err : Str} {b : Bool} {q : fileparser}
    (h : p.get_line err = .ok (b, q)) (hf : p.in_.fail = true) : q.in_.fail = true := by
  have hg := getline_fail p.in_ hf
  unfold get_line at h
  cases hgl : getline p.in_ with
  | mk r i =>
    rw [hgl] at hg h
    cases r with
    | none =>
      simp only at h
      split at h
      · simp at h
      · injection h with h
        injection h with _ h
        subst h
        exact hg
    | some t => exact absurd hf (by simp [(getline_some hgl).1])

theorem advance_char_fail {p : fileparser} {opts : Nat} {b : Bool} {q : fileparser}
    (h : p.advance_char opts = .ok (b, q)) (hf : p.in_.fail = true) : q.in_.fail = true := by
  unfold advance_char at h
  split at h
  · split at h
    · rw [pure_eq_ok] at h; injection h with _ h; subst h; exact hf
    · split at h
      · rw [pure_eq_ok] at h; injection h with _ h; subst h; exact hf
      · simp only [advance_line, if_true] at h
        split at h
        · obtain ⟨buf, -, h⟩ := bind_eq_ok.1 h
          rw [pure_eq_ok] at h; injection h with _ h; subst h; exact hf
        · rw [pure_eq_ok] at h; injection h with _ h; subst h; exact hf
  · obtain ⟨buf, -, h⟩ := bind_eq_ok.1 h
    split at h
    · rw [pure_eq_ok] at h; injection h with _ h; subst h; exact hf
    · split at h
      · rw [pure_eq_ok] at h; injection h with _ h; subst h; exact hf
      · simp only [advance_line, Bool.false_eq_true, if_false] at h
        split at h
        · rw [pure_eq_ok] at h; injection h with _ h; subst h; exact hf
        · exact get_line_fail h hf

theorem set_mark_in {p q : fileparser} (h : p.set_mark = .ok q) : q.in_ = p.in_ := by
  unfold set_mark at h
  obtain ⟨b, -, h⟩ := bind_eq_ok.1 h
  obtain ⟨bufs, -, h⟩ := bind_eq_ok.1 h
  rw [pure_eq_ok] at h
  subst h; rfl

theorem unset_mark_in {p q : fileparser} (h : p.unset_mark = .ok q) : q.in_ = p.in_ := by
  unfold unset_mark at h
  obtain ⟨m, -, h⟩ := bind_eq_ok.1 h
  obtain ⟨b, -, h⟩ := bind_eq_ok.1 h
  obtain ⟨bufs, -, h⟩ := bind_eq_ok.1 h
  dsimp only at h
  split at h
  · obtain ⟨p2, hp2, h⟩ := bind_eq_ok.1 h
    rw [pure_eq_ok] at h
    subst h
    have h2 := clear_loop_in _ _ _ hp2
    simpa using h2
  · rw [pure_bind_res, pure_eq_ok] at h
    subst h; rfl

theorem revert_to_mark_in {p q : fileparser} {k : Bool} (h : p.revert_to_mark k = .ok q) :
    q.in_ = p.in_ := by
  unfold revert_to_mark at h
  obtain ⟨m, -, h⟩ := bind_eq_ok.1 h
  dsimp only at h
  split at h
  · have h2 := unset_mark_in h
    simpa using h2
  · rw [pure_eq_ok] at h
    subst h; rfl

/-- A call that returns has a top mark to work on. -/
theorem marks_of_MARK {p : fileparser} {m : mark_location} (h : p.MARK = .ok m) :
    ∃ ms, p.marks = m :: ms := by
  unfold MARK at h
  split at h
  · rename_i m1 ms hm
    injection h with h
    subst h
    exact ⟨ms, hm⟩
  · simp at h

end fileparser

namespace fileparser

/-! #### The invariant along the calls -/

theorem sound_set_mark {p q : fileparser} (h : sound p) (hq : p.set_mark = .ok q) : sound q :=
  fun hf => set_mark_inv (h (set_mark_in hq ▸ hf)) hq

theorem sound_advance_char {p q : fileparser} {opts : Nat} {b : Bool} (h : sound p)
    (hq : p.advance_char opts = .ok (b, q)) : sound q := by
  intro hf
  have hpf : p.in_.fail = false := by
    cases hp : p.in_.fail
    · rfl
    · rw [advance_char_fail hq hp] at hf
      exact absurd hf (by simp)
  obtain ⟨b1, q1, hq1, hv, -, -⟩ := advance_char_valid (inv_valid (h hpf)) opts
  rw [hq] at hq1
  injection hq1 with hq1
  injection hq1 with _ hq1
  subst hq1
  exact hv.2 hf

theorem sound_unset_mark {p q : fileparser} (h : sound p) (hq : p.unset_mark = .ok q) :
    sound q := by
  intro hf
  have hpf : p.in_.fail = false := unset_mark_in hq ▸ hf
  have hq0 := hq
  unfold unset_mark at hq0
  obtain ⟨m, hm, -⟩ := bind_eq_ok.1 hq0
  obtain ⟨ms, hms⟩ := marks_of_MARK hm
  obtain ⟨q1, hq1, hi, -⟩ := unset_mark_inv (h hpf) hms
  rw [hq] at hq1
  injection hq1 with hq1
  subst hq1
  exact hi

theorem inv_revert {p : fileparser} {m : mark_location} {ms : List mark_location} (h : inv p)
    (hm : p.marks = m :: ms) : inv { p with line := m.line, col := m.col } := by
  have hml := h.marks_in m (by rw [hm]; exact List.mem_cons_self _ _)
  exact ⟨hml.1, hml.2, h.size, h.marks_in, h.counts⟩

theorem sound_revert_to_mark {p q : fileparser} {k : Bool} (h : sound p)
    (hq : p.revert_to_mark k = .ok q) : sound q := by
  intro hf
  have hpf : p.in_.fail = false := revert_to_mark_in hq ▸ hf
  have hq0 := hq
  unfold revert_to_mark at hq0
  obtain ⟨m, hm, -⟩ := bind_eq_ok.1 hq0
  obtain ⟨ms, hms⟩ := marks_of_MARK hm
  cases k with
  | true =>
    rw [show true = keep_mark from rfl, revert_keep_eq hms] at hq
    injection hq with hq
    subst hq
    exact inv_revert (h hpf) hms
  | false =>
    rw [show false = remove_mark from rfl, revert_remove_eq hms] at hq
    exact sound_unset_mark (fun _ => inv_revert (h hpf) hms) hq hf

theorem sound_apply {p q : fileparser} {op : cursor_op} (h : sound p) (hq : p.apply op = .ok q) :
    sound q := by
  cases op with
  | advance_char opts =>
    simp only [apply] at hq
    obtain ⟨⟨b, q1⟩, h1, h2⟩ := bind_eq_ok.1 hq
    rw [pure_eq_ok] at h2
    subst h2
    exact sound_advance_char h h1
  | set_mark => exact sound_set_mark h hq
  | unset_mark => exact sound_unset_mark h hq
  | revert_to_mark k => exact sound_revert_to_mark h hq
  | set_cont_char c =>
    simp only [apply, pure_eq_ok] at hq
    subst hq
    exact fun hf => inv_for_of_eq (h hf) rfl rfl rfl rfl

theorem sound_run : ∀ (ops : List cursor_op) (p q : fileparser), sound p → p.run ops = .ok q →
    sound q := by
  intro ops
  induction ops with
  | nil =>
    intro p q h hq
    simp only [run, Except.ok.injEq] at hq
    subst hq
    exact h
  | cons op ops ih =>
    intro p q h hq
    simp only [run] at hq
    obtain ⟨q1, h1, h2⟩ := bind_eq_ok.1 hq
    exact ih q1 q (sound_apply h h1) h2

theorem sound_match_forward (opts : Nat) : ∀ (str : Str) (p : fileparser) (b : Bool)
    (q : fileparser), sound p → match_forward opts str p = .ok (b, q) → sound q := by
  intro str
  induction str with
  | nil =>
    intro p b q h hq
    simp only [match_forward, Except.ok.injEq, Prod.mk.injEq] at hq
    obtain ⟨-, rfl⟩ := hq
    exact h
  | cons c rest ih =>
    intro p b q h hq
    simp only [match_forward] at hq
    obtain ⟨g, -, hq⟩ := bind_eq_ok.1 hq
    split at hq
    · rw [pure_eq_ok] at hq
      injection hq with _ hq
      subst hq
      exact h
    · obtain ⟨⟨b1, p1⟩, h1, hq⟩ := bind_eq_ok.1 hq
      exact ih p1 b q (sound_advance_char h h1) hq

theorem sound_match_backward (opts : Nat) : ∀ (str : Str) (p : fileparser) (b : Bool)
    (q : fileparser), sound p → match_backward opts str p = .ok (b, q) → sound q := by
  intro str
  induction str with
  | nil =>
    intro p b q h hq
    simp only [match_backward, Except.ok.injEq, Prod.mk.injEq] at hq
    obtain ⟨-, rfl⟩ := hq
    exact h
  | cons c rest ih =>
    intro p b q h hq
    simp only [match_backward] at hq
    obtain ⟨g, -, hq⟩ := bind_eq_ok.1 hq
    split at hq
    · rw [pure_eq_ok] at hq
      injection hq with _ hq
      subst hq
      exact h
    · obtain ⟨⟨b1, p1⟩, h1, hq⟩ := bind_eq_ok.1 hq
      exact ih p1 b q (sound_advance_char h h1) hq

theorem sound_match_switch {p q : fileparser} {str : Str} {opts : Nat} {style : match_style}
    {b : Bool} (h : sound p) (hq : match_switch p str opts style = .ok (b, q)) : sound q := by
  unfold match_switch at hq
  split at hq
  · obtain ⟨c, -, hq⟩ := bind_eq_ok.1 hq
    obtain ⟨g, -, hq⟩ := bind_eq_ok.1 hq
    split at hq
    · rw [pure_eq_ok] at hq; injection hq with _ hq; subst hq; exact h
    · obtain ⟨⟨b1, p1⟩, h1, hq⟩ := bind_eq_ok.1 hq
      rw [pure_eq_ok] at hq; injection hq with _ hq; subst hq
      exact sound_advance_char h h1
  · split at hq
    · exact sound_match_backward _ _ _ _ _ h hq
    · exact sound_match_forward _ _ _ _ _ h hq
  · obtain ⟨g, -, hq⟩ := bind_eq_ok.1 hq
    split at hq
    · rw [pure_eq_ok] at hq; injection hq with _ hq; subst hq; exact h
    · obtain ⟨⟨b1, p1⟩, h1, hq⟩ := bind_eq_ok.1 hq
      rw [pure_eq_ok] at hq; injection hq with _ hq; subst hq
      exact sound_advance_char h h1
  · obtain ⟨g, -, hq⟩ := bind_eq_ok.1 hq
    split at hq
    · rw [pure_eq_ok] at hq; injection hq with _ hq; subst hq; exact h
    · obtain ⟨⟨b1, p1⟩, h1, hq⟩ := bind_eq_ok.1 hq
      rw [pure_eq_ok] at hq; injection hq with _ hq; subst hq
      exact sound_advance_char h h1
  · obtain ⟨buf, -, hq⟩ := bind_eq_ok.1 hq
    rw [pure_eq_ok] at hq; injection hq with _ hq; subst hq; exact h

theorem sound_match_end {p q : fileparser} {m b : Bool} {opts : Nat} {err : Str}
    (h : sound p) (hq : match_end p m opts err = .ok (b, q)) : sound q := by
  unfold match_end at hq
  split at hq
  · dsimp only at hq
    split at hq
    · obtain ⟨p2, h2, hq⟩ := bind_eq_ok.1 hq
      rw [pure_eq_ok] at hq; injection hq with _ hq; subst hq
      exact sound_unset_mark h h2
    · obtain ⟨p2, h2, hq⟩ := bind_eq_ok.1 hq
      rw [pure_eq_ok] at hq; injection hq with _ hq; subst hq
      exact sound_revert_to_mark h h2
  · split at hq
    · obtain ⟨p2, h2, hq⟩ := bind_eq_ok.1 hq
      rw [pure_eq_ok] at hq; injection hq with _ hq; subst hq
      exact sound_revert_to_mark h h2
    · simp at hq

theorem sound_match_impl {p q : fileparser} {str err : Str} {opts : Nat} {style : match_style}
    {b : Bool} (h : sound p) (hq : p.match_impl str opts err style = .ok (b, q)) : sound q := by
  unfold match_impl at hq
  obtain ⟨p0, h0, hq⟩ := bind_eq_ok.1 hq
  obtain ⟨mp, h1, hq⟩ := bind_eq_ok.1 hq
  obtain ⟨m, p1⟩ := mp
  exact sound_match_end (sound_match_switch (sound_set_mark h h0) h1) hq

theorem sound_plus_eq : ∀ (n : Nat) (p q : fileparser), sound p → p.plus_eq n = .ok q →
    sound q := by
  intro n
  induction n with
  | zero =>
    intro p q h hq
    simp only [plus_eq, Except.ok.injEq] at hq
    subst hq
    exact h
  | succ n ih =>
    intro p q h hq
    simp only [plus_eq] at hq
    obtain ⟨⟨b1, p1⟩, h1, hq⟩ := bind_eq_ok.1 hq
    exact ih p1 q (sound_advance_char h h1) hq

theorem inv_default (ist : istream) : inv (default ist) := by
  refine ⟨le_refl _, le_refl _, rfl, by simp [default], ?_⟩
  intro L hL1 hL2
  simp only [default] at hL2
  have : L = 0 := by omega
  subst this
  exact ⟨([], 0), rfl, rfl⟩

/-- The cursor the constructor returns satisfies the invariant, unless its
reads failed. -/
theorem sound_of_stream {ist : istream} {p : fileparser} (h : of_stream ist = .ok p) :
    sound p := by
  unfold of_stream at h
  obtain ⟨⟨b, p1⟩, h1, h⟩ := bind_eq_ok.1 h
  obtain ⟨b2, q2, hq2, hv, -, -⟩ := get_line_valid (inv_valid (inv_default ist)) rfl
  rw [h1] at hq2
  injection hq2 with hq2
  injection hq2 with _ hq2
  subst hq2
  unfold skip_byte_order_mark at h
  obtain ⟨mp, h2, h⟩ := bind_eq_ok.1 h
  obtain ⟨m, p2⟩ := mp
  have hs2 := sound_match_impl hv.2 h2
  dsimp only at h
  split at h
  · exact sound_plus_eq _ _ _ hs2 h
  · rw [pure_eq_ok] at h
    subst h
    exact hs2

/-- Every state the cursor reaches satisfies the invariant, unless a read has
failed. -/
theorem sound_reachable {p : fileparser} (h : reachable p) : sound p := by
  obtain ⟨ist, ops, h⟩ := h
  obtain ⟨p0, h0, h⟩ := bind_eq_ok.1 h
  exact sound_run ops p0 p (sound_of_stream h0) h

end fileparser

namespace fileparser

theorem inv_opened (l : Str) (rest : List Str) : inv (opened l rest) := by
  refine ⟨le_refl _, le_refl _, rfl, by simp [opened], ?_⟩
  intro L hL1 hL2
  simp only [opened] at hL1 hL2
  have : L = 1 := by omega
  subst this
  exact ⟨(l, 0), rfl, rfl⟩

/-- C7: in every state the cursor reaches through the constructor,
`advance_char`, `set_mark`, `unset_mark`, `revert_to_mark` (and
`set_cont_char`), no read having failed: `bufs` has `max_line - min_line + 1`
buffers, `min_line <= line <= max_line`, every mark of the stack points at a
line of `min_line..max_line`, and for each of these lines `L` the counter of
its buffer `bufs[max_line - L]` is the number of marks that point at `L`. -/
theorem C7_window_invariant (p : fileparser) (hr : reachable p) (hf : p.in_.fail = false) :
    p.bufs.length = p.max_line - p.min_line + 1 ∧ p.min_line ≤ p.line ∧ p.line ≤ p.max_line ∧
      (∀ m ∈ p.marks, p.min_line ≤ m.line ∧ m.line ≤ p.max_line) ∧
      ∀ L, p.min_line ≤ L → L ≤ p.max_line →
        ∃ b, p.bufs[p.max_line - L]? = some b ∧ b.2 = marks_at p.marks L := by
  have h := sound_reachable hr hf
  exact ⟨h.size, h.min_le, h.le_max, h.marks_in, h.counts⟩

/-- C7, witness: the state reached on the lines "ab", "c" by `set_mark` and
three forward `advance_char()`: line 2 is current, line 1 is marked once. -/
theorem C7_window_invariant_witness :
    (of_stream (istream.of_lines [['a', 'b'], ['c']]) >>= fun p0 =>
        p0.run [.set_mark, .advance_char 0, .advance_char 0, .advance_char 0]) =
      .ok { in_ := istream.of_lines [], cont_char := Char.ofNat 0,
            bufs := [(['c'], 0), (['a', 'b'], 1)], max_line := 2, min_line := 1, line := 2,
            col := 0, marks := [{ line := 1, col := 0 }] } ∧
    ([(['c'], 0), (['a', 'b'], 1)] : List (Str × Nat)).length = 2 - 1 + 1 ∧ 1 ≤ 2 ∧ 2 ≤ 2 ∧
      (∀ m ∈ [({ line := 1, col := 0 } : mark_location)], 1 ≤ m.line ∧ m.line ≤ 2) ∧
      ∀ L, 1 ≤ L → L ≤ 2 →
        ∃ b, ([(['c'], 0), (['a', 'b'], 1)] : List (Str × Nat))[2 - L]? = some b ∧
          b.2 = marks_at [{ line := 1, col := 0 }] L :=
  ⟨rfl, C7_window_invariant
    { in_ := istream.of_lines [], cont_char := Char.ofNat 0,
      bufs := [(['c'], 0), (['a', 'b'], 1)], max_line := 2, min_line := 1, line := 2,
      col := 0, marks := [{ line := 1, col := 0 }] }
    ⟨istream.of_lines [['a', 'b'], ['c']],
      [.set_mark, .advance_char 0, .advance_char 0, .advance_char 0], rfl⟩ rfl⟩

/-- C6 (amended): in every state the cursor reaches, no read having failed,
`bufs` holds the buffer of a line whenever a mark points at that line (its
mark count is not zero) or it is the current line. -/
theorem C6_marked_and_current_lines_are_held (p : fileparser) (hr : reachable p)
    (hf : p.in_.fail = false) (L : Nat) (hL : marks_at p.marks L ≠ 0 ∨ L = p.line) :
    holds_line p L := by
  have h := sound_reachable hr hf
  have hwin : p.min_line ≤ L ∧ L ≤ p.max_line := by
    rcases hL with hL | hL
    · by_contra hc
      apply hL
      apply marks_at_zero_of_forall
      intro m hm hmL
      have := h.marks_in m hm
      rw [hmL] at this
      exact hc this
    · rw [hL]
      exact ⟨h.min_le, h.le_max⟩
  obtain ⟨b, hb, -⟩ := h.counts L hwin.1 hwin.2
  exact ⟨hwin.1, hwin.2, b, hb⟩

/-- C6, witness: on the lines "ab", "c", after `set_mark` and three forward
`advance_char()`, the marked line 1 is held. -/
theorem C6_marked_and_current_lines_are_held_witness :
    marks_at [({ line := 1, col := 0 } : mark_location)] 1 ≠ 0 ∧
    holds_line
      { in_ := istream.of_lines [], cont_char := Char.ofNat 0,
        bufs := [(['c'], 0), (['a', 'b'], 1)], max_line := 2, min_line := 1, line := 2,
        col := 0, marks := [{ line := 1, col := 0 }] } 1 :=
  ⟨by decide, C6_marked_and_current_lines_are_held
    { in_ := istream.of_lines [], cont_char := Char.ofNat 0,
      bufs := [(['c'], 0), (['a', 'b'], 1)], max_line := 2, min_line := 1, line := 2,
      col := 0, marks := [{ line := 1, col := 0 }] }
    ⟨istream.of_lines [['a', 'b'], ['c']],
      [.set_mark, .advance_char 0, .advance_char 0, .advance_char 0], rfl⟩ rfl 1
    (Or.inl (by decide))⟩

/-- C6, counterexample. (1) On the lines "a", "b": `set_mark`, two forward
`advance_char()` (the second reads line 2) and `revert_to_mark(remove_mark)`
leave the cursor on line 1 with no mark, no read having failed; `bufs` still
holds the buffer of line 2, whose counter is 0 and which is not the current
line. (2) Going on with four forward `advance_char()` (the last one fails at
the end of the input), `set_mark`, two backward `advance_char`, `set_mark`
twice, a forward `advance_char()` and `unset_mark`: a mark points at line 1,
which is not in `min_line..max_line` any more. -/
theorem C6_counterexample :
    (reachable
        { in_ := istream.of_lines [], cont_char := Char.ofNat 0,
          bufs := [(['b'], 0), (['a'], 0)], max_line := 2, min_line := 1, line := 1,
          col := 0, marks := [] } ∧
      holds_line
        { in_ := istream.of_lines [], cont_char := Char.ofNat 0,
          bufs := [(['b'], 0), (['a'], 0)], max_line := 2, min_line := 1, line := 1,
          col := 0, marks := [] } 2 ∧
      ([(['b'], 0), (['a'], 0)] : List (Str × Nat))[2 - 2]? = some (['b'], 0) ∧
      marks_at [] 2 = 0 ∧ 2 ≠ 1) ∧
    (reachable
        { in_ := { lines := [], terminated := true, eof := true, fail := true },
          cont_char := Char.ofNat 0, bufs := [([], 1), (['b'], 1)], max_line := 2,
          min_line := 2, line := 2, col := 0,
          marks := [{ line := 1, col := 1 }, { line := 2, col := 1 }] } ∧
      marks_at [{ line := 1, col := 1 }, { line := 2, col := 1 }] 1 ≠ 0 ∧
      ¬ holds_line
        { in_ := { lines := [], terminated := true, eof := true, fail := true },
          cont_char := Char.ofNat 0, bufs := [([], 1), (['b'], 1)], max_line := 2,
          min_line := 2, line := 2, col := 0,
          marks := [{ line := 1, col := 1 }, { line := 2, col := 1 }] } 1) := by
  refine ⟨⟨⟨istream.of_lines [['a'], ['b']],
      [.set_mark, .advance_char 0, .advance_char 0, .revert_to_mark false], rfl⟩,
    ⟨by decide, by decide, ⟨_, rfl⟩⟩, rfl, rfl, by decide⟩,
    ⟨⟨istream.of_lines [['a'], ['b']],
      [.set_mark, .advance_char 0, .advance_char 0, .revert_to_mark false, .advance_char 0,
        .advance_char 0, .advance_char 0, .advance_char 0, .set_mark, .advance_char 4,
        .advance_char 4, .set_mark, .set_mark, .advance_char 0, .unset_mark], rfl⟩,
    by decide, ?_⟩⟩
  intro h
  have := h.1
  simp at this

/-- A sequence of `advance_char` calls returns and stays within the states
considered; it keeps the marks. -/
theorem run_advance_valid : ∀ (optss : List Nat) (p : fileparser), valid p →
    ∃ q, p.run (optss.map cursor_op.advance_char) = .ok q ∧ valid q ∧ q.marks = p.marks := by
  intro optss
  induction optss with
  | nil => intro p h; exact ⟨p, rfl, h, rfl⟩
  | cons opts rest ih =>
    intro p h
    obtain ⟨b, q1, hq1, hv1, hm1, -⟩ := advance_char_valid h opts
    obtain ⟨q, hq, hv, hm⟩ := ih q1 hv1
    refine ⟨q, ?_, hv, hm.trans hm1⟩
    simp only [List.map_cons, run, apply, hq1, ok_bind, pure_bind_res]
    exact hq

/-- C2: for every state `s` of the cursor with a sound window (`valid`: all
states reached while no read has failed, and the states that `set_mark` and
`advance_char` lead to after a failed read): `set_mark` followed by any
sequence of `advance_char` calls, forward or backward, under any options,
returns; `revert_to_mark(keep_mark)` then restores `line` and `col` of `s` and
leaves the stack of marks as it was after `set_mark`, and
`revert_to_mark(remove_mark)` restores `line` and `col` of `s` and leaves the
stack of marks `s` had. -/
theorem C2_revert_restores_position (s : fileparser) (hv : valid s) (optss : List Nat) :
    ∃ s1 s2, s.set_mark = .ok s1 ∧ s1.run (optss.map cursor_op.advance_char) = .ok s2 ∧
      (∃ s3, s2.revert_to_mark keep_mark = .ok s3 ∧ s3.line = s.line ∧ s3.col = s.col ∧
        s3.marks = s1.marks) ∧
      (∃ s4, s2.revert_to_mark remove_mark = .ok s4 ∧ s4.line = s.line ∧ s4.col = s.col ∧
        s4.marks = s.marks) := by
  obtain ⟨b, -, hs1⟩ := set_mark_eq hv.1
  have hv1 := set_mark_valid hv hs1
  obtain ⟨s2, hs2, hv2, hm2⟩ := run_advance_valid optss _ hv1
  simp only at hm2
  refine ⟨_, s2, hs1, hs2, ?_, ?_⟩
  · rw [revert_keep_eq hm2]
    exact ⟨_, rfl, rfl, rfl, hm2⟩
  · rw [revert_remove_eq hm2]
    have hml := hv2.1.marks_in _ (by rw [hm2]; exact List.mem_cons_self _ _)
    have hl : loose { s2 with line := s.line, col := s.col } :=
      ⟨hml.1, hml.2, hv2.1.size, hv2.1.marks_in⟩
    obtain ⟨q, hq, hqm, hql, hqc⟩ := unset_mark_loose hl hm2
    exact ⟨q, hq, hql, hqc, hqm⟩

/-- C2, witness: on the lines "ab", "c", from line 1, column 0: a mark, four
forward steps (the last one fails at the end of the input) and a backward
step, then the return to the mark. -/
theorem C2_revert_restores_position_witness :
    ∃ s1 s2, (opened ['a', 'b'] [['c']]).set_mark = .ok s1 ∧
      s1.run ([0, 0, 0, 0, 0, 4].map cursor_op.advance_char) = .ok s2 ∧
      (∃ s3, s2.revert_to_mark keep_mark = .ok s3 ∧ s3.line = (opened ['a', 'b'] [['c']]).line ∧
        s3.col = (opened ['a', 'b'] [['c']]).col ∧ s3.marks = s1.marks) ∧
      (∃ s4, s2.revert_to_mark remove_mark = .ok s4 ∧
        s4.line = (opened ['a', 'b'] [['c']]).line ∧ s4.col = (opened ['a', 'b'] [['c']]).col ∧
        s4.marks = (opened ['a', 'b'] [['c']]).marks) :=
  C2_revert_restores_position (opened ['a', 'b'] [['c']])
    (inv_valid (inv_opened ['a', 'b'] [['c']])) [0, 0, 0, 0, 0, 4]

end fileparser

namespace fileparser

/-! #### The text between the mark and the cursor -/

theorem str_at_of_lt {str : Str} {pos : Nat} (h : pos < str.length) :
    str_at str pos = .ok str[pos] := by
  simp [str_at, List.getElem?_eq_getElem h]

theorem text_of_eq {p : fileparser} {L : Nat} (hL : L ≤ p.max_line) {b : Str × Nat}
    (hb : p.bufs[p.max_line - L]? = some b) : text_of p L = b.1 := by
  simp [text_of, size_t_sub_of_le hL, hb]

/-- The inner loop of `substr`, for flags without `CONTAINS_ANY` and
`CONTAINS_NOT`, appends the columns it runs over. -/
theorem substr_cols_eq (tmp_buf : Str) (flags : Nat) (chrs : Str)
    (h1 : has flags CONTAINS_ANY = false) (h2 : has flags CONTAINS_NOT = false) :
    ∀ (n tmp_col : Nat) (out : Str), tmp_col + n ≤ tmp_buf.length →
      substr_cols tmp_buf flags chrs n tmp_col false out =
        .ok (false, out ++ (tmp_buf.drop tmp_col).take n) := by
  intro n
  induction n with
  | zero => intro tmp_col out _; simp [substr_cols]
  | succ n ih =>
    intro tmp_col out hle
    have hlt : tmp_col < tmp_buf.length := by omega
    simp only [substr_cols, str_at_of_lt hlt, ok_bind, h1, h2, Bool.not_false, if_true,
      Bool.false_eq_true, if_false]
    have htake : List.take (n + 1) (List.drop tmp_col tmp_buf) =
        tmp_buf[tmp_col] :: List.take n (List.drop (tmp_col + 1) tmp_buf) := by
      rw [List.drop_eq_getElem_cons hlt, List.take_succ_cons]
    rw [ih (tmp_col + 1) _ (by omega), htake]
    simp

/-- The same loop when there is nothing to run over. -/
theorem substr_cols_zero (tmp_buf : Str) (flags : Nat) (chrs : Str) (tmp_col : Nat) (out : Str) :
    substr_cols tmp_buf flags chrs 0 tmp_col false out = .ok (false, out) := rfl

/-- The outer loop of `substr`, for flags without `CONTAINS_ANY` and
`CONTAINS_NOT`, appends the span from its first column to `end_col`. -/
theorem substr_lines_eq (p : fileparser) (flags : Nat) (chrs : Str)
    (h1 : has flags CONTAINS_ANY = false) (h2 : has flags CONTAINS_NOT = false)
    (begin_line begin_col end_col : Nat) :
    ∀ (d L : Nat) (out : Str), begin_line ≤ L → L + d ≤ p.max_line →
      (∀ L1, L ≤ L1 → L1 ≤ L + d → ∃ b, p.bufs[p.max_line - L1]? = some b) →
      (end_col ≤ (text_of p (L + d)).length ∨
        (d = 0 ∧ end_col ≤ (if L = begin_line then begin_col else 0))) →
      substr_lines p flags chrs begin_line (L + d) begin_col end_col (d + 1) L false out =
        .ok (false, out ++
          span (text_of p) (has flags KEEP_NEWLINE) d L (if L = begin_line then begin_col else 0)
            end_col) := by
  intro d
  induction d with
  | zero =>
    intro L out hbl hmax hex hend
    obtain ⟨b, hb⟩ := hex L (le_refl _) (le_refl _)
    simp only [Nat.add_zero] at hmax hend ⊢
    have htext := text_of_eq hmax hb
    simp only [substr_lines, size_t_sub_of_le hmax, bufs_at_of_getElem? hb, ok_bind, if_true, span]
    rw [htext] at hend ⊢
    by_cases hz : end_col ≤ (if L = begin_line then begin_col else 0)
    · rw [Nat.sub_eq_zero_of_le hz, substr_cols_zero]
      simp [substr_lines, ok_bind]
    · rw [substr_cols_eq _ _ _ h1 h2 _ _ _ (by
        rcases hend with hend | hend
        · omega
        · exact absurd hend.2 hz)]
      simp [substr_lines, ok_bind]
  | succ d ih =>
    intro L out hbl hmax hex hend
    obtain ⟨b, hb⟩ := hex L (le_refl _) (by omega)
    have hLmax : L ≤ p.max_line := by omega
    have htext := text_of_eq hLmax hb
    have hne : ¬ L = L + (d + 1) := by omega
    have hlt : L < L + (d + 1) := by omega
    rw [substr_lines]
    simp only [size_t_sub_of_le hLmax, bufs_at_of_getElem? hb, ok_bind, hne,
      if_false, hlt, decide_True, Bool.and_true]
    have hcols : substr_cols b.1 flags chrs
        (b.1.length - (if L = begin_line then begin_col else 0))
        (if L = begin_line then begin_col else 0) false out =
        .ok (false, out ++ b.1.drop (if L = begin_line then begin_col else 0)) := by
      by_cases hz : b.1.length ≤ (if L = begin_line then begin_col else 0)
      · rw [Nat.sub_eq_zero_of_le hz, substr_cols_zero, List.drop_eq_nil_of_le hz]
        simp
      · rw [substr_cols_eq _ _ _ h1 h2 _ _ _ (by omega)]
        congr 2
        rw [List.take_of_length_le]
        simp
    rw [hcols, ok_bind]
    have hL1 : ¬ L + 1 = begin_line := by omega
    have hshift : L + (d + 1) = L + 1 + d := by omega
    have := ih (L + 1)
      (if has flags KEEP_NEWLINE = true then
        out ++ b.1.drop (if L = begin_line then begin_col else 0) ++ ['\n']
       else out ++ b.1.drop (if L = begin_line then begin_col else 0))
      (by omega) (by omega) (fun L1 h3 h4 => hex L1 (by omega) (by omega))
      (by
        rcases hend with hend | hend
        · left; rw [← hshift]; exact hend
        · omega)
    rw [if_neg hL1] at this
    rw [← hshift] at this
    simp only [span, htext]
    rw [this]
    cases has flags KEEP_NEWLINE <;> simp

end fileparser

namespace fileparser

/-! #### Forward steps -/

theorem get_char_eq {p : fileparser} (hle : p.line ≤ p.max_line) {b : Str × Nat}
    (hb : p.bufs[p.max_line - p.line]? = some b) :
    p.get_char = .ok ((b.1[p.col]?).getD '\n') := by
  simp only [get_char, Bool.false_eq_true, if_false, BUF_eq hle hb, ok_bind]
  split
  · rename_i hlt
    rw [str_at_of_lt hlt, List.getElem?_eq_getElem hlt]
    rfl
  · rename_i hge
    rw [List.getElem?_eq_none (by omega)]
    rfl

theorem forward_step {p q : fileparser} (h : inv p) (hq : p.advance_char = .ok (true, q)) :
    ∃ b, p.bufs[p.max_line - p.line]? = some b ∧ stepped p q b := by
  obtain ⟨b, hb, he⟩ := advance_char_eq (inv_loose h)
  refine ⟨b, hb, ?_⟩
  rw [he] at hq
  split at hq
  · rename_i hlt
    injection hq with hq
    injection hq with _ hq
    subst hq
    exact ⟨inv_for_of_eq h rfl rfl rfl rfl, rfl, rfl, le_refl _, fun _ => rfl,
      fun hge => absurd hlt (by omega), fun _ _ _ _ => rfl⟩
  · rename_i hge
    split at hq
    · rename_i hlt
      injection hq with hq
      injection hq with _ hq
      subst hq
      refine ⟨⟨?_, ?_, h.size, h.marks_in, h.counts⟩, rfl, rfl, le_refl _,
        fun hlt2 => absurd hlt2 hge, fun _ => ⟨rfl, rfl⟩, fun _ _ _ _ => rfl⟩
      · have := h.min_le
        simp only
        omega
      · simp only
        omega
    · rename_i hnlt
      have hmax : p.line = p.max_line := by
        have := h.le_max
        omega
      cases hg : getline p.in_ with
      | mk r i =>
        cases r with
        | none =>
          rw [get_line_none hg] at hq
          injection hq with hq
          injection hq with hq _
          exact absurd hq (by simp)
        | some t =>
          obtain ⟨q1, hq1, hr⟩ := get_line_some h hmax hg
          rw [hq1] at hq
          injection hq with hq
          injection hq with _ hq
          subst hq
          refine ⟨hr.inv, hr.marks, hr.cont_char, by rw [hr.max_line]; omega,
            fun hlt2 => absurd hlt2 hge, fun _ => ⟨hr.line, hr.col⟩, fun hne => (hr.old hne).2⟩

theorem span_cons (text : Nat → Str) (nl : Bool) (d L c c1 : Nat) (hc : c < (text L).length)
    (hd : d = 0 → c < c1) :
    span text nl d L c c1 = (text L)[c] :: span text nl d L (c + 1) c1 := by
  cases d with
  | zero =>
    have hlt := hd rfl
    obtain ⟨k, hk⟩ : ∃ k, c1 - c = k + 1 := ⟨c1 - c - 1, by omega⟩
    have hk2 : c1 - (c + 1) = k := by omega
    simp only [span, hk, hk2]
    rw [List.drop_eq_getElem_cons hc, List.take_succ_cons]
  | succ d =>
    simp only [span]
    rw [List.drop_eq_getElem_cons hc]
    rfl

theorem span_newline (text : Nat → Str) (nl : Bool) (d L c c1 : Nat) (hc : (text L).length ≤ c) :
    span text nl (d + 1) L c c1 = (if nl then ['\n'] else []) ++ span text nl d (L + 1) 0 c1 := by
  simp only [span]
  rw [List.drop_eq_nil_of_le hc]
  simp

/-- The span the text functions of two states agree on. -/
theorem span_congr (text1 text2 : Nat → Str) (nl : Bool) :
    ∀ (d L c c1 : Nat), (∀ L1, L ≤ L1 → L1 ≤ L + d → text1 L1 = text2 L1) →
      span text1 nl d L c c1 = span text2 nl d L c c1 := by
  intro d
  induction d with
  | zero =>
    intro L c c1 h
    simp only [span, h L (le_refl _) (le_refl _)]
  | succ d ih =>
    intro L c c1 h
    simp only [span, h L (le_refl _) (by omega)]
    rw [ih (L + 1) 0 c1 (fun L1 h1 h2 => h L1 (by omega) (by omega))]

end fileparser

namespace fileparser

theorem text_of_congr {p q : fileparser} {L : Nat} (h1 : L ≤ p.max_line) (h2 : L ≤ q.max_line)
    (h : q.bufs[q.max_line - L]? = p.bufs[p.max_line - L]?) : text_of q L = text_of p L := by
  simp only [text_of, size_t_sub_of_le h1, size_t_sub_of_le h2, h]

/-- A step keeps the text of the lines from the line of a mark on. -/
theorem stepped_text {p q : fileparser} {b : Str × Nat} {m : mark_location}
    {ms : List mark_location} (hs : stepped p q b) (hm : p.marks = m :: ms) (L : Nat)
    (h1 : m.line ≤ L) (h2 : L ≤ p.max_line) : text_of q L = text_of p L := by
  have hmin := (hs.inv.marks_in m (by rw [hs.marks, hm]; exact List.mem_cons_self _ _)).1
  exact text_of_congr h2 (le_trans h2 hs.max_line)
    (hs.old (by rw [hm]; simp) L (le_trans hmin h1) h2)

theorem steps_walked {p q : fileparser} {cs : List (Char × Bool)} (hs : steps p cs q) :
    ∀ (m : mark_location) (ms : List mark_location), inv p → p.marks = m :: ms →
      m.line ≤ p.line → walked m p q cs := by
  induction hs with
  | nil p =>
    intro m ms hi hm hml
    refine ⟨hi, rfl, le_refl _, le_refl _, fun _ => le_refl _, Or.inr ⟨rfl, rfl⟩,
      fun _ _ _ => rfl, ?_, ?_⟩ <;> simp [span]
  | @cons p p1 r ch buf cs hget hbuf hadv _ ih =>
    intro m ms hi hm hml
    obtain ⟨b, hb, hst⟩ := forward_step hi hadv
    have hle := hi.le_max
    have hbuf2 : buf = b.1 := by
      rw [BUF_eq hle hb] at hbuf
      injection hbuf with hbuf
      exact hbuf.symm
    subst hbuf2
    have hch : ch = (b.1[p.col]?).getD '\n' := by
      rw [get_char_eq hle hb] at hget
      injection hget with hget
      exact hget.symm
    have hm1 : p1.marks = m :: ms := by rw [hst.marks, hm]
    have htp : text_of p p.line = b.1 := text_of_eq hle hb
    by_cases hlt : p.col < b.1.length
    · -- a step in the line
      have hp1 := hst.in_line hlt
      have hw := ih m ms hst.inv hm1 (by rw [hp1]; exact hml)
      have hl1 : p1.line = p.line := by rw [hp1]
      have hc1 : p1.col = p.col + 1 := by rw [hp1]
      have hmx : p1.max_line = p.max_line := by rw [hp1]
      have hold : ∀ L, m.line ≤ L → L ≤ p.max_line → text_of r L = text_of p L := by
        intro L h1 h2
        rw [hw.old L h1 (by rw [hmx]; exact h2)]
        exact stepped_text hst hm L h1 h2
      have htr : text_of r p.line = b.1 := by rw [hold p.line hml hle, htp]
      have hcol : r.line = p.line → p.col + 1 ≤ r.col := by
        intro h
        have := hw.col (by rw [h, hl1])
        omega
      refine ⟨hw.inv, hw.marks.trans hst.marks, le_trans hst.max_line hw.max_line,
        by rw [← hl1]; exact hw.line, fun h => by have := hcol h; omega, ?_, hold, ?_, ?_⟩
      · rcases hw.col_le with h | h
        · exact Or.inl h
        · left
          rw [h.1, hl1, htr, h.2, hc1]
          omega
      · have hsp := span_cons (text_of r) true (r.line - p.line) p.line p.col r.col
          (by rw [htr]; exact hlt) (fun hd => by
            have : r.line = p.line := by have := hw.line; omega
            have := hcol this
            omega)
        rw [hsp, List.map_cons, hw.kept, hl1, hc1]
        congr 1
        simp only [hch, htr, List.getElem?_eq_getElem hlt, Option.getD_some]
      · have hsp := span_cons (text_of r) false (r.line - p.line) p.line p.col r.col
          (by rw [htr]; exact hlt) (fun hd => by
            have : r.line = p.line := by have := hw.line; omega
            have := hcol this
            omega)
        have hfl : decide (b.1.length ≤ p.col) = false := by simp; omega
        rw [hsp, List.filter_cons, hfl]
        simp only [Bool.not_false, if_true, List.map_cons]
        rw [hw.dropped, hl1, hc1]
        congr 1
        simp only [hch, htr, List.getElem?_eq_getElem hlt, Option.getD_some]
    · -- a step over the end of the line
      have hge : b.1.length ≤ p.col := by omega
      obtain ⟨hl1, hc1⟩ := hst.next_line hge
      have hw := ih m ms hst.inv hm1 (by rw [hl1]; omega)
      have hold : ∀ L, m.line ≤ L → L ≤ p.max_line → text_of r L = text_of p L := by
        intro L h1 h2
        rw [hw.old L h1 (le_trans h2 hst.max_line)]
        exact stepped_text hst hm L h1 h2
      have htr : text_of r p.line = b.1 := by rw [hold p.line hml hle, htp]
      have hrl : p.line + 1 ≤ r.line := by rw [← hl1]; exact hw.line
      obtain ⟨d, hd⟩ : ∃ d, r.line - p.line = d + 1 := ⟨r.line - p.line - 1, by omega⟩
      have hd1 : r.line - p1.line = d := by rw [hl1]; omega
      have hch2 : ch = '\n' := by
        rw [hch, List.getElem?_eq_none hge]
        rfl
      refine ⟨hw.inv, hw.marks.trans hst.marks, le_trans hst.max_line hw.max_line, by omega,
        fun h => by omega, ?_, hold, ?_, ?_⟩
      · rcases hw.col_le with h | h
        · exact Or.inl h
        · left
          rw [h.2, hc1]
          exact Nat.zero_le _
      · rw [hd, span_newline _ _ _ _ _ _ (by rw [htr]; exact hge), List.map_cons, hw.kept, hd1,
          hl1, hc1, hch2]
        rfl
      · have hfl : decide (b.1.length ≤ p.col) = true := by simpa using hge
        rw [hd, span_newline _ _ _ _ _ _ (by rw [htr]; exact hge), List.filter_cons, hfl]
        simp only [Bool.not_true, Bool.false_eq_true, if_false, List.nil_append]
        rw [hw.dropped, hd1, hl1, hc1]

end fileparser

namespace fileparser

/-- With the cursor at or after its top mark, `substr` without `KEEP_MARK`,
`CONTAINS_ANY` and `CONTAINS_NOT` returns the text between the mark and the
cursor, and removes the mark. -/
theorem substr_eq {p : fileparser} {m : mark_location} {ms : List mark_location} (flags : Nat)
    (h1 : has flags CONTAINS_ANY = false) (h2 : has flags CONTAINS_NOT = false)
    (h3 : has flags KEEP_MARK = false) (hi : inv p) (hm : p.marks = m :: ms)
    (hl : m.line ≤ p.line) (hc : p.line = m.line → m.col ≤ p.col)
    (hcl : p.col ≤ (text_of p p.line).length ∨ (p.line = m.line ∧ p.col = m.col)) :
    ∃ q, p.substr flags =
        .ok (span (text_of p) (has flags KEEP_NEWLINE) (p.line - m.line) m.line m.col p.col, q) ∧
      q.marks = ms ∧ q.line = p.line ∧ q.col = p.col := by
  obtain ⟨q, hq, -, hqm, hql, hqc, -⟩ := unset_mark_inv hi hm
  refine ⟨q, ?_, hqm, hql, hqc⟩
  obtain ⟨d, hd⟩ : ∃ d, p.line = m.line + d := ⟨p.line - m.line, by omega⟩
  have hmin : min m.line p.line = m.line := by omega
  have hmax : max m.line p.line = m.line + d := by omega
  have hcols : (if m.line = m.line + d then (min m.col p.col, max m.col p.col)
      else if m.line = p.line then (p.col, m.col) else (m.col, p.col)) = (m.col, p.col) := by
    split
    · rename_i h0
      have := hc (by omega)
      simp only [Prod.mk.injEq]
      omega
    · rw [if_neg (by omega)]
  have hmm := (hi.marks_in m (by rw [hm]; exact List.mem_cons_self _ _)).1
  have hlines := substr_lines_eq p flags [] h1 h2 m.line m.col p.col d m.line []
    (le_refl _) (by rw [← hd]; exact hi.le_max)
    (fun L1 h4 h5 => by
      obtain ⟨b, hb, -⟩ := hi.counts L1 (by omega) (by have := hi.le_max; omega)
      exact ⟨b, hb⟩)
    (by
      rcases hcl with h | h
      · left; rw [← hd]; exact h
      · right
        refine ⟨by omega, ?_⟩
        rw [if_pos rfl, h.2])
  rw [if_pos rfl] at hlines
  have hd2 : p.line - m.line = d := by omega
  have hcount : m.line + d + 1 - m.line = d + 1 := by omega
  simp only [substr, substr_out, hm, hmin, hmax, hcols, hcount, hlines, ok_bind, h3,
    Bool.not_false, if_true, hq, pure_bind_res, List.nil_append, hd2]
  rfl

/-- C4: let the cursor satisfy the invariant of the line window (as every
state reached without a failed read does), let `set_mark` be called, and let
`n` forward `advance_char()` then return true, `cs` being the characters
`get_char()` returned just before each of them, each marked as a line end or
not. Then `substr(KEEP_NEWLINE)` returns exactly these `n` characters, and
`substr()` returns them without the ones that are line ends. -/
theorem C4_substr_returns_the_characters_stepped_over (s s1 s2 : fileparser)
    (cs : List (Char × Bool)) (hi : inv s) (h1 : s.set_mark = .ok s1) (h2 : steps s1 cs s2) :
    (∃ q, s2.substr KEEP_NEWLINE = .ok (cs.map Prod.fst, q)) ∧
      ∃ q, s2.substr NONE = .ok ((cs.filter (fun x => !x.2)).map Prod.fst, q) := by
  obtain ⟨b, -, he⟩ := set_mark_eq (inv_loose hi)
  have hi1 := set_mark_inv hi h1
  rw [he] at h1
  injection h1 with h1
  have hm1 : s1.marks = { line := s.line, col := s.col } :: s.marks := by rw [← h1]
  have hl1 : s1.line = s.line := by rw [← h1]
  have hc1 : s1.col = s.col := by rw [← h1]
  have hw := steps_walked h2 _ _ hi1 hm1 (by rw [hl1])
  have hm2 : s2.marks = { line := s.line, col := s.col } :: s.marks := by rw [hw.marks, hm1]
  have hline : ({ line := s.line, col := s.col } : mark_location).line ≤ s2.line := by
    have := hw.line
    simp only
    omega
  have hcol : s2.line = ({ line := s.line, col := s.col } : mark_location).line →
      ({ line := s.line, col := s.col } : mark_location).col ≤ s2.col := by
    intro h
    have := hw.col (by rw [hl1]; exact h)
    simp only
    omega
  have hcl : s2.col ≤ (text_of s2 s2.line).length ∨
      (s2.line = ({ line := s.line, col := s.col } : mark_location).line ∧
        s2.col = ({ line := s.line, col := s.col } : mark_location).col) := by
    rcases hw.col_le with h | h
    · exact Or.inl h
    · right
      rw [hl1, hc1] at h
      exact h
  constructor
  · obtain ⟨q, hq, -⟩ := substr_eq KEEP_NEWLINE (by decide) (by decide) (by decide) hw.inv hm2
      hline hcol hcl
    refine ⟨q, ?_⟩
    rw [hq, hw.kept, hl1, hc1]
    rfl
  · obtain ⟨q, hq, -⟩ := substr_eq NONE (by decide) (by decide) (by decide) hw.inv hm2
      hline hcol hcl
    refine ⟨q, ?_⟩
    rw [hq, hw.dropped, hl1, hc1]
    rfl

end fileparser

namespace fileparser

/-- C4, witness: on the lines "ab", "c", from line 1, column 0: after
`set_mark` and four forward steps over 'a', 'b', the line end and 'c',
`substr(KEEP_NEWLINE)` returns "ab\nc" and `substr()` returns "abc". -/
theorem C4_substr_returns_the_characters_stepped_over_witness :
    (opened ['a', 'b'] [['c']]).set_mark =
        .ok { in_ := istream.of_lines [['c']], cont_char := Char.ofNat 0,
              bufs := [(['a', 'b'], 1)], max_line := 1, min_line := 1, line := 1, col := 0,
              marks := [{ line := 1, col := 0 }] } ∧
      (∃ q, substr
          { in_ := istream.of_lines [], cont_char := Char.ofNat 0,
            bufs := [(['c'], 0), (['a', 'b'], 1)], max_line := 2, min_line := 1, line := 2,
            col := 1, marks := [{ line := 1, col := 0 }] } KEEP_NEWLINE =
        .ok (['a', 'b', '\n', 'c'], q)) ∧
      ∃ q, substr
          { in_ := istream.of_lines [], cont_char := Char.ofNat 0,
            bufs := [(['c'], 0), (['a', 'b'], 1)], max_line := 2, min_line := 1, line := 2,
            col := 1, marks := [{ line := 1, col := 0 }] } NONE =
        .ok (['a', 'b', 'c'], q) :=
  ⟨rfl, C4_substr_returns_the_characters_stepped_over (opened ['a', 'b'] [['c']])
    { in_ := istream.of_lines [['c']], cont_char := Char.ofNat 0,
      bufs := [(['a', 'b'], 1)], max_line := 1, min_line := 1, line := 1, col := 0,
      marks := [{ line := 1, col := 0 }] }
    { in_ := istream.of_lines [], cont_char := Char.ofNat 0,
      bufs := [(['c'], 0), (['a', 'b'], 1)], max_line := 2, min_line := 1, line := 2,
      col := 1, marks := [{ line := 1, col := 0 }] }
    [('a', false), ('b', false), ('\n', true), ('c', false)]
    (inv_opened ['a', 'b'] [['c']]) rfl
    (@steps.cons _ _ _ 'a' ['a', 'b'] _ rfl rfl rfl
      (@steps.cons _ _ _ 'b' ['a', 'b'] _ rfl rfl rfl
        (@steps.cons _ _ _ '\n' ['a', 'b'] _ rfl rfl rfl
          (@steps.cons _ _ _ 'c' ['c'] _ rfl rfl rfl (steps.nil _)))))⟩

/-! #### Matching a string forwards -/

theorem sim_get_char {a b : fileparser} (h : sim a b) : b.get_char = a.get_char := by
  obtain ⟨ba, hba⟩ := loose_BUF (inv_loose h.inv_a)
  obtain ⟨bb, hbb⟩ := loose_BUF (inv_loose h.inv_b)
  have ht := h.text a.line (le_refl _) h.inv_a.le_max
  rw [text_of_eq h.inv_a.le_max hba, ← h.line, text_of_eq h.inv_b.le_max hbb] at ht
  rw [get_char_eq h.inv_a.le_max hba, get_char_eq h.inv_b.le_max hbb, ht, h.col]

theorem sim_step {a b a1 : fileparser} (h : sim a b) (ha : a.advance_char = .ok (true, a1)) :
    ∃ b1, b.advance_char = .ok (true, b1) ∧ sim a1 b1 ∧ b1.marks = b.marks := by
  have hia := h.inv_a
  have hib := h.inv_b
  obtain ⟨ba, hba, hea⟩ := advance_char_eq (inv_loose hia)
  obtain ⟨bb, hbb, heb⟩ := advance_char_eq (inv_loose hib)
  have ht := h.text a.line (le_refl _) hia.le_max
  rw [text_of_eq hia.le_max hba, ← h.line, text_of_eq hib.le_max hbb] at ht
  have hbl := h.line
  have hbc := h.col
  have hbm := h.max_line
  have h1 := hia.min_le
  have h2 := hib.min_le
  rw [hea] at ha
  rw [heb]
  split at ha
  · rename_i hlt
    rw [if_pos (by rw [ht, hbc]; exact hlt)]
    injection ha with ha
    injection ha with _ ha
    subst ha
    refine ⟨_, rfl, ⟨h.line, ?_, h.max_line, h.in_, h.cont_char,
      inv_for_of_eq hia rfl rfl rfl rfl, inv_for_of_eq hib rfl rfl rfl rfl, h.text⟩, rfl⟩
    simp only [hbc]
  · rename_i hge
    rw [if_neg (by rw [ht, hbc]; exact hge)]
    split at ha
    · rename_i hlt
      rw [if_pos (by rw [hbl, hbm]; exact hlt)]
      injection ha with ha
      injection ha with _ ha
      subst ha
      refine ⟨_, rfl, ⟨?_, rfl, h.max_line, h.in_, h.cont_char,
        ⟨?_, ?_, hia.size, hia.marks_in, hia.counts⟩,
        ⟨?_, ?_, hib.size, hib.marks_in, hib.counts⟩, ?_⟩, rfl⟩
      · simp only [hbl]
      · simp only; omega
      · simp only; omega
      · simp only; omega
      · simp only; omega
      · intro L hL1 hL2
        simp only at hL1 hL2
        exact h.text L (by omega) hL2
    · rename_i hnlt
      rw [if_neg (by rw [hbl, hbm]; exact hnlt)]
      have hmaxa : a.line = a.max_line := by
        have := hia.le_max
        omega
      have hmaxb : b.line = b.max_line := by rw [h.line, h.max_line, hmaxa]
      cases hg : getline a.in_ with
      | mk r i =>
        cases r with
        | none =>
          rw [get_line_none hg] at ha
          injection ha with ha
          injection ha with ha _
          exact absurd ha (by simp)
        | some t =>
          obtain ⟨qa, hqa, hra⟩ := get_line_some hia hmaxa hg
          obtain ⟨qb, hqb, hrb⟩ := get_line_some hib hmaxb (by rw [h.in_]; exact hg)
          rw [hqa] at ha
          injection ha with ha
          injection ha with hret ha
          subst ha
          rw [hqb, h.cont_char, hret]
          refine ⟨qb, rfl, ⟨by rw [hrb.line, hra.line, h.line],
            by rw [hrb.col, hra.col], by rw [hrb.max_line, hra.max_line, h.max_line],
            by rw [hrb.in_, hra.in_, h.cont_char], by rw [hrb.cont_char, hra.cont_char, h.cont_char],
            hra.inv, hrb.inv, ?_⟩, hrb.marks⟩
          intro L hL1 hL2
          rw [hra.line] at hL1
          rw [hra.max_line] at hL2
          have hL : L = a.max_line + 1 := by omega
          obtain ⟨ca, hca⟩ := hra.new
          obtain ⟨cb, hcb⟩ := hrb.new
          rw [h.cont_char] at hcb
          have e1 : qa.bufs[qa.max_line - L]? = qa.bufs[0]? := by
            rw [hra.max_line, hL, Nat.sub_self]
          have e2 : qb.bufs[qb.max_line - L]? = qb.bufs[0]? := by
            rw [hrb.max_line, h.max_line, hL, Nat.sub_self]
          rw [text_of_eq (by rw [hrb.max_line, h.max_line]; omega) (e2.trans hcb),
            text_of_eq (by rw [hra.max_line]; omega) (e1.trans hca)]

theorem advance_char_opts (p : fileparser) (opts : Nat) (h1 : has opts backwards = false)
    (h2 : has opts single_line = false) : p.advance_char opts = p.advance_char := by
  have h3 : has 0 backwards = false := by decide
  have h4 : has 0 single_line = false := by decide
  simp only [advance_char, h1, h2, h3, h4]

/-- The forward loop of `match_impl`, run on a cursor that reads what the
cursor `a` reads, compares the string with the characters the steps of `a`
run over, and follows these steps as long as the characters agree. The steps
either cover the whole string or run into a character that differs. -/
theorem match_forward_sim (opts : Nat) (h1 : has opts backwards = false)
    (h2 : has opts single_line = false) {a aq : fileparser} {cs : List (Char × Bool)}
    (hs : steps a cs aq) :
    ∀ (str : Str) (b : fileparser), sim a b →
      (cs.length = str.length ∨
        (cs.length ≤ str.length ∧ cs.map Prod.fst ≠ str.take cs.length)) →
      ∃ bq, match_forward opts str b = .ok (decide (cs.map Prod.fst = str), bq) ∧
        bq.marks = b.marks ∧ inv bq ∧
        (cs.map Prod.fst = str → bq.line = aq.line ∧ bq.col = aq.col) := by
  induction hs with
  | nil a =>
    intro str b h hlen
    cases str with
    | nil => exact ⟨b, rfl, rfl, h.inv_b, fun _ => ⟨h.line, h.col⟩⟩
    | cons c rest => simp at hlen
  | @cons a a1 ar ch buf cs hget _ hadv _ ih =>
    intro str b h hlen
    cases str with
    | nil => simp at hlen
    | cons c rest =>
      simp only [match_forward, sim_get_char h, hget, ok_bind, List.map_cons]
      by_cases hc : c = ch
      · subst hc
        obtain ⟨b1, hb1, hs1, hm1⟩ := sim_step h hadv
        have hlen1 : cs.length = rest.length ∨
            (cs.length ≤ rest.length ∧ cs.map Prod.fst ≠ rest.take cs.length) := by
          rcases hlen with hlen | hlen
          · left
            simpa using hlen
          · right
            refine ⟨by simpa using hlen.1, ?_⟩
            intro he
            apply hlen.2
            simp [he]
        obtain ⟨bq, hq, hqm, hqi, hqp⟩ := ih rest b1 hs1 hlen1
        simp only [bne_self_eq_false, Bool.false_eq_true, if_false,
          advance_char_opts b opts h1 h2, hb1, ok_bind]
        refine ⟨bq, ?_, hqm.trans hm1, hqi, ?_⟩
        · rw [hq]
          simp
        · intro he
          exact hqp (List.cons_eq_cons.1 he).2
      · have hne : (c != ch) = true := by simpa using hc
        simp only [hne, if_true]
        refine ⟨b, ?_, rfl, h.inv_b, ?_⟩
        · have : ¬ (ch :: List.map Prod.fst cs = c :: rest) := by
            intro he
            exact hc (List.cons_eq_cons.1 he).1.symm
          simp [this, pure, Except.pure]
        · intro he
          exact absurd (List.cons_eq_cons.1 he).1.symm hc

/-- After `revert_to_mark(remove_mark)` on a cursor that satisfies the
invariant the cursor stands at the mark, which is removed. -/
theorem revert_remove_inv {p : fileparser} {m : mark_location} {ms : List mark_location}
    (h : inv p) (hm : p.marks = m :: ms) :
    ∃ q, p.revert_to_mark remove_mark = .ok q ∧ inv q ∧ q.marks = ms ∧ q.line = m.line ∧
      q.col = m.col := by
  rw [revert_remove_eq hm]
  obtain ⟨q, hq, hi, hqm, hql, hqc, -⟩ :=
    unset_mark_inv (p := { p with line := m.line, col := m.col }) (inv_revert h hm) hm
  exact ⟨q, hq, hi, hqm, hql, hqc⟩

/-- A character read at the end of a line is the '\n' of the line end. -/
theorem steps_line_end {p q : fileparser} {cs : List (Char × Bool)} (hs : steps p cs q) :
    inv p → ∀ x ∈ cs, x.2 = true → x.1 = '\n' := by
  induction hs with
  | nil p => intro _ x hx; simp at hx
  | @cons p p1 r ch buf cs hget hbuf hadv _ ih =>
    intro hi x hx hfl
    obtain ⟨b, hb, hst⟩ := forward_step hi hadv
    simp only [List.mem_cons] at hx
    rcases hx with rfl | hx
    · rw [BUF_eq hi.le_max hb] at hbuf
      injection hbuf with hbuf
      rw [get_char_eq hi.le_max hb] at hget
      injection hget with hget
      simp only [decide_eq_true_eq] at hfl
      rw [← hbuf] at hfl
      rw [← hget, List.getElem?_eq_none hfl]
      rfl
    · exact ih hst.inv x hx hfl

/-- Forward `match(str)` against the characters that forward steps run over. -/
theorem match_str_steps (p q : fileparser) (str : Str) (opts : Nat) (cs : List (Char × Bool))
    (hi : inv p) (hb : has opts backwards = false) (hsl : has opts single_line = false)
    (hs : steps p cs q)
    (hlen : cs.length = str.length ∨
      (cs.length ≤ str.length ∧ cs.map Prod.fst ≠ str.take cs.length)) :
    ∃ p1, p.match_str str opts = .ok (decide (cs.map Prod.fst = str), p1) ∧
      p1.marks = p.marks ∧
      ((has opts consume = true ∧ cs.map Prod.fst = str) → p1.line = q.line ∧ p1.col = q.col) ∧
      (¬ (has opts consume = true ∧ cs.map Prod.fst = str) →
        p1.line = p.line ∧ p1.col = p.col) := by
  obtain ⟨b, hbuf, he⟩ := set_mark_eq (inv_loose hi)
  have hi0 := set_mark_inv hi he
  have hsim : sim p
      { p with
        marks := { line := p.line, col := p.col } :: p.marks,
        bufs := p.bufs.set (p.max_line - p.line) (b.1, b.2 + 1) } := by
    refine ⟨rfl, rfl, rfl, rfl, rfl, hi, hi0, ?_⟩
    intro L _ hL2
    simp only [text_of, size_t_sub_of_le hL2, List.getElem?_set]
    by_cases hidx : p.max_line - p.line = p.max_line - L
    · rw [if_pos hidx, if_pos (lt_length_of_getElem? hbuf), ← hidx, hbuf]
    · rw [if_neg hidx]
  obtain ⟨bq, hq, hqm, hqi, hqp⟩ := match_forward_sim opts hb hsl hs str _ hsim hlen
  simp only at hqm
  have hsw : match_switch
      { p with
        marks := { line := p.line, col := p.col } :: p.marks,
        bufs := p.bufs.set (p.max_line - p.line) (b.1, b.2 + 1) } str opts .STRING =
      .ok (decide (cs.map Prod.fst = str), bq) := by
    simp only [match_switch, hb, Bool.false_eq_true, if_false]
    exact hq
  have hmatch : p.match_str str opts =
      match_end bq (decide (cs.map Prod.fst = str)) opts [] := by
    simp only [match_str, match_impl, he, ok_bind, hsw]
  rw [hmatch]
  by_cases heq : cs.map Prod.fst = str
  · by_cases hcons : has opts consume = true
    · obtain ⟨r, hr, -, hrm, hrl, hrc, -⟩ := unset_mark_inv hqi hqm
      refine ⟨r, ?_, hrm, fun _ => ?_, fun hn => absurd ⟨hcons, heq⟩ hn⟩
      · simp only [match_end, heq, decide_True, if_true, hcons, hr, ok_bind]
        rfl
      · rw [hrl, hrc]
        exact hqp heq
    · obtain ⟨r, hr, -, hrm, hrl, hrc⟩ := revert_remove_inv hqi hqm
      refine ⟨r, ?_, hrm, fun hc => absurd hc.1 hcons, fun _ => ⟨hrl, hrc⟩⟩
      simp only [match_end, heq, decide_True, if_true, hcons, Bool.false_eq_true, if_false, hr,
        ok_bind]
      rfl
  · obtain ⟨r, hr, -, hrm, hrl, hrc⟩ := revert_remove_inv hqi hqm
    refine ⟨r, ?_, hrm, fun hc => absurd hc.2 heq, fun _ => ⟨hrl, hrc⟩⟩
    simp only [match_end, heq, decide_False, Bool.false_eq_true, if_false, List.isEmpty_nil,
      if_true, hr, ok_bind]
    rfl

/-- C5: forward `match(str)`, called with the default options or `consume`
(options that have neither `backwards` nor `single_line`), on a cursor that
satisfies the invariant of the line window. Let `cs` be the characters that
forward `advance_char()` calls which return true run over from the cursor,
as `get_char()` returns them (a line end reads as one '\n'), and let the
comparison not run past the end of the input: `cs` has `len(str)` characters,
or fewer but with one that differs from `str`. (1) Then `match` returns true
iff `cs` equals `str`; it leaves the stack of marks as it was; with the
`consume` option and a match the cursor ends where the `len(str)` steps lead,
otherwise where it was. (2) Hence, when these characters run over a line end
and `str` has no '\n', `match` returns false. (3) On the lines "foo", "bar",
from column 0, `match("foobar")` is false and `match("foo\nbar")` is true. -/
theorem C5_forward_match_compares_the_next_characters :
    (∀ (p q : fileparser) (str : Str) (opts : Nat) (cs : List (Char × Bool)),
      inv p → has opts backwards = false → has opts single_line = false →
      steps p cs q →
      (cs.length = str.length ∨
        (cs.length ≤ str.length ∧ cs.map Prod.fst ≠ str.take cs.length)) →
      ∃ p1, p.match_str str opts = .ok (decide (cs.map Prod.fst = str), p1) ∧
        p1.marks = p.marks ∧
        ((has opts consume = true ∧ cs.map Prod.fst = str) → p1.line = q.line ∧ p1.col = q.col) ∧
        (¬ (has opts consume = true ∧ cs.map Prod.fst = str) →
          p1.line = p.line ∧ p1.col = p.col)) ∧
    (∀ (p q : fileparser) (str : Str) (opts : Nat) (cs : List (Char × Bool)),
      inv p → has opts backwards = false → has opts single_line = false →
      steps p cs q →
      (cs.length = str.length ∨
        (cs.length ≤ str.length ∧ cs.map Prod.fst ≠ str.take cs.length)) →
      (∃ x ∈ cs, x.2 = true) → '\n' ∉ str →
      ∃ p1, p.match_str str opts = .ok (false, p1) ∧ p1.marks = p.marks ∧
        p1.line = p.line ∧ p1.col = p.col) ∧
    (of_stream (istream.of_lines [['f', 'o', 'o'], ['b', 'a', 'r']]) =
        .ok (opened ['f', 'o', 'o'] [['b', 'a', 'r']]) ∧
      (∃ p1, (opened ['f', 'o', 'o'] [['b', 'a', 'r']]).match_str ['f', 'o', 'o', 'b', 'a', 'r'] =
        .ok (false, p1)) ∧
      ∃ p1, (opened ['f', 'o', 'o'] [['b', 'a', 'r']]).match_str
          ['f', 'o', 'o', '\n', 'b', 'a', 'r'] = .ok (true, p1)) := by
  refine ⟨match_str_steps, ?_, rfl, ⟨_, rfl⟩, ⟨_, rfl⟩⟩
  intro p q str opts cs hi hb hsl hs hlen hx hstr
  obtain ⟨p1, h1, h2, -, h4⟩ := match_str_steps p q str opts cs hi hb hsl hs hlen
  have hne : cs.map Prod.fst ≠ str := by
    intro he
    obtain ⟨x, hxm, hxf⟩ := hx
    apply hstr
    rw [← he, ← steps_line_end hs hi x hxm hxf]
    exact List.mem_map_of_mem Prod.fst hxm
  have hd : decide (cs.map Prod.fst = str) = false := by simpa using hne
  rw [hd] at h1
  obtain ⟨h5, h6⟩ := h4 (fun hc => hne hc.2)
  exact ⟨p1, h1, h2, h5, h6⟩

/-- C5, witness: `match("ab\nc", consume)` on the lines "ab", "c", from line
1, column 0, where four forward steps lead over 'a', 'b', the line end and 'c'
to line 2, column 1. -/
theorem C5_forward_match_compares_the_next_characters_witness :
    ∃ p1, (opened ['a', 'b'] [['c']]).match_str ['a', 'b', '\n', 'c'] consume = .ok (true, p1) ∧
      p1.marks = [] ∧ (p1.line, p1.col) = (2, 1) := by
  obtain ⟨p1, h1, h2, h3, -⟩ := C5_forward_match_compares_the_next_characters.1
    (opened ['a', 'b'] [['c']])
    { in_ := istream.of_lines [], cont_char := Char.ofNat 0,
      bufs := [(['c'], 0)], max_line := 2, min_line := 2, line := 2,
      col := 1, marks := [] }
    ['a', 'b', '\n', 'c'] consume
    [('a', false), ('b', false), ('\n', true), ('c', false)]
    (inv_opened ['a', 'b'] [['c']]) (by decide) (by decide)
    (@steps.cons _ _ _ 'a' ['a', 'b'] _ rfl rfl rfl
      (@steps.cons _ _ _ 'b' ['a', 'b'] _ rfl rfl rfl
        (@steps.cons _ _ _ '\n' ['a', 'b'] _ rfl rfl rfl
          (@steps.cons _ _ _ 'c' ['c'] _ rfl rfl rfl (steps.nil _))))) (Or.inl rfl)
  have h4 := h3 ⟨by decide, by decide⟩
  exact ⟨p1, h1, h2, by rw [h4.1, h4.2]⟩

end fileparser

namespace regex

/-- C11: `change_match` on a greedy node that is not `COMPLEX`, whose latest
attempt `att` lies on the rest `rest` of the stack (an attempt of such a node
records no alternative). When `att.rep <= min_reps` it returns false and leaves
`len`, the node and the cursor as they were. When `att.rep > min_reps` it
returns true, the stack of the node is `rest`, nothing else of the node and
nothing of the cursor has changed, and `len` is `len - att.len` in `size_t`
arithmetic, which is the difference when `att.len <= len`. -/
theorem C11_greedy_release (c : node_calls) (fuel : Nat) (r : regex) (p : fileparser)
    (len : Nat) (att : attempt) (rest : List attempt)
    (hatt : r.attempts = att :: rest) (hpol : r.modifier &&& BACKTRACK_MODIFIER = GREEDY)
    (hty : r.type ≠ .COMPLEX) (halt : att.alt = none) :
    (att.rep ≤ r.min_reps → change_match c fuel r p len = .ok ⟨false, len, r, p⟩) ∧
    (r.min_reps < att.rep →
      change_match c fuel r p len =
        .ok ⟨true, size_t_sub len att.len, r.set_attempts rest, p⟩ ∧
      (att.len ≤ len → size_t_sub len att.len = len - att.len)) := by
  have h1 : ¬ GREEDY = POSSESSIVE := by decide
  have h2 : ¬ GREEDY = RELUCTANT := by decide
  constructor
  · intro h
    simp only [change_match, hatt, hpol, h1, h2, if_false, if_true]
    rw [if_pos h]
  · intro h
    refine ⟨?_, fun hle => by simp [size_t_sub, hle]⟩
    simp only [change_match, hatt, hpol, h1, h2, if_false, if_true]
    rw [if_neg (by omega), if_neg hty]
    simp only [pop_attempt, hatt, destroy_attempt, halt, ok_bind, pure_bind_res]
    rfl

/-- C11, witness: the greedy literal `a{0,3}` after three repetitions, the
entry of `start_attempt` below them: `change_match` called with the length 3
pops the attempt of the third repetition and returns true with the length 2. -/
theorem C11_greedy_release_witness :
    (0 : Nat) < 3 ∧
      change_match (calls 0) 0
          (mk .LITERAL ['a'] [] 0 3 GREEDY
            [⟨1, 3, none⟩, ⟨1, 2, none⟩, ⟨1, 1, none⟩, ⟨0, 0, none⟩] 0)
          (fileparser.opened ['a', 'a', 'a', 'a'] []) 3 =
        .ok ⟨true, 2, mk .LITERAL ['a'] [] 0 3 GREEDY [⟨1, 2, none⟩, ⟨1, 1, none⟩, ⟨0, 0, none⟩] 0,
          fileparser.opened ['a', 'a', 'a', 'a'] []⟩ :=
  ⟨by decide,
    ((C11_greedy_release (calls 0) 0
      (mk .LITERAL ['a'] [] 0 3 GREEDY [⟨1, 3, none⟩, ⟨1, 2, none⟩, ⟨1, 1, none⟩, ⟨0, 0, none⟩] 0)
      (fileparser.opened ['a', 'a', 'a', 'a'] []) 3 ⟨1, 3, none⟩
      [⟨1, 2, none⟩, ⟨1, 1, none⟩, ⟨0, 0, none⟩] rfl (by decide) (by decide) rfl).2
        (by decide)).1⟩

/-- C12 (what the code does): the greedy literal `a{0,3}` on the line "aaaa",
with the entry of `start_attempt` on its stack. `match` performs three
repetitions, each of which leaves the mark it set on the stack of the cursor.
`change_match` then returns true with the length 2 and pops the attempt of the
third repetition, but the three marks are still on the stack of the cursor;
`revert_to_mark(remove_mark)`, which `clear_attempt` calls after each
`pop_attempt`, leaves two. -/
theorem C12_greedy_release_keeps_the_mark :
    ∃ o o1 p2,
      do_match (calls 0) 0 (literal ['a'] 0 3 GREEDY).start_attempt
        (fileparser.opened ['a', 'a', 'a', 'a'] []) = .ok o ∧
      o.ret = true ∧ o.len = 3 ∧
      o.self.attempts = [⟨1, 3, none⟩, ⟨1, 2, none⟩, ⟨1, 1, none⟩, ⟨0, 0, none⟩] ∧
      o.parser.marks = [⟨1, 0⟩, ⟨1, 0⟩, ⟨1, 0⟩] ∧
      change_match (calls 0) 0 o.self o.parser o.len = .ok o1 ∧
      o1.ret = true ∧ o1.len = 2 ∧
      o1.self.attempts = [⟨1, 2, none⟩, ⟨1, 1, none⟩, ⟨0, 0, none⟩] ∧
      (o1.parser.line, o1.parser.col) = (1, 0) ∧
      o1.parser.marks = [⟨1, 0⟩, ⟨1, 0⟩, ⟨1, 0⟩] ∧
      o.parser.revert_to_mark fileparser.remove_mark = .ok p2 ∧
      p2.marks = [⟨1, 0⟩, ⟨1, 0⟩] :=
  ⟨_, _, _, rfl, rfl, rfl, rfl, rfl, rfl, rfl, rfl, rfl, rfl, rfl, rfl, rfl⟩

/-- C13: `change_match` on a possessive node whose stack holds an attempt
(the function starts with `attempts.top()`): it returns false, and `len`, the
node with its stack of attempts, and the cursor are the ones it was called
with. -/
theorem C13_possessive_change_match (c : node_calls) (fuel : Nat) (r : regex) (p : fileparser)
    (len : Nat) (hatt : r.attempts ≠ [])
    (hpol : r.modifier &&& BACKTRACK_MODIFIER = POSSESSIVE) :
    change_match c fuel r p len = .ok ⟨false, len, r, p⟩ := by
  cases hr : r.attempts with
  | nil => exact absurd hr hatt
  | cons att rest => simp only [change_match, hr, hpol, if_true]

/-- C13, witness: the possessive literal `a{0,3}` on the line "aaaa" after its
`match`, which made three repetitions: `change_match` returns false and leaves
the length 3, the three attempts and the cursor with its three marks. -/
theorem C13_possessive_change_match_witness :
    ∃ o, do_match (calls 0) 0 (literal ['a'] 0 3 POSSESSIVE)
        (fileparser.opened ['a', 'a', 'a', 'a'] []) = .ok o ∧
      o.ret = true ∧ o.len = 3 ∧ o.self.attempts.length = 3 ∧ o.parser.marks.length = 3 ∧
      change_match (calls 0) 0 o.self o.parser o.len = .ok ⟨false, o.len, o.self, o.parser⟩ := by
  have h : ∃ o, do_match (calls 0) 0 (literal ['a'] 0 3 POSSESSIVE)
      (fileparser.opened ['a', 'a', 'a', 'a'] []) = .ok o ∧
      o.ret = true ∧ o.len = 3 ∧ o.self.attempts.length = 3 ∧ o.parser.marks.length = 3 ∧
      o.self.attempts ≠ [] ∧ o.self.modifier &&& BACKTRACK_MODIFIER = POSSESSIVE :=
    ⟨_, rfl, rfl, rfl, rfl, rfl, by decide, by decide⟩
  obtain ⟨o, h1, h2, h3, h4, h5, h6, h7⟩ := h
  exact ⟨o, h1, h2, h3, h4, h5, C13_possessive_change_match (calls 0) 0 o.self o.parser o.len h6 h7⟩

end regex

namespace regex

/-- C14 (what the code does). (1) The children A = greedy `a{0,3}` and
B = literal `a` on the line "aaa": `match_sequence` returns true with the
length 4. The three repetitions of A leave the cursor at column 0 (C1), where
B matches the first character once more; A is never asked to change.
(2) The children A = greedy `a{0,3}` and B = literal `b` on the line "ab", both
with the entry of `start_attempt` on their stacks. A matches with length 3, B
fails, and `change_match` of A returns true with the length 2. The loop then
goes on at A, not at B: whatever the bound on the iterations, the state of
the loop at B before the failure leads to the state at the position 0 with
the length 2. There `A.match` runs again and adds 3 to the length before B is
tried a second time; B fails again, and its `clear_attempt` pops an empty
stack. -/
theorem C14_sequence_resumes_at_changed_child :
    (∃ o, match_sequence (calls 1) 3 (fileparser.opened ['a', 'a', 'a'] []) 0
          [literal ['a'] 0 3 GREEDY, literal ['a'] 1 1 GREEDY] = .ok o ∧
        o.ret = true ∧ o.len = 4 ∧ (o.parser.line, o.parser.col) = (1, 0)) ∧
    (∃ oA oB oC,
      do_match (calls 0) 0 (literal ['a'] 0 3 GREEDY).start_attempt
        (fileparser.opened ['a', 'b'] []) = .ok oA ∧ oA.ret = true ∧ oA.len = 3 ∧
      do_match (calls 0) 0 (literal ['b'] 1 1 GREEDY).start_attempt oA.parser = .ok oB ∧
      oB.ret = false ∧
      change_match (calls 0) 0 oA.self oB.parser 3 = .ok oC ∧ oC.ret = true ∧ oC.len = 2 ∧
      (∀ fuel, match_sequence_loop (calls 1) (fuel + 1) 1
          [oA.self, (literal ['b'] 1 1 GREEDY).start_attempt] oA.parser 3 =
        match_sequence_loop (calls 1) fuel 0 [oC.self, oB.self] oC.parser 2) ∧
      ∃ oD, do_match (calls 0) 0 oC.self oC.parser = .ok oD ∧ oD.ret = true ∧ oD.len = 3 ∧
        do_match (calls 0) 0 oB.self oD.parser = .error .undefined_behaviour ∧
        match_sequence (calls 1) 5 (fileparser.opened ['a', 'b'] []) 0
          [(literal ['a'] 0 3 GREEDY).start_attempt, (literal ['b'] 1 1 GREEDY).start_attempt] =
            .error .undefined_behaviour) :=
  ⟨⟨_, rfl, rfl, rfl, rfl⟩,
    ⟨_, _, _, rfl, rfl, rfl, rfl, rfl, rfl, rfl, rfl, fun _ => rfl, _, rfl, rfl, rfl, rfl, rfl⟩⟩

/-- C15 (what the code does): the alternation `(ab|a)` on the line "ab".
`match_alternative`, called for the repetition 1 from the first branch on,
returns true with `len = 2` and pushes an attempt for the branch 0; the length
this attempt records is the value of `sub_len`, which is not the length 2 of
the branch: 0 on the node as built, 7 on the same node with `sub_len = 7`. -/
theorem C15_alternative_attempt_records_sub_len :
    (∃ o, match_alternative (calls 1) 2
          (complex [[literal ['a', 'b'] 1 1 GREEDY], [literal ['a'] 1 1 GREEDY]] 1 1 GREEDY)
          (fileparser.opened ['a', 'b'] []) 0 1 0 = .ok o ∧
        o.ret = true ∧ o.len = 2 ∧ o.self.attempts = [⟨0, 1, some 0⟩]) ∧
    (∃ o, match_alternative (calls 1) 2
          ((complex [[literal ['a', 'b'] 1 1 GREEDY], [literal ['a'] 1 1 GREEDY]] 1 1
            GREEDY).set_sub_len 7)
          (fileparser.opened ['a', 'b'] []) 0 1 0 = .ok o ∧
        o.ret = true ∧ o.len = 2 ∧ o.self.attempts = [⟨7, 1, some 0⟩]) :=
  ⟨⟨_, rfl, rfl, rfl, rfl⟩, ⟨_, rfl, rfl, rfl, rfl⟩⟩

end regex

namespace regex

/-- C16 (what the code does). (1) The sequence of `(a|ab)` and the literal `c`
(with the entry of `start_attempt`, which the failing `match` of `c` pops) on
the line "abc": the alternation matches its branch `a`, `c` fails, and
`change_match` of the alternation, whose attempt has the repetition index
1 = `min_reps`, returns false at once, so `match_sequence` returns false.
(2) The alternation of the branches [A] and [`a`] with the bounds `{0,1}` on
the line "a", where A is the greedy `a{0,1}`: `match` takes the branch 0 with
the length 1, and A, asked to change, would return true. `change_match` of the
alternation does not ask A, the first child of the branch: the loop of
`change_submatch` over `[A]` ends at once, the attempts of A are cleared and
the next branch is taken. -/
theorem C16_change_submatch_skips_the_first_child :
    (∃ o, match_sequence (calls 3) 5 (fileparser.opened ['a', 'b', 'c'] []) 0
          [complex [[literal ['a'] 1 1 GREEDY], [literal ['a', 'b'] 1 1 GREEDY]] 1 1 GREEDY,
            (literal ['c'] 1 1 GREEDY).start_attempt] = .ok o ∧
        o.ret = false) ∧
    (∃ o A oA o1,
      do_match (calls 1) 2
        (complex [[(literal ['a'] 0 1 GREEDY).start_attempt], [literal ['a'] 1 1 GREEDY]] 0 1 GREEDY)
        (fileparser.opened ['a'] []) = .ok o ∧
      o.ret = true ∧ o.len = 1 ∧ o.self.attempts = [⟨0, 1, some 0⟩] ∧
      o.self.alternatives[0]? = some [A] ∧ A.attempts = [⟨1, 1, none⟩, ⟨0, 0, none⟩] ∧
      change_match (calls 0) 0 A o.parser 1 = .ok oA ∧ oA.ret = true ∧ oA.len = 0 ∧
      (∀ sub_len len, change_submatch_loop (calls 1) 2 ([A].length - 1) [A] sub_len o.parser len =
        .ok (sub_len, ⟨false, len, [A], o.parser⟩)) ∧
      change_match (calls 1) 2 o.self o.parser o.len = .ok o1 ∧
      o1.ret = true ∧ o1.self.attempts = [⟨0, 1, some 1⟩] ∧
      o1.self.alternatives[0]? = some [literal ['a'] 0 1 GREEDY]) :=
  ⟨⟨_, rfl, rfl⟩,
    ⟨_, _, _, _, rfl, rfl, rfl, rfl, rfl, rfl, rfl, rfl, rfl, fun _ _ => rfl, rfl, rfl, rfl, rfl⟩⟩

/-- C17: the alternation `(ab|a)` with the bounds `{1,1}`, its branches the
literals `ab` and `a`, on the line "ab": `match` returns true with the length
2 and the attempt on the stack of the node records the branch 0 (`ab`) and
the repetition 1; `change_match` then returns false and leaves the length,
the node and the cursor as they were. -/
theorem C17_alternation_offers_no_second_match :
    ∃ o, do_match (calls 1) 2
        (complex [[literal ['a', 'b'] 1 1 GREEDY], [literal ['a'] 1 1 GREEDY]] 1 1 GREEDY)
        (fileparser.opened ['a', 'b'] []) = .ok o ∧
      o.ret = true ∧ o.len = 2 ∧
      o.self.attempts.map (fun a => (a.rep, a.alt)) = [(1, some 0)] ∧
      change_match (calls 1) 2 o.self o.parser o.len = .ok ⟨false, 2, o.self, o.parser⟩ :=
  ⟨_, rfl, rfl, rfl, rfl, rfl⟩

/-- C18 (what the code does). (1) The literal `b` with the modifier
`LOOKAHEAD` on the line "b": `match_single` returns true and leaves the cursor
at line 1, column 0, where it stood, but sets `len` to 1, the length of the
literal, and `match` returns this length. (2) The sequence of the literal `a`
and the lookahead for `b` (with the entry of `start_attempt`) on the line
"ab": `match_sequence` returns false, because the literal `a` leaves the
cursor at column 0 (C1), where the lookahead reads `a`. -/
theorem C18_lookahead_reports_the_length :
    (∃ o o1, match_single (calls 0) 0 (literal ['b'] 1 1 (GREEDY ||| LOOKAHEAD))
          (fileparser.opened ['b'] []) 1 0 = .ok o ∧
        o.ret = true ∧ (o.parser.line, o.parser.col) = (1, 0) ∧ o.len = 1 ∧
        do_match (calls 0) 0 (literal ['b'] 1 1 (GREEDY ||| LOOKAHEAD))
          (fileparser.opened ['b'] []) = .ok o1 ∧ o1.ret = true ∧ o1.len = 1) ∧
    (∃ o, match_sequence (calls 1) 3 (fileparser.opened ['a', 'b'] []) 0
          [literal ['a'] 1 1 GREEDY, (literal ['b'] 1 1 (GREEDY ||| LOOKAHEAD)).start_attempt] =
          .ok o ∧
        o.ret = false ∧ (o.parser.line, o.parser.col) = (1, 0)) :=
  ⟨⟨_, _, rfl, rfl, rfl, rfl, rfl, rfl, rfl⟩, ⟨_, rfl, rfl, rfl⟩⟩

/-- C19 (what the code does): the literal `b` with the modifier
`NEG_LOOKAHEAD`. On the line "b", where the literal matches, `match_single`
returns true; on the line "a", where it does not match, `match_single`
returns false. -/
theorem C19_negative_lookahead_is_not_negated :
    (∃ m p1, (fileparser.opened ['b'] []).match_str ['b'] = .ok (m, p1) ∧ m = true) ∧
    (∃ o, match_single (calls 0) 0 (literal ['b'] 1 1 (GREEDY ||| NEG_LOOKAHEAD))
          (fileparser.opened ['b'] []) 1 0 = .ok o ∧ o.ret = true) ∧
    (∃ m p1, (fileparser.opened ['a'] []).match_str ['b'] = .ok (m, p1) ∧ m = false) ∧
    (∃ o, match_single (calls 0) 0 (literal ['b'] 1 1 (GREEDY ||| NEG_LOOKAHEAD))
          (fileparser.opened ['a'] []) 1 0 = .ok o ∧ o.ret = false) :=
  ⟨⟨_, _, rfl, rfl⟩, ⟨_, rfl, rfl⟩, ⟨_, _, rfl, rfl⟩, ⟨_, rfl, rfl⟩⟩

end regex

namespace fileparser

/-! #### The marks and the position along the calls -/

theorem clear_loop_pos : ∀ (n : Nat) (p q : fileparser), clear_loop n p = .ok q →
    q.marks = p.marks ∧ q.line = p.line ∧ q.col = p.col := by
  intro n
  induction n with
  | zero =>
    intro p q h
    simp only [clear_loop, Except.ok.injEq] at h
    subst h; exact ⟨rfl, rfl, rfl⟩
  | succ n ih =>
    intro p q h
    simp only [clear_loop] at h
    split at h
    · split at h
      · simp at h
      · split at h
        · have h2 := ih _ _ h
          simpa using h2
        · simp only [Except.ok.injEq] at h
          subst h; exact ⟨rfl, rfl, rfl⟩
    · simp only [Except.ok.injEq] at h
      subst h; exact ⟨rfl, rfl, rfl⟩

theorem set_BUF_marks {p q : fileparser} {s : Str} (h : p.set_BUF s = .ok q) :
    q.marks = p.marks := by
  unfold set_BUF at h
  obtain ⟨b, -, h⟩ := bind_eq_ok.1 h
  obtain ⟨bufs, -, h⟩ := bind_eq_ok.1 h
  rw [pure_eq_ok] at h
  subst h; rfl

theorem continuation_marks (err : Str) : ∀ (n : Nat) (p : fileparser) (b : Bool) (q : fileparser),
    continuation err n p = .ok (b, q) → q.marks = p.marks := by
  intro n
  induction n with
  | zero => intro p b q h; simp [continuation] at h
  | succ n ih =>
    intro p b q h
    simp only [continuation] at h
    obtain ⟨buf, -, h⟩ := bind_eq_ok.1 h
    split at h
    · cases hgl : getline p.in_ with
      | mk r i =>
        rw [hgl] at h
        cases r with
        | none =>
          simp only at h
          split at h
          · simp at h
          · rw [pure_eq_ok] at h
            injection h with _ h
            subst h
            rfl
        | some t =>
          simp only at h
          obtain ⟨p1, hp1, h⟩ := bind_eq_ok.1 h
          rw [ih _ _ _ h, set_BUF_marks hp1]
    · rw [pure_eq_ok] at h
      injection h with _ h
      subst h
      rfl

theorem get_line_marks {p : fileparser} {err : Str} {b : Bool} {q : fileparser}
    (h : p.get_line err = .ok (b, q)) : q.marks = p.marks := by
  unfold get_line at h
  cases hgl : getline p.in_ with
  | mk r i =>
    rw [hgl] at h
    cases r with
    | none =>
      simp only at h
      split at h
      · simp at h
      · injection h with h
        injection h with _ h
        subst h
        rfl
    | some t =>
      simp only at h
      obtain ⟨p1, hp1, h⟩ := bind_eq_ok.1 h
      have h1 := (clear_loop_pos _ _ _ hp1).1
      split at h
      · obtain ⟨p3, hp3, h⟩ := bind_eq_ok.1 h
        rw [continuation_marks _ _ _ _ _ h, set_BUF_marks hp3]
        exact h1
      · rw [pure_bind_res] at h
        rw [continuation_marks _ _ _ _ _ h]
        exact h1

theorem advance_char_marks {p : fileparser} {opts : Nat} {b : Bool} {q : fileparser}
    (h : p.advance_char opts = .ok (b, q)) : q.marks = p.marks := by
  unfold advance_char at h
  split at h
  · split at h
    · rw [pure_eq_ok] at h; injection h with _ h; subst h; rfl
    · split at h
      · rw [pure_eq_ok] at h; injection h with _ h; subst h; rfl
      · simp only [advance_line, if_true] at h
        split at h
        · obtain ⟨buf, -, h⟩ := bind_eq_ok.1 h
          rw [pure_eq_ok] at h; injection h with _ h; subst h; rfl
        · rw [pure_eq_ok] at h; injection h with _ h; subst h; rfl
  · obtain ⟨buf, -, h⟩ := bind_eq_ok.1 h
    split at h
    · rw [pure_eq_ok] at h; injection h with _ h; subst h; rfl
    · split at h
      · rw [pure_eq_ok] at h; injection h with _ h; subst h; rfl
      · simp only [advance_line, Bool.false_eq_true, if_false] at h
        split at h
        · rw [pure_eq_ok] at h; injection h with _ h; subst h; rfl
        · exact get_line_marks h

theorem match_forward_marks (opts : Nat) : ∀ (str : Str) (p : fileparser) (b : Bool)
    (q : fileparser), match_forward opts str p = .ok (b, q) → q.marks = p.marks := by
  intro str
  induction str with
  | nil =>
    intro p b q hq
    simp only [match_forward, Except.ok.injEq, Prod.mk.injEq] at hq
    obtain ⟨-, rfl⟩ := hq
    rfl
  | cons c rest ih =>
    intro p b q hq
    simp only [match_forward] at hq
    obtain ⟨g, -, hq⟩ := bind_eq_ok.1 hq
    split at hq
    · rw [pure_eq_ok] at hq
      injection hq with _ hq
      subst hq
      rfl
    · obtain ⟨⟨b1, p1⟩, h1, hq⟩ := bind_eq_ok.1 hq
      rw [ih p1 b q hq, advance_char_marks h1]

/-- What `set_mark` does to the marks and the position. -/
theorem set_mark_pos {p q : fileparser} (h : p.set_mark = .ok q) :
    q.marks = { line := p.line, col := p.col } :: p.marks ∧ q.line = p.line ∧ q.col = p.col := by
  unfold set_mark at h
  obtain ⟨b, -, h⟩ := bind_eq_ok.1 h
  obtain ⟨bufs, -, h⟩ := bind_eq_ok.1 h
  rw [pure_eq_ok] at h
  subst h
  exact ⟨rfl, rfl, rfl⟩

/-- What `unset_mark` does to the marks and the position. -/
theorem unset_mark_pos {p q : fileparser} (h : p.unset_mark = .ok q) :
    q.marks = p.marks.tail ∧ q.line = p.line ∧ q.col = p.col := by
  unfold unset_mark at h
  obtain ⟨m, -, h⟩ := bind_eq_ok.1 h
  obtain ⟨b, -, h⟩ := bind_eq_ok.1 h
  obtain ⟨bufs, -, h⟩ := bind_eq_ok.1 h
  dsimp only at h
  split at h
  · obtain ⟨p2, hp2, h⟩ := bind_eq_ok.1 h
    rw [pure_eq_ok] at h
    subst h
    obtain ⟨h1, h2, h3⟩ := clear_loop_pos _ _ _ hp2
    exact ⟨by rw [h1], h2, h3⟩
  · rw [pure_bind_res, pure_eq_ok] at h
    subst h
    exact ⟨rfl, rfl, rfl⟩

/-- What `revert_to_mark` does to the marks and the position. -/
theorem revert_to_mark_pos {p q : fileparser} {k : Bool} {m : mark_location}
    {ms : List mark_location} (hm : p.marks = m :: ms) (h : p.revert_to_mark k = .ok q) :
    q.line = m.line ∧ q.col = m.col ∧ q.marks = if k then m :: ms else ms := by
  cases k with
  | true =>
    rw [show true = keep_mark from rfl, revert_keep_eq hm] at h
    injection h with h
    subst h
    exact ⟨rfl, rfl, hm⟩
  | false =>
    rw [show false = remove_mark from rfl, revert_remove_eq hm] at h
    obtain ⟨h1, h2, h3⟩ := unset_mark_pos h
    refine ⟨h2, h3, ?_⟩
    rw [h1]
    simp [hm]

/-- A call `match(str)` with the default options that returns leaves the
marks and the position as they were. -/
theorem match_str_pos {p q : fileparser} {str : Str} {m : Bool}
    (h : p.match_str str = .ok (m, q)) :
    q.marks = p.marks ∧ q.line = p.line ∧ q.col = p.col := by
  unfold match_str match_impl at h
  obtain ⟨p0, h0, h⟩ := bind_eq_ok.1 h
  obtain ⟨mp, h1, h⟩ := bind_eq_ok.1 h
  obtain ⟨m1, p1⟩ := mp
  obtain ⟨hm0, hl0, hc0⟩ := set_mark_pos h0
  have hb : has 0 backwards = false := by decide
  simp only [match_switch, hb, Bool.false_eq_true, if_false] at h1
  have hm1 : p1.marks = { line := p.line, col := p.col } :: p.marks := by
    rw [match_forward_marks _ _ _ _ _ h1, hm0]
  have hc : has 0 consume = false := by decide
  have hrev : ∃ p2, p1.revert_to_mark remove_mark = .ok p2 ∧ q = p2 := by
    unfold match_end at h
    dsimp only at h
    split at h
    · simp only [hc, Bool.false_eq_true, if_false] at h
      obtain ⟨p2, h2, h⟩ := bind_eq_ok.1 h
      rw [pure_eq_ok] at h; injection h with _ h
      exact ⟨p2, h2, h.symm⟩
    · simp only [List.isEmpty_nil, if_true] at h
      obtain ⟨p2, h2, h⟩ := bind_eq_ok.1 h
      rw [pure_eq_ok] at h; injection h with _ h
      exact ⟨p2, h2, h.symm⟩
  obtain ⟨p2, h2, rfl⟩ := hrev
  obtain ⟨h3, h4, h5⟩ := revert_to_mark_pos hm1 h2
  exact ⟨by simpa [remove_mark] using h5, h3, h4⟩

end fileparser

namespace regex

/-! ### A failed `regex::match` on a node that is not `COMPLEX` -/

theorem attempts_set_attempts (r : regex) (a : List attempt) : (r.set_attempts a).attempts = a := by
  cases r; rfl

theorem attempts_push (r : regex) (a : attempt) : (r.push a).attempts = a :: r.attempts :=
  attempts_set_attempts r _

/-- The `switch` of `match_single` on a node that is not `COMPLEX` leaves the
marks and the position of the cursor alone, and pushes one attempt if it
matches. -/
theorem match_type_leaf (c : node_calls) (fuel : Nat) (r : regex) (p0 : fileparser)
    (rep len : Nat) (o : outcome regex) (hty : r.type ≠ .COMPLEX)
    (h : match_type c fuel r p0 rep len = .ok o) :
    o.parser.marks = p0.marks ∧ o.parser.line = p0.line ∧ o.parser.col = p0.col ∧
      (o.ret = true → ∃ l, o.self = r.push { len := l, rep := rep, alt := none }) ∧
      (o.ret = false → o.self = r) := by
  unfold match_type at h
  split at h
  · obtain ⟨⟨m, p1⟩, h1, h⟩ := bind_eq_ok.1 h
    dsimp only at h
    obtain ⟨a1, a2, a3⟩ := fileparser.match_str_pos h1
    split at h <;> (rw [pure_eq_ok] at h; subst h)
    · exact ⟨a1, a2, a3, fun _ => ⟨_, rfl⟩, fun hf => by simp at hf⟩
    · exact ⟨a1, a2, a3, fun hf => by simp at hf, fun _ => rfl⟩
  · obtain ⟨b, -, h⟩ := bind_eq_ok.1 h
    split at h
    · obtain ⟨g, -, h⟩ := bind_eq_ok.1 h
      split at h <;> (rw [pure_eq_ok] at h; subst h)
      · exact ⟨rfl, rfl, rfl, fun _ => ⟨_, rfl⟩, fun hf => by simp at hf⟩
      · exact ⟨rfl, rfl, rfl, fun hf => by simp at hf, fun _ => rfl⟩
    · rw [pure_eq_ok] at h; subst h
      exact ⟨rfl, rfl, rfl, fun hf => by simp at hf, fun _ => rfl⟩
  · rename_i hc
    exact absurd hc hty

/-- A call of `match_single` on a node that is not `COMPLEX` leaves the cursor
where it stood; if it matches, it leaves the mark it set and one attempt, and
if it does not, neither. -/
theorem match_single_leaf (c : node_calls) (fuel : Nat) (r : regex) (p : fileparser)
    (rep len : Nat) (o : outcome regex) (hty : r.type ≠ .COMPLEX)
    (h : match_single c fuel r p rep len = .ok o) :
    o.parser.line = p.line ∧ o.parser.col = p.col ∧
      (o.ret = true → o.parser.marks = { line := p.line, col := p.col } :: p.marks ∧
        ∃ l, o.self = r.push { len := l, rep := rep, alt := none }) ∧
      (o.ret = false → o.parser.marks = p.marks ∧ o.self = r) := by
  unfold match_single at h
  obtain ⟨p0, h0, h⟩ := bind_eq_ok.1 h
  obtain ⟨o1, h1, h⟩ := bind_eq_ok.1 h
  obtain ⟨hm0, hl0, hc0⟩ := fileparser.set_mark_pos h0
  obtain ⟨b1, b2, b3, b4, b5⟩ := match_type_leaf c fuel r p0 rep len o1 hty h1
  have hm1 : o1.parser.marks = { line := p.line, col := p.col } :: p.marks := by rw [b1, hm0]
  unfold match_single_end at h
  split at h
  · rename_i hret
    split at h
    · obtain ⟨p2, h2, h⟩ := bind_eq_ok.1 h
      rw [pure_eq_ok] at h; subst h
      obtain ⟨e1, e2, e3⟩ := fileparser.revert_to_mark_pos hm1 h2
      exact ⟨e1, e2, fun _ => ⟨by simpa [fileparser.keep_mark] using e3, b4 hret⟩,
        fun hf => by simp at hf⟩
    · rw [pure_eq_ok] at h; subst h
      exact ⟨by rw [b2, hl0], by rw [b3, hc0], fun _ => ⟨hm1, b4 hret⟩, fun hf => by simp at hf⟩
  · rename_i hret
    obtain ⟨p2, h2, h⟩ := bind_eq_ok.1 h
    rw [pure_eq_ok] at h; subst h
    obtain ⟨e1, e2, e3⟩ := fileparser.revert_to_mark_pos hm1 h2
    exact ⟨e1, e2, fun hf => by simp at hf,
      fun _ => ⟨by simpa [fileparser.remove_mark] using e3, b5 (by simpa using hret)⟩⟩

/-- The loop of `regex::match` on a node that is not `COMPLEX` keeps the
relation `stacked`. -/
theorem match_loop_leaf (c : node_calls) (fuel : Nat) (r0 : regex) (p0 : fileparser)
    (hty : r0.type ≠ .COMPLEX) :
    ∀ (n rep len : Nat) (r : regex) (p : fileparser) (pushed : List attempt)
      (rep1 len1 : Nat) (r1 : regex) (p1 : fileparser),
      stacked r0 p0 pushed r p → match_loop c fuel n rep len r p = .ok (rep1, len1, r1, p1) →
      ∃ pushed1, stacked r0 p0 pushed1 r1 p1 := by
  intro n
  induction n with
  | zero =>
    intro rep len r p pushed rep1 len1 r1 p1 hs h
    simp only [match_loop, Except.ok.injEq, Prod.mk.injEq] at h
    obtain ⟨-, -, rfl, rfl⟩ := h
    exact ⟨pushed, hs⟩
  | succ n ih =>
    intro rep len r p pushed rep1 len1 r1 p1 hs h
    simp only [match_loop] at h
    split at h
    · simp only [Except.ok.injEq, Prod.mk.injEq] at h
      obtain ⟨-, -, rfl, rfl⟩ := h
      exact ⟨pushed, hs⟩
    · split at h
      · simp only [Except.ok.injEq, Prod.mk.injEq] at h
        obtain ⟨-, -, rfl, rfl⟩ := h
        exact ⟨pushed, hs⟩
      · obtain ⟨o, ho, h⟩ := bind_eq_ok.1 h
        obtain ⟨e1, e2, e3, e4⟩ :=
          match_single_leaf c fuel r p (rep + 1) 0 o (by rw [hs.type]; exact hty) ho
        cases hret : o.ret with
        | true =>
          obtain ⟨hm, l, hself⟩ := e3 hret
          have hs1 : stacked r0 p0 ({ len := l, rep := rep + 1, alt := none } :: pushed)
              o.self o.parser := by
            refine ⟨?_, ?_, ?_, ?_, by rw [e1, hs.line], by rw [e2, hs.col]⟩
            · rw [hself, (same_node_push r _).1, hs.type]
            · rw [hself, attempts_push, hs.attempts]
              rfl
            · intro a ha
              simp only [List.mem_cons] at ha
              rcases ha with rfl | ha
              · exact ⟨by simp, rfl⟩
              · exact hs.reps a ha
            · rw [hm, hs.marks, hs.line, hs.col]
              rfl
          simp only [hret, if_true] at h
          split at h
          · rw [pure_eq_ok] at h
            simp only [Prod.mk.injEq] at h
            obtain ⟨-, -, rfl, rfl⟩ := h
            exact ⟨_, hs1⟩
          · exact ih _ _ _ _ _ _ _ _ _ hs1 h
        | false =>
          obtain ⟨hm, hself⟩ := e4 hret
          simp only [hret, Bool.false_eq_true, if_false] at h
          rw [pure_eq_ok] at h
          simp only [Prod.mk.injEq] at h
          obtain ⟨-, -, rfl, rfl⟩ := h
          refine ⟨pushed, ?_, ?_, hs.reps, ?_, by rw [e1, hs.line], by rw [e2, hs.col]⟩
          · rw [hself, hs.type]
          · rw [hself, hs.attempts]
          · rw [hm, hs.marks]

/-- The loop of `clear_attempt` on a stack that holds the attempts `pushed`
of repetitions on an attempt `att0` with the repetition index 0: it pops them
all and `att0`, and returns to and removes one mark for each attempt of
`pushed`. -/
theorem clear_attempt_loop_leaf (c : node_calls) (mk0 : mark_location) (att0 : attempt)
    (rest : List attempt) (marks0 : List mark_location) (h0 : att0.rep = 0)
    (h0a : att0.alt = none) :
    ∀ (pushed : List attempt) (n : Nat) (r : regex) (p : fileparser) (r2 : regex)
      (p2 : fileparser),
      r.attempts = pushed ++ att0 :: rest → (∀ a ∈ pushed, a.rep ≠ 0 ∧ a.alt = none) →
      p.marks = List.replicate pushed.length mk0 ++ marks0 → p.line = mk0.line →
      p.col = mk0.col → clear_attempt_loop c n r p = .ok (r2, p2) →
      r2.attempts = rest ∧ p2.marks = marks0 ∧ p2.line = mk0.line ∧ p2.col = mk0.col := by
  intro pushed
  induction pushed with
  | nil =>
    intro n r p r2 p2 hatt _ hm hl hc h
    cases n with
    | zero => simp [clear_attempt_loop] at h
    | succ n =>
      simp only [List.nil_append] at hatt
      simp only [clear_attempt_loop, pop_attempt, hatt, destroy_attempt, h0a, ok_bind,
        pure_bind_res, h0] at h
      simp only [bne_self_eq_false, Bool.false_eq_true, if_false] at h
      rw [pure_eq_ok] at h
      simp only [Prod.mk.injEq] at h
      obtain ⟨rfl, rfl⟩ := h
      exact ⟨attempts_set_attempts _ _, by simpa using hm, hl, hc⟩
  | cons a ps ih =>
    intro n r p r2 p2 hatt hreps hm hl hc h
    cases n with
    | zero => simp [clear_attempt_loop] at h
    | succ n =>
      obtain ⟨ha1, ha2⟩ := hreps a (List.mem_cons_self _ _)
      simp only [List.cons_append] at hatt
      simp only [clear_attempt_loop, pop_attempt, hatt, destroy_attempt, ha2, ok_bind,
        pure_bind_res] at h
      have hne : (a.rep != 0) = true := by simpa using ha1
      simp only [hne, if_true] at h
      obtain ⟨p1, hp1, h⟩ := bind_eq_ok.1 h
      have hm1 : p.marks = mk0 :: (List.replicate ps.length mk0 ++ marks0) := by
        rw [hm]; rfl
      obtain ⟨e1, e2, e3⟩ := fileparser.revert_to_mark_pos hm1 hp1
      exact ih n _ p1 r2 p2 (attempts_set_attempts _ _)
        (fun b hb => hreps b (List.mem_cons_of_mem _ hb))
        (by simpa [fileparser.remove_mark] using e3) e1 e2 h

end regex

namespace regex

/-- C20 (amended): let `regex::match` return false on a node that is not
`COMPLEX` and whose stack holds, on top, an attempt `att0` with the repetition
index 0 and no alternative, such as the entry `start_attempt` pushes. Then the
attempts pushed during the call and `att0` have been removed: the stack of the
node is what lay below `att0`. The cursor has the `line`, the `col` and the
stack of marks it had before the call. -/
theorem C20_failed_match_unwinds (c : node_calls) (fuel : Nat) (r : regex) (p : fileparser)
    (o : outcome regex) (att0 : attempt) (rest : List attempt)
    (hty : r.type ≠ .COMPLEX) (hatt : r.attempts = att0 :: rest) (h0 : att0.rep = 0)
    (h0a : att0.alt = none) (hm : do_match c fuel r p = .ok o) (hret : o.ret = false) :
    o.self.attempts = rest ∧ o.parser.line = p.line ∧ o.parser.col = p.col ∧
      o.parser.marks = p.marks := by
  unfold do_match at hm
  obtain ⟨⟨rep, len, r1, p1⟩, hloop, hm⟩ := bind_eq_ok.1 hm
  dsimp only at hm
  split at hm
  · obtain ⟨⟨r2, p2⟩, hclear, hm⟩ := bind_eq_ok.1 hm
    rw [pure_eq_ok] at hm
    subst hm
    obtain ⟨pushed, hs⟩ := match_loop_leaf c fuel r p hty _ _ _ _ _ [] _ _ _ _
      ⟨rfl, rfl, fun _ ha => by simp at ha, rfl, rfl, rfl⟩ hloop
    obtain ⟨e1, e2, e3, e4⟩ :=
      clear_attempt_loop_leaf c { line := p.line, col := p.col } att0 rest p.marks h0 h0a
        pushed _ r1 p1 r2 p2 (by rw [hs.attempts, hatt]) hs.reps hs.marks hs.line hs.col hclear
    exact ⟨e1, e3, e4, e2⟩
  · rw [pure_eq_ok] at hm
    subst hm
    simp at hret

/-- C20, witness: the literal `b` with the bounds `{4,3}` and the entry of
`start_attempt`, on the line "ab", after a mark was set at column 0 and the
cursor advanced to column 1: three repetitions succeed, `match` returns false,
the stack of the node is empty and the cursor is at column 1 with the one
mark it had. -/
theorem C20_failed_match_unwinds_witness :
    ∃ p0 p o, (fileparser.opened ['a', 'b'] []).set_mark = .ok p0 ∧
      p0.advance_char = .ok (true, p) ∧
      do_match (calls 0) 0 (literal ['b'] 4 3 GREEDY).start_attempt p = .ok o ∧
      o.ret = false ∧ o.len = 3 ∧
      o.self.attempts = [] ∧ o.parser.line = 1 ∧ o.parser.col = 1 ∧ o.parser.marks = [⟨1, 0⟩] := by
  have h : ∃ p0 p o, (fileparser.opened ['a', 'b'] []).set_mark = .ok p0 ∧
      p0.advance_char = .ok (true, p) ∧
      do_match (calls 0) 0 (literal ['b'] 4 3 GREEDY).start_attempt p = .ok o ∧
      o.ret = false ∧ o.len = 3 ∧ p.line = 1 ∧ p.col = 1 ∧ p.marks = [⟨1, 0⟩] :=
    ⟨_, _, _, rfl, rfl, rfl, rfl, rfl, rfl, rfl, rfl⟩
  obtain ⟨p0, p, o, h1, h2, h3, h4, h5, h6, h7, h8⟩ := h
  obtain ⟨e1, e2, e3, e4⟩ := C20_failed_match_unwinds (calls 0) 0
    (literal ['b'] 4 3 GREEDY).start_attempt p o ⟨0, 0, none⟩ [] (by decide) rfl rfl rfl h3 h4
  exact ⟨p0, p, o, h1, h2, h3, h4, h5, e1, by rw [e2]; exact h6, by rw [e3]; exact h7,
    by rw [e4]; exact h8⟩

/-- C20, counterexample. (1) The literal `a` with the bounds `{1,1}` and the
entry of `start_attempt` on its stack, on the line "b": the only
`match_single` fails and pushes nothing, `match` returns false, and the stack
of the node, which held one attempt before the call, is empty: the attempt
removed was not pushed during the call. (2) The node of type `COMPLEX` with
the one branch of the literals `a` and `b` (all three nodes with the entry of
`start_attempt`), on the line "ac": `match` returns false and leaves a mark on
the stack of the cursor, which had none. -/
theorem C20_counterexample :
    (∃ o1 o, match_single (calls 0) 0 (literal ['a'] 1 1 GREEDY).start_attempt
          (fileparser.opened ['b'] []) 1 0 = .ok o1 ∧
        o1.ret = false ∧ o1.self.attempts = (literal ['a'] 1 1 GREEDY).start_attempt.attempts ∧
        do_match (calls 0) 0 (literal ['a'] 1 1 GREEDY).start_attempt
          (fileparser.opened ['b'] []) = .ok o ∧
        o.ret = false ∧
        (literal ['a'] 1 1 GREEDY).start_attempt.attempts = [⟨0, 0, none⟩] ∧
        o.self.attempts = []) ∧
    (∃ o, do_match (calls 1) 3
          (complex [[(literal ['a'] 1 1 GREEDY).start_attempt,
            (literal ['b'] 1 1 GREEDY).start_attempt]] 1 1 GREEDY).start_attempt
          (fileparser.opened ['a', 'c'] []) = .ok o ∧
        o.ret = false ∧ (fileparser.opened ['a', 'c'] []).marks = [] ∧
        o.parser.marks = [⟨1, 0⟩]) :=
  ⟨⟨_, _, rfl, rfl, rfl, rfl, rfl, rfl, rfl⟩, ⟨_, rfl, rfl, rfl, rfl⟩⟩

end regex

/-! ### Word characters -/

theorem isalnum_iff (c : Char) :
    isalnum c = true ↔ ('0' ≤ c ∧ c ≤ '9') ∨ ('A' ≤ c ∧ c ≤ 'Z') ∨ ('a' ≤ c ∧ c ≤ 'z') := by
  simp only [isalnum, Bool.or_eq_true, Bool.and_eq_true, decide_eq_true_eq]
  tauto

theorem word_char_eq_false {str : Str} {pos : Nat} (h : str.length ≤ pos) :
    word_char str pos = false := by
  simp [word_char, List.getElem?_eq_none h]

/-- C23: for every string `str` and every index `pos`, (1) `word_char`
returns without a read outside the string, (2) it is true iff
`pos < str.size()` and `str[pos]` is an ASCII digit, an ASCII letter or the
underscore, and (3) at the index `0 - 1` of `size_t`, which is `2 ^ 64 - 1`,
it is false for a string shorter than `2 ^ 64`. -/
theorem C23_word_char (str : Str) (pos : Nat) :
    word_char_read str pos = .ok (word_char str pos) ∧
    (word_char str pos = true ↔
      pos < str.length ∧ ∃ c, str[pos]? = some c ∧
        (('0' ≤ c ∧ c ≤ '9') ∨ ('A' ≤ c ∧ c ≤ 'Z') ∨ ('a' ≤ c ∧ c ≤ 'z') ∨ c = '_')) ∧
    (str.length < 2 ^ 64 → word_char str (size_t_sub 0 1) = false) := by
  refine ⟨?_, ?_, ?_⟩
  · by_cases h : pos < str.length
    · have hg : str[pos]? = some str[pos] := List.getElem?_eq_getElem h
      simp only [word_char_read, h, if_true, str_at, hg, ok_bind, word_char]
      cases hc : isalnum str[pos] <;> simp [pure, Except.pure]
    · simp only [word_char_read, h, if_false]
      rw [word_char_eq_false (by omega)]
      rfl
  · by_cases h : pos < str.length
    · have hg : str[pos]? = some str[pos] := List.getElem?_eq_getElem h
      simp only [word_char, hg, Bool.or_eq_true, isalnum_iff, beq_iff_eq, h, true_and,
        Option.some.injEq, exists_eq_left']
      tauto
    · rw [word_char_eq_false (by omega)]
      simp [h]
  · intro h
    exact word_char_eq_false (by simp only [size_t_sub]; split <;> omega)

/-- C23, witness: on the string "a_1-": the letter, the underscore and the
digit are word characters, the hyphen is not, and the index `0 - 1` gives
false. -/
theorem C23_word_char_witness :
    (['a', '_', '1', '-'] : Str).length < 2 ^ 64 ∧
      word_char ['a', '_', '1', '-'] (size_t_sub 0 1) = false ∧
      word_char ['a', '_', '1', '-'] 0 = true ∧ word_char ['a', '_', '1', '-'] 1 = true ∧
      word_char ['a', '_', '1', '-'] 2 = true ∧ word_char ['a', '_', '1', '-'] 3 = false ∧
      word_char ['a', '_', '1', '-'] 4 = false :=
  ⟨by decide, (C23_word_char ['a', '_', '1', '-'] 0).2.2 (by decide), by decide, by decide,
    by decide, by decide, by decide⟩

namespace fileparser

/-- C24 (what the code does): `seek('b', lookahead)` and `seek('z', lookahead)`
on the cursor at line 1, column 0 of the one line "ab", with no mark. The
first finds `b` and returns true, the second reaches the end of the input and
returns false; both leave the cursor at line 1, column 0, and both leave the
mark they set on the stack, which was empty: `revert_to_mark()` is called with
its default argument `keep_mark`. -/
theorem C24_seek_lookahead_keeps_its_mark :
    (opened ['a', 'b'] []).marks = [] ∧
    (∃ q, (opened ['a', 'b'] []).seek_chr 3 'b' lookahead = .ok (true, q) ∧
      (q.line, q.col) = (1, 0) ∧ q.marks = [⟨1, 0⟩]) ∧
    (∃ q, (opened ['a', 'b'] []).seek_chr 4 'z' lookahead = .ok (false, q) ∧
      (q.line, q.col) = (1, 0) ∧ q.marks = [⟨1, 0⟩]) :=
  ⟨rfl, ⟨_, rfl, rfl, rfl⟩, ⟨_, rfl, rfl, rfl⟩⟩

end fileparser

/-- C27 (what the code does): the set of the one keyword "cat" and the string
"acat". At the position 1 the character before the keyword is the word
character `a`; `match` with `whole_word = true` returns the length 3 of the
keyword, where `keyword_map::match` on the same keyword returns `npos`. The
test of the character that follows is made: in "cats" the keyword is not
reported. -/
theorem C27_keyword_set_ignores_the_character_before :
    word_char ['a', 'c', 'a', 't'] (size_t_sub 1 1) = true ∧
    (keyword_set.of_init [['c', 'a', 't']]).do_match ['a', 'c', 'a', 't'] 1 true = .ok 3 ∧
    (keyword_map.of_init [(['c', 'a', 't'], 0)]).do_match ['a', 'c', 'a', 't'] 1 true =
      .ok (none, npos) ∧
    (keyword_set.of_init [['c', 'a', 't']]).do_match ['c', 'a', 't', 's'] 0 true = .ok npos :=
  ⟨by decide, rfl, rfl, rfl⟩

/-- C28 (what the code does): the map that holds the keyword "ab" with the
value 1 does not hold "cd"; `erase("cd")` returns true. -/
theorem C28_erase_returns_true_for_an_absent_key :
    (keyword_map.of_init [(['a', 'b'], 1)]).map = [(2, [(['a', 'b'], 1)]), (0, [])] ∧
    (keyword_map.of_init [(['a', 'b'], 1)]).match_whole ['c', 'd'] = .ok (none, npos) ∧
    ((keyword_map.of_init [(['a', 'b'], 1)]).erase ['c', 'd']).1 = true :=
  ⟨rfl, rfl, rfl⟩

/-- C29 (what the code does): the map that holds the keyword "ab" with the
value 1: `match_whole("ab")` finds it. After `erase("cd")` the map has lost
the keywords of length 2, and `match_whole("ab")` returns `npos`. -/
theorem C29_erase_removes_another_keyword :
    (keyword_map.of_init [(['a', 'b'], 1)]).match_whole ['a', 'b'] = .ok (some (['a', 'b'], 1), 2) ∧
    ((keyword_map.of_init [(['a', 'b'], 1)]).erase ['c', 'd']).2.map = [(0, [])] ∧
    ((keyword_map.of_init [(['a', 'b'], 1)]).erase ['c', 'd']).2.match_whole ['a', 'b'] =
      .ok (none, npos) :=
  ⟨rfl, rfl, rfl⟩

namespace detail

/-- C30 (what the code does): on ".bashrc" `start_of_filename` returns 0 and
`start_of_extension` reads outside the string. The inner loop, entered at
the dot at index 0, ends with `i = 0`; the `--i` of the outer loop then wraps
to `2 ^ 64 - 1`, and the outer loop reads `file[2 ^ 64 - 2]`. On "dir/.bashrc"
the function returns the length 11, and on "a.b.c" the index 1. -/
theorem C30_start_of_extension_reads_outside :
    start_of_filename ['.', 'b', 'a', 's', 'h', 'r', 'c'] = .ok 0 ∧
    ext_inner ['.', 'b', 'a', 's', 'h', 'r', 'c'] 7 0 = .ok (none, 7, 0) ∧
    size_t_sub 0 1 = 2 ^ 64 - 1 ∧
    str_at ['.', 'b', 'a', 's', 'h', 'r', 'c'] (2 ^ 64 - 1 - 1) = .error .undefined_behaviour ∧
    start_of_extension ['.', 'b', 'a', 's', 'h', 'r', 'c'] = .error .undefined_behaviour ∧
    start_of_extension ['d', 'i', 'r', '/', '.', 'b', 'a', 's', 'h', 'r', 'c'] = .ok 11 ∧
    start_of_extension ['a', '.', 'b', '.', 'c'] = .ok 1 :=
  ⟨rfl, rfl, by decide, rfl, rfl, rfl, rfl⟩

end detail

namespace fileparser

/-! #### The word boundary -/

/-- The index `col - 1` of `size_t` reads a word character only for
`col > 0`, in a line shorter than `2 ^ 64`. -/
theorem word_char_before (buf : Str) (col : Nat) (h : buf.length < 2 ^ 64) :
    word_char buf (size_t_sub col 1) = (decide (0 < col) && word_char buf (col - 1)) := by
  by_cases hc : 0 < col
  · rw [size_t_sub_of_le (by omega)]
    simp [hc]
  · have h0 : col = 0 := by omega
    subst h0
    rw [word_char_eq_false (by simp only [size_t_sub]; split <;> omega)]
    simp

/-- On a cursor with a mark on top whose line is in the window, both ways of
releasing the mark return. -/
theorem release_mark_loose {p : fileparser} {m : mark_location} {ms : List mark_location}
    (h : loose p) (hm : p.marks = m :: ms) :
    (∃ q, p.unset_mark = .ok q) ∧ ∃ q, p.revert_to_mark remove_mark = .ok q := by
  constructor
  · obtain ⟨q, hq, -⟩ := unset_mark_loose h hm
    exact ⟨q, hq⟩
  · rw [revert_remove_eq hm]
    have hml := h.marks_in m (by rw [hm]; exact List.mem_cons_self _ _)
    have hl : loose { p with line := m.line, col := m.col } :=
      ⟨hml.1, hml.2, h.size, h.marks_in⟩
    obtain ⟨q, hq, -⟩ := unset_mark_loose hl hm
    exact ⟨q, hq⟩

/-- C22: `match_word_boundary`, with any options, on a cursor whose window
holds its lines (`loose`), the current line `b` being shorter than `2 ^ 64`.
It returns, and the value is true iff exactly one of the two tests is true:
`col > 0` and the character of the line at `col - 1` is a word character; the
character of the line at `col` is a word character (`word_char` is false
outside the line). The cursor has the `line`, the `col` and the marks it had
before the call, also with the option `consume`. -/
theorem C22_word_boundary (p : fileparser) (opts : Nat) (b : Str × Nat) (hl : loose p)
    (hb : p.bufs[p.max_line - p.line]? = some b) (hlen : b.1.length < 2 ^ 64) :
    ∃ q, p.match_word_boundary opts =
        .ok (xor (decide (0 < p.col) && word_char b.1 (p.col - 1)) (word_char b.1 p.col), q) ∧
      q.line = p.line ∧ q.col = p.col ∧ q.marks = p.marks := by
  obtain ⟨b1, hb1, he⟩ := set_mark_eq hl
  rw [hb] at hb1
  injection hb1 with hb1
  subst hb1
  have hl0 := set_mark_loose hl he
  obtain ⟨hm0, hl1, hc1⟩ := set_mark_pos he
  have hB : BUF { p with
      marks := { line := p.line, col := p.col } :: p.marks,
      bufs := p.bufs.set (p.max_line - p.line) (b.1, b.2 + 1) } = .ok b.1 := by
    have hg : (p.bufs.set (p.max_line - p.line) (b.1, b.2 + 1))[p.max_line - p.line]? =
        some (b.1, b.2 + 1) := by
      simp [List.getElem?_set, lt_length_of_getElem? hb]
    exact @BUF_eq { p with
      marks := { line := p.line, col := p.col } :: p.marks,
      bufs := p.bufs.set (p.max_line - p.line) (b.1, b.2 + 1) } hl.le_max (b.1, b.2 + 1) hg
  obtain ⟨⟨q1, hq1⟩, ⟨q2, hq2⟩⟩ := release_mark_loose hl0 hm0
  have h1 := unset_mark_pos hq1
  have h2 := revert_to_mark_pos hm0 hq2
  simp only [match_word_boundary, match_impl, he, ok_bind, match_switch, hB, pure_bind_res,
    word_char_before b.1 p.col hlen]
  have hx : ∀ x y : Bool, (x != y) = xor x y := by decide
  rw [hx]
  simp only [hm0, hl1, hc1] at h1 h2
  cases hv : xor (decide (0 < p.col) && word_char b.1 (p.col - 1)) (word_char b.1 p.col)
  · refine ⟨q2, ?_, h2.1, h2.2.1, by simpa [remove_mark] using h2.2.2⟩
    simp only [match_end, Bool.false_eq_true, if_false, List.isEmpty_nil, if_true, hq2, ok_bind]
    rfl
  · by_cases hcons : has opts consume = true
    · refine ⟨q1, ?_, h1.2.1, h1.2.2, by simpa using h1.1⟩
      simp only [match_end, if_true, hcons, hq1, ok_bind]
      rfl
    · refine ⟨q2, ?_, h2.1, h2.2.1, by simpa [remove_mark] using h2.2.2⟩
      simp only [match_end, if_true, hcons, Bool.false_eq_true, if_false, hq2, ok_bind]
      rfl

/-- C22, witness: at column 0 of the line "cat" `match_word_boundary` returns
true, at column 0 of the line " cat" it returns false, and at column 1 of
" cat" with the option `consume` it returns true and leaves the cursor at
column 1. -/
theorem C22_word_boundary_witness :
    (∃ q, (opened ['c', 'a', 't'] []).match_word_boundary = .ok (true, q) ∧
      q.line = 1 ∧ q.col = 0 ∧ q.marks = []) ∧
    (∃ q, (opened [' ', 'c', 'a', 't'] []).match_word_boundary = .ok (false, q) ∧
      q.line = 1 ∧ q.col = 0 ∧ q.marks = []) ∧
    (∃ q, ({ opened [' ', 'c', 'a', 't'] [] with col := 1 } : fileparser).match_word_boundary
        consume = .ok (true, q) ∧ q.line = 1 ∧ q.col = 1 ∧ q.marks = []) :=
  ⟨C22_word_boundary (opened ['c', 'a', 't'] []) 0 (['c', 'a', 't'], 0)
      (inv_loose (inv_opened _ _)) rfl (by decide),
    C22_word_boundary (opened [' ', 'c', 'a', 't'] []) 0 ([' ', 'c', 'a', 't'], 0)
      (inv_loose (inv_opened _ _)) rfl (by decide),
    C22_word_boundary { opened [' ', 'c', 'a', 't'] [] with col := 1 } consume
      ([' ', 'c', 'a', 't'], 0)
      (loose_of_eq (inv_loose (inv_opened [' ', 'c', 'a', 't'] [])) rfl rfl rfl rfl rfl) rfl
      (by decide)⟩

end fileparser

namespace fileparser

/-! #### The window after a read without marks -/

/-- With no mark set the loop that clears unneeded lines drops every line
before the current one. -/
theorem clear_loop_no_marks : ∀ (n : Nat) (p q : fileparser),
    inv_for [] p → p.line - p.min_line ≤ n → clear_loop n p = .ok q →
    q.min_line = p.line ∧ inv_for [] q := by
  intro n
  induction n with
  | zero =>
    intro p q h hn hq
    simp only [clear_loop, Except.ok.injEq] at hq
    subst hq
    have := h.min_le
    exact ⟨by omega, h⟩
  | succ n ih =>
    intro p q h hn hq
    have h1 := h.min_le
    have h2 := h.le_max
    have h3 := h.size
    simp only [clear_loop] at hq
    split at hq
    · rename_i hlt
      obtain ⟨b, hb, hcount⟩ := h.counts p.min_line (le_refl _) (by omega)
      have hidx : p.max_line - p.min_line = p.bufs.length - 1 := by omega
      rw [hidx] at hb
      rw [List.getLast?_eq_getElem?, hb] at hq
      dsimp only at hq
      have hzero : b.2 = 0 := by rw [hcount]; rfl
      rw [if_pos hzero] at hq
      have hinv : inv_for [] { p with bufs := p.bufs.dropLast, min_line := p.min_line + 1 } := by
        refine ⟨by simpa using hlt, by simpa using h2, ?_, ?_, ?_⟩
        · simp only [List.length_dropLast]; omega
        · intro m hm
          simp at hm
        · intro L hL1 hL2
          simp only at hL1 hL2
          obtain ⟨b1, hb1, hc1⟩ := h.counts L (by omega) hL2
          refine ⟨b1, ?_, hc1⟩
          simp only [List.getElem?_dropLast]
          rw [if_pos (by omega)]
          exact hb1
      have h4 := ih _ q hinv (by simp only; omega) hq
      simpa using h4
    · simp only [Except.ok.injEq] at hq
      subst hq
      exact ⟨by omega, h⟩

theorem clear_loop_max : ∀ (n : Nat) (p q : fileparser), clear_loop n p = .ok q →
    q.max_line = p.max_line := by
  intro n
  induction n with
  | zero =>
    intro p q h
    simp only [clear_loop, Except.ok.injEq] at h
    subst h; rfl
  | succ n ih =>
    intro p q h
    simp only [clear_loop] at h
    split at h
    · split at h
      · simp at h
      · split at h
        · have h2 := ih _ _ h
          simpa using h2
        · simp only [Except.ok.injEq] at h
          subst h; rfl
    · simp only [Except.ok.injEq] at h
      subst h; rfl

theorem set_BUF_window {p q : fileparser} {s : Str} (h : p.set_BUF s = .ok q) :
    q.min_line = p.min_line ∧ q.line = p.line ∧ q.max_line = p.max_line ∧
      q.bufs.length = p.bufs.length := by
  unfold set_BUF at h
  obtain ⟨b, -, h⟩ := bind_eq_ok.1 h
  obtain ⟨bufs, hb, h⟩ := bind_eq_ok.1 h
  rw [pure_eq_ok] at h
  subst h
  unfold bufs_set at hb
  split at hb
  · injection hb with hb
    subst hb
    exact ⟨rfl, rfl, rfl, by simp⟩
  · simp at hb

theorem continuation_window (err : Str) : ∀ (n : Nat) (p : fileparser) (b : Bool)
    (q : fileparser), continuation err n p = .ok (b, q) →
    q.min_line = p.min_line ∧ q.line = p.line ∧ q.max_line = p.max_line ∧
      q.bufs.length = p.bufs.length := by
  intro n
  induction n with
  | zero => intro p b q h; simp [continuation] at h
  | succ n ih =>
    intro p b q h
    simp only [continuation] at h
    obtain ⟨buf, -, h⟩ := bind_eq_ok.1 h
    split at h
    · cases hgl : getline p.in_ with
      | mk r i =>
        rw [hgl] at h
        cases r with
        | none =>
          simp only at h
          split at h
          · simp at h
          · rw [pure_eq_ok] at h
            injection h with _ h
            subst h
            exact ⟨rfl, rfl, rfl, rfl⟩
        | some t =>
          simp only at h
          obtain ⟨p1, hp1, h⟩ := bind_eq_ok.1 h
          obtain ⟨a1, a2, a3, a4⟩ := ih _ _ _ h
          obtain ⟨b1, b2, b3, b4⟩ := set_BUF_window hp1
          exact ⟨a1.trans b1, a2.trans b2, a3.trans b3, a4.trans b4⟩
    · rw [pure_eq_ok] at h
      injection h with _ h
      subst h
      exact ⟨rfl, rfl, rfl, rfl⟩

/-- A read that succeeds with no mark set, made at the last line of the
window, leaves a window of one line. -/
theorem get_line_no_marks {p q : fileparser} (h : inv p) (hmax : p.line = p.max_line)
    (hm : p.marks = []) (hq : p.get_line = .ok (true, q)) :
    q.bufs.length = 1 ∧ q.min_line = q.line ∧ q.line = q.max_line ∧ q.line = p.line + 1 := by
  unfold get_line at hq
  cases hgl : getline p.in_ with
  | mk r i =>
    rw [hgl] at hq
    cases r with
    | none =>
      simp only [List.isEmpty_nil, Bool.not_true, Bool.false_eq_true, if_false] at hq
      injection hq with hq
      injection hq with hq _
      simp at hq
    | some t =>
      simp only at hq
      obtain ⟨p1, hp1, hq⟩ := bind_eq_ok.1 hq
      have h0 : inv_for [] p := by
        have h' := h
        unfold inv at h'
        rwa [hm] at h'
      have hinv0 : inv_for [] { p with in_ := i } := inv_for_of_eq h0 rfl rfl rfl rfl
      obtain ⟨c1, c2⟩ := clear_loop_no_marks _ _ p1 hinv0 (le_refl _) hp1
      obtain ⟨c3, c4, c5⟩ := clear_loop_pos _ _ _ hp1
      have c9 := clear_loop_max _ _ _ hp1
      dsimp only at c1 c3 c4 c9
      have c6 := c2.le_max
      have c7 := c2.size
      have c8 := c2.min_le
      have hme : p1.marks.isEmpty = true := by rw [c3, hm]; rfl
      simp only [hme, if_true] at hq
      obtain ⟨p3, hp3, hq⟩ := bind_eq_ok.1 hq
      obtain ⟨a1, a2, a3, a4⟩ := continuation_window _ _ _ _ _ hq
      obtain ⟨b1, b2, b3, b4⟩ := set_BUF_window hp3
      dsimp only at b1 b2 b3 b4
      refine ⟨by rw [a4, b4]; omega, by rw [a1, a2, b1, b2]; omega, by rw [a2, a3, b2, b3]; omega,
        by rw [a2, b2]; omega⟩

/-- C25: let the window of the cursor `p` hold its lines, and the invariant
hold as long as no read has failed (`valid`: the states the cursor can be
in), with no mark set. If an `advance_char` without the option `backwards`
returns true and has read a new line, which shows in `max_line`, then `bufs`
holds exactly one buffer and `min_line = line = max_line`. -/
theorem C25_one_line_without_marks (p q : fileparser) (opts : Nat) (hv : valid p)
    (hm : p.marks = []) (hb : has opts backwards = false)
    (hq : p.advance_char opts = .ok (true, q)) (hread : q.max_line ≠ p.max_line) :
    q.bufs.length = 1 ∧ q.min_line = q.line ∧ q.line = q.max_line := by
  have h2 := hv.1.le_max
  unfold advance_char at hq
  simp only [hb, Bool.false_eq_true, if_false] at hq
  obtain ⟨buf, -, hq⟩ := bind_eq_ok.1 hq
  split at hq
  · rw [pure_eq_ok] at hq
    injection hq with _ hq
    subst hq
    exact absurd rfl hread
  · split at hq
    · rw [pure_eq_ok] at hq
      injection hq with hq _
      simp at hq
    · simp only [advance_line, Bool.false_eq_true, if_false] at hq
      split at hq
      · rw [pure_eq_ok] at hq
        injection hq with _ hq
        subst hq
        exact absurd rfl hread
      · rename_i hlt
        have hmax : p.line = p.max_line := by omega
        have hf : p.in_.fail = false := by
          cases hp : p.in_.fail
          · rfl
          · have hg := getline_fail p.in_ hp
            unfold get_line at hq
            cases hgl : getline p.in_ with
            | mk r i =>
              rw [hgl] at hq hg
              cases r with
              | none =>
                simp only [List.isEmpty_nil, Bool.not_true, Bool.false_eq_true, if_false] at hq
                injection hq with hq
                injection hq with hq _
                simp at hq
              | some t => exact absurd hp (by simp [(getline_some hgl).1])
        obtain ⟨a1, a2, a3, -⟩ := get_line_no_marks (hv.2 hf) hmax hm hq
        exact ⟨a1, a2, a3⟩

/-- C25, witness: on the lines "a", "b", from the end of line 1 with no mark,
`advance_char()` reads the line "b": the window is that one line. -/
theorem C25_one_line_without_marks_witness :
    ∃ p q, (opened ['a'] [['b']]).advance_char = .ok (true, p) ∧ p.marks = [] ∧
      p.advance_char = .ok (true, q) ∧ q.max_line ≠ p.max_line ∧
      q.bufs = [(['b'], 0)] ∧ q.bufs.length = 1 ∧ q.min_line = q.line ∧ q.line = q.max_line := by
  have h : ∃ p q, (opened ['a'] [['b']]).advance_char = .ok (true, p) ∧ p.marks = [] ∧
      p.advance_char = .ok (true, q) ∧ q.max_line ≠ p.max_line ∧ q.bufs = [(['b'], 0)] :=
    ⟨_, _, rfl, rfl, rfl, by decide, rfl⟩
  obtain ⟨p, q, h1, h2, h3, h4, h5⟩ := h
  obtain ⟨b, p1, hp1, hv, -, -⟩ := advance_char_valid (inv_valid (inv_opened ['a'] [['b']])) 0
  have hp : p1 = p := by
    have h1' : (opened ['a'] [['b']]).advance_char 0 = .ok (true, p) := h1
    rw [hp1] at h1'
    injection h1' with h1'
    injection h1' with _ h1'
  subst hp
  obtain ⟨e1, e2, e3⟩ := C25_one_line_without_marks p1 q 0 hv h2 (by decide) h3 h4
  exact ⟨p1, q, h1, h2, h3, h4, h5, e1, e2, e3⟩

end fileparser

namespace fileparser

/-- The cursor `set_mark` leaves reads the line the cursor read. -/
theorem set_mark_BUF {p : fileparser} {b : Str × Nat} (hl : loose p)
    (hb : p.bufs[p.max_line - p.line]? = some b) :
    ∃ p0, p.set_mark = .ok p0 ∧ p0.BUF = .ok b.1 ∧ loose p0 ∧
      p0.marks = { line := p.line, col := p.col } :: p.marks ∧ p0.col = p.col ∧
      p0.in_ = p.in_ := by
  obtain ⟨b1, hb1, he⟩ := set_mark_eq hl
  rw [hb] at hb1
  injection hb1 with hb1
  subst hb1
  refine ⟨_, he, ?_, set_mark_loose hl he, rfl, rfl, rfl⟩
  have hg : (p.bufs.set (p.max_line - p.line) (b.1, b.2 + 1))[p.max_line - p.line]? =
      some (b.1, b.2 + 1) := by
    simp [List.getElem?_set, lt_length_of_getElem? hb]
  exact @BUF_eq { p with
    marks := { line := p.line, col := p.col } :: p.marks,
    bufs := p.bufs.set (p.max_line - p.line) (b.1, b.2 + 1) } hl.le_max (b.1, b.2 + 1) hg

end fileparser

namespace regex

/-- C21 (amended): `match_single` on a node of type `CHAR_CLASS`, on a cursor
whose window holds its lines (`loose`), `b` being the current line. It
returns, and the value is true iff the stream is `good()`, the cursor stands
on a character of the line (`col < BUF.length()`, so not at the line end) and
this character occurs in the `string` of the node. When it is true, `len` is 1
and one attempt with the length 1 is pushed; when it is false, the node is
unchanged. -/
theorem C21_char_class_match_single (c : node_calls) (fuel : Nat) (r : regex) (p : fileparser)
    (rep len : Nat) (b : Str × Nat) (hty : r.type = .CHAR_CLASS) (hl : fileparser.loose p)
    (hb : p.bufs[p.max_line - p.line]? = some b) :
    ∃ o, match_single c fuel r p rep len = .ok o ∧
      (o.ret = true ↔
        p.in_.good = true ∧ ∃ ch, b.1[p.col]? = some ch ∧ ch ∈ r.string) ∧
      (o.ret = true → o.len = 1 ∧ o.self = r.push { len := 1, rep := rep, alt := none }) ∧
      (o.ret = false → o.self = r) := by
  obtain ⟨p0, h0, hB, hl0, hm0, hc0, hi0⟩ := fileparser.set_mark_BUF hl hb
  obtain ⟨-, ⟨q2, hq2⟩⟩ := fileparser.release_mark_loose hl0 hm0
  have hq1 : p0.revert_to_mark fileparser.keep_mark =
      .ok { p0 with line := p.line, col := p.col } := fileparser.revert_keep_eq hm0
  have hfail : match_single_end r ⟨false, len, r, p0⟩ = .ok ⟨false, len, r, q2⟩ := by
    simp only [match_single_end, Bool.false_eq_true, if_false, hq2, ok_bind]
    rfl
  have hsucc : ∃ q, match_single_end r
      ⟨true, 1, r.push { len := 1, rep := rep, alt := none }, p0⟩ =
      .ok ⟨true, 1, r.push { len := 1, rep := rep, alt := none }, q⟩ := by
    by_cases hla : fileparser.has r.modifier LOOKAHEAD_MODIFIER = true
    · exact ⟨_, by simp only [match_single_end, if_true, hla, hq1, ok_bind]; rfl⟩
    · exact ⟨_, by simp only [match_single_end, if_true, hla, Bool.false_eq_true, if_false]; rfl⟩
  by_cases hg : p.in_.good = true
  · by_cases hcol : p.col < b.1.length
    · have hget : b.1[p.col]? = some b.1[p.col] := List.getElem?_eq_getElem hcol
      have hgc : p0.get_char = .ok b.1[p.col] := by
        simp only [fileparser.get_char, Bool.false_eq_true, if_false, hB, ok_bind, hc0, hcol,
          if_true, str_at, hget]
      have htb : p0.to_bool = .ok true := by
        simp only [fileparser.to_bool, hi0, hg, if_true, hB, ok_bind, hc0, hcol, decide_True]
        rfl
      by_cases hin : b.1[p.col] ∈ r.string
      · obtain ⟨q, hq⟩ := hsucc
        refine ⟨⟨true, 1, r.push { len := 1, rep := rep, alt := none }, q⟩, ?_, ?_,
          fun _ => ⟨rfl, rfl⟩, fun hf => by simp at hf⟩
        · have hc : r.string.contains b.1[p.col] = true := by simpa using hin
          simp only [match_single, h0, ok_bind, match_type, hty, htb, if_true, hgc, str_has,
            hc, pure_bind_res]
          exact hq
        · simp only [true_iff]
          exact ⟨hg, _, hget, hin⟩
      · refine ⟨⟨false, len, r, q2⟩, ?_, ?_, fun hf => by simp at hf, fun _ => rfl⟩
        · have hnc : r.string.contains b.1[p.col] = false := by
            simpa using hin
          simp only [match_single, h0, ok_bind, match_type, hty, htb, if_true, hgc, str_has,
            hnc, Bool.false_eq_true, if_false, pure_bind_res]
          exact hfail
        · simp only [Bool.false_eq_true, false_iff, not_and, not_exists]
          intro _ ch hch
          rw [hget] at hch
          injection hch with hch
          subst hch
          exact hin
    · have htb : p0.to_bool = .ok false := by
        simp only [fileparser.to_bool, hi0, hg, if_true, hB, ok_bind, hc0, hcol, decide_False]
        rfl
      refine ⟨⟨false, len, r, q2⟩, ?_, ?_, fun hf => by simp at hf, fun _ => rfl⟩
      · simp only [match_single, h0, ok_bind, match_type, hty, htb, Bool.false_eq_true, if_false,
          pure_bind_res]
        exact hfail
      · simp only [Bool.false_eq_true, false_iff, not_and, not_exists]
        intro _ ch hch
        rw [List.getElem?_eq_none (by omega)] at hch
        simp at hch
  · have htb : p0.to_bool = .ok false := by
      simp only [fileparser.to_bool, hi0, hg, Bool.false_eq_true, if_false]
      rfl
    refine ⟨⟨false, len, r, q2⟩, ?_, ?_, fun hf => by simp at hf, fun _ => rfl⟩
    · simp only [match_single, h0, ok_bind, match_type, hty, htb, Bool.false_eq_true, if_false,
        pure_bind_res]
      exact hfail
    · simp only [Bool.false_eq_true, false_iff, not_and]
      intro h
      exact absurd h hg

/-- C21, witness: the class `[ab]` at column 1 of the line "xb": `match_single`
for the repetition 1 returns true with `len = 1` and one attempt. -/
theorem C21_char_class_match_single_witness :
    ∃ o, match_single (calls 0) 0 (char_class ['a', 'b'] 1 1 GREEDY)
        { fileparser.opened ['x', 'b'] [] with col := 1 } 1 0 = .ok o ∧
      o.ret = true ∧ o.len = 1 ∧ o.self.attempts = [⟨1, 1, none⟩] := by
  obtain ⟨o, h1, h2, h3, -⟩ := C21_char_class_match_single (calls 0) 0
    (char_class ['a', 'b'] 1 1 GREEDY) { fileparser.opened ['x', 'b'] [] with col := 1 } 1 0
    (['x', 'b'], 0) rfl
    (fileparser.loose_of_eq (fileparser.inv_loose (fileparser.inv_opened ['x', 'b'] []))
      rfl rfl rfl rfl rfl) rfl
  have hret : o.ret = true := h2.2 ⟨rfl, 'b', rfl, by decide⟩
  obtain ⟨h4, h5⟩ := h3 hret
  exact ⟨o, h1, hret, h4, by rw [h5]; rfl⟩

/-- C21, counterexample. (1) The class of the characters `a` and '\n' at the
end of the line "a" (column 1), a second line following: the next character,
as `get_char()` returns it, is the '\n' of the line end, which is in the set,
and `match_single` returns false. (2) The class `[a]` at column 0 of the
line "a", the last line of a stream that does not end with a newline
character: the next character is `a`, which is in the set, and `match_single`
returns false, the stream having reached its end. -/
theorem C21_counterexample :
    (∃ p o, (fileparser.opened ['a'] [['b']]).advance_char = .ok (true, p) ∧
      p.get_char = .ok '\n' ∧ '\n' ∈ (char_class ['a', '\n'] 1 1 GREEDY).string ∧
      match_single (calls 0) 0 (char_class ['a', '\n'] 1 1 GREEDY) p 1 0 = .ok o ∧
      o.ret = false) ∧
    (∃ p o, fileparser.of_stream
        { lines := [['a']], terminated := false, eof := false, fail := false } = .ok p ∧
      p.get_char = .ok 'a' ∧ 'a' ∈ (char_class ['a'] 1 1 GREEDY).string ∧
      match_single (calls 0) 0 (char_class ['a'] 1 1 GREEDY) p 1 0 = .ok o ∧ o.ret = false) :=
  ⟨⟨_, _, rfl, rfl, by decide, rfl, rfl⟩, ⟨_, _, rfl, rfl, by decide, rfl, rfl⟩⟩

end regex

/-! ### The keyword map -/

theorem inner_find_some {T : Type} {sub : List (Str × T)} {key : Str} {e : Str × T}
    (h : inner_find sub key = some e) : e ∈ sub ∧ e.1 = key := by
  unfold inner_find at h
  exact ⟨List.mem_of_find?_eq_some h, by simpa using List.find?_some h⟩

theorem inner_find_none {T : Type} {sub : List (Str × T)} {key : Str}
    (h : inner_find sub key = none) : ∀ e ∈ sub, e.1 ≠ key := by
  unfold inner_find at h
  intro e he
  have := List.find?_eq_none.1 h e he
  simpa using this

theorem mem_inner_assign {T : Type} {sub : List (Str × T)} {key : Str} {val : T} {e : Str × T}
    (h : e ∈ inner_assign sub key val) : e ∈ sub ∨ e = (key, val) := by
  unfold inner_assign at h
  split at h
  · simp only [List.mem_map] at h
    obtain ⟨a, ha, rfl⟩ := h
    split
    · exact Or.inr rfl
    · exact Or.inl ha
  · simp only [List.mem_append, List.mem_singleton] at h
    exact h

theorem mem_inner_insert {T : Type} {sub : List (Str × T)} {key_val e : Str × T}
    (h : e ∈ (inner_insert sub key_val).2.2) : e ∈ sub ∨ e = key_val := by
  unfold inner_insert at h
  split at h
  · exact Or.inl h
  · simp only [List.mem_append, List.mem_singleton] at h
    exact h

/-- The entries of the outer map after `map[len]` and a change of the inner
container: entries it had, or the entry at `len`, changed. -/
theorem mem_outer_modify {S : Type} (dflt : S) (f : S → S) (len : Nat) :
    ∀ (m : List (Nat × S)) (e : Nat × S), e ∈ outer_modify dflt f len m →
      e ∈ m ∨ (e.1 = len ∧ ∃ s, e.2 = f s ∧ (s = dflt ∨ (len, s) ∈ m)) := by
  intro m
  induction m with
  | nil =>
    intro e h
    simp only [outer_modify, List.mem_singleton] at h
    subst h
    exact Or.inr ⟨rfl, dflt, rfl, Or.inl rfl⟩
  | cons a rest ih =>
    intro e h
    obtain ⟨k, sub⟩ := a
    simp only [outer_modify] at h
    split at h
    · rename_i hk
      simp only [List.mem_cons] at h
      rcases h with rfl | h
      · exact Or.inr ⟨hk, sub, rfl, Or.inr (by rw [← hk]; exact List.mem_cons_self _ _)⟩
      · exact Or.inl (List.mem_cons_of_mem _ h)
    · split at h
      · simp only [List.mem_cons] at h
        rcases h with rfl | h
        · exact Or.inr ⟨rfl, dflt, rfl, Or.inl rfl⟩
        · exact Or.inl (by simpa using h)
      · simp only [List.mem_cons] at h
        rcases h with rfl | h
        · exact Or.inl (List.mem_cons_self _ _)
        · rcases ih e h with h1 | ⟨h1, s, h2, h3⟩
          · exact Or.inl (List.mem_cons_of_mem _ h1)
          · refine Or.inr ⟨h1, s, h2, ?_⟩
            rcases h3 with h3 | h3
            · exact Or.inl h3
            · exact Or.inr (List.mem_cons_of_mem _ h3)

/-- Every length of the outer map is still one after `map[len]`. -/
theorem outer_modify_keeps {S : Type} (dflt : S) (f : S → S) (len : Nat) :
    ∀ (m : List (Nat × S)) (e : Nat × S), e ∈ m →
      ∃ e1, e1 ∈ outer_modify dflt f len m ∧ e1.1 = e.1 := by
  intro m
  induction m with
  | nil => intro e h; simp at h
  | cons a rest ih =>
    intro e h
    obtain ⟨k, sub⟩ := a
    simp only [outer_modify]
    simp only [List.mem_cons] at h
    split
    · rcases h with rfl | h
      · exact ⟨_, List.mem_cons_self _ _, rfl⟩
      · exact ⟨e, List.mem_cons_of_mem _ h, rfl⟩
    · split
      · rcases h with rfl | h
        · exact ⟨_, List.mem_cons_of_mem _ (List.mem_cons_self _ _), rfl⟩
        · exact ⟨e, List.mem_cons_of_mem _ (List.mem_cons_of_mem _ h), rfl⟩
      · rcases h with rfl | h
        · exact ⟨_, List.mem_cons_self _ _, rfl⟩
        · obtain ⟨e1, h1, h2⟩ := ih e h
          exact ⟨e1, List.mem_cons_of_mem _ h1, h2⟩

/-- The expression `map[len]` keeps the order of the outer map. -/
theorem outer_modify_sorted {S : Type} (dflt : S) (f : S → S) (len : Nat) :
    ∀ (m : List (Nat × S)), m.Pairwise (fun a b => a.1 > b.1) →
      (outer_modify dflt f len m).Pairwise (fun a b => a.1 > b.1) := by
  intro m
  induction m with
  | nil =>
    intro _
    simp [outer_modify]
  | cons a rest ih =>
    intro h
    obtain ⟨k, sub⟩ := a
    rw [List.pairwise_cons] at h
    obtain ⟨h1, h2⟩ := h
    simp only [outer_modify]
    split
    · rw [List.pairwise_cons]
      exact ⟨h1, h2⟩
    · split
      · rename_i hk hlt
        rw [List.pairwise_cons, List.pairwise_cons]
        refine ⟨?_, h1, h2⟩
        intro e he
        simp only [List.mem_cons] at he
        rcases he with rfl | he
        · exact hlt
        · have := h1 e he
          simp only at this ⊢
          omega
      · rename_i hk hlt
        rw [List.pairwise_cons]
        refine ⟨?_, ih h2⟩
        intro e he
        rcases mem_outer_modify dflt f len rest e he with h3 | ⟨h3, -⟩
        · exact h1 e h3
        · simp only
          omega

theorem outer_find_of_mem {S : Type} {m : List (Nat × S)} {len : Nat} {sub : S}
    (h : (len, sub) ∈ m) : ∃ s, outer_find m len = some s := by
  unfold outer_find
  cases hf : m.find? (fun e => e.1 == len) with
  | some e => exact ⟨e.2, rfl⟩
  | none =>
    have := List.find?_eq_none.1 hf (len, sub) h
    simp at this

namespace keyword_map

variable {T : Type}

theorem mem_entries {km : keyword_map T} {kv : Str × T} :
    kv ∈ km.entries ↔ ∃ e ∈ km.map, kv ∈ e.2 := by
  simp only [entries, List.mem_flatten, List.mem_map]
  constructor
  · rintro ⟨l, ⟨e, he, rfl⟩, hkv⟩
    exact ⟨e, he, hkv⟩
  · rintro ⟨e, he, hkv⟩
    exact ⟨e.2, ⟨e, he, rfl⟩, hkv⟩

theorem wf_empty : wf (empty : keyword_map T) := by
  refine ⟨by simp [empty], ?_, ?_, ⟨[], by simp [empty]⟩⟩
  · intro e he kv hkv
    simp only [empty, List.mem_singleton] at he
    subst he
    simp at hkv
  · intro e he kv hkv
    simp only [empty, List.mem_singleton] at he
    subst he
    simp at hkv

/-- A change of the inner map at the length of `key`, which adds at most an
entry for `key`, keeps the invariant when `max_len` is raised to this
length. -/
theorem wf_modify {km : keyword_map T} (h : wf km) (key : Str)
    (f : List (Str × T) → List (Str × T))
    (hf : ∀ sub e, e ∈ f sub → e ∈ sub ∨ e.1 = key) :
    wf { max_len := if km.max_len < key.length then key.length else km.max_len,
         map := outer_modify [] f key.length km.map } := by
  have hmax : km.max_len ≤ (if km.max_len < key.length then key.length else km.max_len) ∧
      key.length ≤ (if km.max_len < key.length then key.length else km.max_len) := by
    split <;> omega
  have hold : ∀ e ∈ outer_modify [] f key.length km.map, ∀ kv ∈ e.2,
      (∃ e0 ∈ km.map, e0.1 = e.1 ∧ kv ∈ e0.2) ∨ (e.1 = key.length ∧ kv.1 = key) := by
    intro e he kv hkv
    rcases mem_outer_modify [] f key.length km.map e he with h1 | ⟨h1, s, h2, h3⟩
    · exact Or.inl ⟨e, h1, rfl, hkv⟩
    · rw [h2] at hkv
      rcases hf s kv hkv with h4 | h4
      · rcases h3 with h3 | h3
        · subst h3
          simp at h4
        · exact Or.inl ⟨_, h3, h1.symm, h4⟩
      · exact Or.inr ⟨h1, h4⟩
  refine ⟨outer_modify_sorted _ _ _ _ h.sorted, ?_, ?_, ?_⟩
  · intro e he kv hkv
    rcases hold e he kv hkv with ⟨e0, h1, h2, h3⟩ | ⟨h1, h2⟩
    · rw [← h2]
      exact h.lengths e0 h1 kv h3
    · rw [h1, h2]
  · intro e he kv hkv
    simp only
    rcases hold e he kv hkv with ⟨e0, h1, h2, h3⟩ | ⟨h1, h2⟩
    · have := h.bound e0 h1 kv h3
      omega
    · rw [h2]
      omega
  · obtain ⟨sub, hsub⟩ := h.zero
    obtain ⟨e1, h1, h2⟩ := outer_modify_keeps [] f key.length km.map _ hsub
    exact ⟨e1.2, by
      have : e1 = (0, e1.2) := by
        obtain ⟨a, b⟩ := e1
        simp only at h2
        subst h2
        rfl
      rw [← this]
      exact h1⟩

theorem wf_init_step {km : keyword_map T} (h : wf km) (key_val : Str × T) :
    wf (init_step km key_val) := by
  unfold init_step
  exact wf_modify h key_val.1 _ (by
    intro sub e he
    rcases mem_inner_assign he with h1 | h1
    · exact Or.inl h1
    · exact Or.inr (by rw [h1]))

theorem wf_foldl : ∀ (l : List (Str × T)) (km : keyword_map T), wf km →
    wf (l.foldl init_step km) := by
  intro l
  induction l with
  | nil => intro km h; exact h
  | cons a rest ih =>
    intro km h
    exact ih _ (wf_init_step h a)

theorem wf_insert {km : keyword_map T} (h : wf km) (key_val : Str × T) :
    wf (km.insert key_val).2.2 := by
  have h1 := wf_modify h key_val.1 (fun sub => (inner_insert sub key_val).2.2) (by
    intro sub e he
    rcases mem_inner_insert he with h1 | h1
    · exact Or.inl h1
    · exact Or.inr (by rw [h1]))
  have h2 : (if key_val.1.length > km.max_len then key_val.1.length else km.max_len) =
      (if km.max_len < key_val.1.length then key_val.1.length else km.max_len) := rfl
  simp only [insert, h2]
  exact h1

/-- A map filled through the constructors and `insert` satisfies the
invariant. -/
theorem wf_of_filled {km : keyword_map T} (h : filled km) : wf km := by
  induction h with
  | init l => exact wf_foldl l _ wf_empty
  | insert key_val _ ih => exact wf_insert ih key_val

end keyword_map

/-- The entries `lower_bound(max)` leaves, in an outer map ordered by
decreasing length: those whose length is not greater than `max`. -/
theorem mem_lower_bound {S : Type} (max : Nat) :
    ∀ (m : List (Nat × S)), m.Pairwise (fun a b => a.1 > b.1) →
      (lower_bound m max).Pairwise (fun a b => a.1 > b.1) ∧
      ∀ e, e ∈ lower_bound m max ↔ e ∈ m ∧ e.1 ≤ max := by
  intro m
  induction m with
  | nil =>
    intro _
    simp [lower_bound]
  | cons a rest ih =>
    intro h
    have h0 := h
    rw [List.pairwise_cons] at h
    obtain ⟨h1, h2⟩ := h
    by_cases hk : a.1 > max
    · have hd : lower_bound (a :: rest) max = lower_bound rest max := by
        simp [lower_bound, List.dropWhile_cons, hk]
      rw [hd]
      obtain ⟨i1, i2⟩ := ih h2
      refine ⟨i1, ?_⟩
      intro e
      rw [i2 e]
      constructor
      · rintro ⟨h3, h4⟩
        exact ⟨List.mem_cons_of_mem _ h3, h4⟩
      · rintro ⟨h3, h4⟩
        simp only [List.mem_cons] at h3
        rcases h3 with rfl | h3
        · omega
        · exact ⟨h3, h4⟩
    · have hd : lower_bound (a :: rest) max = a :: rest := by
        simp [lower_bound, List.dropWhile_cons, hk]
      rw [hd]
      refine ⟨h0, ?_⟩
      intro e
      constructor
      · intro h3
        refine ⟨h3, ?_⟩
        simp only [List.mem_cons] at h3
        rcases h3 with rfl | h3
        · omega
        · have := h1 e h3
          omega
      · rintro ⟨h3, -⟩
        exact h3

namespace keyword_map

variable {T : Type}

/-- The loop of `match` over entries ordered by decreasing length, none of
which reaches beyond the end of `str`: it returns the first entry, hence the
one of the greatest length, whose inner map holds the characters of `str`
from `pos` on and which passes the test of the character that follows. -/
theorem match_loop_spec (str : Str) (pos : Nat) (whole_word : Bool)
    (hlen : str.length < 2 ^ 64) :
    ∀ (l : List (Nat × List (Str × T))), l.Pairwise (fun a b => a.1 > b.1) →
      (∀ e ∈ l, pos + e.1 ≤ str.length) →
      (∃ kv len sub, match_loop str pos whole_word l = .ok (some (kv, len)) ∧
        (len, sub) ∈ l ∧ kv ∈ sub ∧ kv.1 = (str.drop pos).take len ∧
        ¬ (whole_word = true ∧ word_char str (pos + len) = true) ∧
        ∀ e ∈ l, ¬ (whole_word = true ∧ word_char str (pos + e.1) = true) →
          (∃ kv1 ∈ e.2, kv1.1 = (str.drop pos).take e.1) → e.1 ≤ len) ∨
      (match_loop str pos whole_word l = .ok none ∧
        ∀ e ∈ l, ¬ (whole_word = true ∧ word_char str (pos + e.1) = true) →
          ¬ ∃ kv1 ∈ e.2, kv1.1 = (str.drop pos).take e.1) := by
  intro l
  induction l with
  | nil =>
    intro _ _
    exact Or.inr ⟨rfl, fun e he => by simp at he⟩
  | cons a rest ih =>
    intro hs hb
    obtain ⟨len, sub⟩ := a
    rw [List.pairwise_cons] at hs
    obtain ⟨hs1, hs2⟩ := hs
    have hb0 : pos + len ≤ str.length := hb (len, sub) (List.mem_cons_self _ _)
    have hadd : size_t_add pos len = pos + len := by
      unfold size_t_add
      exact Nat.mod_eq_of_lt (by omega)
    have hsub : str_substr str pos len = .ok ((str.drop pos).take len) := by
      unfold str_substr
      rw [if_pos (by omega)]
    have hrest := ih hs2 (fun e he => hb e (List.mem_cons_of_mem _ he))
    -- what the loop over the rest gives carries over when this entry is passed by
    have carry : ¬ ((¬ (whole_word = true ∧ word_char str (pos + len) = true)) ∧
          ∃ kv1 ∈ sub, kv1.1 = (str.drop pos).take len) →
        match_loop str pos whole_word ((len, sub) :: rest) = match_loop str pos whole_word rest →
        (∃ kv len1 sub1, match_loop str pos whole_word ((len, sub) :: rest) = .ok (some (kv, len1)) ∧
          (len1, sub1) ∈ (len, sub) :: rest ∧ kv ∈ sub1 ∧ kv.1 = (str.drop pos).take len1 ∧
          ¬ (whole_word = true ∧ word_char str (pos + len1) = true) ∧
          ∀ e ∈ (len, sub) :: rest, ¬ (whole_word = true ∧ word_char str (pos + e.1) = true) →
            (∃ kv1 ∈ e.2, kv1.1 = (str.drop pos).take e.1) → e.1 ≤ len1) ∨
        (match_loop str pos whole_word ((len, sub) :: rest) = .ok none ∧
          ∀ e ∈ (len, sub) :: rest, ¬ (whole_word = true ∧ word_char str (pos + e.1) = true) →
            ¬ ∃ kv1 ∈ e.2, kv1.1 = (str.drop pos).take e.1) := by
      intro hno heq
      rw [heq]
      rcases hrest with ⟨kv, len1, sub1, r1, r2, r3, r4, r5, r6⟩ | ⟨r1, r2⟩
      · refine Or.inl ⟨kv, len1, sub1, r1, List.mem_cons_of_mem _ r2, r3, r4, r5, ?_⟩
        intro e he hw hk
        simp only [List.mem_cons] at he
        rcases he with rfl | he
        · exact absurd ⟨hw, hk⟩ hno
        · exact r6 e he hw hk
      · refine Or.inr ⟨r1, ?_⟩
        intro e he hw hk
        simp only [List.mem_cons] at he
        rcases he with rfl | he
        · exact hno ⟨hw, hk⟩
        · exact r2 e he hw hk
    by_cases hw : whole_word = true ∧ word_char str (pos + len) = true
    · apply carry (fun h => h.1 hw)
      simp only [match_loop, hadd, hw.1, hw.2, Bool.and_self, if_true]
    · have hw1 : (whole_word && word_char str (pos + len)) = false := by
        rw [Bool.eq_false_iff]
        intro h
        rw [Bool.and_eq_true] at h
        exact hw h
      cases hfind : inner_find sub ((str.drop pos).take len) with
      | some kv =>
        obtain ⟨f1, f2⟩ := inner_find_some hfind
        refine Or.inl ⟨kv, len, sub, ?_, List.mem_cons_self _ _, f1, f2, hw, ?_⟩
        · simp only [match_loop, hadd, hw1, Bool.false_eq_true, if_false, hsub, hfind]
        · intro e he _ _
          simp only [List.mem_cons] at he
          rcases he with rfl | he
          · exact le_refl _
          · have := hs1 e he
            simp only at this
            omega
      | none =>
        apply carry
        · rintro ⟨-, kv1, hk1, hk2⟩
          exact inner_find_none hfind kv1 hk1 hk2
        · simp only [match_loop, hadd, hw1, Bool.false_eq_true, if_false, hsub, hfind]

end keyword_map

namespace keyword_map

variable {T : Type}

/-- C26: for a map filled through the constructors and `insert`, a string
shorter than `npos` and `pos <= str.length()`. If some length fits (`fits`:
the characters of `str` from `pos` on are a keyword and, when `whole_word` is
set, the characters at `pos - 1` and behind the keyword are not word
characters), `match` returns the greatest length that fits, with the entry of
the map for this keyword. If no length fits, it returns `npos` (with the
iterator `end()`). -/
theorem C26_match_returns_the_longest_keyword (km : keyword_map T) (str : Str) (pos : Nat)
    (whole_word : Bool) (hf : filled km) (hlen : str.length < npos) (hpos : pos ≤ str.length) :
    ((∃ L, fits km str pos whole_word L) →
      ∃ e L, km.do_match str pos whole_word = .ok (some e, L) ∧ fits km str pos whole_word L ∧
        (∀ L1, fits km str pos whole_word L1 → L1 ≤ L) ∧
        e ∈ km.entries ∧ e.1 = (str.drop pos).take L) ∧
    ((¬ ∃ L, fits km str pos whole_word L) →
      km.do_match str pos whole_word = .ok (none, npos)) := by
  have hwf := wf_of_filled hf
  have hlen1 : str.length < 2 ^ 64 := by
    unfold npos at hlen
    omega
  have hsent : km.sentinel = .ok (none, npos) := by
    obtain ⟨sub, hsub⟩ := hwf.zero
    obtain ⟨s, hs⟩ := outer_find_of_mem hsub
    simp only [sentinel, hs]
  by_cases hw : (whole_word && word_char str (size_t_sub pos 1)) = true
  · -- the character before `pos` is a word character: nothing fits
    have hnone : ¬ ∃ L, fits km str pos whole_word L := by
      rintro ⟨L, -, -, h3⟩
      rw [Bool.and_eq_true] at hw
      have h4 := (h3 hw.1).1
      rw [fileparser.word_char_before str pos hlen1, Bool.and_eq_true, decide_eq_true_eq] at hw
      exact h4 hw.2
    refine ⟨fun h => absurd h hnone, fun _ => ?_⟩
    simp only [do_match, hw, if_true]
    exact hsent
  · have hbefore : whole_word = true → ¬ (0 < pos ∧ word_char str (pos - 1) = true) := by
      intro h1 h2
      apply hw
      rw [fileparser.word_char_before str pos hlen1, Bool.and_eq_true, Bool.and_eq_true,
        decide_eq_true_eq]
      exact ⟨h1, h2⟩
    have hsub : size_t_sub str.length pos = str.length - pos := fileparser.size_t_sub_of_le hpos
    obtain ⟨hl1, hl2⟩ := mem_lower_bound (min km.max_len (str.length - pos)) km.map hwf.sorted
    have hreach : ∀ e ∈ lower_bound km.map (min km.max_len (str.length - pos)),
        pos + e.1 ≤ str.length := by
      intro e he
      have := ((hl2 e).1 he).2
      omega
    -- a length fits iff an entry within the bound holds the characters and passes the test
    have hfit_of : ∀ e ∈ lower_bound km.map (min km.max_len (str.length - pos)),
        ¬ (whole_word = true ∧ word_char str (pos + e.1) = true) →
        (∃ kv1 ∈ e.2, kv1.1 = (str.drop pos).take e.1) → fits km str pos whole_word e.1 := by
      intro e he h1 ⟨kv1, h2, h3⟩
      refine ⟨hreach e he, ⟨kv1.2, ?_⟩, fun h4 => ⟨hbefore h4, ?_⟩⟩
      · rw [mem_entries]
        refine ⟨e, ((hl2 e).1 he).1, ?_⟩
        rw [← h3]
        exact h2
      · cases hc : word_char str (pos + e.1)
        · rfl
        · exact absurd ⟨h4, hc⟩ h1
    have hof_fit : ∀ L, fits km str pos whole_word L →
        ∃ e ∈ lower_bound km.map (min km.max_len (str.length - pos)), e.1 = L ∧
          ¬ (whole_word = true ∧ word_char str (pos + e.1) = true) ∧
          ∃ kv1 ∈ e.2, kv1.1 = (str.drop pos).take e.1 := by
      rintro L ⟨h1, ⟨v, h2⟩, h3⟩
      rw [mem_entries] at h2
      obtain ⟨e, he, hkv⟩ := h2
      have h4 := hwf.lengths e he _ hkv
      have h5 := hwf.bound e he _ hkv
      simp only [List.length_take, List.length_drop] at h4 h5
      have h6 : e.1 = L := by omega
      refine ⟨e, (hl2 e).2 ⟨he, by omega⟩, h6, ?_, _, hkv, by rw [h6]⟩
      rintro ⟨h7, h8⟩
      rw [h6, (h3 h7).2] at h8
      simp at h8
    have hw0 : (whole_word && word_char str (size_t_sub pos 1)) = false := by
      simpa using hw
    rcases match_loop_spec str pos whole_word hlen1 _ hl1 hreach with
      ⟨kv, len, sub, r1, r2, r3, r4, r5, r6⟩ | ⟨r1, r2⟩
    · have hfitlen := hfit_of (len, sub) r2 r5 ⟨kv, r3, r4⟩
      refine ⟨fun _ => ⟨kv, len, ?_, hfitlen, ?_, ?_, r4⟩, fun h => absurd ⟨len, hfitlen⟩ h⟩
      · simp only [do_match, hw0, Bool.false_eq_true, if_false, hsub, r1]
      · intro L1 hL1
        obtain ⟨e, he, h6, h7, h8⟩ := hof_fit L1 hL1
        rw [← h6]
        exact r6 e he h7 h8
      · rw [mem_entries]
        exact ⟨(len, sub), ((hl2 _).1 r2).1, r3⟩
    · refine ⟨?_, fun _ => ?_⟩
      · rintro ⟨L, hL⟩
        obtain ⟨e, he, -, h7, h8⟩ := hof_fit L hL
        exact absurd h8 (r2 e he h7)
      · simp only [do_match, hw0, Bool.false_eq_true, if_false, hsub, r1]
        exact hsent

/-- C26, witness: the map built from "ab" and "abc", with "x" inserted. In
"abc d" at the position 0 the lengths 2 and 3 fit without `whole_word`, and
`match` returns the entry of "abc" with the length 3; in "abcd" with
`whole_word` no length fits, the character behind either keyword being a
word character, and `match` returns `npos`. -/
theorem C26_match_returns_the_longest_keyword_witness :
    filled ((of_init [(['a', 'b'], 1), (['a', 'b', 'c'], 2)]).insert (['x'], 3)).2.2 ∧
    fits ((of_init [(['a', 'b'], 1), (['a', 'b', 'c'], 2)]).insert (['x'], 3)).2.2
      ['a', 'b', 'c', ' ', 'd'] 0 false 2 ∧
    (∃ e L, ((of_init [(['a', 'b'], 1), (['a', 'b', 'c'], 2)]).insert (['x'], 3)).2.2.do_match
        ['a', 'b', 'c', ' ', 'd'] 0 false = .ok (some e, L) ∧ e = (['a', 'b', 'c'], 2) ∧ L = 3) ∧
    ((of_init [(['a', 'b'], 1), (['a', 'b', 'c'], 2)]).insert (['x'], 3)).2.2.do_match
        ['a', 'b', 'c', 'd'] 0 true = .ok (none, npos) := by
  have hfill : filled ((of_init [(['a', 'b'], 1), (['a', 'b', 'c'], 2)]).insert (['x'], 3)).2.2 :=
    filled.insert _ (filled.init _)
  have hfit : fits ((of_init [(['a', 'b'], 1), (['a', 'b', 'c'], 2)]).insert (['x'], 3)).2.2
      ['a', 'b', 'c', ' ', 'd'] 0 false 2 :=
    ⟨by decide, ⟨1, by decide⟩, fun h => by simp at h⟩
  obtain ⟨e, L, h1, -, -, -, -⟩ :=
    (C26_match_returns_the_longest_keyword _ ['a', 'b', 'c', ' ', 'd'] 0 false hfill
      (by decide) (by decide)).1 ⟨2, hfit⟩
  have h2 : ((of_init [(['a', 'b'], 1), (['a', 'b', 'c'], 2)]).insert (['x'], 3)).2.2.do_match
      ['a', 'b', 'c', ' ', 'd'] 0 false = .ok (some (['a', 'b', 'c'], 2), 3) := rfl
  rw [h2] at h1
  injection h1 with h1
  simp only [Prod.mk.injEq, Option.some.injEq] at h1
  exact ⟨hfill, hfit, ⟨e, L, by rw [h2, ← h1.1, ← h1.2], h1.1.symm, h1.2.symm⟩, rfl⟩

end keyword_map

/-! ### Keywords added through the subscript operator -/

/-- C39 (what the code does): on the map built by `keyword_map()` the
assignment `m["ab"] = 1` stores the entry under the length 2 and leaves
`max_len` at 0, so `match("ab", 0, false)` starts at `lower_bound(0)`, behind
the entry, and returns `npos`; `match_whole("ab")` finds the entry, and so does
`match` when the keyword is added by `insert`, which raises `max_len`. On the
map that holds "abc", `m["ab"] = 1` is found. -/
theorem C39_subscript_leaves_max_len :
    ((keyword_map.empty : keyword_map Nat).subscript_assign ['a', 'b'] 1).map =
      [(2, [(['a', 'b'], 1)]), (0, [])] ∧
    ((keyword_map.empty : keyword_map Nat).subscript_assign ['a', 'b'] 1).max_len = 0 ∧
    ((keyword_map.empty : keyword_map Nat).subscript_assign ['a', 'b'] 1).do_match
      ['a', 'b'] 0 false = .ok (none, npos) ∧
    ((keyword_map.empty : keyword_map Nat).subscript_assign ['a', 'b'] 1).match_whole
      ['a', 'b'] = .ok (some (['a', 'b'], 1), 2) ∧
    ((keyword_map.empty : keyword_map Nat).insert (['a', 'b'], 1)).2.2.do_match
      ['a', 'b'] 0 false = .ok (some (['a', 'b'], 1), 2) ∧
    ((keyword_map.of_init [(['a', 'b', 'c'], 0)]).subscript_assign ['a', 'b'] 1).do_match
      ['a', 'b'] 0 false = .ok (some (['a', 'b'], 1), 2) :=
  ⟨rfl, rfl, rfl, rfl, rfl, rfl⟩

namespace regex

/-- C38 (what the code does). (1) The witness: the children greedy `a{0,3}`
and literal `a` on the line "aaa"; `match_sequence` returns true with the
length 4 within three iterations, and no child is asked to change.
(2) The children A = greedy `a{0,3}` and B = literal `b` on the line "ab",
both with the entry of `start_attempt` on their stacks: the call returns no
result, whatever the bound on the iterations. B fails, `change_match` of A
succeeds, and the loop matches A from scratch, so B is tried at the same
column and fails again; its `clear_attempt` then pops an empty stack. With a
bound below 4 the loop is cut off before that.
(3) With two and with three entries of `start_attempt` on the stack of B the
loop goes through one and two further rounds of the same kind: the read of
the empty stack is reached at the iteration 6 and 8, and not before. -/
theorem C38_sequence_rematches_the_changed_child :
    (∃ o, match_sequence (calls 1) 3 (fileparser.opened ['a', 'a', 'a'] []) 0
          [literal ['a'] 0 3 GREEDY, literal ['a'] 1 1 GREEDY] = .ok o ∧
        o.ret = true ∧ o.len = 4) ∧
    (match_sequence (calls 1) 0 (fileparser.opened ['a', 'b'] []) 0
        [(literal ['a'] 0 3 GREEDY).start_attempt, (literal ['b'] 1 1 GREEDY).start_attempt] =
          .error .out_of_fuel ∧
      match_sequence (calls 1) 1 (fileparser.opened ['a', 'b'] []) 0
        [(literal ['a'] 0 3 GREEDY).start_attempt, (literal ['b'] 1 1 GREEDY).start_attempt] =
          .error .out_of_fuel ∧
      match_sequence (calls 1) 2 (fileparser.opened ['a', 'b'] []) 0
        [(literal ['a'] 0 3 GREEDY).start_attempt, (literal ['b'] 1 1 GREEDY).start_attempt] =
          .error .out_of_fuel ∧
      match_sequence (calls 1) 3 (fileparser.opened ['a', 'b'] []) 0
        [(literal ['a'] 0 3 GREEDY).start_attempt, (literal ['b'] 1 1 GREEDY).start_attempt] =
          .error .out_of_fuel ∧
      ∀ fuel, match_sequence (calls 1) (fuel + 4) (fileparser.opened ['a', 'b'] []) 0
        [(literal ['a'] 0 3 GREEDY).start_attempt, (literal ['b'] 1 1 GREEDY).start_attempt] =
          .error .undefined_behaviour) ∧
    (match_sequence (calls 1) 5 (fileparser.opened ['a', 'b'] []) 0
        [(literal ['a'] 0 3 GREEDY).start_attempt,
          (literal ['b'] 1 1 GREEDY).start_attempt.start_attempt] = .error .out_of_fuel ∧
      (∀ fuel, match_sequence (calls 1) (fuel + 6) (fileparser.opened ['a', 'b'] []) 0
        [(literal ['a'] 0 3 GREEDY).start_attempt,
          (literal ['b'] 1 1 GREEDY).start_attempt.start_attempt] =
            .error .undefined_behaviour) ∧
      match_sequence (calls 1) 7 (fileparser.opened ['a', 'b'] []) 0
        [(literal ['a'] 0 3 GREEDY).start_attempt,
          (literal ['b'] 1 1 GREEDY).start_attempt.start_attempt.start_attempt] =
            .error .out_of_fuel ∧
      ∀ fuel, match_sequence (calls 1) (fuel + 8) (fileparser.opened ['a', 'b'] []) 0
        [(literal ['a'] 0 3 GREEDY).start_attempt,
          (literal ['b'] 1 1 GREEDY).start_attempt.start_attempt.start_attempt] =
            .error .undefined_behaviour) :=
  ⟨⟨_, rfl, rfl, rfl⟩, ⟨rfl, rfl, rfl, rfl, fun _ => rfl⟩, ⟨rfl, fun _ => rfl, rfl, fun _ => rfl⟩⟩

end regex

/-! ### Queries on the document object model -/

namespace dom_query

/-- C33 (what the code does): the element X has no sub-element. The chain
`X.element("foo").attribute("baz").or_error()` reports the message
`attribute "foo" requested but not found`: the failing step `element("foo")`
leaves its tag in `query`, and the step `attribute("baz")` that follows sets
`type` to `ATTRIBUTE` before it looks at the validity, so `what()` describes
an attribute with the key "foo". Without the later step the message names the
element with tag `<foo>`; a later `content()` gives "tag content", a later
`all_elements("bar")` gives "all elements with tag `<foo>`". When the child
foo exists the message names the attribute "baz". For every invalid query of
the kind `ELEMENT`, `attribute(name).or_error()` reports an attribute with
the key that `query` held before. -/
theorem C33_or_error_names_the_last_kind :
    (do
      let q ← (dom_element.mk ['X'] [] [] [] []).element ['f', 'o', 'o']
      let q ← q.query_attribute ['b', 'a', 'z']
      q.or_error) = .error (.reported "attribute \"foo\" requested but not found".toList) ∧
    (do
      let q ← (dom_element.mk ['X'] [] [] [] []).element ['f', 'o', 'o']
      q.or_error) = .error (.reported "element with tag <foo> requested but not found".toList) ∧
    (do
      let q ← (dom_element.mk ['X'] [] [] [] []).element ['f', 'o', 'o']
      let q ← q.content
      q.or_error) = .error (.reported "tag content requested but not found".toList) ∧
    (do
      let q ← (dom_element.mk ['X'] [] [] [] []).element ['f', 'o', 'o']
      let q ← q.all_elements ['b', 'a', 'r']
      q.or_error) =
        .error (.reported "all elements with tag <foo> requested but not found".toList) ∧
    (do
      let q ← ((dom_element.mk ['X'] [] [] [] []).add_element ['f', 'o', 'o']).element ['f', 'o', 'o']
      let q ← q.query_attribute ['b', 'a', 'z']
      q.or_error) = .error (.reported "attribute \"baz\" requested but not found".toList) ∧
    (∀ (target : dom_element) (query name : Str),
      (do
        let q ← query_attribute ⟨target, query, .ELEMENT, .INVALID⟩ name
        q.or_error) =
      .error (.reported
        (("attribute \"".toList ++ query ++ "\"".toList) ++
          " requested but not found".toList))) :=
  ⟨rfl, rfl, rfl, rfl, rfl, fun _ _ _ => rfl⟩

end dom_query
namespace dom_element

/-! ### Names of elements and attributes -/

theorem str_has_cons (c a : Char) (l : Str) : str_has (a :: l) c = (c == a || str_has l c) := by
  simp only [str_has, List.contains_cons]

theorem str_has_nil (c : Char) : str_has [] c = false := rfl

theorem validate_xml_name_loop_eq (name : Str) : ∀ (n i : Nat), i + n = name.length →
    validate_xml_name_loop name n i =
      if (name.drop i).all (fun c => isalpha c || isdigit c || str_has ['.', '-', ':', '_'] c)
      then .ok () else .error .exit_failure := by
  intro n
  induction n with
  | zero =>
    intro i h
    have : name.drop i = [] := List.drop_eq_nil_of_le (by omega)
    simp [validate_xml_name_loop, this]
  | succ n ih =>
    intro i h
    have hi : i < name.length := by omega
    have hd : name.drop i = name[i] :: name.drop (i + 1) := List.drop_eq_getElem_cons hi
    have hat : str_at name i = .ok name[i] := by
      simp [str_at, List.getElem?_eq_getElem hi]
    rw [validate_xml_name_loop, hat, ok_bind, ih (i + 1) (by omega)]
    generalize name[i] = c at hd
    rw [hd, List.all_cons]
    cases (isalpha c || isdigit c || str_has ['.', '-', ':', '_'] c) <;> simp

/-- C32 (what the code does). The names ":a" and "_a" are accepted and the
name "-a" is refused, as are the empty name, "1a" and ".a"; "a-b.c:d_1" is
accepted. For every name: it is accepted exactly if it is not empty, its
first character is a letter, a colon or an underscore, and each later
character is a letter, a digit, a period, a dash, a colon or an underscore;
every other name ends the program through `parser.error`. -/
theorem C32_validate_xml_name_first_character :
    validate_xml_name [':', 'a'] = .ok () ∧
    validate_xml_name ['_', 'a'] = .ok () ∧
    validate_xml_name ['-', 'a'] = .error .exit_failure ∧
    validate_xml_name [] = .error .exit_failure ∧
    validate_xml_name ['1', 'a'] = .error .exit_failure ∧
    validate_xml_name ['.', 'a'] = .error .exit_failure ∧
    validate_xml_name ['a', '-', 'b', '.', 'c', ':', 'd', '_', '1'] = .ok () ∧
    (∀ name : Str, validate_xml_name name =
      match name with
      | [] => .error .exit_failure
      | c :: rest =>
        if (isalpha c || (c == ':' || c == '_')) &&
            rest.all (fun d => isalpha d || isdigit d ||
              (d == '.' || (d == '-' || (d == ':' || d == '_'))))
        then .ok () else .error .exit_failure) := by
  refine ⟨rfl, rfl, rfl, rfl, rfl, rfl, rfl, ?_⟩
  intro name
  cases name with
  | nil => rfl
  | cons c rest =>
    have hat : str_at (c :: rest) 0 = .ok c := by simp [str_at]
    have hall : (rest.all (fun d => isalpha d || isdigit d || str_has ['.', '-', ':', '_'] d)) =
        rest.all (fun d => isalpha d || isdigit d ||
              (d == '.' || (d == '-' || (d == ':' || d == '_')))) := by
      congr 1
      funext d
      simp only [str_has_cons, str_has_nil, Bool.or_false]
    have hc : str_has [':', '_'] c = (c == ':' || c == '_') := by
      simp only [str_has_cons, str_has_nil, Bool.or_false]
    unfold validate_xml_name
    simp only [List.isEmpty_cons, Bool.false_eq_true, if_false, hat, ok_bind]
    rw [validate_xml_name_loop_eq (c :: rest) _ 1 (by simp; omega)]
    simp only [List.drop_one, List.tail_cons, hall, hc]
    cases (isalpha c || (c == ':' || c == '_')) <;>
      cases (rest.all (fun d => isalpha d || isdigit d ||
              (d == '.' || (d == '-' || (d == ':' || d == '_'))))) <;> simp

end dom_element

namespace fileparser

/-- C37 (what the code does): the stream holds the one line "abc". With the
cursor at the end of the line (column 3), `advance_char(backwards)` goes to
column 2 and a forward `advance_char()` returns to column 3. After a forward
`advance_char()` at the end of the line has failed at the end of the input,
the cursor still is at column 3 and `advance_char(backwards)` still goes to
column 2, but the forward `advance_char()` that follows returns false and
leaves the cursor at column 2: the failed read has pushed an empty buffer
(C3), `BUF` is that buffer, and `col < BUF.length()` is false. The same
happens with a mark set at the start of the line. -/
theorem C37_backward_then_forward_after_a_failed_read :
    (∃ p q r, (of_stream (istream.of_lines [['a', 'b', 'c']]) >>= fun p0 => p0.plus_eq 3) = .ok p ∧
      (p.line, p.col) = (1, 3) ∧
      p.advance_char backwards = .ok (true, q) ∧ (q.line, q.col) = (1, 2) ∧
      q.advance_char = .ok (true, r) ∧ (r.line, r.col) = (1, 3)) ∧
    (∃ p q r, (of_stream (istream.of_lines [['a', 'b', 'c']]) >>= fun p0 => p0.plus_eq 4) = .ok p ∧
      (p.line, p.col) = (1, 3) ∧ p.get_buffer = .ok [] ∧
      p.advance_char backwards = .ok (true, q) ∧ (q.line, q.col) = (1, 2) ∧
      q.advance_char = .ok (false, r) ∧ (r.line, r.col) = (1, 2)) ∧
    (∃ p q r, (of_stream (istream.of_lines [['a', 'b', 'c']]) >>= fun p0 =>
        p0.set_mark >>= fun p1 => p1.plus_eq 4) = .ok p ∧
      (p.line, p.col) = (1, 3) ∧ p.marks = [⟨1, 0⟩] ∧
      p.advance_char backwards = .ok (true, q) ∧ (q.line, q.col) = (1, 2) ∧
      q.advance_char = .ok (false, r) ∧ (r.line, r.col) = (1, 2)) :=
  ⟨⟨_, _, _, rfl, rfl, rfl, rfl, rfl, rfl⟩, ⟨_, _, _, rfl, rfl, rfl, rfl, rfl, rfl, rfl⟩,
    ⟨_, _, _, rfl, rfl, rfl, rfl, rfl, rfl, rfl⟩⟩

end fileparser

namespace fileparser

/-! ### The frame of the match functions -/

theorem match_backward_marks (opts : Nat) : ∀ (str : Str) (p : fileparser) (b : Bool)
    (q : fileparser), match_backward opts str p = .ok (b, q) → q.marks = p.marks := by
  intro str
  induction str with
  | nil =>
    intro p b q hq
    simp only [match_backward, Except.ok.injEq, Prod.mk.injEq] at hq
    obtain ⟨-, rfl⟩ := hq
    rfl
  | cons c rest ih =>
    intro p b q hq
    rw [match_backward] at hq
    obtain ⟨g, -, hq⟩ := bind_eq_ok.1 hq
    split at hq
    · rw [pure_eq_ok] at hq
      injection hq with _ hq
      subst hq
      rfl
    · obtain ⟨⟨b1, p1⟩, h1, hq⟩ := bind_eq_ok.1 hq
      rw [ih p1 b q hq, advance_char_marks h1]

/-- The `switch` of `match_impl` keeps the marks, whatever the style and the
options. -/
theorem match_switch_marks {p q : fileparser} {str : Str} {opts : Nat} {style : match_style}
    {b : Bool} (hq : match_switch p str opts style = .ok (b, q)) : q.marks = p.marks := by
  unfold match_switch at hq
  split at hq
  · obtain ⟨c, -, hq⟩ := bind_eq_ok.1 hq
    obtain ⟨g, -, hq⟩ := bind_eq_ok.1 hq
    split at hq
    · rw [pure_eq_ok] at hq; injection hq with _ hq; subst hq; rfl
    · obtain ⟨⟨b1, p1⟩, h1, hq⟩ := bind_eq_ok.1 hq
      rw [pure_eq_ok] at hq; injection hq with _ hq; subst hq
      exact advance_char_marks h1
  · split at hq
    · exact match_backward_marks _ _ _ _ _ hq
    · exact match_forward_marks _ _ _ _ _ hq
  · obtain ⟨g, -, hq⟩ := bind_eq_ok.1 hq
    split at hq
    · rw [pure_eq_ok] at hq; injection hq with _ hq; subst hq; rfl
    · obtain ⟨⟨b1, p1⟩, h1, hq⟩ := bind_eq_ok.1 hq
      rw [pure_eq_ok] at hq; injection hq with _ hq; subst hq
      exact advance_char_marks h1
  · obtain ⟨g, -, hq⟩ := bind_eq_ok.1 hq
    split at hq
    · rw [pure_eq_ok] at hq; injection hq with _ hq; subst hq; rfl
    · obtain ⟨⟨b1, p1⟩, h1, hq⟩ := bind_eq_ok.1 hq
      rw [pure_eq_ok] at hq; injection hq with _ hq; subst hq
      exact advance_char_marks h1
  · obtain ⟨buf, -, hq⟩ := bind_eq_ok.1 hq
    rw [pure_eq_ok] at hq; injection hq with _ hq; subst hq; rfl

/-- A call of `match_impl` with an empty error message that returns leaves the
marks as they were; it leaves the position as it was unless it returns true
under the option `consume`. -/
theorem match_impl_frame {p q : fileparser} {str : Str} {opts : Nat} {style : match_style}
    {m : Bool} (h : p.match_impl str opts [] style = .ok (m, q)) :
    q.marks = p.marks ∧
      ((m = false ∨ has opts consume = false) → q.line = p.line ∧ q.col = p.col) := by
  unfold match_impl at h
  obtain ⟨p0, h0, h⟩ := bind_eq_ok.1 h
  obtain ⟨⟨m1, p1⟩, h1, h⟩ := bind_eq_ok.1 h
  obtain ⟨hm0, hl0, hc0⟩ := set_mark_pos h0
  have hm1 : p1.marks = { line := p.line, col := p.col } :: p.marks := by
    rw [match_switch_marks h1, hm0]
  unfold match_end at h
  dsimp only at h
  split at h
  · split at h
    · rename_i hcons
      obtain ⟨p2, h2, h⟩ := bind_eq_ok.1 h
      rw [pure_eq_ok] at h
      injection h with hm h
      subst h
      subst hm
      obtain ⟨a1, a2, a3⟩ := unset_mark_pos h2
      refine ⟨by rw [a1, hm1]; rfl, ?_⟩
      intro hx
      rcases hx with hx | hx
      · cases hx
      · rw [hcons] at hx
        cases hx
    · obtain ⟨p2, h2, h⟩ := bind_eq_ok.1 h
      rw [pure_eq_ok] at h
      injection h with hm h
      subst h
      obtain ⟨a1, a2, a3⟩ := revert_to_mark_pos hm1 h2
      exact ⟨by simpa [remove_mark] using a3, fun _ => ⟨a1, a2⟩⟩
  · simp only [List.isEmpty_nil, if_true] at h
    obtain ⟨p2, h2, h⟩ := bind_eq_ok.1 h
    rw [pure_eq_ok] at h
    injection h with hm h
    subst h
    obtain ⟨a1, a2, a3⟩ := revert_to_mark_pos hm1 h2
    exact ⟨by simpa [remove_mark] using a3, fun _ => ⟨a1, a2⟩⟩

/-- On the states considered the forward `get_char()` returns. -/
theorem get_char_loose {p : fileparser} (h : loose p) : ∃ g, p.get_char = .ok g := by
  obtain ⟨b, hb⟩ := loose_BUF h
  have hB := BUF_eq h.le_max hb
  unfold get_char
  simp only [Bool.false_eq_true, if_false, hB, ok_bind]
  split
  · rename_i hlt
    exact ⟨b.1[p.col], by simp [str_at, List.getElem?_eq_getElem hlt]⟩
  · exact ⟨_, rfl⟩

theorem match_forward_valid (opts : Nat) : ∀ (str : Str) (p : fileparser), valid p →
    ∃ b q, match_forward opts str p = .ok (b, q) ∧ valid q := by
  intro str
  induction str with
  | nil => intro p h; exact ⟨true, p, rfl, h⟩
  | cons c rest ih =>
    intro p h
    obtain ⟨g, hg⟩ := get_char_loose h.1
    rw [match_forward, hg, ok_bind]
    split
    · exact ⟨false, p, rfl, h⟩
    · obtain ⟨b1, p1, h1, hv, -, -⟩ := advance_char_valid h opts
      rw [h1, ok_bind]
      exact ih p1 hv

/-- On the states considered the `switch` of `match_impl` returns when the
option `backwards` is not set, and stays within these states. -/
theorem match_switch_valid {p : fileparser} (h : valid p) (str : Str) {opts : Nat}
    (hb : has opts backwards = false) (style : match_style) :
    ∃ b q, match_switch p str opts style = .ok (b, q) ∧ valid q := by
  obtain ⟨g, hg⟩ := get_char_loose h.1
  obtain ⟨b1, p1, h1, hv, -, -⟩ := advance_char_valid h opts
  have hc0 : ∃ c, str_at str 0 = .ok c := by
    cases str with
    | nil => exact ⟨_, rfl⟩
    | cons c rest => exact ⟨c, by simp [str_at]⟩
  obtain ⟨c, hc⟩ := hc0
  cases style with
  | CHAR =>
    simp only [match_switch, hb, hc, hg, ok_bind]
    split
    · exact ⟨false, p, rfl, h⟩
    · rw [h1, ok_bind]; exact ⟨true, p1, rfl, hv⟩
  | STRING =>
    simp only [match_switch, hb, Bool.false_eq_true, if_false]
    exact match_forward_valid opts str p h
  | CHARS =>
    simp only [match_switch, hb, hg, ok_bind]
    split
    · exact ⟨false, p, rfl, h⟩
    · rw [h1, ok_bind]; exact ⟨true, p1, rfl, hv⟩
  | NOT_CHARS =>
    simp only [match_switch, hb, hg, ok_bind]
    split
    · exact ⟨false, p, rfl, h⟩
    · rw [h1, ok_bind]; exact ⟨true, p1, rfl, hv⟩
  | WORD_BOUNDARY =>
    obtain ⟨b, hbuf⟩ := loose_BUF h.1
    have hB := BUF_eq h.1.le_max hbuf
    simp only [match_switch, hB, ok_bind]
    exact ⟨_, p, rfl, h⟩

/-- On the states considered `match_impl` returns when it is called with an
empty error message and without the option `backwards`. -/
theorem match_impl_returns {p : fileparser} (h : valid p) (str : Str) {opts : Nat}
    (hb : has opts backwards = false) (style : match_style) :
    ∃ m q, p.match_impl str opts [] style = .ok (m, q) := by
  obtain ⟨b, -, he⟩ := set_mark_eq h.1
  have hv0 := set_mark_valid h he
  obtain ⟨m1, p1, h1, hv1⟩ := match_switch_valid hv0 str hb style
  have hm1 := match_switch_marks h1
  obtain ⟨⟨q1, hq1⟩, ⟨q2, hq2⟩⟩ := release_mark_loose hv1.1 hm1
  unfold match_impl
  rw [he, ok_bind, h1, ok_bind]
  unfold match_end
  cases m1 with
  | true =>
    by_cases hcons : has opts consume = true
    · simp only [hcons, if_true, hq1, ok_bind]
      exact ⟨true, q1, rfl⟩
    · simp only [hcons, if_false, hq2, ok_bind]
      exact ⟨true, q2, rfl⟩
  | false =>
    simp only [Bool.false_eq_true, if_false, List.isEmpty_nil, if_true, hq2, ok_bind]
    exact ⟨false, q2, rfl⟩

/-- C35: every match function is `match_impl` with its style (`match` with
`CHAR` or `STRING`, `match_any_of` with `CHARS`, `match_not_of` with
`NOT_CHARS`, `match_word_boundary` with `WORD_BOUNDARY`). For every state of
the cursor, every string, style and set of options: a call with an empty
error message that returns leaves the mark stack as it was, and leaves `line`
and `col` as they were unless it returns true under the option `consume`. On
the states a cursor reaches (`valid`), and without the option `backwards`,
the call does return. -/
theorem C35_match_keeps_marks_and_position (p : fileparser) (str : Str) (opts : Nat)
    (style : match_style) :
    (∀ m q, p.match_impl str opts [] style = .ok (m, q) →
      q.marks = p.marks ∧
        ((m = false ∨ has opts consume = false) → q.line = p.line ∧ q.col = p.col)) ∧
    (valid p → has opts backwards = false →
      ∃ m q, p.match_impl str opts [] style = .ok (m, q)) :=
  ⟨fun _ _ h => match_impl_frame h, fun hv hb => match_impl_returns hv str hb style⟩

end fileparser
namespace fileparser

/-- Witness of C35 on the line "ab": `match("a")` returns true and leaves the
cursor at column 0 with no mark; `match("a", consume)` returns true, with no
mark; `match('x')` returns false at column 0; and `match_any_of("ab", consume)`
returns on this cursor. -/
theorem C35_match_keeps_marks_and_position_witness :
    (∃ q, (opened ['a', 'b'] []).match_impl ['a'] 0 [] .STRING = .ok (true, q) ∧
      q.marks = [] ∧ q.line = 1 ∧ q.col = 0) ∧
    (∃ q, (opened ['a', 'b'] []).match_impl ['a'] consume [] .STRING = .ok (true, q) ∧
      q.marks = []) ∧
    (∃ q, (opened ['a', 'b'] []).match_impl ['x'] consume [] .CHAR = .ok (false, q) ∧
      q.marks = [] ∧ q.line = 1 ∧ q.col = 0) ∧
    (valid (opened ['a', 'b'] []) ∧ has consume backwards = false ∧
      ∃ m q, (opened ['a', 'b'] []).match_impl ['a', 'b'] consume [] .CHARS = .ok (m, q)) :=
  ⟨⟨_, rfl,
      ((C35_match_keeps_marks_and_position (opened ['a', 'b'] []) ['a'] 0 .STRING).1
        true _ rfl).1,
      ((C35_match_keeps_marks_and_position (opened ['a', 'b'] []) ['a'] 0 .STRING).1
        true _ rfl).2 (Or.inr (by decide))⟩,
    ⟨_, rfl,
      ((C35_match_keeps_marks_and_position (opened ['a', 'b'] []) ['a'] consume .STRING).1
        true _ rfl).1⟩,
    ⟨_, rfl,
      ((C35_match_keeps_marks_and_position (opened ['a', 'b'] []) ['x'] consume .CHAR).1
        false _ rfl).1,
      ((C35_match_keeps_marks_and_position (opened ['a', 'b'] []) ['x'] consume .CHAR).1
        false _ rfl).2 (Or.inl rfl)⟩,
    ⟨inv_valid (inv_opened _ _), by decide,
      (C35_match_keeps_marks_and_position (opened ['a', 'b'] []) ['a', 'b'] consume .CHARS).2
        (inv_valid (inv_opened _ _)) (by decide)⟩⟩

end fileparser

namespace dom_element

/-! ### Escaping and expanding the entities of XML -/

theorem unparse_string_append : ∀ (s out : Str),
    unparse_string out s = out ++ unparse_string [] s := by
  intro s
  induction s with
  | nil => intro out; simp [unparse_string]
  | cons c t ih =>
    intro out
    rw [unparse_string, ih, unparse_string, ih (_ ++ _)]
    simp

theorem unparse_string_cons (c : Char) (t : Str) :
    unparse_string [] (c :: t) = unparse_char c ++ unparse_string [] t := by
  rw [unparse_string, unparse_string_append]
  simp

theorem str_at_append (pre : Str) (c : Char) (rest : Str) :
    str_at (pre ++ c :: rest) pre.length = .ok c := by
  have h : (pre ++ c :: rest)[pre.length]? = some c := by
    rw [List.getElem?_append_right (le_refl _)]
    simp
  simp only [str_at, h]

theorem str_at_append_succ (pre : Str) (a c : Char) (rest : Str) :
    str_at (pre ++ a :: c :: rest) (pre.length + 1) = .ok c := by
  have := str_at_append (pre ++ [a]) c rest
  simpa using this

theorem str_find_entity (pre name rest : Str) (a : Char) (ha : a ≠ ';') (hn : ';' ∉ name) :
    str_find (pre ++ a :: (name ++ ';' :: rest)) ';' pre.length =
      some (pre.length + (name.length + 1)) := by
  have hd : (pre ++ a :: (name ++ ';' :: rest)).drop pre.length = a :: (name ++ ';' :: rest) := by
    simp
  have hi : (a :: (name ++ ';' :: rest)).indexOf ';' = name.length + 1 := by
    rw [List.indexOf_cons_ne _ ha, List.indexOf_append_of_not_mem hn, List.indexOf_cons_self]
  unfold str_find
  rw [hd, hi]
  simp

theorem str_substr_entity (pre name rest : Str) (a : Char) :
    str_substr (pre ++ a :: (name ++ ';' :: rest)) (pre.length + 1)
      (pre.length + (name.length + 1) - (pre.length + 1)) = .ok name := by
  have hd : (pre ++ a :: (name ++ ';' :: rest)).drop (pre.length + 1) = name ++ ';' :: rest := by
    have : pre ++ a :: (name ++ ';' :: rest) = (pre ++ [a]) ++ (name ++ ';' :: rest) := by simp
    rw [this]
    have hl : pre.length + 1 = (pre ++ [a]).length := by simp
    rw [hl, List.drop_left]
  have hlen : pre.length + (name.length + 1) - (pre.length + 1) = name.length := by omega
  unfold str_substr
  rw [hd, hlen]
  simp

/-- One iteration of the loop of `expand_xml_entities` at the reference
`&name;` of an entity that the map holds. -/
theorem expand_loop_entity (recur : Str → Res Str) (entities : List (Str × Str))
    (pre name rest val piece ost : Str) (n : Nat) (c1 : Char) (tl : Str)
    (hname : name = c1 :: tl) (hc1 : c1 ≠ '#') (hn : ';' ∉ name)
    (hfind : inner_find entities name = some (name, val))
    (hpiece : (if val != ['&'] then recur val else pure ['&']) = .ok piece) :
    expand_loop recur entities (pre ++ '&' :: (name ++ ';' :: rest)) (n + 1) pre.length ost =
      expand_loop recur entities (pre ++ '&' :: (name ++ ';' :: rest)) n
        ((pre ++ '&' :: (name ++ [';'])).length) (ost ++ piece) := by
  have hlt : pre.length < (pre ++ '&' :: (name ++ ';' :: rest)).length := by simp
  have hent : expand_entity recur entities (pre ++ '&' :: (name ++ ';' :: rest)) pre.length
      (pre.length + (name.length + 1)) = .ok piece := by
    unfold expand_entity
    have h1 : str_at (pre ++ '&' :: (name ++ ';' :: rest)) (pre.length + 1) = .ok c1 := by
      rw [hname]
      exact str_at_append_succ pre '&' c1 (tl ++ ';' :: rest)
    have hne : (c1 == '#') = false := by simpa using hc1
    simp only [h1, ok_bind, hne, Bool.false_eq_true, if_false, str_substr_entity, hfind]
    exact hpiece
  rw [expand_loop]
  simp only [hlt, if_true, str_at_append, ok_bind, beq_self_eq_true,
    str_find_entity pre name rest '&' (by decide) hn, hent]
  congr 1
  simp
  omega

/-- One iteration of the loop of `expand_xml_entities` at a character other
than the ampersand. -/
theorem expand_loop_char (recur : Str → Res Str) (entities : List (Str × Str))
    (pre rest ost : Str) (n : Nat) (c : Char) (hc : c ≠ '&') :
    expand_loop recur entities (pre ++ c :: rest) (n + 1) pre.length ost =
      expand_loop recur entities (pre ++ c :: rest) n ((pre ++ [c]).length) (ost ++ [c]) := by
  have hlt : pre.length < (pre ++ c :: rest).length := by simp
  have hne : (c == '&') = false := by simpa using hc
  rw [expand_loop]
  simp only [hlt, if_true, str_at_append, ok_bind, hne, Bool.false_eq_true, if_false]
  congr 1
  simp

theorem expand_single (depth : Nat) (c : Char) (hc : c ≠ '&') :
    expand_xml_entities (depth + 1) xml_entities [c] = .ok [c] := by
  have h := expand_loop_char (expand_xml_entities depth xml_entities) xml_entities [] [] [] 0 c hc
  simp only [List.nil_append] at h
  rw [expand_xml_entities]
  simp only [List.length_singleton, List.length_nil] at h ⊢
  rw [h]
  simp [expand_loop]

theorem unparse_char_length_pos (c : Char) : 0 < (unparse_char c).length := by
  unfold unparse_char
  split_ifs <;> simp

/-- The loop of `expand_xml_entities` on the escaped form of `s`, entered
behind what has been read: it appends `s` to `ost`. -/
theorem expand_loop_unparse (depth : Nat) : ∀ (s pre ost : Str) (n : Nat),
    (unparse_string [] s).length ≤ n →
    expand_loop (expand_xml_entities (depth + 1) xml_entities) xml_entities
      (pre ++ unparse_string [] s) n pre.length ost = .ok (ost ++ s) := by
  intro s
  induction s with
  | nil =>
    intro pre ost n _
    have : unparse_string [] [] = [] := rfl
    rw [this]
    cases n <;> simp [expand_loop]
  | cons c t ih =>
    intro pre ost n hn
    rw [unparse_string_cons] at hn ⊢
    have hpos := unparse_char_length_pos c
    rw [List.length_append] at hn
    obtain ⟨n, rfl⟩ : ∃ m, n = m + 1 := ⟨n - 1, by omega⟩
    have key : ∀ (name : Str) (c1 : Char) (tl : Str), unparse_char c = '&' :: (name ++ [';']) →
        name = c1 :: tl → c1 ≠ '#' → ';' ∉ name →
        inner_find xml_entities name = some (name, [c]) →
        expand_loop (expand_xml_entities (depth + 1) xml_entities) xml_entities
          (pre ++ (unparse_char c ++ unparse_string [] t)) (n + 1) pre.length ost =
          .ok (ost ++ c :: t) := by
      intro name c1 tl hu hname hc1 hsemi hfind
      have hpiece : (if [c] != ['&'] then expand_xml_entities (depth + 1) xml_entities [c]
          else pure ['&']) = .ok [c] := by
        by_cases hc : c = '&'
        · subst hc
          simp [pure, Except.pure]
        · have : ([c] != ['&']) = true := by simp [hc]
          rw [this, if_pos rfl]
          exact expand_single depth c hc
      have hstr : pre ++ (unparse_char c ++ unparse_string [] t) =
          pre ++ '&' :: (name ++ ';' :: unparse_string [] t) := by
        rw [hu]; simp
      have hstr2 : pre ++ (unparse_char c ++ unparse_string [] t) =
          (pre ++ '&' :: (name ++ [';'])) ++ unparse_string [] t := by
        rw [hu]; simp
      have hlen : (unparse_string [] t).length ≤ n := by
        rw [hu] at hn
        simp at hn
        omega
      rw [hstr, expand_loop_entity _ _ pre name _ [c] [c] ost n c1 tl hname hc1 hsemi hfind hpiece,
        ← hstr, hstr2, ih _ _ n hlen]
      simp
    by_cases h1 : c = '<'
    · subst h1
      exact key ['l', 't'] 'l' ['t'] rfl rfl (by decide) (by decide) rfl
    by_cases h2 : c = '>'
    · subst h2
      exact key ['g', 't'] 'g' ['t'] rfl rfl (by decide) (by decide) rfl
    by_cases h3 : c = '&'
    · subst h3
      exact key ['a', 'm', 'p'] 'a' ['m', 'p'] rfl rfl (by decide) (by decide) rfl
    by_cases h4 : c = '"'
    · subst h4
      exact key ['q', 'u', 'o', 't'] 'q' ['u', 'o', 't'] rfl rfl (by decide) (by decide) rfl
    by_cases h5 : c = '\''
    · subst h5
      exact key ['a', 'p', 'o', 's'] 'a' ['p', 'o', 's'] rfl rfl (by decide) (by decide) rfl
    have hu : unparse_char c = [c] := by
      simp [unparse_char, h1, h2, h3, h4, h5]
    have hlen : (unparse_string [] t).length ≤ n := by
      rw [hu] at hn
      simp at hn
      omega
    have hstr : pre ++ (unparse_char c ++ unparse_string [] t) =
        pre ++ c :: unparse_string [] t := by
      rw [hu]; simp
    have hstr2 : pre ++ (unparse_char c ++ unparse_string [] t) =
        (pre ++ [c]) ++ unparse_string [] t := by
      rw [hu]; simp
    rw [hstr, expand_loop_char _ _ pre _ ost n c h3, ← hstr, hstr2, ih _ _ n hlen]
    simp

/-- C31: for every string `s`, `expand_xml_entities` with the five predefined
entities, applied to what `unparse_string` writes for `s` to an empty stream,
returns `s`. The depth 2 of the recursion is enough: the call itself and the
call on the value of an entity. -/
theorem C31_expand_inverts_unparse (s : Str) (depth : Nat) :
    expand_xml_entities (depth + 2) xml_entities (unparse_string [] s) = .ok s := by
  rw [expand_xml_entities]
  have h := expand_loop_unparse depth s [] [] (unparse_string [] s).length (le_refl _)
  simpa using h

end dom_element
namespace dom_element

/-! ### The number cases of the JSON reader -/

/-- C34 (what the code does): `parse_json_value` on a cursor at the start of
a line that holds a number and a delimiter. On "12.5e+3," and on "0," the
content is the token, the cursor stands behind it and no mark is left. On
"-12," the case `'-'` sets a mark at the sign and advances twice, over the
sign and over the first digit; the branch for the digits sets a second mark,
at the second digit, and `substr()` removes only that one: the content is "2",
and the mark at the sign stays on the stack. On "-5 " the content is empty and
on "-0.5]" it is ".5", each time with the mark at the sign left. The attribute
`type` is "number" in all cases. -/
theorem C34_negative_number_loses_sign_and_mark :
    (∃ e q, parse_json_value 10 dom_element.default
        (fileparser.opened ['1', '2', '.', '5', 'e', '+', '3', ','] []) = .ok (some (e, q)) ∧
      e.cont = ['1', '2', '.', '5', 'e', '+', '3'] ∧
      e.attrs = [(['t', 'y', 'p', 'e'], ['n', 'u', 'm', 'b', 'e', 'r'])] ∧
      q.marks = [] ∧ (q.line, q.col) = (1, 7)) ∧
    (∃ e q, parse_json_value 10 dom_element.default
        (fileparser.opened ['0', ','] []) = .ok (some (e, q)) ∧
      e.cont = ['0'] ∧ e.attrs = [(['t', 'y', 'p', 'e'], ['n', 'u', 'm', 'b', 'e', 'r'])] ∧
      q.marks = [] ∧ (q.line, q.col) = (1, 1)) ∧
    (∃ e q, parse_json_value 10 dom_element.default
        (fileparser.opened ['-', '1', '2', ','] []) = .ok (some (e, q)) ∧
      e.cont = ['2'] ∧ e.attrs = [(['t', 'y', 'p', 'e'], ['n', 'u', 'm', 'b', 'e', 'r'])] ∧
      q.marks = [⟨1, 0⟩] ∧ (q.line, q.col) = (1, 3)) ∧
    (∃ e q, parse_json_value 10 dom_element.default
        (fileparser.opened ['-', '5', ' '] []) = .ok (some (e, q)) ∧
      e.cont = [] ∧ e.attrs = [(['t', 'y', 'p', 'e'], ['n', 'u', 'm', 'b', 'e', 'r'])] ∧
      q.marks = [⟨1, 0⟩] ∧ (q.line, q.col) = (1, 2)) ∧
    (∃ e q, parse_json_value 10 dom_element.default
        (fileparser.opened ['-', '0', '.', '5', ']'] []) = .ok (some (e, q)) ∧
      e.cont = ['.', '5'] ∧ e.attrs = [(['t', 'y', 'p', 'e'], ['n', 'u', 'm', 'b', 'e', 'r'])] ∧
      q.marks = [⟨1, 0⟩] ∧ (q.line, q.col) = (1, 4)) :=
  ⟨⟨_, _, rfl, rfl, rfl, rfl, rfl⟩, ⟨_, _, rfl, rfl, rfl, rfl, rfl⟩,
    ⟨_, _, rfl, rfl, rfl, rfl, rfl⟩, ⟨_, _, rfl, rfl, rfl, rfl, rfl⟩,
    ⟨_, _, rfl, rfl, rfl, rfl, rfl⟩⟩

end dom_element

namespace fileparser

/-! ### The search of `seek_impl` -/

/-- Without the option `lookahead` and with an empty error message,
`seek_impl` is its loop. -/
theorem seek_impl_eq_loop (fuel : Nat) (p : fileparser) (str : Str) {opts : Nat}
    (hl : has opts lookahead = false) (style : match_style) :
    seek_impl fuel p str opts [] style = seek_loop str opts style fuel p := by
  unfold seek_impl
  simp only [hl, Bool.false_eq_true, if_false, pure_bind_res, List.isEmpty_nil, if_true]
  cases h : seek_loop str opts style fuel p with
  | error e => rfl
  | ok r =>
    obtain ⟨b, q⟩ := r
    cases b <;> rfl

/-- A search that passes `n` positions and then finds a match returns true,
within `n + 1` iterations. -/
theorem seek_loop_found {str : Str} {opts : Nat} {style : match_style}
    (hl : has opts lookahead = false) {p q : fileparser} {n : Nat}
    (h : searched str opts style p n q) :
    ∀ (r : fileparser), q.match_impl str opts [] style = .ok (true, r) →
    ∀ fuel, n < fuel → seek_loop str opts style fuel p = .ok (true, r) := by
  induction h with
  | here p =>
    intro r hr fuel hf
    obtain ⟨f, rfl⟩ : ∃ f, fuel = f + 1 := ⟨fuel - 1, by omega⟩
    rw [seek_loop, hr, ok_bind]
    simp only [if_true, hl, Bool.false_eq_true, if_false, pure_bind_res]
    rfl
  | step h1 h2 _ ih =>
    intro r hr fuel hf
    obtain ⟨f, rfl⟩ : ∃ f, fuel = f + 1 := ⟨fuel - 1, by omega⟩
    rw [seek_loop, h1, ok_bind]
    simp only [Bool.false_eq_true, if_false, h2, ok_bind, if_true]
    exact ih r hr f (by omega)

/-- A search that passes `n` positions and then can neither match nor
advance returns false, within `n + 1` iterations. -/
theorem seek_loop_not_found {str : Str} {opts : Nat} {style : match_style}
    {p q : fileparser} {n : Nat} (h : searched str opts style p n q) :
    ∀ (q1 r : fileparser), q.match_impl str opts [] style = .ok (false, q1) →
    q1.advance_char opts = .ok (false, r) →
    ∀ fuel, n < fuel → seek_loop str opts style fuel p = .ok (false, r) := by
  induction h with
  | here p =>
    intro q1 r hq hr fuel hf
    obtain ⟨f, rfl⟩ : ∃ f, fuel = f + 1 := ⟨fuel - 1, by omega⟩
    rw [seek_loop, hq, ok_bind]
    simp only [Bool.false_eq_true, if_false, hr, ok_bind]
    rfl
  | step h1 h2 _ ih =>
    intro q1 r hq hr fuel hf
    obtain ⟨f, rfl⟩ : ∃ f, fuel = f + 1 := ⟨fuel - 1, by omega⟩
    rw [seek_loop, h1, ok_bind]
    simp only [Bool.false_eq_true, if_false, h2, ok_bind, if_true]
    exact ih q1 r hq hr f (by omega)

/-- What a result of the loop of `seek_impl` tells: the positions passed, and
the match or the failed advance at the last one. -/
theorem seek_loop_result {str : Str} {opts : Nat} {style : match_style}
    (hl : has opts lookahead = false) : ∀ (fuel : Nat) (p r : fileparser) (b : Bool),
    seek_loop str opts style fuel p = .ok (b, r) →
    ∃ n q, n < fuel ∧ searched str opts style p n q ∧
      (b = true → q.match_impl str opts [] style = .ok (true, r)) ∧
      (b = false → ∃ q1, q.match_impl str opts [] style = .ok (false, q1) ∧
        q1.advance_char opts = .ok (false, r)) := by
  intro fuel
  induction fuel with
  | zero => intro p r b h; simp [seek_loop] at h
  | succ f ih =>
    intro p r b h
    rw [seek_loop] at h
    obtain ⟨⟨m, p1⟩, h1, h⟩ := bind_eq_ok.1 h
    dsimp only at h
    split at h
    · rename_i hm
      subst hm
      simp only [hl, Bool.false_eq_true, if_false, pure_bind_res] at h
      rw [pure_eq_ok] at h
      injection h with hb hr
      subst hb; subst hr
      exact ⟨0, p, by omega, searched.here p, fun _ => h1, fun hx => by cases hx⟩
    · rename_i hm
      have hm' : m = false := by simpa using hm
      subst hm'
      obtain ⟨⟨more, p2⟩, h2, h⟩ := bind_eq_ok.1 h
      dsimp only at h
      split at h
      · rename_i hmore
        subst hmore
        obtain ⟨n, q, hn, hs, ht, hf⟩ := ih p2 r b h
        exact ⟨n + 1, q, by omega, searched.step h1 h2 hs, ht, hf⟩
      · rename_i hmore
        have hmore' : more = false := by simpa using hmore
        subst hmore'
        rw [pure_eq_ok] at h
        injection h with hb hr
        subst hb; subst hr
        exact ⟨0, p, by omega, searched.here p, (fun hx => by cases hx), fun _ => ⟨p1, h1, h2⟩⟩

/-- The positions a search passes have the marks of the start. -/
theorem searched_marks {str : Str} {opts : Nat} {style : match_style} {p q : fileparser}
    {n : Nat} (h : searched str opts style p n q) : q.marks = p.marks := by
  induction h with
  | here p => rfl
  | step h1 h2 _ ih =>
    rw [ih, advance_char_marks h2, (match_impl_frame h1).1]

end fileparser
namespace fileparser

/-- Under the option `single_line`, `advance_char` changes the column only: it
leaves the line and reads nothing. -/
theorem advance_char_single_line {p q : fileparser} {opts : Nat} {b : Bool}
    (hs : has opts single_line = true) (h : p.advance_char opts = .ok (b, q)) :
    q.line = p.line ∧ q.in_ = p.in_ := by
  unfold advance_char at h
  rw [hs] at h
  split at h
  · split at h
    · rw [pure_eq_ok] at h; injection h with _ h; subst h; exact ⟨rfl, rfl⟩
    · rw [if_pos rfl, pure_eq_ok] at h; injection h with _ h; subst h; exact ⟨rfl, rfl⟩
  · obtain ⟨buf, -, h⟩ := bind_eq_ok.1 h
    split at h
    · rw [pure_eq_ok] at h; injection h with _ h; subst h; exact ⟨rfl, rfl⟩
    · rw [if_pos rfl, pure_eq_ok] at h; injection h with _ h; subst h; exact ⟨rfl, rfl⟩

theorem match_forward_single_line {opts : Nat} (hs : has opts single_line = true) :
    ∀ (str : Str) (p : fileparser) (b : Bool) (q : fileparser),
    match_forward opts str p = .ok (b, q) → q.line = p.line ∧ q.in_ = p.in_ := by
  intro str
  induction str with
  | nil =>
    intro p b q hq
    simp only [match_forward, Except.ok.injEq, Prod.mk.injEq] at hq
    obtain ⟨-, rfl⟩ := hq
    exact ⟨rfl, rfl⟩
  | cons c rest ih =>
    intro p b q hq
    rw [match_forward] at hq
    obtain ⟨g, -, hq⟩ := bind_eq_ok.1 hq
    split at hq
    · rw [pure_eq_ok] at hq
      injection hq with _ hq
      subst hq
      exact ⟨rfl, rfl⟩
    · obtain ⟨⟨b1, p1⟩, h1, hq⟩ := bind_eq_ok.1 hq
      obtain ⟨a1, a2⟩ := advance_char_single_line hs h1
      obtain ⟨a3, a4⟩ := ih p1 b q hq
      exact ⟨a3.trans a1, a4.trans a2⟩

theorem match_backward_single_line {opts : Nat} (hs : has opts single_line = true) :
    ∀ (str : Str) (p : fileparser) (b : Bool) (q : fileparser),
    match_backward opts str p = .ok (b, q) → q.line = p.line ∧ q.in_ = p.in_ := by
  intro str
  induction str with
  | nil =>
    intro p b q hq
    simp only [match_backward, Except.ok.injEq, Prod.mk.injEq] at hq
    obtain ⟨-, rfl⟩ := hq
    exact ⟨rfl, rfl⟩
  | cons c rest ih =>
    intro p b q hq
    rw [match_backward] at hq
    obtain ⟨g, -, hq⟩ := bind_eq_ok.1 hq
    split at hq
    · rw [pure_eq_ok] at hq
      injection hq with _ hq
      subst hq
      exact ⟨rfl, rfl⟩
    · obtain ⟨⟨b1, p1⟩, h1, hq⟩ := bind_eq_ok.1 hq
      obtain ⟨a1, a2⟩ := advance_char_single_line hs h1
      obtain ⟨a3, a4⟩ := ih p1 b q hq
      exact ⟨a3.trans a1, a4.trans a2⟩

theorem match_switch_single_line {p q : fileparser} {str : Str} {opts : Nat}
    {style : match_style} {b : Bool} (hs : has opts single_line = true)
    (hq : match_switch p str opts style = .ok (b, q)) : q.line = p.line ∧ q.in_ = p.in_ := by
  unfold match_switch at hq
  split at hq
  · obtain ⟨c, -, hq⟩ := bind_eq_ok.1 hq
    obtain ⟨g, -, hq⟩ := bind_eq_ok.1 hq
    split at hq
    · rw [pure_eq_ok] at hq; injection hq with _ hq; subst hq; exact ⟨rfl, rfl⟩
    · obtain ⟨⟨b1, p1⟩, h1, hq⟩ := bind_eq_ok.1 hq
      rw [pure_eq_ok] at hq; injection hq with _ hq; subst hq
      exact advance_char_single_line hs h1
  · split at hq
    · exact match_backward_single_line hs _ _ _ _ hq
    · exact match_forward_single_line hs _ _ _ _ hq
  · obtain ⟨g, -, hq⟩ := bind_eq_ok.1 hq
    split at hq
    · rw [pure_eq_ok] at hq; injection hq with _ hq; subst hq; exact ⟨rfl, rfl⟩
    · obtain ⟨⟨b1, p1⟩, h1, hq⟩ := bind_eq_ok.1 hq
      rw [pure_eq_ok] at hq; injection hq with _ hq; subst hq
      exact advance_char_single_line hs h1
  · obtain ⟨g, -, hq⟩ := bind_eq_ok.1 hq
    split at hq
    · rw [pure_eq_ok] at hq; injection hq with _ hq; subst hq; exact ⟨rfl, rfl⟩
    · obtain ⟨⟨b1, p1⟩, h1, hq⟩ := bind_eq_ok.1 hq
      rw [pure_eq_ok] at hq; injection hq with _ hq; subst hq
      exact advance_char_single_line hs h1
  · obtain ⟨buf, -, hq⟩ := bind_eq_ok.1 hq
    rw [pure_eq_ok] at hq; injection hq with _ hq; subst hq; exact ⟨rfl, rfl⟩

/-- Under the option `single_line` a call of `match_impl` that returns leaves
the cursor in its line and reads nothing from the stream. -/
theorem match_impl_single_line {p q : fileparser} {str : Str} {opts : Nat}
    {style : match_style} {m : Bool} (hs : has opts single_line = true)
    (h : p.match_impl str opts [] style = .ok (m, q)) : q.line = p.line ∧ q.in_ = p.in_ := by
  unfold match_impl at h
  obtain ⟨p0, h0, h⟩ := bind_eq_ok.1 h
  obtain ⟨⟨m1, p1⟩, h1, h⟩ := bind_eq_ok.1 h
  obtain ⟨hm0, hl0, hc0⟩ := set_mark_pos h0
  have hi0 := set_mark_in h0
  obtain ⟨hl1, hi1⟩ := match_switch_single_line hs h1
  have hm1 : p1.marks = { line := p.line, col := p.col } :: p.marks := by
    rw [match_switch_marks h1, hm0]
  have hrel : ∀ p2, (p1.unset_mark = .ok p2 ∨ p1.revert_to_mark remove_mark = .ok p2) →
      p2.line = p.line ∧ p2.in_ = p.in_ := by
    intro p2 hp2
    rcases hp2 with hp2 | hp2
    · obtain ⟨-, a2, -⟩ := unset_mark_pos hp2
      exact ⟨by rw [a2, hl1, hl0], by rw [unset_mark_in hp2, hi1, hi0]⟩
    · obtain ⟨a1, -, -⟩ := revert_to_mark_pos hm1 hp2
      exact ⟨a1, by rw [revert_to_mark_in hp2, hi1, hi0]⟩
  unfold match_end at h
  dsimp only at h
  split at h
  · split at h
    · obtain ⟨p2, h2, h⟩ := bind_eq_ok.1 h
      rw [pure_eq_ok] at h
      injection h with _ h
      subst h
      exact hrel p2 (Or.inl h2)
    · obtain ⟨p2, h2, h⟩ := bind_eq_ok.1 h
      rw [pure_eq_ok] at h
      injection h with _ h
      subst h
      exact hrel p2 (Or.inr h2)
  · simp only [List.isEmpty_nil, if_true] at h
    obtain ⟨p2, h2, h⟩ := bind_eq_ok.1 h
    rw [pure_eq_ok] at h
    injection h with _ h
    subst h
    exact hrel p2 (Or.inr h2)

/-- Under the option `single_line` the positions a search passes lie in the
line of the start, and nothing is read from the stream. -/
theorem searched_single_line {str : Str} {opts : Nat} {style : match_style}
    (hs : has opts single_line = true) {p q : fileparser} {n : Nat}
    (h : searched str opts style p n q) : q.line = p.line ∧ q.in_ = p.in_ := by
  induction h with
  | here p => exact ⟨rfl, rfl⟩
  | step h1 h2 _ ih =>
    obtain ⟨a1, a2⟩ := match_impl_single_line hs h1
    obtain ⟨a3, a4⟩ := advance_char_single_line hs h2
    exact ⟨by rw [ih.1, a3, a1], by rw [ih.2, a4, a2]⟩

/-- Under the option `single_line` a search that returns leaves the cursor in
the line it started in, and has read nothing from the stream. -/
theorem seek_loop_single_line {str : Str} {opts : Nat} {style : match_style}
    (hl : has opts lookahead = false) (hs : has opts single_line = true)
    {fuel : Nat} {p r : fileparser} {b : Bool}
    (h : seek_loop str opts style fuel p = .ok (b, r)) : r.line = p.line ∧ r.in_ = p.in_ := by
  obtain ⟨n, q, -, hsq, ht, hf⟩ := seek_loop_result hl fuel p r b h
  obtain ⟨a1, a2⟩ := searched_single_line hs hsq
  cases b with
  | true =>
    obtain ⟨a3, a4⟩ := match_impl_single_line hs (ht rfl)
    exact ⟨by rw [a3, a1], by rw [a4, a2]⟩
  | false =>
    obtain ⟨q1, hq1, hr⟩ := hf rfl
    obtain ⟨a3, a4⟩ := match_impl_single_line hs hq1
    obtain ⟨a5, a6⟩ := advance_char_single_line hs hr
    exact ⟨by rw [a5, a3, a1], by rw [a6, a4, a2]⟩

end fileparser
namespace fileparser

/-! #### The search ends -/

theorem getline_none_lines {s i : istream} (h : getline s = (none, i)) :
    i.lines.length ≤ s.lines.length := by
  unfold getline at h
  split at h
  · simp only [Prod.mk.injEq, true_and] at h
    subst h; exact le_refl _
  · split at h
    · simp only [Prod.mk.injEq, true_and] at h
      subst h
      rename_i hl
      rw [hl]
    · split at h
      · simp at h
      · split at h
        · simp only [Prod.mk.injEq, true_and] at h
          subst h; simp
        · simp at h
    · simp at h

theorem continuation_lines (err : Str) : ∀ (n : Nat) (p : fileparser) (b : Bool)
    (q : fileparser), continuation err n p = .ok (b, q) →
    q.in_.lines.length ≤ p.in_.lines.length := by
  intro n
  induction n with
  | zero => intro p b q h; simp [continuation] at h
  | succ n ih =>
    intro p b q h
    simp only [continuation] at h
    obtain ⟨buf, -, h⟩ := bind_eq_ok.1 h
    split at h
    · cases hgl : getline p.in_ with
      | mk r i =>
        rw [hgl] at h
        cases r with
        | none =>
          simp only at h
          split at h
          · simp at h
          · rw [pure_eq_ok] at h
            injection h with _ h
            subst h
            exact getline_none_lines hgl
        | some t =>
          simp only at h
          obtain ⟨p1, hp1, h⟩ := bind_eq_ok.1 h
          have h1 := ih _ _ _ h
          rw [set_BUF_in hp1] at h1
          have h2 := (getline_some hgl).2.2
          simp only at h1
          omega
    · rw [pure_eq_ok] at h
      injection h with _ h
      subst h
      exact le_refl _

theorem padded_refl (p : fileparser) : padded p p :=
  ⟨le_refl _, fun _ => ⟨rfl, 0, by simp⟩⟩

theorem padded_of_eq {p q : fileparser} (h1 : q.in_ = p.in_) (h2 : q.max_line = p.max_line)
    (h3 : q.bufs.map Prod.fst = p.bufs.map Prod.fst) : padded p q :=
  ⟨by rw [h1], fun _ => ⟨h2, 0, by simp [h3]⟩⟩

theorem padded_trans {p q r : fileparser} (h1 : padded p q) (h2 : padded q r) : padded p r := by
  refine ⟨le_trans h2.lines_le h1.lines_le, fun he => ?_⟩
  have a1 := h1.lines_le
  have a2 := h2.lines_le
  obtain ⟨b1, k1, c1⟩ := h1.same (by omega)
  obtain ⟨b2, k2, c2⟩ := h2.same (by omega)
  refine ⟨b2.trans b1, k2 + k1, ?_⟩
  rw [c2, c1, ← List.append_assoc, List.replicate_add]

/-- A call of `get_line` that returns takes lines from the stream, or pushes
an empty buffer. -/
theorem get_line_padded {p : fileparser} {err : Str} {b : Bool} {q : fileparser}
    (h : p.get_line err = .ok (b, q)) :
    padded p q ∧ (b = true → q.in_.lines.length < p.in_.lines.length) := by
  unfold get_line at h
  cases hgl : getline p.in_ with
  | mk r i =>
    rw [hgl] at h
    cases r with
    | none =>
      simp only at h
      split at h
      · simp at h
      · injection h with h
        injection h with hb h
        subst h
        subst hb
        exact ⟨⟨getline_none_lines hgl, fun _ => ⟨rfl, 1, rfl⟩⟩, fun hx => by cases hx⟩
    | some t =>
      simp only at h
      have hlt := (getline_some hgl).2.2
      obtain ⟨p1, hp1, h⟩ := bind_eq_ok.1 h
      have h1 : p1.in_ = i := clear_loop_in _ _ _ hp1
      have key : q.in_.lines.length < p.in_.lines.length := by
        split at h
        · obtain ⟨p3, hp3, h⟩ := bind_eq_ok.1 h
          have h3 := continuation_lines _ _ _ _ _ h
          rw [set_BUF_in hp3] at h3
          simp only at h3
          rw [h1] at h3
          omega
        · rw [pure_bind_res] at h
          have h3 := continuation_lines _ _ _ _ _ h
          simp only at h3
          rw [h1] at h3
          omega
      exact ⟨⟨by omega, fun he => by omega⟩, fun _ => key⟩

/-- A forward call of `advance_char` that returns takes lines from the stream,
or pushes an empty buffer, or leaves both alone. -/
theorem advance_char_padded {p q : fileparser} {opts : Nat} {b : Bool}
    (hb : has opts backwards = false) (h : p.advance_char opts = .ok (b, q)) : padded p q := by
  unfold advance_char at h
  rw [hb] at h
  simp only [Bool.false_eq_true, if_false] at h
  obtain ⟨buf, -, h⟩ := bind_eq_ok.1 h
  split at h
  · rw [pure_eq_ok] at h; injection h with _ h; subst h; exact padded_of_eq rfl rfl rfl
  · split at h
    · rw [pure_eq_ok] at h; injection h with _ h; subst h; exact padded_refl _
    · simp only [advance_line, Bool.false_eq_true, if_false] at h
      split at h
      · rw [pure_eq_ok] at h; injection h with _ h; subst h; exact padded_of_eq rfl rfl rfl
      · exact (get_line_padded h).1

theorem match_forward_padded {opts : Nat} (hb : has opts backwards = false) :
    ∀ (str : Str) (p : fileparser) (b : Bool) (q : fileparser),
    match_forward opts str p = .ok (b, q) → padded p q := by
  intro str
  induction str with
  | nil =>
    intro p b q hq
    simp only [match_forward, Except.ok.injEq, Prod.mk.injEq] at hq
    obtain ⟨-, rfl⟩ := hq
    exact padded_refl _
  | cons c rest ih =>
    intro p b q hq
    rw [match_forward] at hq
    obtain ⟨g, -, hq⟩ := bind_eq_ok.1 hq
    split at hq
    · rw [pure_eq_ok] at hq
      injection hq with _ hq
      subst hq
      exact padded_refl _
    · obtain ⟨⟨b1, p1⟩, h1, hq⟩ := bind_eq_ok.1 hq
      exact padded_trans (advance_char_padded hb h1) (ih p1 b q hq)

theorem match_switch_padded {p q : fileparser} {str : Str} {opts : Nat} {style : match_style}
    {b : Bool} (hb : has opts backwards = false)
    (hq : match_switch p str opts style = .ok (b, q)) : padded p q := by
  unfold match_switch at hq
  split at hq
  · obtain ⟨c, -, hq⟩ := bind_eq_ok.1 hq
    obtain ⟨g, -, hq⟩ := bind_eq_ok.1 hq
    split at hq
    · rw [pure_eq_ok] at hq; injection hq with _ hq; subst hq; exact padded_refl _
    · obtain ⟨⟨b1, p1⟩, h1, hq⟩ := bind_eq_ok.1 hq
      rw [pure_eq_ok] at hq; injection hq with _ hq; subst hq
      exact advance_char_padded hb h1
  · rw [hb] at hq
    simp only [Bool.false_eq_true, if_false] at hq
    exact match_forward_padded hb _ _ _ _ hq
  · obtain ⟨g, -, hq⟩ := bind_eq_ok.1 hq
    split at hq
    · rw [pure_eq_ok] at hq; injection hq with _ hq; subst hq; exact padded_refl _
    · obtain ⟨⟨b1, p1⟩, h1, hq⟩ := bind_eq_ok.1 hq
      rw [pure_eq_ok] at hq; injection hq with _ hq; subst hq
      exact advance_char_padded hb h1
  · obtain ⟨g, -, hq⟩ := bind_eq_ok.1 hq
    split at hq
    · rw [pure_eq_ok] at hq; injection hq with _ hq; subst hq; exact padded_refl _
    · obtain ⟨⟨b1, p1⟩, h1, hq⟩ := bind_eq_ok.1 hq
      rw [pure_eq_ok] at hq; injection hq with _ hq; subst hq
      exact advance_char_padded hb h1
  · obtain ⟨buf, -, hq⟩ := bind_eq_ok.1 hq
    rw [pure_eq_ok] at hq; injection hq with _ hq; subst hq; exact padded_refl _

theorem map_fst_set (bufs : List (Str × Nat)) (i : Nat) (b : Str × Nat) (c : Nat)
    (hb : bufs[i]? = some b) : (bufs.set i (b.1, c)).map Prod.fst = bufs.map Prod.fst := by
  apply List.ext_getElem?
  intro j
  simp only [List.getElem?_map, List.getElem?_set]
  by_cases hij : i = j
  · subst hij
    have hlt := lt_length_of_getElem? hb
    simp [hlt, hb]
  · simp [hij]

/-- The call `set_mark` changes a counter only. -/
theorem set_mark_texts {p q : fileparser} (h : p.set_mark = .ok q) :
    q.bufs.map Prod.fst = p.bufs.map Prod.fst ∧ q.max_line = p.max_line := by
  unfold set_mark at h
  obtain ⟨b, hb, h⟩ := bind_eq_ok.1 h
  obtain ⟨bufs, hs, h⟩ := bind_eq_ok.1 h
  rw [pure_eq_ok] at h
  subst h
  unfold bufs_set at hs
  split at hs
  · injection hs with hs
    subst hs
    exact ⟨map_fst_set _ _ b _ (bufs_at_eq_ok.1 hb), rfl⟩
  · simp at hs

/-- The call `revert_to_mark(remove_mark)` moves the cursor to the mark and
changes a counter; it drops no buffer, as the line of the mark then is the
current one. -/
theorem revert_remove_texts {p q : fileparser} {m : mark_location} {ms : List mark_location}
    (hm : p.marks = m :: ms) (h : p.revert_to_mark remove_mark = .ok q) :
    q.bufs.map Prod.fst = p.bufs.map Prod.fst ∧ q.max_line = p.max_line ∧
      q.min_line = p.min_line ∧ q.in_ = p.in_ ∧ q.line = m.line ∧ q.col = m.col ∧
      q.marks = ms := by
  rw [revert_remove_eq hm] at h
  unfold unset_mark at h
  obtain ⟨m1, hm1, h⟩ := bind_eq_ok.1 h
  have hmm : m1 = m := by
    simp only [MARK, hm] at hm1
    injection hm1 with hm1
    exact hm1.symm
  subst hmm
  obtain ⟨b, hb, h⟩ := bind_eq_ok.1 h
  obtain ⟨bufs, hs, h⟩ := bind_eq_ok.1 h
  dsimp only at h hb hs
  have hbufs : bufs.map Prod.fst = p.bufs.map Prod.fst := by
    unfold bufs_set at hs
    split at hs
    · injection hs with hs
      subst hs
      exact map_fst_set _ _ b _ (bufs_at_eq_ok.1 hb)
    · simp at hs
  split at h
  · obtain ⟨p2, hp2, h⟩ := bind_eq_ok.1 h
    rw [pure_eq_ok] at h
    subst h
    rename_i hmin
    have h0 : p2 = { p with line := m1.line, col := m1.col, bufs := bufs } := by
      simp only [clear_unneeded] at hp2
      have hz : m1.line - p.min_line = 0 := by omega
      rw [hz, clear_loop] at hp2
      injection hp2 with hp2
      exact hp2.symm
    subst h0
    exact ⟨hbufs, rfl, rfl, rfl, rfl, rfl, by simp [hm]⟩
  · rw [pure_bind_res, pure_eq_ok] at h
    subst h
    exact ⟨hbufs, rfl, rfl, rfl, rfl, rfl, by simp [hm]⟩

end fileparser
namespace fileparser

/-- The call `revert_to_mark(remove_mark)` stays within the states
considered. -/
theorem revert_remove_valid {p q : fileparser} {m : mark_location} {ms : List mark_location}
    (hv : valid p) (hm : p.marks = m :: ms) (h : p.revert_to_mark remove_mark = .ok q) :
    valid q := by
  obtain ⟨a1, a2, a3, a4, a5, a6, a7⟩ := revert_remove_texts hm h
  have hlen : q.bufs.length = p.bufs.length := by
    have := congrArg List.length a1
    simpa using this
  have hmi := hv.1.marks_in m (by rw [hm]; exact List.mem_cons_self _ _)
  refine ⟨⟨by rw [a3, a5]; exact hmi.1, by rw [a2, a5]; exact hmi.2,
    by rw [a2, a3, hlen]; exact hv.1.size, ?_⟩, sound_revert_to_mark hv.2 h⟩
  intro x hx
  rw [a7] at hx
  rw [a2, a3]
  exact hv.1.marks_in x (by rw [hm]; exact List.mem_cons_of_mem _ hx)

/-- A forward call of `match_impl` that returns false stays within the states
considered, at the position of the call, and has taken lines from the stream
or pushed empty buffers only. -/
theorem match_impl_false {p q : fileparser} {str : Str} {opts : Nat} {style : match_style}
    (hv : valid p) (hb : has opts backwards = false)
    (h : p.match_impl str opts [] style = .ok (false, q)) :
    valid q ∧ padded p q ∧ q.line = p.line ∧ q.col = p.col := by
  have hfr := (match_impl_frame h).2 (Or.inl rfl)
  unfold match_impl at h
  obtain ⟨p0, h0, h⟩ := bind_eq_ok.1 h
  obtain ⟨⟨m1, p1⟩, h1, h⟩ := bind_eq_ok.1 h
  have hv0 := set_mark_valid hv h0
  obtain ⟨b', q', hq', hv1'⟩ := match_switch_valid hv0 str hb style
  rw [h1] at hq'
  injection hq' with hq'
  injection hq' with _ hq'
  subst hq'
  obtain ⟨hm0, -, -⟩ := set_mark_pos h0
  have hm1 : p1.marks = { line := p.line, col := p.col } :: p.marks := by
    rw [match_switch_marks h1, hm0]
  obtain ⟨t0, mx0⟩ := set_mark_texts h0
  have hp0 : padded p p0 := padded_of_eq (set_mark_in h0) mx0 t0
  have hp1 : padded p0 p1 := match_switch_padded hb h1
  unfold match_end at h
  dsimp only at h
  split at h
  · split at h
    · obtain ⟨p2, -, h⟩ := bind_eq_ok.1 h
      rw [pure_eq_ok] at h
      injection h with h _
      cases h
    · obtain ⟨p2, -, h⟩ := bind_eq_ok.1 h
      rw [pure_eq_ok] at h
      injection h with h _
      cases h
  · simp only [List.isEmpty_nil, if_true] at h
    obtain ⟨p2, h2, h⟩ := bind_eq_ok.1 h
    rw [pure_eq_ok] at h
    injection h with _ h
    subst h
    obtain ⟨a1, a2, a3, a4, -⟩ := revert_remove_texts hm1 h2
    exact ⟨revert_remove_valid hv1' hm1 h2,
      padded_trans hp0 (padded_trans hp1 (padded_of_eq a4 a2 a1)), hfr⟩

theorem left_in_cons_nil (t : List Str) (i c : Nat) (hi : i < t.length) :
    left_in ([] :: t) i c ≤ left_in t i c := by
  cases i with
  | zero => simp [left_in]
  | succ i =>
    have hi' : i < t.length := by omega
    unfold left_in
    rw [List.take_succ_cons, List.take_succ]
    simp only [List.map_cons, List.sum_cons, List.length_nil, List.getElem?_cons_succ,
      List.getElem?_eq_getElem hi', List.map_append, List.sum_append, Option.toList_some,
      List.map_nil, List.sum_nil, Option.getD_some]
    omega

theorem left_in_pad (t : List Str) (i c : Nat) (hi : i < t.length) : ∀ k : Nat,
    left_in (List.replicate k [] ++ t) i c ≤ left_in t i c := by
  intro k
  induction k with
  | zero => simp
  | succ k ih =>
    rw [List.replicate_succ, List.cons_append]
    exact le_trans (left_in_cons_nil _ i c (by simp; omega)) ih

theorem left_in_col (t : List Str) (i c : Nat) (h : c < ((t[i]?).getD []).length) :
    left_in t i (c + 1) < left_in t i c := by
  unfold left_in
  omega

theorem left_in_line (t : List Str) (i c : Nat) (hi : i + 1 < t.length) :
    left_in t i 0 < left_in t (i + 1) c := by
  have hi' : i < t.length := by omega
  unfold left_in
  rw [List.take_succ, List.getElem?_eq_getElem hi']
  simp only [List.map_append, List.sum_append, Option.toList_some, List.map_cons, List.map_nil,
    List.sum_cons, List.sum_nil, Option.getD_some]
  omega

/-- A forward call of `match_impl` that returns false and takes no line from
the stream does not add to the steps the window allows. -/
theorem text_left_le {p q : fileparser} (hv : valid p) (hp : padded p q)
    (he : q.in_.lines.length = p.in_.lines.length) (hl : q.line = p.line) (hc : q.col = p.col) :
    text_left q ≤ text_left p := by
  obtain ⟨hmax, k, ht⟩ := hp.same he
  unfold text_left
  rw [ht, hmax, hl, hc]
  apply left_in_pad
  have h1 := hv.1.min_le
  have h2 := hv.1.le_max
  have h3 := hv.1.size
  simp only [List.length_map]
  omega

/-- A forward call of `advance_char` that returns true takes a line from the
stream or uses up one of the steps the window allows. -/
theorem advance_char_decreases {p q : fileparser} {opts : Nat} (hv : valid p)
    (hb : has opts backwards = false) (h : p.advance_char opts = .ok (true, q)) :
    q.in_.lines.length < p.in_.lines.length ∨
      (q.in_.lines.length = p.in_.lines.length ∧ text_left q < text_left p) := by
  obtain ⟨b, hbuf⟩ := loose_BUF hv.1
  have hB := BUF_eq hv.1.le_max hbuf
  have h1 := hv.1.min_le
  have h2 := hv.1.le_max
  have h3 := hv.1.size
  have hti : ((p.bufs.map Prod.fst)[p.max_line - p.line]?).getD [] = b.1 := by
    simp [List.getElem?_map, hbuf]
  unfold advance_char at h
  rw [hb] at h
  simp only [Bool.false_eq_true, if_false, hB, ok_bind] at h
  split at h
  · rename_i hlt
    rw [pure_eq_ok] at h; injection h with _ h; subst h
    refine Or.inr ⟨rfl, ?_⟩
    unfold text_left
    exact left_in_col _ _ _ (by rw [hti]; exact hlt)
  · rename_i hge
    split at h
    · rw [pure_eq_ok] at h; injection h with h _; cases h
    · simp only [advance_line, Bool.false_eq_true, if_false] at h
      split at h
      · rename_i hlm
        rw [pure_eq_ok] at h; injection h with _ h; subst h
        refine Or.inr ⟨rfl, ?_⟩
        unfold text_left
        simp only
        have hidx : p.max_line - p.line = (p.max_line - (p.line + 1)) + 1 := by omega
        rw [hidx]
        refine left_in_line _ _ _ ?_
        simp only [List.length_map]
        omega
      · exact Or.inl ((get_line_padded h).2 rfl)

/-- On the states considered a forward search returns: each iteration takes a
line from the stream or uses up one of the steps the window allows. -/
theorem seek_loop_returns (str : Str) {opts : Nat} (style : match_style)
    (hb : has opts backwards = false) (hl : has opts lookahead = false) :
    ∀ (a b : Nat) (p : fileparser), valid p → p.in_.lines.length = a → text_left p = b →
    ∃ fuel out, seek_loop str opts style fuel p = .ok out := by
  intro a
  induction a using Nat.strong_induction_on with
  | _ a iha =>
    intro b
    induction b using Nat.strong_induction_on with
    | _ b ihb =>
      intro p hv ha htl
      obtain ⟨m, p1, h1⟩ := match_impl_returns hv str hb style
      cases m with
      | true =>
        refine ⟨1, (true, p1), ?_⟩
        rw [seek_loop, h1, ok_bind]
        simp only [if_true, hl, Bool.false_eq_true, if_false, pure_bind_res]
        rfl
      | false =>
        obtain ⟨hv1, hp1, hl1, hc1⟩ := match_impl_false hv hb h1
        obtain ⟨more, p2, h2, hv2, -, -⟩ := advance_char_valid hv1 opts
        cases more with
        | false =>
          refine ⟨1, (false, p2), ?_⟩
          rw [seek_loop, h1, ok_bind]
          simp only [Bool.false_eq_true, if_false, h2, ok_bind]
          rfl
        | true =>
          have hle := hp1.lines_le
          have hstep : ∃ fuel out, seek_loop str opts style fuel p2 = .ok out := by
            rcases advance_char_decreases hv1 hb h2 with hd | ⟨hd1, hd2⟩
            · exact iha p2.in_.lines.length (by omega) (text_left p2) p2 hv2 rfl rfl
            · by_cases hlt : p1.in_.lines.length < p.in_.lines.length
              · exact iha p2.in_.lines.length (by omega) (text_left p2) p2 hv2 rfl rfl
              · have he : p1.in_.lines.length = p.in_.lines.length := by omega
                have := text_left_le hv hp1 he hl1 hc1
                exact ihb (text_left p2) (by omega) p2 hv2 (by omega) rfl
          obtain ⟨fuel, out, hout⟩ := hstep
          refine ⟨fuel + 1, out, ?_⟩
          rw [seek_loop, h1, ok_bind]
          simp only [Bool.false_eq_true, if_false, h2, ok_bind, if_true]
          exact hout

end fileparser
namespace fileparser

/-- C36: `seek(str, opts)` is `seek_impl` with the style `STRING`; the
statement holds for every style. The options do not include `lookahead`, and
the error message is empty. The positions of the search are those of
`searched`: each is reached from the one before by a successful
`advance_char(opts)`, after `match_impl` has returned false there.
(1) On the states a cursor reaches (`valid`), and without the option
`backwards`, the search returns.
(2) A result `(b, r)` comes from a search that passes `n` positions without a
match and then stands on `q`, with the marks of the start. If `b` is true,
`match_impl` matches at `q`, the first position where it does, and `r` is what
it leaves: the marks of the start, and without `consume` the line and the
column of `q`; with `consume` it is the cursor after the match. If `b` is
false, `match_impl` fails at `q` too and `advance_char` cannot go on from
there. Under `single_line` the cursor `r` is in the line of the start and
nothing has been read from the stream.
(3) and (4) Conversely, a search that passes `n` positions and then matches,
or then can neither match nor advance, returns this result for every bound
on the iterations above `n`. -/
theorem C36_seek_finds_the_first_match (p : fileparser) (str : Str) (opts : Nat)
    (style : match_style) (hl : has opts lookahead = false) :
    (valid p → has opts backwards = false →
      ∃ fuel b r, seek_impl fuel p str opts [] style = .ok (b, r)) ∧
    (∀ fuel b r, seek_impl fuel p str opts [] style = .ok (b, r) →
      ∃ n q, n < fuel ∧ searched str opts style p n q ∧ q.marks = p.marks ∧
        (b = true → q.match_impl str opts [] style = .ok (true, r) ∧ r.marks = p.marks ∧
          (has opts consume = false → r.line = q.line ∧ r.col = q.col)) ∧
        (b = false → ∃ q1, q.match_impl str opts [] style = .ok (false, q1) ∧
          q1.advance_char opts = .ok (false, r)) ∧
        (has opts single_line = true → r.line = p.line ∧ r.in_ = p.in_)) ∧
    (∀ n q r, searched str opts style p n q →
      q.match_impl str opts [] style = .ok (true, r) →
      ∀ fuel, n < fuel → seek_impl fuel p str opts [] style = .ok (true, r)) ∧
    (∀ n q q1 r, searched str opts style p n q →
      q.match_impl str opts [] style = .ok (false, q1) →
      q1.advance_char opts = .ok (false, r) →
      ∀ fuel, n < fuel → seek_impl fuel p str opts [] style = .ok (false, r)) := by
  refine ⟨?_, ?_, ?_, ?_⟩
  · intro hv hb
    obtain ⟨fuel, ⟨b, r⟩, h⟩ := seek_loop_returns str style hb hl _ _ p hv rfl rfl
    exact ⟨fuel, b, r, by rw [seek_impl_eq_loop fuel p str hl style]; exact h⟩
  · intro fuel b r h
    rw [seek_impl_eq_loop fuel p str hl style] at h
    obtain ⟨n, q, hn, hs, ht, hf⟩ := seek_loop_result hl fuel p r b h
    have hqm := searched_marks hs
    refine ⟨n, q, hn, hs, hqm, ?_, hf, fun hsl => seek_loop_single_line hl hsl h⟩
    intro hb
    have hm := ht hb
    obtain ⟨a1, a2⟩ := match_impl_frame hm
    exact ⟨hm, by rw [a1, hqm], fun hc => a2 (Or.inr hc)⟩
  · intro n q r hs hm fuel hf
    rw [seek_impl_eq_loop fuel p str hl style]
    exact seek_loop_found hl hs r hm fuel hf
  · intro n q q1 r hs hm ha fuel hf
    rw [seek_impl_eq_loop fuel p str hl style]
    exact seek_loop_not_found hs q1 r hm ha fuel hf


end fileparser

namespace fileparser

/-- Witness of C36 on the line "abcab": `seek("ca")` returns on this cursor;
it passes the columns 0 and 1 and, for every bound above 2, returns true with
the cursor at column 2 and no mark; the result of three iterations comes from
a search that ends at column 2; `seek("ca", consume)` leaves the cursor at
column 4, behind the match; and `seek("z", single_line)` finds no match and
passes the columns 0 to 4 of the line before the advance fails at its end. -/
theorem C36_seek_finds_the_first_match_witness :
    has 0 lookahead = false ∧ valid (opened ['a', 'b', 'c', 'a', 'b'] []) ∧
    (∃ fuel b r, seek_impl fuel (opened ['a', 'b', 'c', 'a', 'b'] []) ['c', 'a'] 0 []
      .STRING = .ok (b, r)) ∧
    (∃ r, (∀ fuel, 2 < fuel →
        seek_impl fuel (opened ['a', 'b', 'c', 'a', 'b'] []) ['c', 'a'] 0 [] .STRING =
          .ok (true, r)) ∧
      r.line = 1 ∧ r.col = 2 ∧ r.marks = []) ∧
    (∃ n q, n < 3 ∧
      searched ['c', 'a'] 0 .STRING (opened ['a', 'b', 'c', 'a', 'b'] []) n q ∧
      (q.line, q.col) = (1, 2)) ∧
    (∃ r, (∀ fuel, 2 < fuel →
        seek_impl fuel (opened ['a', 'b', 'c', 'a', 'b'] []) ['c', 'a'] consume [] .STRING =
          .ok (true, r)) ∧
      r.line = 1 ∧ r.col = 4 ∧ r.marks = []) ∧
    (∃ r, (∀ fuel, 5 < fuel →
        seek_impl fuel (opened ['a', 'b', 'c', 'a', 'b'] []) ['z'] single_line [] .STRING =
          .ok (false, r)) ∧
      r.line = 1 ∧ r.col = 5) :=
  ⟨by decide, inv_valid (inv_opened _ _),
    (C36_seek_finds_the_first_match (opened ['a', 'b', 'c', 'a', 'b'] []) ['c', 'a'] 0 .STRING
      (by decide)).1 (inv_valid (inv_opened _ _)) (by decide),
    ⟨_, (C36_seek_finds_the_first_match (opened ['a', 'b', 'c', 'a', 'b'] []) ['c', 'a'] 0
        .STRING (by decide)).2.2.1 2 _ _
        (searched.step rfl rfl (searched.step rfl rfl (searched.here _))) rfl, rfl, rfl, rfl⟩,
    by
      obtain ⟨n, q, hn, hs, -, ht, -, -⟩ :=
        (C36_seek_finds_the_first_match (opened ['a', 'b', 'c', 'a', 'b'] []) ['c', 'a']
          0 .STRING (by decide)).2.1 3 true
          { opened ['a', 'b', 'c', 'a', 'b'] [] with col := 2 } rfl
      obtain ⟨h4, h5⟩ := (ht rfl).2.2 (by decide)
      refine ⟨n, q, hn, hs, ?_⟩
      rw [← h4, ← h5]
      rfl,
    ⟨_, (C36_seek_finds_the_first_match (opened ['a', 'b', 'c', 'a', 'b'] []) ['c', 'a']
        consume .STRING (by decide)).2.2.1 2 _ _
        (searched.step rfl rfl (searched.step rfl rfl (searched.here _))) rfl, rfl, rfl, rfl⟩,
    ⟨_, (C36_seek_finds_the_first_match (opened ['a', 'b', 'c', 'a', 'b'] []) ['z']
        single_line .STRING (by decide)).2.2.2 5 _ _ _
        (searched.step rfl rfl (searched.step rfl rfl (searched.step rfl rfl
          (searched.step rfl rfl (searched.step rfl rfl (searched.here _))))))
        rfl rfl, rfl, rfl⟩⟩

end fileparser

end util
